import Mathlib

/-!
# Job-quota controller: DRF allocator, snapshot cache and resource algebra

A shallow embedding of `pkg/controller/jobquota` (packages `api`, `util`,
`cache`, `policy/drf` and the two ticks of `jobquota_controller.go`) followed
by theorems about it.

Conventions of the embedding

* In the allocator and the cache a `float64` resource amount is an exact
  rational (`ℚ`), and `+`, `-` and the multiplication with an `int32` are
  exact.  Every amount the program builds comes from an `int64` through
  `NewResource`; on integers between 0 and `2^53` whose sums and products
  stay in that range the three operations and `LessEqual` give the same
  results on `float64` (`add_exact`, `sub_exact`, `mul_exact`,
  `lessEqual64_exact`).  Outside that range `float64` rounds, and the
  statements on sums of amounts (C1, C33) carry the range as a hypothesis.
* `Float64` is the `float64` itself: finite values, the infinities and NaN,
  with `Float64.nearest` the rounding to nearest (ties to even) and
  `Float64.add`, `Float64.sub`, `Float64.mul` and `Float64.div` the rounded
  operations.  The share ratios of `calculateShare` are rounded quotients,
  and `Resource64` is `Resource` with `float64` fields and the comparisons
  `Less` and `LessEqual` as Go computes them.
* A Go `map` is an association list; a function with a single `range` over
  the map enumerates it in the order of the list, so a statement for every
  list covers every enumeration order.  In the tick `allocate`, where one map
  is enumerated by several `range`s, each `range` takes its own order
  (`rangeOver`, `RangeOrders`).
* A Go pointer to a consumer is the index of the consumer in `d.consumers`.
* A loop is a step function iterated under a fuel counter; the theorems show
  that the fuel the model supplies is never exhausted.
* An object is identified with its contents, except in the section on the
  snapshot (`Heap`), where the objects live in a store and a pointer is an
  address, so that sharing between the cache and a snapshot is visible.
-/

namespace jobquota

/-! ## Go maps as association lists -/

/-- Go `m[k]` with the comma-ok form. -/
def mapGet {β : Type} (m : List (String × β)) (k : String) : Option β :=
  m.lookup k

/-- Go `m[k] = v`: replaces the entry of an existing key, adds a new key. -/
def mapSet {β : Type} (m : List (String × β)) (k : String) (v : β) : List (String × β) :=
  if m.any (fun p => p.1 == k) then
    m.map (fun p => if p.1 = k then (k, v) else p)
  else
    m ++ [(k, v)]

/-- Go `delete(m, k)`. -/
def mapDelete {β : Type} (m : List (String × β)) (k : String) : List (String × β) :=
  m.filter (fun p => p.1 != k)

/-- One `range` over the Go map `m` that takes the keys in the order `order`:
the entries of `m` in that order.  Go does not specify the order of a `range`
over a map and chooses it afresh for every `range`; `order` is an enumeration
of `m` when it is a permutation of the keys of `m`. -/
def rangeOver {β : Type} (m : List (String × β)) (order : List String) :
    List (String × β) :=
  order.filterMap (fun k => (mapGet m k).map (fun v => (k, v)))

/-! ## Go `float64` -/

/-- A `float64` value: a finite number (a rational; the two zeros are
identified: no comparison tells them apart, and the divisors of
`calculateShare` are sums that start from `+0` and are never `-0`), an
infinity or NaN. -/
inductive Float64 where
  | nan
  | negInf
  | posInf
  | fin (q : ℚ)
deriving DecidableEq

namespace Float64

/-- IEEE `x < y`: false as soon as one side is NaN. -/
def lt : Float64 → Float64 → Bool
  | fin a, fin b => decide (a < b)
  | negInf, fin _ => true
  | negInf, posInf => true
  | fin _, posInf => true
  | _, _ => false

/-- The integer nearest to `n / d`, ties to the even one (`d` positive). -/
def roundHalfEven (n d : Nat) : Nat :=
  if 2 * (n % d) < d then n / d
  else if d < 2 * (n % d) then n / d + 1
  else if n / d % 2 = 0 then n / d else n / d + 1

/-- The number of binary digits of `n`, counted in at most `fuel` halvings. -/
def bitLength : Nat → Nat → Nat
  | 0, _ => 0
  | fuel + 1, n => if n = 0 then 0 else bitLength fuel (n / 2) + 1

/-- The integer part of the binary logarithm of `n / d`, for positive `n`
and `d`. -/
def floorLog2 (n d : Nat) : Int :=
  let a := bitLength n n
  let b := bitLength d d
  if b ≤ a then
    (if d * 2 ^ (a - b) ≤ n then ((a - b : Nat) : Int) else ((a - b : Nat) : Int) - 1)
  else
    (if d ≤ n * 2 ^ (b - a) then -((b - a : Nat) : Int) else -((b - a : Nat) : Int) - 1)

/-- The binary64 value nearest to the positive rational `n / d`, ties to even:
53 significant bits, exponents from -1022 (below which the spacing stays
`2^-1074`) to 1023; `none` when the rounded value is beyond the largest
finite one. -/
def nearestPos (n d : Nat) : Option ℚ :=
  let e := max (floorLog2 n d) (-1022)
  let m := if 52 ≤ e then roundHalfEven n (d * 2 ^ (e - 52).toNat)
           else roundHalfEven (n * 2 ^ (52 - e).toNat) d
  if 1023 < e ∨ (e = 1023 ∧ m = 2 ^ 53) then none
  else if 52 ≤ e then some ((m * 2 ^ (e - 52).toNat : Nat) : ℚ)
  else some ((m : ℚ) / ((2 ^ (52 - e).toNat : Nat) : ℚ))

/-- The `float64` an exact result is rounded to (IEEE 754 round to nearest,
ties to even, overflow to the infinity of the same sign). -/
def nearest (q : ℚ) : Float64 :=
  if q = 0 then fin 0
  else
    match nearestPos q.num.natAbs q.den with
    | some v => if 0 < q then fin v else fin (-v)
    | none => if 0 < q then posInf else negInf

/-- Go `a / b` for finite operands: the exact quotient rounded to `float64`;
a zero divisor gives an infinity or NaN.  The divisor is never a negative
zero here, because it is a sum that started from `+0`. -/
def div (a b : ℚ) : Float64 :=
  if b = 0 then
    (if a = 0 then nan else if 0 < a then posInf else negInf)
  else nearest (a / b)

/-- Go `-x`. -/
def neg : Float64 → Float64
  | nan => nan
  | negInf => posInf
  | posInf => negInf
  | fin a => fin (-a)

/-- Go `x + y`: the exact sum rounded; infinities of opposite sign give NaN. -/
def add : Float64 → Float64 → Float64
  | nan, _ => nan
  | _, nan => nan
  | posInf, negInf => nan
  | negInf, posInf => nan
  | posInf, _ => posInf
  | _, posInf => posInf
  | negInf, _ => negInf
  | _, negInf => negInf
  | fin a, fin b => nearest (a + b)

/-- Go `x - y`. -/
def sub (x y : Float64) : Float64 :=
  add x (neg y)

/-- Go `x * y`: the exact product rounded; zero times an infinity is NaN. -/
def mul : Float64 → Float64 → Float64
  | nan, _ => nan
  | _, nan => nan
  | fin a, fin b => nearest (a * b)
  | fin a, posInf => if a = 0 then nan else if 0 < a then posInf else negInf
  | fin a, negInf => if a = 0 then nan else if 0 < a then negInf else posInf
  | posInf, fin b => if b = 0 then nan else if 0 < b then posInf else negInf
  | negInf, fin b => if b = 0 then nan else if 0 < b then negInf else posInf
  | posInf, posInf => posInf
  | negInf, negInf => posInf
  | posInf, negInf => negInf
  | negInf, posInf => negInf

/-- Go `math.Abs`. -/
def abs : Float64 → Float64
  | nan => nan
  | negInf => posInf
  | posInf => posInf
  | fin a => fin |a|

/-- Neither NaN nor an infinity. -/
def isFinite : Float64 → Bool
  | fin _ => true
  | _ => false

/-- Go `math.Max`: `+Inf` wins, then NaN, then the larger operand. -/
def max : Float64 → Float64 → Float64
  | posInf, _ => posInf
  | _, posInf => posInf
  | nan, _ => nan
  | _, nan => nan
  | negInf, y => y
  | x, negInf => x
  | fin a, fin b => if a < b then fin b else fin a

end Float64

/-! ## client-go `cache.FIFO` -/

/-- Modelled from the spec: `cache.FIFO` of client-go, whose source is not part
of the files at hand.  It is a keyed queue: `queue` holds the keys in arrival
order, `items` maps a key to the latest object stored under it. -/
structure FIFO (α : Type) where
  queue : List String
  items : List (String × α)
deriving DecidableEq

/-- Go `cache.NewFIFO(keyFunc)`; the key function is applied by the callers of
`Add` and `Delete` below. -/
def NewFIFO {α : Type} : FIFO α := ⟨[], []⟩

/-- Go `f.Add(obj)` where `id = keyFunc(obj)`: a new key is appended to the
queue, the object replaces whatever was stored under the key. -/
def FIFO.Add {α : Type} (f : FIFO α) (id : String) (obj : α) : FIFO α :=
  { queue := if (mapGet f.items id).isSome then f.queue else f.queue ++ [id],
    items := mapSet f.items id obj }

/-- Go `f.Delete(obj)` where `id = keyFunc(obj)`: removes the object; its key
stays in the queue and is skipped by a later `Pop`. -/
def FIFO.Delete {α : Type} (f : FIFO α) (id : String) : FIFO α :=
  { f with items := mapDelete f.items id }

/-- Go `f.Len()`: the number of stored objects. -/
def FIFO.Len {α : Type} (f : FIFO α) : Nat :=
  f.items.length

/-- The loop of `f.Pop`: drops queued keys whose object was deleted and hands
out the first object found.  `none` stands for a `Pop` that finds the queue
exhausted and blocks. -/
def FIFO.popQueue {α : Type} (items : List (String × α)) :
    List String → Option (α × FIFO α)
  | [] => none
  | id :: rest =>
    match mapGet items id with
    | some obj => some (obj, ⟨rest, mapDelete items id⟩)
    | none => FIFO.popQueue items rest

/-- Go `cache.Pop(f)`. -/
def FIFO.Pop {α : Type} (f : FIFO α) : Option (α × FIFO α) :=
  FIFO.popQueue f.items f.queue

/-- Go `f.List()`: the stored objects, in map order. -/
def FIFO.List {α : Type} (f : FIFO α) : List α :=
  f.items.map Prod.snd

/-! ## Orchestrator objects (`k8s.io/client-go/pkg/api/v1`) -/

/-- Modelled from the spec: `resource.Quantity`, an exact decimal amount.  Only
its two integer readings are used by the controller. -/
structure Quantity where
  value : ℚ
deriving DecidableEq

/-- Go `q.MilliValue()`: the amount in thousandths, rounded up. -/
def Quantity.MilliValue (q : Quantity) : Int := ⌈q.value * 1000⌉

/-- Go `q.Value()`: the amount rounded up to an integer. -/
def Quantity.Value (q : Quantity) : Int := ⌈q.value⌉

/-- Go `resource.NewMilliQuantity(v, format)`. -/
def NewMilliQuantity (v : Int) : Quantity := ⟨(v : ℚ) / 1000⟩

/-- Go `resource.NewQuantity(v, format)`. -/
def NewQuantity (v : Int) : Quantity := ⟨(v : ℚ)⟩

/-- Modelled from the spec: Go `v1.ResourceList`, a map from resource name to quantity. -/
abbrev ResourceList := List (String × Quantity)

def ResourceCPU : String := "cpu"
def ResourceMemory : String := "memory"

/-- Go `rl.Cpu()`: the stored quantity, or the zero quantity. -/
def ResourceList.Cpu (rl : ResourceList) : Quantity :=
  match mapGet rl ResourceCPU with
  | some q => q
  | none => ⟨0⟩

/-- Go `rl.Memory()`. -/
def ResourceList.Memory (rl : ResourceList) : Quantity :=
  match mapGet rl ResourceMemory with
  | some q => q
  | none => ⟨0⟩

/-- Modelled from the spec: Go `metav1.OwnerReference`, of which only the UID is read. -/
structure OwnerReference where
  UID : String
deriving DecidableEq

/-- Modelled from the spec: Go `v1.Container`, of which only `Resources.Requests` is read. -/
structure Container where
  Requests : ResourceList
deriving DecidableEq

/-- Modelled from the spec: Go `v1.PodPhase`, a string. -/
abbrev PodPhase := String

def PodPending : PodPhase := "Pending"
def PodRunning : PodPhase := "Running"
def PodSucceeded : PodPhase := "Succeeded"
def PodFailed : PodPhase := "Failed"

/-- Modelled from the spec: Go `v1.Pod`, restricted to the fields the controller reads:
`Status.Phase`, `Spec.NodeName`, `Spec.Containers`, and to `Spec.InitContainers`,
which it leaves unread. -/
structure Pod where
  Name : String
  Namespace : String
  OwnerReferences : List OwnerReference
  Phase : PodPhase
  NodeName : String
  Containers : List Container
  InitContainers : List Container
deriving DecidableEq

/-- Modelled from the spec: Go `v1.Node`, restricted to `Name`, `Status.Allocatable`, `Status.Capacity`. -/
structure Node where
  Name : String
  Allocatable : ResourceList
  Capacity : ResourceList
deriving DecidableEq

/-- Modelled from the spec: Go `v1.JobQuotaSpec`. -/
structure JobQuotaSpec where
  Replicas : Int
  RequestUnit : ResourceList
deriving DecidableEq

/-- Modelled from the spec: Go `v1.JobQuotaStatus`. -/
structure JobQuotaStatus where
  Allocated : ResourceList
  Used : ResourceList
deriving DecidableEq

/-- Modelled from the spec: Go `v1.JobQuota`. -/
structure JobQuota where
  Name : String
  Namespace : String
  OwnerReferences : List OwnerReference
  Spec : JobQuotaSpec
  Status : JobQuotaStatus
deriving DecidableEq

/-! ## `api/types.go` -/

/-- The two amounts are rationals and the operations below do not round: the
reading of the `float64` fields that is exact on integers between 0 and
`2^53`.  `Resource64` is the reading with rounding. -/
structure Resource where
  MilliCPU : ℚ
  Memory : ℚ
deriving DecidableEq

def EmptyResource : Resource :=
  { MilliCPU := 0, Memory := 0 }

def NewResource (rl : ResourceList) : Resource :=
  { MilliCPU := ((rl.Cpu.MilliValue : Int) : ℚ),
    Memory := ((rl.Memory.Value : Int) : ℚ) }

namespace Resource

def Clone (r : Resource) : Resource :=
  { MilliCPU := r.MilliCPU, Memory := r.Memory }

def minMilliCPU : ℚ := 10
def minMemory : ℚ := 10 * 1024 * 1024

def IsEmpty (r : Resource) : Bool :=
  decide (r.MilliCPU < minMilliCPU) && decide (r.Memory < minMemory)

def Add (r rr : Resource) : Resource :=
  { MilliCPU := r.MilliCPU + rr.MilliCPU, Memory := r.Memory + rr.Memory }

def Sub (r rr : Resource) : Resource :=
  { MilliCPU := r.MilliCPU - rr.MilliCPU, Memory := r.Memory - rr.Memory }

def Multi (r : Resource) (rep : Int) : Resource :=
  { MilliCPU := r.MilliCPU * (rep : ℚ), Memory := r.Memory * (rep : ℚ) }

def Less (r rr : Resource) : Bool :=
  decide (r.MilliCPU < rr.MilliCPU) && decide (r.Memory < rr.Memory)

def LessEqual (r rr : Resource) : Bool :=
  (decide (r.MilliCPU < rr.MilliCPU) || decide (|r.MilliCPU - rr.MilliCPU| < 1 / 100)) &&
  (decide (r.Memory < rr.Memory) || decide (|r.Memory - rr.Memory| < 1))

/-- Go `int64(x)` of a float: truncation toward zero. -/
def truncate (x : ℚ) : Int :=
  if 0 ≤ x then ⌊x⌋ else ⌈x⌉

def ResourceList (r : Resource) : jobquota.ResourceList :=
  mapSet (mapSet [] ResourceCPU (NewMilliQuantity (truncate r.MilliCPU)))
    ResourceMemory (NewQuantity (truncate r.Memory))

end Resource

/-- `Resource` with its two fields as `float64` values: the reading of the
comparisons of `api/types.go` in which the subtraction rounds and a field can
be NaN or infinite. -/
structure Resource64 where
  MilliCPU : Float64
  Memory : Float64
deriving DecidableEq

namespace Resource64

def Less (r rr : Resource64) : Bool :=
  r.MilliCPU.lt rr.MilliCPU && r.Memory.lt rr.Memory

/-- The constant `0.01` is the `float64` nearest to 1/100. -/
def LessEqual (r rr : Resource64) : Bool :=
  (r.MilliCPU.lt rr.MilliCPU ||
    (Float64.abs (Float64.sub r.MilliCPU rr.MilliCPU)).lt (Float64.nearest (1 / 100))) &&
  (r.Memory.lt rr.Memory ||
    (Float64.abs (Float64.sub r.Memory rr.Memory)).lt (Float64.fin 1))

end Resource64

/-- The amounts of a `Resource` as `float64` values. -/
def Resource.toFloat64 (r : Resource) : Resource64 :=
  { MilliCPU := Float64.nearest r.MilliCPU, Memory := Float64.nearest r.Memory }

structure PodInfo where
  Owner : String
  Name : String
  Namespace : String
  ConsumerName : String
  Status : PodPhase
  Hostname : String
  Resource : Resource
deriving DecidableEq

/-- The inner loop of `GetResourceRequest` over one container's requests. -/
def addRequests (result : Resource) (requests : ResourceList) : Resource :=
  requests.foldl (fun res p =>
    if p.1 = ResourceMemory then { res with Memory := res.Memory + ((p.2.Value : Int) : ℚ) }
    else if p.1 = ResourceCPU then { res with MilliCPU := res.MilliCPU + ((p.2.MilliValue : Int) : ℚ) }
    else res) result

def GetResourceRequest (containers : List Container) : Resource :=
  containers.foldl (fun res c => addRequests res c.Requests) { MilliCPU := 0, Memory := 0 }

/-- Go `NewPodInfo`; `none` is the nil pointer it returns for a pod that does
not have exactly one owner reference. -/
def NewPodInfo (pod : Pod) : Option PodInfo :=
  match pod.OwnerReferences with
  | [owner] =>
    some { Owner := owner.UID,
           Name := pod.Name,
           Namespace := pod.Namespace,
           ConsumerName := "",
           Status := pod.Phase,
           Hostname := pod.NodeName,
           Resource := GetResourceRequest pod.Containers }
  | _ => none

def PodInfoKeyFunc (pod : PodInfo) : String :=
  pod.Namespace ++ "/" ++ pod.Name

structure NodeInfo where
  Name : String
  Allocatable : Resource
  Allocated : Resource
  Capacity : Resource
deriving DecidableEq

def NewNodeInfo (node : Node) : NodeInfo :=
  { Name := node.Name,
    Allocatable := NewResource node.Allocatable,
    Capacity := NewResource node.Capacity,
    Allocated := EmptyResource }

def NodeInfo.Clone (ni : NodeInfo) : NodeInfo :=
  { Name := ni.Name,
    Allocatable := ni.Allocated.Clone,
    Allocated := ni.Allocated.Clone,
    Capacity := ni.Capacity.Clone }

structure JoQuotabInfo where
  JobQuota : JobQuota
  ConsumerId : String
  Namespace : String
  Replicas : Int
  RequestUnit : Resource
  Allocated : Resource
  Used : Resource
  RunningPods : FIFO PodInfo
  ReclaimingPods : FIFO PodInfo
deriving DecidableEq

def BatchJobInfoKeyFunc (bj : JoQuotabInfo) : String :=
  bj.ConsumerId

def NewJobQuotaInfo (rr : JobQuota) : JoQuotabInfo :=
  { JobQuota := rr,
    Namespace := rr.Namespace,
    Replicas := rr.Spec.Replicas,
    RequestUnit := NewResource rr.Spec.RequestUnit,
    Allocated := NewResource rr.Status.Used,
    Used := NewResource rr.Status.Allocated,
    RunningPods := NewFIFO,
    ReclaimingPods := NewFIFO,
    ConsumerId :=
      match rr.OwnerReferences with
      | [owner] => owner.UID
      | _ => "" }

def JoQuotabInfo.Clone (ri : JoQuotabInfo) : JoQuotabInfo :=
  { JobQuota := ri.JobQuota,
    ConsumerId := ri.ConsumerId,
    Namespace := ri.Namespace,
    Replicas := ri.Replicas,
    RequestUnit := ri.RequestUnit.Clone,
    Allocated := ri.Allocated.Clone,
    Used := ri.Used.Clone,
    ReclaimingPods :=
      ri.ReclaimingPods.List.foldl (fun f pod => f.Add (PodInfoKeyFunc pod) pod) NewFIFO,
    RunningPods :=
      ri.RunningPods.List.foldl (fun f pod => f.Add (PodInfoKeyFunc pod) pod) NewFIFO }

structure AllocationInfo where
  GroupId : String
  Allocated : Resource
  Used : Resource
deriving DecidableEq

def AllocationInfo.Clone (ai : AllocationInfo) : AllocationInfo :=
  { GroupId := ai.GroupId,
    Allocated := ai.Allocated.Clone,
    Used := ai.Used.Clone }

/-! ## `util/priority_queue.go` over Go `container/heap` -/

/-- An entry of the heap.  The Go field `Index` is written by `Swap`, `Push`
and `Pop` and never read, so it is not carried. -/
structure item (α : Type) where
  Value : α
  Priority : Float64
deriving DecidableEq

/-- Go `type priorityQueue []*item`. -/
abbrev priorityQueue (α : Type) := List (item α)

namespace priorityQueue

def Len {α : Type} (pq : priorityQueue α) : Nat :=
  pq.length

def Less {α : Type} (pq : priorityQueue α) (i j : Nat) : Bool :=
  match pq[i]?, pq[j]? with
  | some a, some b => a.Priority.lt b.Priority
  | _, _ => false

def Swap {α : Type} (pq : priorityQueue α) (i j : Nat) : priorityQueue α :=
  match pq[i]?, pq[j]? with
  | some a, some b => (pq.set i b).set j a
  | _, _ => pq

def Push {α : Type} (pq : priorityQueue α) (x : item α) : priorityQueue α :=
  pq ++ [x]

/-- Go `(*priorityQueue).Pop`: the last entry and the rest. -/
def Pop {α : Type} (pq : priorityQueue α) : Option (item α × priorityQueue α) :=
  match pq.getLast? with
  | some x => some (x, pq.dropLast)
  | none => none

end priorityQueue

/-- Go `heap.up(h, j)`; the counter bounds the loop, `j + 1` rounds suffice
because `j` strictly decreases. -/
def heapUp {α : Type} : Nat → priorityQueue α → Nat → priorityQueue α
  | 0, h, _ => h
  | fuel + 1, h, j =>
    let i := (j - 1) / 2
    if i = j || !h.Less j i then h
    else heapUp fuel (h.Swap i j) i

/-- Go `heap.down(h, i0, n)`; the counter bounds the loop, `n` rounds suffice
because `i` strictly increases below `n`. -/
def heapDown {α : Type} : Nat → priorityQueue α → Nat → Nat → priorityQueue α
  | 0, h, _, _ => h
  | fuel + 1, h, i, n =>
    let j1 := 2 * i + 1
    if j1 ≥ n then h
    else
      let j := if j1 + 1 < n && h.Less (j1 + 1) j1 then j1 + 1 else j1
      if !h.Less j i then h
      else heapDown fuel (h.Swap i j) j n

/-- Go `heap.Push(h, x)`. -/
def heapPush {α : Type} (h : priorityQueue α) (x : item α) : priorityQueue α :=
  let h1 := h.Push x
  heapUp h1.Len h1 (h1.Len - 1)

/-- Go `heap.Pop(h)`; `none` is the index-out-of-range panic on an empty heap. -/
def heapPop {α : Type} (h : priorityQueue α) : Option (item α × priorityQueue α) :=
  if h.Len = 0 then none
  else
    let n := h.Len - 1
    let h1 := h.Swap 0 n
    (heapDown n h1 0 n).Pop

structure PriorityQueue (α : Type) where
  queue : priorityQueue α
deriving DecidableEq

def NewPriorityQueue {α : Type} : PriorityQueue α :=
  { queue := [] }

namespace PriorityQueue

/-- Go `pq.Push(x)`; `prio` is `x.Priority()` read at the time of the push. -/
def Push {α : Type} (pq : PriorityQueue α) (x : α) (prio : Float64) : PriorityQueue α :=
  { queue := heapPush pq.queue { Value := x, Priority := prio } }

def Pop {α : Type} (pq : PriorityQueue α) : Option (α × PriorityQueue α) :=
  match heapPop pq.queue with
  | some (it, q) => some (it.Value, { queue := q })
  | none => none

def Len {α : Type} (pq : PriorityQueue α) : Nat :=
  pq.queue.Len

end PriorityQueue

/-! ## `policy/drf/drf.go` -/

structure consumer where
  Name : String
  Share : Float64
  Deserved : Resource
  Request : Resource
  Jobs : FIFO JoQuotabInfo
deriving DecidableEq

def consumer.Priority (c : consumer) : Float64 :=
  c.Share

structure drf where
  total : Resource
  available : Resource
  consumers : List consumer
deriving DecidableEq

/-- What a loop of the model ends with: a value, a fault of the Go program (a
blocking `Pop` on an exhausted FIFO, a panic), or an exhausted counter. -/
inductive Run (σ : Type) where
  | ret (s : σ)
  | fault
  | outOfFuel
deriving DecidableEq

namespace drf

def Group (jobs : List JoQuotabInfo) : List (String × List JoQuotabInfo) :=
  jobs.foldl (fun res job =>
    let ns := job.Namespace
    mapSet res ns ((mapGet res ns).getD [] ++ [job])) []

/-- The loop of `Assign`: the jobs as they are left and the rest of the group
allocation.  After the `break` the remaining jobs are untouched. -/
def assignLoop (alloc : Resource) : List JoQuotabInfo → List JoQuotabInfo × Resource
  | [] => ([], alloc)
  | job :: rest =>
    let req := job.RequestUnit.Clone.Multi job.Replicas
    if alloc.Less req then (job :: rest, alloc)
    else
      let r := assignLoop (alloc.Sub req) rest
      ({ job with Allocated := req } :: r.1, r.2)

/-- Go `Assign`; the first component is the job list after the call (the jobs
are updated in place through their pointers), the second the returned rest. -/
def Assign (jobs : List JoQuotabInfo) (alloc_ : AllocationInfo) :
    List JoQuotabInfo × Resource :=
  let alloc := alloc_.Clone
  assignLoop alloc.Allocated jobs

def Reclaim (job : JoQuotabInfo) (_res : Resource) : List PodInfo :=
  job.RunningPods.List.foldl (fun pods pod => pods ++ [pod]) []

def buildConsumers (jobs_ : List (String × List JoQuotabInfo)) : List consumer :=
  jobs_.map (fun p =>
    p.2.foldl (fun (c : consumer) job =>
      { c with
        Jobs := c.Jobs.Add (BatchJobInfoKeyFunc job) job,
        Request := c.Request.Add (job.RequestUnit.Clone.Multi job.Replicas) })
      { Name := p.1,
        Share := Float64.fin 0,
        Jobs := NewFIFO,
        Request := EmptyResource,
        Deserved := EmptyResource })

/-- The loop of `sortConsumer`, pushing the consumers from index `i` on. -/
def pushConsumers (pq : PriorityQueue Nat) (i : Nat) : List consumer → PriorityQueue Nat
  | [] => pq
  | c :: rest => pushConsumers (pq.Push i c.Priority) (i + 1) rest

def sortConsumer (d : drf) : PriorityQueue Nat :=
  pushConsumers NewPriorityQueue 0 d.consumers

/-- Go `d.allocate(consumer, request)` on the consumer at index `ci`. -/
def allocate (d : drf) (ci : Nat) (c : consumer) (request : Resource) : drf :=
  { d with
    consumers := d.consumers.set ci { c with Deserved := c.Deserved.Add request },
    available := d.available.Sub request }

def calculateShare (d : drf) (c : consumer) : Float64 :=
  let cpuShare := Float64.div c.Request.MilliCPU d.total.MilliCPU
  let memShare := Float64.div c.Request.Memory d.total.Memory
  if memShare.lt cpuShare then
    Float64.div c.Deserved.MilliCPU d.total.MilliCPU
  else if cpuShare.lt memShare then
    Float64.div c.Deserved.Memory d.total.Memory
  else
    Float64.max (Float64.div c.Deserved.MilliCPU d.total.MilliCPU)
      (Float64.div c.Deserved.Memory d.total.Memory)

/-- The outcome of one round of the inner `for` of `Allocate`. -/
inductive Step where
  | brk
  | cont (d : drf) (pq : PriorityQueue Nat) (allocatedOnce : Bool)
  | fault

/-- One round of the inner `for` of `Allocate`. -/
def innerStep (d : drf) (pq : PriorityQueue Nat) (allocatedOnce : Bool) : Step :=
  if d.available.IsEmpty || pq.Len == 0 then Step.brk
  else
    match pq.Pop with
    | none => Step.fault
    | some (ci, pq1) =>
      match d.consumers[ci]? with
      | none => Step.fault
      | some c =>
        if c.Jobs.Len == 0 then Step.cont d pq1 allocatedOnce
        else
          match c.Jobs.Pop with
          | none => Step.fault
          | some (job, jobs1) =>
            let c1 := { c with Jobs := jobs1 }
            let d1 := { d with consumers := d.consumers.set ci c1 }
            let req := job.RequestUnit.Clone.Multi job.Replicas
            if !req.LessEqual d1.available then Step.cont d1 pq1 allocatedOnce
            else
              let d2 := allocate d1 ci c1 req
              match d2.consumers[ci]? with
              | none => Step.fault
              | some c2 =>
                let c3 := { c2 with Share := calculateShare d2 c2 }
                let d3 := { d2 with consumers := d2.consumers.set ci c3 }
                Step.cont d3 (pq1.Push ci c3.Priority) true

/-- The inner `for` of `Allocate`: the state and `allocatedOnce` at its `break`. -/
def innerLoop : Nat → drf → PriorityQueue Nat → Bool → Run (drf × Bool)
  | 0, _, _, _ => Run.outOfFuel
  | fuel + 1, d, pq, allocatedOnce =>
    match innerStep d pq allocatedOnce with
    | Step.brk => Run.ret (d, allocatedOnce)
    | Step.fault => Run.fault
    | Step.cont d1 pq1 a1 => innerLoop fuel d1 pq1 a1

/-- The number of jobs still queued at the consumers. -/
def queuedJobs (d : drf) : Nat :=
  (d.consumers.map (fun c => c.Jobs.Len)).sum

/-- A bound on the rounds of one run of the inner `for`. -/
def innerFuel (d : drf) : Nat :=
  d.consumers.length + 2 * queuedJobs d + 1

/-- The outer `for` of `Allocate`: the final state and the number of passes. -/
def outerLoop : Nat → drf → Nat → Run (drf × Nat)
  | 0, _, _ => Run.outOfFuel
  | fuel + 1, d, passes =>
    match innerLoop (innerFuel d) d (sortConsumer d) false with
    | Run.ret (d1, true) => outerLoop fuel d1 (passes + 1)
    | Run.ret (d1, false) => Run.ret (d1, passes + 1)
    | Run.fault => Run.fault
    | Run.outOfFuel => Run.outOfFuel

/-- The state `Allocate` starts its loop from: the cluster envelope and the
consumers. -/
def initial (jobs : List (String × List JoQuotabInfo)) (nodes : List NodeInfo) : drf :=
  { total := nodes.foldl (fun r node => r.Add node.Allocatable) EmptyResource,
    available := nodes.foldl (fun r node => r.Add node.Allocatable) EmptyResource,
    consumers := buildConsumers jobs }

/-- The allocating part of `Allocate` (after the early return): the state `d`
when the loop has ended, and the number of passes of the outer `for`. -/
def allocateRun (jobs : List (String × List JoQuotabInfo)) (nodes : List NodeInfo) :
    Run (drf × Nat) :=
  let d := initial jobs nodes
  outerLoop (queuedJobs d + 1) d 0

def Allocate (jobs : List (String × List JoQuotabInfo)) (nodes : List NodeInfo) :
    Run (List (String × AllocationInfo)) :=
  if nodes.length = 0 || jobs.length = 0 then Run.ret []
  else
    match allocateRun jobs nodes with
    | Run.ret (d, _) =>
      Run.ret (d.consumers.foldl (fun allocation c =>
        mapSet allocation c.Name
          { GroupId := "", Allocated := c.Deserved, Used := EmptyResource }) [])
    | Run.fault => Run.fault
    | Run.outOfFuel => Run.outOfFuel

/-- Go `Allocate` together with its receiver: `d` is the allocator object as
an earlier call left it, the result carries the object as this call leaves it.
The early return does not touch the object; otherwise the three fields are
overwritten before they are read. -/
def AllocateOn (d : drf) (jobs : List (String × List JoQuotabInfo)) (nodes : List NodeInfo) :
    Run (drf × List (String × AllocationInfo)) :=
  if nodes.length = 0 || jobs.length = 0 then Run.ret (d, [])
  else
    let d0 : drf :=
      { d with
        total := nodes.foldl (fun r node => r.Add node.Allocatable) EmptyResource,
        available := nodes.foldl (fun r node => r.Add node.Allocatable) EmptyResource,
        consumers := buildConsumers jobs }
    match outerLoop (queuedJobs d0 + 1) d0 0 with
    | Run.ret (d1, _) =>
      Run.ret (d1, d1.consumers.foldl (fun allocation c =>
        mapSet allocation c.Name
          { GroupId := "", Allocated := c.Deserved, Used := EmptyResource }) [])
    | Run.fault => Run.fault
    | Run.outOfFuel => Run.outOfFuel

end drf

/-! ## `cache/cache.go` -/

structure Cache where
  batchjobs : List (String × JoQuotabInfo)
  nodes : List (String × NodeInfo)
deriving DecidableEq

def NewCache : Cache :=
  { batchjobs := [], nodes := [] }

namespace Cache

/-- Go `AddPod`; `none` is the panic of a nil-pointer dereference: `pod.Owner`
is read from the result of `NewPodInfo` without a nil check. -/
def AddPod (c : Cache) (obj : Pod) : Option Cache :=
  match NewPodInfo obj with
  | none => none
  | some pod =>
    match mapGet c.batchjobs pod.Owner with
    | none => some c
    | some batchjob =>
      if pod.Status = PodRunning then
        let bj := { batchjob with
          RunningPods := batchjob.RunningPods.Add (PodInfoKeyFunc pod) pod }
        some { c with batchjobs := mapSet c.batchjobs pod.Owner bj }
      else if pod.Status = PodFailed ∨ pod.Status = PodSucceeded then
        let bj := { batchjob with
          RunningPods := batchjob.RunningPods.Delete (PodInfoKeyFunc pod),
          ReclaimingPods := batchjob.ReclaimingPods.Delete (PodInfoKeyFunc pod) }
        some { c with batchjobs := mapSet c.batchjobs pod.Owner bj }
      else some c

def UpdatePod (c : Cache) (_old obj : Pod) : Option Cache :=
  c.AddPod obj

/-- Go `DeletePod`; `none` is the nil-pointer panic as in `AddPod`. -/
def DeletePod (c : Cache) (obj : Pod) : Option Cache :=
  match NewPodInfo obj with
  | none => none
  | some pod =>
    match mapGet c.batchjobs pod.Owner with
    | none => some c
    | some alloc =>
      let bj := { alloc with
        RunningPods := alloc.RunningPods.Delete (PodInfoKeyFunc pod),
        ReclaimingPods := alloc.ReclaimingPods.Delete (PodInfoKeyFunc pod) }
      some { c with batchjobs := mapSet c.batchjobs pod.Owner bj }

def AddNode (c : Cache) (obj : Node) : Cache :=
  let node := NewNodeInfo obj
  { c with nodes := mapSet c.nodes node.Name node }

def UpdateNode (c : Cache) (_old obj : Node) : Cache :=
  let node := NewNodeInfo obj
  { c with nodes := mapSet c.nodes node.Name node }

def DeleteNode (c : Cache) (obj : Node) : Cache :=
  let node := NewNodeInfo obj
  { c with nodes := mapDelete c.nodes node.Name }

def AddJobQuota (c : Cache) (obj : JobQuota) : Cache :=
  let ri := NewJobQuotaInfo obj
  { c with batchjobs := mapSet c.batchjobs ri.ConsumerId ri }

def UpdateJobQuota (c : Cache) (_old obj : JobQuota) : Cache :=
  let ri := NewJobQuotaInfo obj
  { c with batchjobs := mapSet c.batchjobs ri.ConsumerId ri }

def DeleteJobQuota (c : Cache) (obj : JobQuota) : Cache :=
  let ri := NewJobQuotaInfo obj
  { c with batchjobs := mapDelete c.batchjobs ri.ConsumerId }

def GetOverused (c : Cache) : List JoQuotabInfo :=
  c.batchjobs.foldl (fun bjs p =>
    if p.2.Allocated.Less p.2.Used then bjs ++ [p.2.Clone] else bjs) []

/-- Go `Reclaim`; `none` is the nil-pointer panic when the cache has no entry
for the job and there is a pod to add. -/
def Reclaim (c : Cache) (job : JoQuotabInfo) (pods : List PodInfo) : Option Cache :=
  match mapGet c.batchjobs job.ConsumerId with
  | some batchjob =>
    let bj := { batchjob with
      ReclaimingPods :=
        pods.foldl (fun f pod => f.Add (PodInfoKeyFunc pod) pod) batchjob.ReclaimingPods }
    some { c with batchjobs := mapSet c.batchjobs job.ConsumerId bj }
  | none =>
    match pods with
    | [] => some c
    | _ :: _ => none

def GetSnapshot (c : Cache) : List JoQuotabInfo × List NodeInfo :=
  (c.batchjobs.foldl (fun rs p => rs ++ [p.2.Clone]) [],
   c.nodes.foldl (fun ns p => ns ++ [p.2.Clone]) [])

end Cache

/-! ## `jobquota_controller.go` -/

/-- The orders taken by the five `range`s over a map in one tick of
`allocate`: over `c.batchjobs` and over `c.nodes` in `GetSnapshot`, over the
grouped jobs in `buildConsumers`, over `allocs` in `allocate`, and over the
groups in `update`. -/
structure RangeOrders where
  quotas : List String
  nodes : List String
  consumers : List String
  allocs : List String
  groups : List String
deriving DecidableEq

/-- Go `JobQuotaController`, restricted to the cache and the allocator object;
the informers and the client are the boundary. -/
structure JobQuotaController where
  Cache : jobquota.Cache
  Allocator : drf
deriving DecidableEq

namespace JobQuotaController

/-- The loop `for group, alloc := range allocs` of `allocate`: `Assign` updates
the jobs of `jobs[group]` in place; a group that is missing from `jobs` is a
nil slice, on which `Assign` does nothing. -/
def assignAll (jobs : List (String × List JoQuotabInfo))
    (allocs : List (String × AllocationInfo)) : List (String × List JoQuotabInfo) :=
  allocs.foldl (fun js p =>
    match mapGet js p.1 with
    | some group => mapSet js p.1 (drf.Assign group p.2).1
    | none => js) jobs

/-- Go `update`: the quota objects handed to `UpdateStatus`, in call order. -/
def update (groups : List (String × List JoQuotabInfo)) : List JobQuota :=
  groups.foldl (fun ws g =>
    g.2.foldl (fun ws job =>
      ws ++ [{ job.JobQuota with
               Status := { Allocated := job.Allocated.ResourceList,
                           Used := job.Used.ResourceList } }]) ws) []

/-- The part of `allocate` after `GetSnapshot`: group, allocate, assign and
write, from the snapshot `jobs_`, `nodes` and the allocator object `d`; the
result is the allocator object after the call and the status writes.  Each of
the three `range`s over a map takes its own order: `Allocate` receives the
grouped jobs as `buildConsumers` enumerates them, the loop over `allocs` and
the loop of `update` enumerate in the orders `o.allocs` and `o.groups`. -/
def allocateSnapshot (d : drf) (jobs_ : List JoQuotabInfo) (nodes : List NodeInfo)
    (o : RangeOrders) : Run (drf × List JobQuota) :=
  let jobs := drf.Group jobs_
  match drf.AllocateOn d (rangeOver jobs o.consumers) nodes with
  | Run.ret (d1, allocs) =>
    Run.ret (d1, update (rangeOver (assignAll jobs (rangeOver allocs o.allocs)) o.groups))
  | Run.fault => Run.fault
  | Run.outOfFuel => Run.outOfFuel

/-- Go `allocate` of `jobquota_controller.go`: the controller after the tick
and the status writes of the tick.  `GetSnapshot` enumerates the two maps of
the cache in the orders `o.quotas` and `o.nodes`.  `update` copies the quota
object before it sets the status, so the tick does not write to the cache. -/
def allocate (ac : JobQuotaController) (o : RangeOrders) :
    Run (JobQuotaController × List JobQuota) :=
  let snapshot := Cache.GetSnapshot
    ⟨rangeOver ac.Cache.batchjobs o.quotas, rangeOver ac.Cache.nodes o.nodes⟩
  match allocateSnapshot ac.Allocator snapshot.1 snapshot.2 o with
  | Run.ret (d, ws) => Run.ret ({ ac with Allocator := d }, ws)
  | Run.fault => Run.fault
  | Run.outOfFuel => Run.outOfFuel

/-- The body of the loop of `reclaim` for one overused job: the cache after
`Cache.Reclaim` and the pods handed to `evict`. -/
def reclaimJob (c : jobquota.Cache) (job : JoQuotabInfo) :
    Option (jobquota.Cache × List PodInfo) :=
  let res := job.Used.Clone.Sub job.Allocated
  let pods := drf.Reclaim job res
  match c.Reclaim job pods with
  | some c1 => some (c1, pods)
  | none => none

/-- Go `reclaim`: the controller after the tick and the pods handed to `evict`,
in call order; `none` is the panic of `Cache.Reclaim`. -/
def reclaim (ac : JobQuotaController) : Option (JobQuotaController × List PodInfo) :=
  match ac.Cache.GetOverused.foldl (fun st job =>
      match st with
      | some (c, evicted) =>
        match reclaimJob c job with
        | some (c1, pods) => some (c1, evicted ++ pods)
        | none => none
      | none => none) (some (ac.Cache, [])) with
  | some (c1, evicted) => some ({ ac with Cache := c1 }, evicted)
  | none => none

end JobQuotaController

/-! ## Scenario data -/

def Gi : ℚ := 1024 * 1024 * 1024

/-- A job of `replicas` replicas requesting `cpu` milli-CPU and `mem` bytes each. -/
def mkJob (id ns : String) (replicas : Int) (cpu mem : ℚ) : JoQuotabInfo :=
  { JobQuota := { Name := id, Namespace := ns, OwnerReferences := [⟨id⟩],
                  Spec := ⟨replicas, []⟩, Status := ⟨[], []⟩ },
    ConsumerId := id, Namespace := ns, Replicas := replicas,
    RequestUnit := ⟨cpu, mem⟩, Allocated := EmptyResource, Used := EmptyResource,
    RunningPods := NewFIFO, ReclaimingPods := NewFIFO }

/-- A node offering `cpu` milli-CPU and `mem` bytes. -/
def mkNode (name : String) (cpu mem : ℚ) : NodeInfo :=
  { Name := name, Allocatable := ⟨cpu, mem⟩, Allocated := EmptyResource,
    Capacity := ⟨cpu, mem⟩ }

/-- The total request of a job, `requestUnit · replicas`, as `Allocate` and
`Assign` compute it. -/
def reqOf (job : JoQuotabInfo) : Resource :=
  job.RequestUnit.Clone.Multi job.Replicas

/-- The entitlement a result of `Allocate` holds for a namespace. -/
def allocatedOf (r : Run (List (String × AllocationInfo))) (ns : String) : Option Resource :=
  match r with
  | Run.ret m => (mapGet m ns).map (fun a => a.Allocated)
  | _ => none

/-- Scenario S1: one node, one namespace, one job. -/
def s1Nodes : List NodeInfo := [mkNode "n1" 4000 (8 * Gi)]
def s1Job : JoQuotabInfo := mkJob "rc-a" "A" 2 500 Gi
def s1Jobs : List (String × List JoQuotabInfo) := [("A", [s1Job])]

/-- Scenario S2: two namespaces, one job each. -/
def s2Nodes : List NodeInfo := [mkNode "n1" 9000 (18 * Gi)]
def s2JobA : JoQuotabInfo := mkJob "rc-a" "A" 3 1000 Gi
def s2JobB : JoQuotabInfo := mkJob "rc-b" "B" 3 1000 (4 * Gi)

/-- Scenario S3: a quota whose status reports more use than entitlement. -/
def s3Quota : JobQuota :=
  { Name := "q", Namespace := "A", OwnerReferences := [⟨"rc-1"⟩],
    Spec := ⟨2, [("cpu", ⟨1 / 2⟩), ("memory", ⟨512 * 1024 * 1024⟩)]⟩,
    Status := ⟨[("cpu", ⟨1⟩), ("memory", ⟨Gi⟩)], [("cpu", ⟨2⟩), ("memory", ⟨2 * Gi⟩)]⟩ }

/-- Scenario S4: a pod without owner reference. -/
def orphanPod : Pod :=
  { Name := "p", Namespace := "A", OwnerReferences := [], Phase := PodRunning,
    NodeName := "n1", Containers := [], InitContainers := [] }

/-- A namespace whose first job exceeds the cluster and whose second fits. -/
def blockedJobs : List (String × List JoQuotabInfo) :=
  [("A", [mkJob "rc-big" "A" 1 5000 Gi, mkJob "rc-small" "A" 1 1000 Gi])]

/-- A job that asks for more CPU and less memory than the group has left. -/
def mixedJob : JoQuotabInfo := mkJob "rc-a" "A" 1 2000 5

/-- A job that carries an entitlement from an earlier status and does not fit. -/
def staleJob : JoQuotabInfo :=
  { mkJob "rc-a" "A" 1 2000 20 with Allocated := ⟨7, 7⟩ }

/-- A cluster below the thresholds of `IsEmpty`. -/
def tinyNodes : List NodeInfo := [mkNode "n1" 5 (5 * 1024 * 1024)]
def tinyJob : JoQuotabInfo := mkJob "rc-a" "A" 1 5 (5 * 1024 * 1024)

/-- A request that exceeds the cluster by less than the tolerance of `LessEqual`. -/
def driftNodes : List NodeInfo := [mkNode "n1" 1000 (8 * Gi)]
def driftJobs : List (String × List JoQuotabInfo) :=
  [("A", [mkJob "rc-a" "A" 1 (1000 + 1 / 128) Gi])]

/-- A node object of 4 CPU and 8Gi. -/
def s1NodeObject : Node :=
  { Name := "n1",
    Allocatable := [("cpu", ⟨4⟩), ("memory", ⟨8 * Gi⟩)],
    Capacity := [("cpu", ⟨4⟩), ("memory", ⟨8 * Gi⟩)] }

/-- A pod with one owner and one container. -/
def mkPod (name ns owner : String) (phase : PodPhase) (cpu mem : ℚ) : Pod :=
  { Name := name, Namespace := ns, OwnerReferences := [⟨owner⟩], Phase := phase,
    NodeName := "n1", Containers := [⟨[("cpu", ⟨cpu⟩), ("memory", ⟨mem⟩)]⟩],
    InitContainers := [] }

/-- Scenario S3: a running pod of 500m/500Mi owned by the consumer of `s3Quota`. -/
def s3Pod : Pod := mkPod "p1" "A" "rc-1" PodRunning (1 / 2) (500 * 1024 * 1024)

/-- The pod of scenario S3 in a phase the handlers do not act on. -/
def pendingPod : Pod := mkPod "p1" "A" "rc-1" PodPending (1 / 2) (500 * 1024 * 1024)

/-- The cache record of `s3Pod`. -/
def s3PodInfo : PodInfo :=
  { Owner := "rc-1", Name := "p1", Namespace := "A", ConsumerName := "", Status := PodRunning,
    Hostname := "n1", Resource := ⟨500, 500 * 1024 * 1024⟩ }

/-- The cache entry of `s3Quota` with `s3Pod` running. -/
def s5Entry : JoQuotabInfo :=
  { NewJobQuotaInfo s3Quota with RunningPods := ⟨["A/p1"], [("A/p1", s3PodInfo)]⟩ }

/-- Scenario S5: the cache that holds `s3Quota` with `s3Pod` running. -/
def s5Cache : Cache :=
  ((NewCache.AddJobQuota s3Quota).AddPod s3Pod).getD NewCache

/-- A quota whose cache entry is overused: the status reports allocated
2000m/2Gi and used 1000m/1Gi, which `NewJobQuotaInfo` reads crosswise. -/
def overQuota : JobQuota :=
  { Name := "q", Namespace := "A", OwnerReferences := [⟨"rc-1"⟩],
    Spec := ⟨2, [("cpu", ⟨1 / 2⟩), ("memory", ⟨512 * 1024 * 1024⟩)]⟩,
    Status := ⟨[("cpu", ⟨2⟩), ("memory", ⟨2 * Gi⟩)], [("cpu", ⟨1⟩), ("memory", ⟨Gi⟩)]⟩ }

/-- The cache entry of `overQuota` with `s3Pod` running. -/
def overEntry : JoQuotabInfo :=
  { NewJobQuotaInfo overQuota with RunningPods := ⟨["A/p1"], [("A/p1", s3PodInfo)]⟩ }

/-- The cache that holds `overQuota` with `s3Pod` running. -/
def overCache : Cache :=
  ((NewCache.AddJobQuota overQuota).AddPod s3Pod).getD NewCache

/-- A quota object without owner reference. -/
def ownerlessQuota : JobQuota :=
  { Name := "q0", Namespace := "A", OwnerReferences := [],
    Spec := ⟨1, [("cpu", ⟨1⟩), ("memory", ⟨Gi⟩)]⟩, Status := ⟨[], []⟩ }

/-- A quota of one replica that requests CPU only. -/
def cpuOnlyQuota : JobQuota :=
  { Name := "q-cpu", Namespace := "A", OwnerReferences := [⟨"rc-1"⟩],
    Spec := ⟨1, [("cpu", ⟨1⟩)]⟩, Status := ⟨[], []⟩ }

/-- A quota of one replica that requests CPU and memory. -/
def fullQuota : JobQuota :=
  { Name := "q-full", Namespace := "A", OwnerReferences := [⟨"rc-2"⟩],
    Spec := ⟨1, [("cpu", ⟨1⟩), ("memory", ⟨Gi⟩)]⟩, Status := ⟨[], []⟩ }

/-- A cache with two quotas of one namespace and one node. -/
def twoQuotaCache : Cache :=
  ((NewCache.AddNode s1NodeObject).AddJobQuota cpuOnlyQuota).AddJobQuota fullQuota

/-- Two ticks on `twoQuotaCache` whose `range`s differ only in the order in
which `GetSnapshot` enumerates the quotas. -/
def cpuFirstOrders : RangeOrders :=
  { quotas := ["rc-1", "rc-2"], nodes := ["n1"], consumers := ["A"], allocs := ["A"],
    groups := ["A"] }
def fullFirstOrders : RangeOrders :=
  { quotas := ["rc-2", "rc-1"], nodes := ["n1"], consumers := ["A"], allocs := ["A"],
    groups := ["A"] }

/-- Two ticks on one snapshot of two namespaces whose `range`s differ only in
the order in which `buildConsumers` enumerates the namespaces. -/
def rivalOrdersAB : RangeOrders :=
  { quotas := [], nodes := [], consumers := ["A", "B"], allocs := ["A", "B"],
    groups := ["A", "B"] }
def rivalOrdersBA : RangeOrders :=
  { quotas := [], nodes := [], consumers := ["B", "A"], allocs := ["A", "B"],
    groups := ["A", "B"] }

/-- An allocator object that has not run yet. -/
def freshAllocator : drf :=
  { total := EmptyResource, available := EmptyResource, consumers := [] }

/-- Two namespaces that each ask for the whole of a node of 1000m/1Gi. -/
def rivalA : JoQuotabInfo := mkJob "rc-a" "A" 1 1000 Gi
def rivalB : JoQuotabInfo := mkJob "rc-b" "B" 1 1000 Gi
def rivalNodes : List NodeInfo := [mkNode "n1" 1000 Gi]

/-- The status writes of a tick of `allocate`. -/
def writesOf {σ : Type} (r : Run (σ × List JobQuota)) : Option (List JobQuota) :=
  match r with
  | Run.ret (_, ws) => some ws
  | _ => none

/-- The `Allocated` amount a tick of `allocate` writes for the quota `name`. -/
def writtenAllocated {σ : Type} (r : Run (σ × List JobQuota)) (name : String) :
    Option Resource :=
  match writesOf r with
  | some ws =>
    (ws.find? (fun q => q.Name == name)).map (fun q => NewResource q.Status.Allocated)
  | none => none

/-! ## Predicates and measures used in the statements -/

/-- Every stored object of the FIFO has its key in the queue, as in every FIFO
built by `NewFIFO`, `Add`, `Delete` and `Pop`. -/
def fifoWF {α : Type} (f : FIFO α) : Prop :=
  ∀ p ∈ f.items, p.1 ∈ f.queue

/-- The FIFO of every consumer is well formed. -/
def consumersWF (d : drf) : Prop :=
  ∀ c ∈ d.consumers, fifoWF c.Jobs

/-- Every entry of the priority queue points to a consumer of `d`. -/
def pqValid (d : drf) (pq : PriorityQueue Nat) : Prop :=
  ∀ it ∈ pq.queue, it.Value < d.consumers.length

/-- The number of jobs of a jobs map. -/
def totalJobs (jobs : List (String × List JoQuotabInfo)) : Nat :=
  (jobs.map (fun p => p.2.length)).sum

/-- The sum of `Deserved.MilliCPU` over the consumers. -/
def sumDeservedCPU (d : drf) : ℚ :=
  (d.consumers.map (fun c => c.Deserved.MilliCPU)).sum

/-- The sum of `Deserved.Memory` over the consumers. -/
def sumDeservedMemory (d : drf) : ℚ :=
  (d.consumers.map (fun c => c.Deserved.Memory)).sum

/-- The cluster envelope: the sum of the node allocatables. -/
def clusterTotal (nodes : List NodeInfo) : Resource :=
  nodes.foldl (fun r node => r.Add node.Allocatable) EmptyResource

/-- A rational that is an integer, as every amount built by `NewResource`. -/
def isInt (q : ℚ) : Prop :=
  ∃ z : Int, q = (z : ℚ)

/-- Both components of the resource are integers. -/
def Resource.integral (r : Resource) : Prop :=
  isInt r.MilliCPU ∧ isInt r.Memory

/-- Every job still queued at a consumer satisfies `P`. -/
def queuedAll (P : JoQuotabInfo → Prop) (d : drf) : Prop :=
  ∀ c ∈ d.consumers, ∀ p ∈ c.Jobs.items, P p.2

/-- Conservation: what is still available plus what the consumers deserve is
the cluster total, on both axes. -/
def conserved (d : drf) : Prop :=
  d.available.MilliCPU + sumDeservedCPU d = d.total.MilliCPU ∧
  d.available.Memory + sumDeservedMemory d = d.total.Memory

/-- The rest `available` is above minus the tolerance of `LessEqual`. -/
def withinTolerance (d : drf) : Prop :=
  -(1 / 100) < d.available.MilliCPU ∧ -1 < d.available.Memory

/-- The state a result of the allocating loop ends in. -/
def finalState (r : Run (drf × Nat)) : Option drf :=
  match r with
  | Run.ret (d, _) => some d
  | _ => none

/-- Both components of the resource are non-negative. -/
def Resource.nonneg (r : Resource) : Prop :=
  0 ≤ r.MilliCPU ∧ 0 ≤ r.Memory


/-! ## Further predicates and data -/

/-- IEEE `x == y`: NaN equals nothing, an infinity equals itself. -/
def Float64.eq : Float64 → Float64 → Bool
  | Float64.fin a, Float64.fin b => decide (a = b)
  | Float64.negInf, Float64.negInf => true
  | Float64.posInf, Float64.posInf => true
  | _, _ => false

/-- A pod with one owner whose container requests 500m, 500Mi and a GPU, and
whose init container requests 4 CPU. -/
def gpuPod : Pod :=
  { Name := "p1", Namespace := "A", OwnerReferences := [⟨"rc-1"⟩], Phase := PodRunning,
    NodeName := "n1",
    Containers := [⟨[("cpu", ⟨1 / 2⟩), ("nvidia.com/gpu", ⟨1⟩),
                     ("memory", ⟨500 * 1024 * 1024⟩)]⟩],
    InitContainers := [⟨[("cpu", ⟨4⟩)]⟩] }

/-- The cache record of `gpuPod`. -/
def gpuPodInfo : PodInfo :=
  { Owner := "rc-1", Name := "p1", Namespace := "A", ConsumerName := "", Status := PodRunning,
    Hostname := "n1", Resource := ⟨500, 500 * 1024 * 1024⟩ }

/-- The jobs of the namespace `ns` among `jobs`, in input order. -/
def jobsOf (ns : String) (jobs : List JoQuotabInfo) : List JoQuotabInfo :=
  jobs.filter (fun j => decide (j.Namespace = ns))

/-- The state of `Group` after it has gone through `seen`: every namespace is
mapped to its jobs among `seen`, a namespace without jobs is absent. -/
def groupInv (res : List (String × List JoQuotabInfo)) (seen : List JoQuotabInfo) : Prop :=
  (res.map Prod.fst).Nodup ∧
  (∀ ns, mapGet res ns = if jobsOf ns seen = [] then none else some (jobsOf ns seen)) ∧
  (res.map Prod.snd).flatten.Perm seen

/-- Jobs of three quotas in two namespaces. -/
def mixedNamespaces : List JoQuotabInfo :=
  [mkJob "rc-a1" "A" 1 1000 Gi, mkJob "rc-b1" "B" 1 1000 Gi, mkJob "rc-a2" "A" 2 500 Gi]

/-- The representation of a pod queue built by `cache.NewFIFO(PodInfoKeyFunc)`,
`Add`, `Delete` and `Pop`: a pod is stored under its own key, and a key is
stored once. -/
def fifoKeyed (f : FIFO PodInfo) : Prop :=
  (f.items.map Prod.fst).Nodup ∧ ∀ p ∈ f.items, p.1 = PodInfoKeyFunc p.2

/-- The entry `e1` is the entry `e` with the pod key `key` removed from both
queues: no object is stored under `key`, every other key stores what it stored
before, and every other field is the same. -/
def podRemoved (key : String) (e e1 : JoQuotabInfo) : Prop :=
  mapGet e1.RunningPods.items key = none ∧
  mapGet e1.ReclaimingPods.items key = none ∧
  (∀ k, k ≠ key → mapGet e1.RunningPods.items k = mapGet e.RunningPods.items k) ∧
  (∀ k, k ≠ key → mapGet e1.ReclaimingPods.items k = mapGet e.ReclaimingPods.items k) ∧
  e1.RunningPods.items.Sublist e.RunningPods.items ∧
  e1.ReclaimingPods.items.Sublist e.ReclaimingPods.items ∧
  e1.JobQuota = e.JobQuota ∧ e1.ConsumerId = e.ConsumerId ∧ e1.Namespace = e.Namespace ∧
  e1.Replicas = e.Replicas ∧ e1.RequestUnit = e.RequestUnit ∧
  e1.Allocated = e.Allocated ∧ e1.Used = e.Used

/-- The pod of scenario S3 after it has failed. -/
def failedPod : Pod := mkPod "p1" "A" "rc-1" PodFailed (1 / 2) (500 * 1024 * 1024)

/-- The cache entry of `s3Quota` after its running pod is gone: the key stays
in the queue and stores nothing. -/
def drainedEntry : JoQuotabInfo :=
  { NewJobQuotaInfo s3Quota with RunningPods := ⟨["A/p1"], []⟩ }

/-- A cluster without CPU: one node of 0 milli-CPU and 1Gi. -/
def zeroCpuNodes : List NodeInfo := [mkNode "n1" 0 Gi]

/-- One namespace with one job that requests memory only. -/
def memOnlyJobs : List (String × List JoQuotabInfo) :=
  [("A", [mkJob "rc-a" "A" 1 0 Gi])]

/-- The shares and entitlements of the consumers at the end of a run. -/
def sharesOf (r : Run (drf × Nat)) : Option (List (Float64 × Resource)) :=
  (finalState r).map (fun d => d.consumers.map (fun c => (c.Share, c.Deserved)))

/-- IEEE `x <= y`: false as soon as one side is NaN. -/
def Float64.le : Float64 → Float64 → Bool
  | Float64.nan, _ => false
  | _, Float64.nan => false
  | Float64.negInf, _ => true
  | _, Float64.posInf => true
  | Float64.fin a, Float64.fin b => decide (a ≤ b)
  | _, _ => false

/-- The priority stored at index `k` of the heap; NaN stands for an index out
of range, so that `Less` is the comparison of the two readings. -/
def prioAt {α : Type} (h : priorityQueue α) (k : Nat) : Float64 :=
  match h[k]? with
  | some a => a.Priority
  | none => Float64.nan

/-- The order of the heap: `y` is not less than `x`. -/
def notAbove (x y : Float64) : Prop :=
  y.lt x = false

/-- The heap condition of `container/heap` on the first `n` entries: no entry
is less than its parent. -/
def isHeap {α : Type} (h : priorityQueue α) (n : Nat) : Prop :=
  ∀ k, 0 < k → k < n → notAbove (prioAt h ((k - 1) / 2)) (prioAt h k)

/-- The state `heap.up` works on: the heap condition holds except between `j`
and its parent, and the parent of `j` is not above the children of `j`. -/
def upInv {α : Type} (h : priorityQueue α) (j : Nat) : Prop :=
  (∀ k, 0 < k → k < h.length → k ≠ j → notAbove (prioAt h ((k - 1) / 2)) (prioAt h k)) ∧
  (∀ k, 0 < k → k < h.length → (k - 1) / 2 = j → 0 < j →
    notAbove (prioAt h ((j - 1) / 2)) (prioAt h k))

/-- The state `heap.down` works on: the heap condition holds on the first `n`
entries except between `i` and its children, and the parent of `i` is not
above the children of `i`. -/
def downInv {α : Type} (h : priorityQueue α) (i n : Nat) : Prop :=
  (∀ k, 0 < k → k < n → (k - 1) / 2 ≠ i → notAbove (prioAt h ((k - 1) / 2)) (prioAt h k)) ∧
  (∀ k, 0 < k → k < n → (k - 1) / 2 = i → 0 < i →
    notAbove (prioAt h ((i - 1) / 2)) (prioAt h k))

/-- No stored priority is NaN. -/
def noNaN {α : Type} (h : priorityQueue α) : Prop :=
  ∀ it ∈ h, it.Priority ≠ Float64.nan

/-- An operation of a client on the queue: `Push` of a value whose `Priority()`
reads `prio`, or `Pop`. -/
inductive QueueOp (α : Type) where
  | push (x : α) (prio : Float64)
  | pop

/-- A sequence of operations on a queue; `none` is the panic of a `Pop` on an
empty queue. -/
def runOps {α : Type} : PriorityQueue α → List (QueueOp α) → Option (PriorityQueue α)
  | pq, [] => some pq
  | pq, QueueOp.push x prio :: rest => runOps (pq.Push x prio) rest
  | pq, QueueOp.pop :: rest =>
    match pq.Pop with
    | some (_, pq1) => runOps pq1 rest
    | none => none

/-- Popping `n` times: the entries in the order in which `heap.Pop` hands them
out. -/
def popAll {α : Type} : Nat → priorityQueue α → List (item α)
  | 0, _ => []
  | n + 1, h =>
    match heapPop h with
    | some (it, h1) => it :: popAll n h1
    | none => []

/-- Four pushes, the second with the priority NaN. -/
def nanOps : List (QueueOp String) :=
  [QueueOp.push "a" (Float64.fin 2), QueueOp.push "b" Float64.nan,
   QueueOp.push "c" (Float64.fin 3), QueueOp.push "d" (Float64.fin 1)]

/-- Three pushes and a pop. -/
def shareOps : List (QueueOp String) :=
  [QueueOp.push "a" (Float64.fin (3 / 10)), QueueOp.push "b" (Float64.fin (1 / 10)),
   QueueOp.push "c" (Float64.fin (2 / 10)), QueueOp.pop]

/-! ## Objects behind pointers

The embedding above identifies an object with its contents, which is what the
allocator and the handlers need.  Which objects a snapshot shares with the
cache is a question about pointers: here the objects live in a store, a
pointer is an address of the store, `&T{...}` allocates at the end of the
store and an assignment through a pointer overwrites the object at its
address.  An address that is not allocated reads as the zero object; the
statements are about stores in which every address the cache reaches is
allocated. -/

abbrev Ptr := Nat

/-- A `JoQuotabInfo` object: its pointer fields are addresses. -/
structure JobCell where
  JobQuota : Ptr
  ConsumerId : String
  Namespace : String
  Replicas : Int
  RequestUnit : Ptr
  Allocated : Ptr
  Used : Ptr
  RunningPods : Ptr
  ReclaimingPods : Ptr
deriving DecidableEq

/-- A `NodeInfo` object. -/
structure NodeCell where
  Name : String
  Allocatable : Ptr
  Allocated : Ptr
  Capacity : Ptr
deriving DecidableEq

/-- The store: the quota objects of the orchestrator, the `PodInfo` records
(a record owns its `Resource`), the `Resource` objects, the FIFO objects (a
FIFO of pods stores pointers to `PodInfo` records), the `JoQuotabInfo` and the
`NodeInfo` objects. -/
structure Heap where
  quotas : List JobQuota
  pods : List PodInfo
  resources : List Resource
  fifos : List (FIFO Ptr)
  jobs : List JobCell
  nodes : List NodeCell
deriving DecidableEq

/-- The `Cache` object: its two maps hold pointers. -/
structure CacheRef where
  batchjobs : List (String × Ptr)
  nodes : List (String × Ptr)
deriving DecidableEq

namespace Heap

def quota (h : Heap) (p : Ptr) : JobQuota :=
  h.quotas[p]?.getD ⟨"", "", [], ⟨0, []⟩, ⟨[], []⟩⟩

def pod (h : Heap) (p : Ptr) : PodInfo :=
  h.pods[p]?.getD ⟨"", "", "", "", "", "", EmptyResource⟩

def resource (h : Heap) (p : Ptr) : Resource :=
  h.resources[p]?.getD EmptyResource

def fifo (h : Heap) (p : Ptr) : FIFO Ptr :=
  h.fifos[p]?.getD NewFIFO

def job (h : Heap) (p : Ptr) : JobCell :=
  h.jobs[p]?.getD ⟨0, "", "", 0, 0, 0, 0, 0, 0⟩

def node (h : Heap) (p : Ptr) : NodeCell :=
  h.nodes[p]?.getD ⟨"", 0, 0, 0⟩

/-- Go `r.Clone()` on a `*Resource`: a new object with the same contents. -/
def cloneResource (h : Heap) (r : Ptr) : Heap × Ptr :=
  ({ h with resources := h.resources ++ [(h.resource r).Clone] }, h.resources.length)

/-- Go `cache.NewFIFO(PodInfoKeyFunc)`: a new, empty FIFO object. -/
def newFIFO (h : Heap) : Heap × Ptr :=
  ({ h with fifos := h.fifos ++ [NewFIFO] }, h.fifos.length)

/-- Go `f.Add(pod)` on a FIFO object: the pointer is stored under the key of the
record it points to. -/
def fifoAdd (h : Heap) (f pod : Ptr) : Heap :=
  { h with fifos := h.fifos.set f ((h.fifo f).Add (PodInfoKeyFunc (h.pod pod)) pod) }

/-- The loop `for _, pod := range src.List() { dst.Add(pod) }` of `Clone`. -/
def copyPods (h : Heap) (src dst : Ptr) : Heap :=
  (h.fifo src).List.foldl (fun s pod => s.fifoAdd dst pod) h

/-- The struct literal of `(*JoQuotabInfo).Clone` on the object at `ri`: the
quota pointer is copied, the three resources are cloned, the two queues are
new FIFO objects. -/
def newJob (h : Heap) (ri : Ptr) : Heap × Ptr :=
  let cell := h.job ri
  let a1 := h.cloneResource cell.RequestUnit
  let a2 := a1.1.cloneResource cell.Allocated
  let a3 := a2.1.cloneResource cell.Used
  let a4 := a3.1.newFIFO
  let a5 := a4.1.newFIFO
  let bj : JobCell :=
    { JobQuota := cell.JobQuota,
      ConsumerId := cell.ConsumerId,
      Namespace := cell.Namespace,
      Replicas := cell.Replicas,
      RequestUnit := a1.2,
      Allocated := a2.2,
      Used := a3.2,
      ReclaimingPods := a4.2,
      RunningPods := a5.2 }
  ({ a5.1 with jobs := a5.1.jobs ++ [bj] }, a5.1.jobs.length)

/-- Go `(*JoQuotabInfo).Clone` on the object at `ri`: the new object, then the
two loops that add to its queues the pointers the queues of `ri` list. -/
def cloneJob (h : Heap) (ri : Ptr) : Heap × Ptr :=
  let bj := h.newJob ri
  let h1 := bj.1.copyPods (bj.1.job ri).RunningPods (bj.1.job bj.2).RunningPods
  let h2 := h1.copyPods (h1.job ri).ReclaimingPods (h1.job bj.2).ReclaimingPods
  (h2, bj.2)

/-- Go `(*NodeInfo).Clone` on the object at `ni`. -/
def cloneNode (h : Heap) (ni : Ptr) : Heap × Ptr :=
  let cell := h.node ni
  let a1 := h.cloneResource cell.Allocated
  let a2 := a1.1.cloneResource cell.Allocated
  let a3 := a2.1.cloneResource cell.Capacity
  ({ a3.1 with nodes := a3.1.nodes ++
      [{ Name := cell.Name, Allocatable := a1.2, Allocated := a2.2, Capacity := a3.2 }] },
   a3.1.nodes.length)

/-- The loop `for _, r := range c.batchjobs { rs = append(rs, r.Clone()) }`. -/
def snapJobs (h : Heap) (l : List (String × Ptr)) (rs : List Ptr) : Heap × List Ptr :=
  l.foldl (fun (acc : Heap × List Ptr) p =>
    let r := acc.1.cloneJob p.2
    (r.1, acc.2 ++ [r.2])) (h, rs)

/-- The loop `for _, n := range c.nodes { ns = append(ns, n.Clone()) }`. -/
def snapNodes (h : Heap) (l : List (String × Ptr)) (ns : List Ptr) : Heap × List Ptr :=
  l.foldl (fun (acc : Heap × List Ptr) p =>
    let n := acc.1.cloneNode p.2
    (n.1, acc.2 ++ [n.2])) (h, ns)

/-- Go `(*Cache).GetSnapshot`: the store after the clones, and the two slices
of pointers to the clones. -/
def getSnapshot (h : Heap) (c : CacheRef) : Heap × List Ptr × List Ptr :=
  let rs := h.snapJobs c.batchjobs []
  let ns := rs.1.snapNodes c.nodes []
  (ns.1, rs.2, ns.2)

/-- The body of the loop of `update` for the job at `job`: the two status
fields of the quota object the job points to are overwritten. -/
def updateStatus (h : Heap) (job : Ptr) : Heap :=
  let cell := h.job job
  let status : JobQuotaStatus :=
    { Allocated := (h.resource cell.Allocated).ResourceList,
      Used := (h.resource cell.Used).ResourceList }
  let q : JobQuota := { h.quota cell.JobQuota with Status := status }
  { h with quotas := h.quotas.set cell.JobQuota q }

/-- The contents of a FIFO object of pods. -/
def viewFIFO (h : Heap) (f : FIFO Ptr) : FIFO PodInfo :=
  { queue := f.queue, items := f.items.map (fun p => (p.1, h.pod p.2)) }

/-- The contents of the `JoQuotabInfo` object at `p`. -/
def viewJob (h : Heap) (p : Ptr) : JoQuotabInfo :=
  { JobQuota := h.quota (h.job p).JobQuota,
    ConsumerId := (h.job p).ConsumerId,
    Namespace := (h.job p).Namespace,
    Replicas := (h.job p).Replicas,
    RequestUnit := h.resource (h.job p).RequestUnit,
    Allocated := h.resource (h.job p).Allocated,
    Used := h.resource (h.job p).Used,
    RunningPods := h.viewFIFO (h.fifo (h.job p).RunningPods),
    ReclaimingPods := h.viewFIFO (h.fifo (h.job p).ReclaimingPods) }

/-- The contents of the `NodeInfo` object at `p`. -/
def viewNode (h : Heap) (p : Ptr) : NodeInfo :=
  { Name := (h.node p).Name,
    Allocatable := h.resource (h.node p).Allocatable,
    Allocated := h.resource (h.node p).Allocated,
    Capacity := h.resource (h.node p).Capacity }

/-- The cache state: the contents of everything the cache reaches. -/
def viewCache (h : Heap) (c : CacheRef) : Cache :=
  { batchjobs := c.batchjobs.map (fun p => (p.1, h.viewJob p.2)),
    nodes := c.nodes.map (fun p => (p.1, h.viewNode p.2)) }

/-- The values of a snapshot: the contents of the clones. -/
def viewSnapshot (s : Heap × List Ptr × List Ptr) : List JoQuotabInfo × List NodeInfo :=
  (s.2.1.map s.1.viewJob, s.2.2.map s.1.viewNode)

end Heap

/-- An assignment through a pointer: the object at the address is replaced. -/
inductive Write where
  | resource (p : Ptr) (r : Resource)
  | fifo (p : Ptr) (f : FIFO Ptr)
  | job (p : Ptr) (c : JobCell)
  | node (p : Ptr) (c : NodeCell)
  | quota (p : Ptr) (q : JobQuota)
  | pod (p : Ptr) (x : PodInfo)

def Heap.write (h : Heap) : Write → Heap
  | Write.resource p r => { h with resources := h.resources.set p r }
  | Write.fifo p f => { h with fifos := h.fifos.set p f }
  | Write.job p c => { h with jobs := h.jobs.set p c }
  | Write.node p c => { h with nodes := h.nodes.set p c }
  | Write.quota p q => { h with quotas := h.quotas.set p q }
  | Write.pod p x => { h with pods := h.pods.set p x }

/-- The write goes to a `Resource`, FIFO, `JoQuotabInfo` or `NodeInfo` object
that was allocated after the store `h0`. -/
def Write.after (h0 : Heap) : Write → Prop
  | Write.resource p _ => h0.resources.length ≤ p
  | Write.fifo p _ => h0.fifos.length ≤ p
  | Write.job p _ => h0.jobs.length ≤ p
  | Write.node p _ => h0.nodes.length ≤ p
  | Write.quota _ _ => False
  | Write.pod _ _ => False

/-- Every object the `JoQuotabInfo` object at `p` points to, and the object
itself, is allocated (the quota object and the pod records apart, which are
never allocated by the controller). -/
def Heap.jobAllocated (h : Heap) (p : Ptr) : Prop :=
  p < h.jobs.length ∧
  (h.job p).RequestUnit < h.resources.length ∧ (h.job p).Allocated < h.resources.length ∧
  (h.job p).Used < h.resources.length ∧
  (h.job p).RunningPods < h.fifos.length ∧ (h.job p).ReclaimingPods < h.fifos.length

def Heap.nodeAllocated (h : Heap) (p : Ptr) : Prop :=
  p < h.nodes.length ∧
  (h.node p).Allocatable < h.resources.length ∧ (h.node p).Allocated < h.resources.length ∧
  (h.node p).Capacity < h.resources.length

/-- Every address the cache reaches is allocated. -/
def Heap.wf (h : Heap) (c : CacheRef) : Prop :=
  (∀ p ∈ c.batchjobs, h.jobAllocated p.2) ∧ (∀ p ∈ c.nodes, h.nodeAllocated p.2)

/-- The store `h2` has at every address of `h` the object `h` has there, and
the same quota objects and pod records. -/
def Heap.agree (h h2 : Heap) : Prop :=
  h2.quotas = h.quotas ∧ h2.pods = h.pods ∧
  h.resources <+: h2.resources ∧ h.fifos <+: h2.fifos ∧
  h.jobs <+: h2.jobs ∧ h.nodes <+: h2.nodes

/-- The `JoQuotabInfo` object at `r`, its three resources and its two queues
were allocated after the store `h0`. -/
def Heap.jobAfter (h0 h : Heap) (r : Ptr) : Prop :=
  h0.jobs.length ≤ r ∧
  h0.resources.length ≤ (h.job r).RequestUnit ∧ h0.resources.length ≤ (h.job r).Allocated ∧
  h0.resources.length ≤ (h.job r).Used ∧
  h0.fifos.length ≤ (h.job r).RunningPods ∧ h0.fifos.length ≤ (h.job r).ReclaimingPods

/-- The `NodeInfo` object at `r` and its three resources were allocated after
the store `h0`. -/
def Heap.nodeAfter (h0 h : Heap) (r : Ptr) : Prop :=
  h0.nodes.length ≤ r ∧
  h0.resources.length ≤ (h.node r).Allocatable ∧ h0.resources.length ≤ (h.node r).Allocated ∧
  h0.resources.length ≤ (h.node r).Capacity

/-- The store of scenario S5: the quota object of `s3Quota`, the record of its
running pod, and the cache entry built from them. -/
def s5Heap : Heap :=
  { quotas := [s3Quota],
    pods := [s3PodInfo],
    resources := [NewResource s3Quota.Spec.RequestUnit, NewResource s3Quota.Status.Used,
      NewResource s3Quota.Status.Allocated],
    fifos := [⟨["A/p1"], [("A/p1", 0)]⟩, NewFIFO],
    jobs := [⟨0, "rc-1", "A", 2, 0, 1, 2, 0, 1⟩],
    nodes := [] }

/-- The cache of scenario S5: one entry, which points to the job object 0. -/
def s5CacheRef : CacheRef :=
  { batchjobs := [("rc-1", 0)], nodes := [] }

/-- Writes to the `Allocated` resource and to the `RunningPods` queue of the
job of the snapshot of `s5Heap`. -/
def snapshotWrites : List Write :=
  [Write.resource 4 ⟨7, 7⟩, Write.fifo 3 NewFIFO]

/-- Scenario S6: two namespaces, each with two jobs of one replica that request
1000 milli-CPU and `mem` bytes, in either order of the jobs map. -/
def s6JobsAB (mem : ℚ) : List (String × List JoQuotabInfo) :=
  [("A", [mkJob "rc-a1" "A" 1 1000 mem, mkJob "rc-a2" "A" 1 1000 mem]),
   ("B", [mkJob "rc-b1" "B" 1 1000 mem, mkJob "rc-b2" "B" 1 1000 mem])]

def s6JobsBA (mem : ℚ) : List (String × List JoQuotabInfo) :=
  [("B", [mkJob "rc-b1" "B" 1 1000 mem, mkJob "rc-b2" "B" 1 1000 mem]),
   ("A", [mkJob "rc-a1" "A" 1 1000 mem, mkJob "rc-a2" "A" 1 1000 mem])]

/-- A cluster of 2000 milli-CPU in one node, and in two nodes. -/
def s6Nodes (mem : ℚ) : List NodeInfo := [mkNode "n1" 2000 mem]
def s6TwoNodes (mem : ℚ) : List NodeInfo := [mkNode "n1" 1000 mem, mkNode "n2" 1000 mem]

/-- The outcome of a run on the CPU axis: the deserved CPU of every consumer,
their sum, the cluster total and the number of passes. -/
def cpuSplit (r : Run (drf × Nat)) : Option (List (String × ℚ) × ℚ × ℚ × Nat) :=
  match r with
  | Run.ret (d, passes) =>
    some (d.consumers.map (fun c => (c.Name, c.Deserved.MilliCPU)), sumDeservedCPU d,
      d.total.MilliCPU, passes)
  | _ => none

/-- An event of the cluster watcher, as it reaches the handlers of the cache. -/
inductive Event where
  | addPod (obj : Pod)
  | updatePod (old obj : Pod)
  | deletePod (obj : Pod)
  | addNode (obj : Node)
  | updateNode (old obj : Node)
  | deleteNode (obj : Node)
  | addJobQuota (obj : JobQuota)
  | updateJobQuota (old obj : JobQuota)
  | deleteJobQuota (obj : JobQuota)

/-- The handler of the cache for the event; `none` is a panic of the handler. -/
def Cache.handle (c : Cache) : Event → Option Cache
  | Event.addPod obj => c.AddPod obj
  | Event.updatePod old obj => c.UpdatePod old obj
  | Event.deletePod obj => c.DeletePod obj
  | Event.addNode obj => some (c.AddNode obj)
  | Event.updateNode old obj => some (c.UpdateNode old obj)
  | Event.deleteNode obj => some (c.DeleteNode obj)
  | Event.addJobQuota obj => some (c.AddJobQuota obj)
  | Event.updateJobQuota old obj => some (c.UpdateJobQuota old obj)
  | Event.deleteJobQuota obj => some (c.DeleteJobQuota obj)

/-- The cache after a sequence of events, when no handler panics. -/
def Cache.handleAll (c : Cache) : List Event → Option Cache
  | [] => some c
  | e :: rest =>
    match c.handle e with
    | some c1 => c1.handleAll rest
    | none => none

/-- A node of 4 CPU and 8Gi appears, then a quota, then a pod of the quota. -/
def s1Events : List Event :=
  [Event.addNode s1NodeObject, Event.addJobQuota s3Quota, Event.addPod s3Pod]

/-- The cache the events of `s1Events` leave behind. -/
def s1EventsCache : Cache :=
  (NewCache.handleAll s1Events).getD NewCache

/-- The sum of the total requests of the jobs, on both axes. -/
def requestSum (js : List JoQuotabInfo) : Resource :=
  ⟨(js.map (fun j => (reqOf j).MilliCPU)).sum, (js.map (fun j => (reqOf j).Memory)).sum⟩

/-- The consumer as `buildConsumers` and the rounds of `Allocate` leave it for
the jobs `js` of its namespace: its request is the sum over `js`, and there
are jobs `granted`, which together with the jobs still queued are taken from
`js` without repetition, whose requests add up to `Deserved`. -/
def grantedFrom (c : consumer) (js : List JoQuotabInfo) : Prop :=
  c.Request = requestSum js ∧
  (c.Jobs.items.map Prod.fst).Nodup ∧
  ∃ granted : List JoQuotabInfo,
    (granted ++ c.Jobs.items.map Prod.snd).Subperm js ∧ c.Deserved = requestSum granted

/-- A namespace whose two jobs carry the same owner, so that the second takes
the place of the first in the queue of the consumer. -/
def sameOwnerJobs : List (String × List JoQuotabInfo) :=
  [("A", [mkJob "rc-a" "A" 1 1000 Gi, mkJob "rc-a" "A" 2 1000 Gi])]

/-- Every consumer of the state stands at the index of its namespace in the
jobs map and is as `grantedFrom` says. -/
def grantedAll (jobs : List (String × List JoQuotabInfo)) (d : drf) : Prop :=
  ∀ (i : Nat) (c : consumer), d.consumers[i]? = some c →
    ∃ p : String × List JoQuotabInfo, jobs[i]? = some p ∧ grantedFrom c p.2

/-- An amount that is an integer between 0 and `2^53`: a `float64` value, and
sums and differences of two such amounts are computed without rounding. -/
def exactAmount (q : ℚ) : Prop :=
  isInt q ∧ 0 ≤ q ∧ q ≤ 2 ^ 53

/-- Both amounts of the resource are integers between 0 and `2^53`. -/
def Resource.exact (r : Resource) : Prop :=
  exactAmount r.MilliCPU ∧ exactAmount r.Memory

/-- The `float64` nearest to 1/100, the tolerance of `LessEqual` on the CPU
axis; it is above 1/100 by about `2 * 10^-19`. -/
def tolerance64 : ℚ := 5764607523034235 / 576460752303423488

/-- A cluster of 300007 milli-CPU and 2Ti of memory. -/
def tieCluster : drf :=
  { total := ⟨300007, 2 * 1024 * 1024 * 1024 * 1024⟩,
    available := ⟨300007, 2 * 1024 * 1024 * 1024 * 1024⟩,
    consumers := [] }

/-- A consumer whose CPU demand ratio exceeds its memory demand ratio on
`tieCluster` by less than `10^-16`. -/
def tieConsumer : consumer :=
  { Name := "A", Share := Float64.fin 0,
    Deserved := ⟨1000, 1000000000000⟩,
    Request := ⟨163349, 1197332894803⟩,
    Jobs := NewFIFO }

/-- What is left of the group allocation `alloc` after the jobs `js` were
charged, as the loop of `Assign` computes it. -/
def restAfter (alloc : Resource) (js : List JoQuotabInfo) : Resource :=
  js.foldl (fun a j => a.Sub (reqOf j)) alloc

/-- Three jobs of one namespace, each entering `Assign` with zero
`Allocated`. -/
def assignJobs : List JoQuotabInfo :=
  [s1Job, mkJob "rc-b" "A" 1 1000 Gi, mkJob "rc-c" "A" 1 100 0]

/-- The states one round of the inner `for` of `Allocate` goes through after
its first statement, in program order, each with the request that at that
point has been added to a `Deserved` and not yet taken from `available`: the
state after `cache.Pop`, and, when the job is granted, the state between the
two updates of `d.allocate` and the state after `d.allocate`.  The state after
the share is stored is the state the next round starts from. -/
def drf.roundPoints (d : drf) (pq : PriorityQueue Nat) : List (drf × Resource) :=
  if d.available.IsEmpty || pq.Len == 0 then []
  else
    match pq.Pop with
    | none => []
    | some (ci, _) =>
      match d.consumers[ci]? with
      | none => []
      | some c =>
        if c.Jobs.Len == 0 then []
        else
          match c.Jobs.Pop with
          | none => []
          | some (job, jobs1) =>
            let c1 := { c with Jobs := jobs1 }
            let d1 := { d with consumers := d.consumers.set ci c1 }
            let req := job.RequestUnit.Clone.Multi job.Replicas
            if !req.LessEqual d1.available then [(d1, EmptyResource)]
            else
              let c2 := { c1 with Deserved := c1.Deserved.Add req }
              [(d1, EmptyResource),
               ({ d1 with consumers := d1.consumers.set ci c2 }, req),
               (drf.allocate d1 ci c1 req, EmptyResource)]

/-- The points the inner `for` goes through: the state at the start of every
round (the state at the `break` being the last of them) and the points inside
the round. -/
def drf.innerPoints : Nat → drf → PriorityQueue Nat → Bool → List (drf × Resource)
  | 0, d, _, _ => [(d, EmptyResource)]
  | fuel + 1, d, pq, allocatedOnce =>
    (d, EmptyResource) :: (drf.roundPoints d pq ++
      match drf.innerStep d pq allocatedOnce with
      | drf.Step.cont d1 pq1 a1 => drf.innerPoints fuel d1 pq1 a1
      | _ => [])

/-- The points the outer `for` goes through, pass after pass. -/
def drf.outerPoints : Nat → drf → List (drf × Resource)
  | 0, d => [(d, EmptyResource)]
  | fuel + 1, d =>
    drf.innerPoints (drf.innerFuel d) d (drf.sortConsumer d) false ++
      match drf.innerLoop (drf.innerFuel d) d (drf.sortConsumer d) false with
      | Run.ret (d1, true) => drf.outerPoints fuel d1
      | _ => []

/-- The points `Allocate` goes through after its initialisation. -/
def drf.allocatePoints (jobs : List (String × List JoQuotabInfo)) (nodes : List NodeInfo) :
    List (drf × Resource) :=
  drf.outerPoints (drf.queuedJobs (drf.initial jobs nodes) + 1) (drf.initial jobs nodes)

/-- What is available, the sum of what is deserved, and what is in flight
inside `d.allocate`. -/
def ledger (x : drf × Resource) : Resource × Resource × Resource :=
  (x.1.available, ⟨sumDeservedCPU x.1, sumDeservedMemory x.1⟩, x.2)

/-- The ledger of a point balances against the total `T` and holds exact
amounts only: what is available plus what is deserved is the total plus what
is in flight, and `available`, every `Deserved` and every `Request` are
integers between 0 and `2^53`. -/
def exactLedger (T : Resource) (x : drf × Resource) : Prop :=
  x.1.total = T ∧
  x.1.available.MilliCPU + sumDeservedCPU x.1 = T.MilliCPU + x.2.MilliCPU ∧
  x.1.available.Memory + sumDeservedMemory x.1 = T.Memory + x.2.Memory ∧
  x.1.available.exact ∧
  ∀ c ∈ x.1.consumers, c.Deserved.exact ∧ c.Request.exact

/-- The invariant of the rounds on exact inputs. -/
def headInv (T : Resource) (d : drf) : Prop :=
  d.total = T ∧ conserved d ∧ d.available.integral ∧ d.available.nonneg ∧
  (∀ c ∈ d.consumers, c.Deserved.integral ∧ c.Deserved.nonneg ∧ c.Request.exact) ∧
  queuedAll (fun j => (reqOf j).integral ∧ (reqOf j).nonneg) d

instance (q : ℚ) : Decidable (exactAmount q) :=
  decidable_of_iff (q.den = 1 ∧ 0 ≤ q.num ∧ q.num ≤ 2 ^ 53) (by
    constructor
    · rintro ⟨hd, h0, h1⟩
      have hq : ((q.num : Int) : ℚ) = q := (Rat.den_eq_one_iff q).1 hd
      refine ⟨⟨q.num, hq.symm⟩, ?_, ?_⟩
      · rw [← hq]; exact_mod_cast h0
      · rw [← hq]; exact_mod_cast h1
    · rintro ⟨⟨z, rfl⟩, h0, h1⟩
      refine ⟨Rat.den_intCast z, ?_, ?_⟩
      · rw [Rat.num_intCast]; exact_mod_cast h0
      · rw [Rat.num_intCast]; exact_mod_cast h1)

instance (r : Resource) : Decidable r.exact :=
  inferInstanceAs (Decidable (exactAmount r.MilliCPU ∧ exactAmount r.Memory))

/-- The S2 jobs map with namespace A first. -/
def s2Jobs : List (String × List JoQuotabInfo) :=
  [("A", [s2JobA]), ("B", [s2JobB])]

/-- The quota object `update` hands to `UpdateStatus` for a job. -/
def statusWrite (job : JoQuotabInfo) : JobQuota :=
  { job.JobQuota with
    Status := { Allocated := job.Allocated.ResourceList, Used := job.Used.ResourceList } }

/-- The groups after the loop over `allocs`, namespace by namespace: the jobs
of a namespace with an allocation went through `Assign`, the others are as
they were. -/
def assignedGroups (jobs : List (String × List JoQuotabInfo))
    (allocs : List (String × AllocationInfo)) : List (String × List JoQuotabInfo) :=
  jobs.map (fun p =>
    match mapGet allocs p.1 with
    | some a => (p.1, (drf.Assign p.2 a).1)
    | none => p)

/-- The orders of the three `range`s after `GetSnapshot` are enumerations of
the namespaces of the grouped jobs of the snapshot `jobs_`.  The keys of
`allocs` are these namespaces too, except that `allocs` is empty when there is
no node, where `rangeOver` yields nothing for any order. -/
def snapshotOrders (jobs_ : List JoQuotabInfo) (o : RangeOrders) : Prop :=
  o.consumers.Perm ((drf.Group jobs_).map Prod.fst) ∧
  o.allocs.Perm ((drf.Group jobs_).map Prod.fst) ∧
  o.groups.Perm ((drf.Group jobs_).map Prod.fst)

/-- The five orders are enumerations of the maps their `range`s go over in a
tick on the cache `c`. -/
def RangeOrders.valid (o : RangeOrders) (c : Cache) : Prop :=
  o.quotas.Perm (c.batchjobs.map Prod.fst) ∧ o.nodes.Perm (c.nodes.map Prod.fst) ∧
  snapshotOrders
    (Cache.GetSnapshot ⟨rangeOver c.batchjobs o.quotas, rangeOver c.nodes o.nodes⟩).1 o

/-- A quota of namespace B, of one replica that requests CPU and memory. -/
def otherQuota : JobQuota :=
  { Name := "q-b", Namespace := "B", OwnerReferences := [⟨"rc-3"⟩],
    Spec := ⟨1, [("cpu", ⟨1⟩), ("memory", ⟨Gi⟩)]⟩, Status := ⟨[], []⟩ }

/-- A cache with a quota in each of two namespaces and one node. -/
def twoTenantCache : Cache :=
  ((NewCache.AddNode s1NodeObject).AddJobQuota cpuOnlyQuota).AddJobQuota otherQuota

/-- Two ticks on `twoTenantCache` whose `range`s differ in the order of the
loop over `allocs` and of the loop of `update`. -/
def tenantOrdersAB : RangeOrders :=
  { quotas := ["rc-1", "rc-3"], nodes := ["n1"], consumers := ["A", "B"],
    allocs := ["A", "B"], groups := ["A", "B"] }
def tenantOrdersBA : RangeOrders :=
  { quotas := ["rc-1", "rc-3"], nodes := ["n1"], consumers := ["A", "B"],
    allocs := ["B", "A"], groups := ["B", "A"] }


/-! ## Association lists -/

theorem mapGet_mem {β : Type} (m : List (String × β)) (k : String) (v : β)
    (h : mapGet m k = some v) : (k, v) ∈ m := by
  induction m with
  | nil => simp [mapGet] at h
  | cons p t ih =>
    obtain ⟨k0, v0⟩ := p
    unfold mapGet at h ih
    rw [List.lookup_cons] at h
    by_cases hk : k = k0
    · subst hk
      simp at h
      subst h
      simp
    · have : (k == k0) = false := by simpa using hk
      rw [this] at h
      exact List.mem_cons_of_mem _ (ih h)

theorem mapGet_isSome_of_mem {β : Type} (m : List (String × β)) (p : String × β)
    (h : p ∈ m) : (mapGet m p.1).isSome = true := by
  induction m with
  | nil => simp at h
  | cons q t ih =>
    obtain ⟨k0, v0⟩ := q
    unfold mapGet at ih ⊢
    rw [List.lookup_cons]
    by_cases hk : p.1 = k0
    · simp [hk]
    · have hb : (p.1 == k0) = false := by simpa using hk
      rw [hb]
      rcases List.mem_cons.1 h with h1 | h1
      · exact absurd (by rw [h1]) hk
      · exact ih h1

theorem mapDelete_subset {β : Type} (m : List (String × β)) (k : String) (p : String × β)
    (h : p ∈ mapDelete m k) : p ∈ m ∧ p.1 ≠ k := by
  unfold mapDelete at h
  rw [List.mem_filter] at h
  exact ⟨h.1, by simpa using h.2⟩

theorem mapDelete_length_lt {β : Type} (m : List (String × β)) (k : String) (v : β)
    (h : mapGet m k = some v) : (mapDelete m k).length < m.length := by
  unfold mapDelete
  apply List.length_filter_lt_length_iff_exists.2
  exact ⟨(k, v), mapGet_mem m k v h, by simp⟩

theorem mapSet_mem {β : Type} (m : List (String × β)) (k : String) (v : β)
    (p : String × β) (h : p ∈ mapSet m k v) : p ∈ m ∨ p = (k, v) := by
  unfold mapSet at h
  split at h
  · obtain ⟨q, hq, rfl⟩ := List.mem_map.1 h
    by_cases hk : q.1 = k
    · right; simp [hk]
    · left; simpa [hk] using hq
  · rcases List.mem_append.1 h with h1 | h1
    · exact Or.inl h1
    · right; simpa using h1

/-! ## `cache.FIFO` -/

theorem popQueue_spec {α : Type} (items : List (String × α)) (q : List String)
    (obj : α) (f1 : FIFO α) (h : FIFO.popQueue items q = some (obj, f1)) :
    ∃ id, mapGet items id = some obj ∧ f1.items = mapDelete items id ∧
      ∀ k, (mapGet items k).isSome = true → k ≠ id → k ∈ q → k ∈ f1.queue := by
  induction q with
  | nil => simp [FIFO.popQueue] at h
  | cons id0 rest ih =>
    unfold FIFO.popQueue at h
    cases hg : mapGet items id0 with
    | some o =>
      rw [hg] at h
      simp only [Option.some.injEq, Prod.mk.injEq] at h
      obtain ⟨rfl, rfl⟩ := h
      refine ⟨id0, hg, rfl, ?_⟩
      intro k _ hne hk
      rcases List.mem_cons.1 hk with h1 | h1
      · exact absurd h1 hne
      · exact h1
    | none =>
      rw [hg] at h
      obtain ⟨id, h1, h2, h3⟩ := ih h
      refine ⟨id, h1, h2, ?_⟩
      intro k hs hne hk
      rcases List.mem_cons.1 hk with h4 | h4
      · subst h4
        rw [hg] at hs
        simp at hs
      · exact h3 k hs hne h4

theorem popQueue_isSome {α : Type} (items : List (String × α)) (q : List String)
    (h : ∃ k ∈ q, (mapGet items k).isSome = true) :
    (FIFO.popQueue items q).isSome = true := by
  induction q with
  | nil => simp at h
  | cons id0 rest ih =>
    unfold FIFO.popQueue
    cases hg : mapGet items id0 with
    | some o => simp
    | none =>
      simp only
      apply ih
      obtain ⟨k, hk, hs⟩ := h
      rcases List.mem_cons.1 hk with h4 | h4
      · subst h4
        rw [hg] at hs
        simp at hs
      · exact ⟨k, h4, hs⟩

theorem fifo_pop_spec {α : Type} (f f1 : FIFO α) (obj : α) (h : f.Pop = some (obj, f1)) :
    (∃ id, (id, obj) ∈ f.items) ∧ f1.Len < f.Len ∧ (∀ p ∈ f1.items, p ∈ f.items) ∧
      (fifoWF f → fifoWF f1) := by
  obtain ⟨id, h1, h2, h3⟩ := popQueue_spec f.items f.queue obj f1 h
  refine ⟨⟨id, mapGet_mem _ _ _ h1⟩, ?_, ?_, ?_⟩
  · unfold FIFO.Len
    rw [h2]
    exact mapDelete_length_lt _ _ _ h1
  · intro p hp
    rw [h2] at hp
    exact (mapDelete_subset _ _ _ hp).1
  · intro hwf p hp
    rw [h2] at hp
    have hp2 := mapDelete_subset _ _ _ hp
    exact h3 p.1 (mapGet_isSome_of_mem _ _ hp2.1) hp2.2 (hwf p hp2.1)

theorem fifo_pop_isSome {α : Type} (f : FIFO α) (hwf : fifoWF f) (hlen : f.Len ≠ 0) :
    ∃ obj f1, f.Pop = some (obj, f1) := by
  have hne : f.items ≠ [] := by
    intro h0
    apply hlen
    simp [FIFO.Len, h0]
  obtain ⟨p, hp⟩ := List.exists_mem_of_ne_nil _ hne
  have hs := popQueue_isSome f.items f.queue ⟨p.1, hwf p hp, mapGet_isSome_of_mem _ _ hp⟩
  cases hq : FIFO.popQueue f.items f.queue with
  | none => rw [hq] at hs; simp at hs
  | some r => exact ⟨r.1, r.2, hq⟩

theorem fifo_add_wf {α : Type} (f : FIFO α) (id : String) (obj : α) (hwf : fifoWF f) :
    fifoWF (f.Add id obj) := by
  intro p hp
  unfold FIFO.Add at hp ⊢
  simp only at hp ⊢
  rcases mapSet_mem _ _ _ _ hp with h | h
  · have := hwf p h
    split
    · exact this
    · exact List.mem_append_left _ this
  · subst h
    simp only
    split
    · rename_i hs
      cases hg : mapGet f.items id with
      | none => rw [hg] at hs; simp at hs
      | some v => exact hwf (id, v) (mapGet_mem _ _ _ hg)
    · simp

theorem fifo_add_items {α : Type} (f : FIFO α) (id : String) (obj : α) (p : String × α)
    (hp : p ∈ (f.Add id obj).items) : p ∈ f.items ∨ p.2 = obj := by
  rcases mapSet_mem _ _ _ _ hp with h | h
  · exact Or.inl h
  · right; rw [h]


/-! ## The heap: size and content -/

theorem swap_length {α : Type} (pq : priorityQueue α) (i j : Nat) :
    (priorityQueue.Swap pq i j).length = pq.length := by
  unfold priorityQueue.Swap
  split <;> simp

theorem swap_mem {α : Type} (pq : priorityQueue α) (i j : Nat) (x : item α)
    (h : x ∈ priorityQueue.Swap pq i j) : x ∈ pq := by
  unfold priorityQueue.Swap at h
  split at h
  · rename_i a b ha hb
    have ha2 : a ∈ pq := List.getElem?_mem ha
    have hb2 : b ∈ pq := List.getElem?_mem hb
    rcases List.mem_or_eq_of_mem_set h with h1 | h1
    · rcases List.mem_or_eq_of_mem_set h1 with h2 | h2
      · exact h2
      · rw [h2]; exact hb2
    · rw [h1]; exact ha2
  · exact h

theorem heapUp_length {α : Type} (fuel : Nat) (h : priorityQueue α) (j : Nat) :
    (heapUp fuel h j).length = h.length := by
  induction fuel generalizing h j with
  | zero => rfl
  | succ n ih =>
    unfold heapUp
    simp only
    split
    · rfl
    · rw [ih, swap_length]

theorem heapUp_mem {α : Type} (fuel : Nat) (h : priorityQueue α) (j : Nat) (x : item α)
    (hx : x ∈ heapUp fuel h j) : x ∈ h := by
  induction fuel generalizing h j with
  | zero => exact hx
  | succ n ih =>
    unfold heapUp at hx
    simp only at hx
    split at hx
    · exact hx
    · exact swap_mem _ _ _ _ (ih _ _ hx)

theorem heapDown_length {α : Type} (fuel : Nat) (h : priorityQueue α) (i n : Nat) :
    (heapDown fuel h i n).length = h.length := by
  induction fuel generalizing h i with
  | zero => rfl
  | succ m ih =>
    have key : ∀ j, (if (!h.Less j i) = true then h
        else heapDown m (h.Swap i j) j n).length = h.length := by
      intro j
      split
      · rfl
      · rw [ih, swap_length]
    unfold heapDown
    simp only
    split
    · rfl
    · split <;> exact key _

theorem heapDown_mem {α : Type} (fuel : Nat) (h : priorityQueue α) (i n : Nat) (x : item α)
    (hx : x ∈ heapDown fuel h i n) : x ∈ h := by
  induction fuel generalizing h i with
  | zero => exact hx
  | succ m ih =>
    have key : ∀ j, x ∈ (if (!h.Less j i) = true then h
        else heapDown m (h.Swap i j) j n) → x ∈ h := by
      intro j hj
      split at hj
      · exact hj
      · exact swap_mem _ _ _ _ (ih _ _ hj)
    unfold heapDown at hx
    simp only at hx
    split at hx
    · exact hx
    · split at hx <;> exact key _ hx

theorem heapPush_length {α : Type} (h : priorityQueue α) (x : item α) :
    (heapPush h x).length = h.length + 1 := by
  unfold heapPush
  simp only
  rw [heapUp_length]
  simp [priorityQueue.Push]

theorem heapPush_mem {α : Type} (h : priorityQueue α) (x y : item α)
    (hy : y ∈ heapPush h x) : y ∈ h ∨ y = x := by
  unfold heapPush at hy
  simp only at hy
  have := heapUp_mem _ _ _ _ hy
  simpa [priorityQueue.Push] using this

theorem heapPop_spec {α : Type} (h : priorityQueue α) (hne : h.length ≠ 0) :
    ∃ x h1, heapPop h = some (x, h1) ∧ h1.length + 1 = h.length ∧ x ∈ h ∧
      ∀ y ∈ h1, y ∈ h := by
  unfold heapPop
  simp only [priorityQueue.Len, hne, if_false]
  set g := heapDown (h.length - 1) (priorityQueue.Swap h 0 (h.length - 1)) 0 (h.length - 1)
    with hg
  have hlen : g.length = h.length := by
    rw [hg, heapDown_length, swap_length]
  have hmem : ∀ y ∈ g, y ∈ h := by
    intro y hy
    rw [hg] at hy
    exact swap_mem _ _ _ _ (heapDown_mem _ _ _ _ _ hy)
  have hgne : g ≠ [] := by
    intro h0
    rw [h0] at hlen
    exact hne hlen.symm
  unfold priorityQueue.Pop
  rw [List.getLast?_eq_getLast _ hgne]
  refine ⟨g.getLast hgne, g.dropLast, rfl, ?_, ?_, ?_⟩
  · rw [List.length_dropLast, ← hlen]
    have : 0 < g.length := List.length_pos.2 hgne
    omega
  · exact hmem _ (List.getLast_mem hgne)
  · intro y hy
    exact hmem _ (List.dropLast_subset g hy)

theorem heapPop_none {α : Type} (h : priorityQueue α) (h0 : h.length = 0) :
    heapPop h = none := by
  unfold heapPop
  simp [priorityQueue.Len, h0]

/-! ## `PriorityQueue` -/

theorem pq_push_len {α : Type} (pq : PriorityQueue α) (x : α) (prio : Float64) :
    (pq.Push x prio).Len = pq.Len + 1 := by
  simp [PriorityQueue.Push, PriorityQueue.Len, priorityQueue.Len, heapPush_length]

theorem pq_push_mem {α : Type} (pq : PriorityQueue α) (x : α) (prio : Float64) (y : item α)
    (hy : y ∈ (pq.Push x prio).queue) : y ∈ pq.queue ∨ y.Value = x := by
  rcases heapPush_mem _ _ _ hy with h | h
  · exact Or.inl h
  · right; rw [h]

theorem pq_pop_spec {α : Type} (pq : PriorityQueue α) (hne : pq.Len ≠ 0) :
    ∃ x pq1, pq.Pop = some (x, pq1) ∧ pq1.Len + 1 = pq.Len ∧
      (∃ it ∈ pq.queue, it.Value = x) ∧ ∀ y ∈ pq1.queue, y ∈ pq.queue := by
  obtain ⟨it, h1, hp, hl, hm, hs⟩ := heapPop_spec pq.queue hne
  refine ⟨it.Value, ⟨h1⟩, ?_, hl, ⟨it, hm, rfl⟩, hs⟩
  simp [PriorityQueue.Pop, hp]

theorem pq_pop_some {α : Type} (pq pq1 : PriorityQueue α) (x : α)
    (h : pq.Pop = some (x, pq1)) :
    pq1.Len + 1 = pq.Len ∧ (∃ it ∈ pq.queue, it.Value = x) ∧
      ∀ y ∈ pq1.queue, y ∈ pq.queue := by
  by_cases hne : pq.Len = 0
  · have : pq.Pop = none := by
      simp [PriorityQueue.Pop, heapPop_none pq.queue hne]
    rw [this] at h
    simp at h
  · obtain ⟨x2, pq2, h2, hl, hm, hs⟩ := pq_pop_spec pq hne
    rw [h2] at h
    simp only [Option.some.injEq, Prod.mk.injEq] at h
    obtain ⟨rfl, rfl⟩ := h
    exact ⟨hl, hm, hs⟩


/-! ## One round of the inner loop of `Allocate` -/

/-- The three moves of a round that continues: the popped consumer has no job
left; its next job does not fit and is dropped; its next job is granted. -/
theorem innerStep_cont (d : drf) (pq : PriorityQueue Nat) (a : Bool) (d1 : drf)
    (pq1 : PriorityQueue Nat) (a1 : Bool)
    (h : drf.innerStep d pq a = drf.Step.cont d1 pq1 a1) :
    d.available.IsEmpty = false ∧
    ∃ ci pq0 c, pq.Pop = some (ci, pq0) ∧ d.consumers[ci]? = some c ∧
      ((c.Jobs.Len = 0 ∧ d1 = d ∧ pq1 = pq0 ∧ a1 = a) ∨
       (∃ job jobs1, c.Jobs.Pop = some (job, jobs1) ∧
          (((reqOf job).LessEqual d.available = false ∧
              d1 = { d with consumers := d.consumers.set ci { c with Jobs := jobs1 } } ∧
              pq1 = pq0 ∧ a1 = a) ∨
           ((reqOf job).LessEqual d.available = true ∧
              ∃ sh, d1 = { total := d.total,
                           available := d.available.Sub (reqOf job),
                           consumers := d.consumers.set ci
                             { c with Jobs := jobs1,
                                      Deserved := c.Deserved.Add (reqOf job),
                                      Share := sh } } ∧
                pq1 = pq0.Push ci sh ∧ a1 = true)))) := by
  unfold drf.innerStep at h
  split at h
  · cases h
  · rename_i hbrk
    have hemp : d.available.IsEmpty = false := by
      simp only [Bool.or_eq_true, not_or, Bool.not_eq_true] at hbrk
      exact hbrk.1
    refine ⟨hemp, ?_⟩
    split at h
    · cases h
    · rename_i ci pq0 hpop
      split at h
      · cases h
      · rename_i c hc
        refine ⟨ci, pq0, c, hpop, hc, ?_⟩
        split at h
        · rename_i hlen
          left
          simp only [drf.Step.cont.injEq] at h
          obtain ⟨rfl, rfl, rfl⟩ := h
          exact ⟨by simpa using hlen, rfl, rfl, rfl⟩
        · right
          split at h
          · cases h
          · rename_i job jobs1 hjp
            refine ⟨job, jobs1, hjp, ?_⟩
            have hci : ci < d.consumers.length := by
              rcases List.getElem?_eq_some_iff.1 hc with ⟨hlt, _⟩
              exact hlt
            simp only at h
            split at h
            · rename_i hle
              left
              simp only [drf.Step.cont.injEq] at h
              obtain ⟨rfl, rfl, rfl⟩ := h
              exact ⟨by simpa [reqOf] using hle, rfl, rfl, rfl⟩
            · rename_i hle
              right
              have hle2 : (reqOf job).LessEqual d.available = true := by
                simpa [reqOf] using hle
              refine ⟨hle2, ?_⟩
              simp only [drf.allocate, List.set_set, List.getElem?_set_self, hci,
                List.length_set] at h
              simp only [drf.Step.cont.injEq] at h
              obtain ⟨rfl, rfl, rfl⟩ := h
              exact ⟨_, rfl, rfl, rfl⟩

/-- Under the two well-formedness conditions a round never faults. -/
theorem innerStep_no_fault (d : drf) (pq : PriorityQueue Nat) (a : Bool)
    (hwf : consumersWF d) (hpq : pqValid d pq) :
    drf.innerStep d pq a ≠ drf.Step.fault := by
  unfold drf.innerStep
  split
  · simp
  · rename_i hbrk
    have hlen : pq.Len ≠ 0 := by
      simp only [Bool.or_eq_true, not_or, Bool.not_eq_true] at hbrk
      simpa using hbrk.2
    obtain ⟨ci, pq0, hpop, _, ⟨it, hit, hv⟩, _⟩ := pq_pop_spec pq hlen
    rw [hpop]
    simp only
    have hci : ci < d.consumers.length := by
      rw [← hv]
      exact hpq it hit
    rw [List.getElem?_eq_getElem hci]
    simp only
    split
    · simp
    · rename_i hjl
      have hmem : d.consumers[ci] ∈ d.consumers := List.getElem_mem hci
      obtain ⟨job, jobs1, hjp⟩ := fifo_pop_isSome d.consumers[ci].Jobs (hwf _ hmem)
        (by simpa using hjl)
      rw [hjp]
      simp only
      split
      · simp
      · simp [drf.allocate, hci]


/-! ## Effect of a round on the counters and on the resources -/

theorem sum_map_set {M : Type} [AddCommMonoid M] (f : consumer → M) (l : List consumer)
    (i : Nat) (a b : consumer) (h : l[i]? = some a) :
    ((l.set i b).map f).sum + f a = (l.map f).sum + f b := by
  induction l generalizing i with
  | nil => simp at h
  | cons x t ih =>
    cases i with
    | zero =>
      simp only [List.getElem?_cons_zero, Option.some.injEq] at h
      subst h
      simp only [List.set_cons_zero, List.map_cons, List.sum_cons]
      abel
    | succ n =>
      simp only [List.getElem?_cons_succ] at h
      simp only [List.set_cons_succ, List.map_cons, List.sum_cons, add_assoc]
      rw [ih n h]

theorem queuedJobs_set (d : drf) (ci : Nat) (c c1 : consumer) (h : d.consumers[ci]? = some c) :
    drf.queuedJobs { d with consumers := d.consumers.set ci c1 } + c.Jobs.Len
      = drf.queuedJobs d + c1.Jobs.Len := by
  unfold drf.queuedJobs
  exact sum_map_set (fun c => c.Jobs.Len) d.consumers ci c c1 h

theorem innerStep_effect (d : drf) (pq : PriorityQueue Nat) (a : Bool) (d1 : drf)
    (pq1 : PriorityQueue Nat) (a1 : Bool)
    (h : drf.innerStep d pq a = drf.Step.cont d1 pq1 a1) :
    d1.total = d.total ∧ d1.consumers.length = d.consumers.length ∧
    (consumersWF d → consumersWF d1) ∧ (pqValid d pq → pqValid d1 pq1) ∧
    drf.queuedJobs d1 ≤ drf.queuedJobs d ∧
    pq1.Len + 2 * drf.queuedJobs d1 < pq.Len + 2 * drf.queuedJobs d ∧
    (pq1.Len + 1 = pq.Len ∨ drf.queuedJobs d1 < drf.queuedJobs d) ∧
    (a1 = true → a = true ∨ drf.queuedJobs d1 < drf.queuedJobs d) ∧
    (a = true → a1 = true) := by
  obtain ⟨_, ci, pq0, c, hpop, hc, hcase⟩ := innerStep_cont d pq a d1 pq1 a1 h
  obtain ⟨hlen, ⟨it, hit, hv⟩, hsub⟩ := pq_pop_some pq pq0 ci hpop
  have hci : ci < d.consumers.length := (List.getElem?_eq_some_iff.1 hc).1
  have hcm : c ∈ d.consumers := List.getElem?_mem hc
  -- the effect of replacing the consumer by one with the popped FIFO
  have hset : ∀ (c1 : consumer) (job : JoQuotabInfo), c.Jobs.Pop = some (job, c1.Jobs) →
      (consumersWF d → consumersWF { d with consumers := d.consumers.set ci c1 }) ∧
      drf.queuedJobs { d with consumers := d.consumers.set ci c1 } < drf.queuedJobs d := by
    intro c1 job hjp
    obtain ⟨_, hlt, _, hwf1⟩ := fifo_pop_spec c.Jobs c1.Jobs job hjp
    constructor
    · intro hwf x hx
      rcases List.mem_or_eq_of_mem_set hx with h1 | h1
      · exact hwf x h1
      · rw [h1]
        exact hwf1 (hwf c hcm)
    · have := queuedJobs_set d ci c c1 hc
      omega
  rcases hcase with ⟨_, rfl, rfl, rfl⟩ | ⟨job, jobs1, hjp, hcase2⟩
  · refine ⟨rfl, rfl, id, ?_, le_refl _, by omega, Or.inl hlen, fun h => Or.inl h, id⟩
    intro hv2 y hy
    exact hv2 y (hsub y hy)
  · rcases hcase2 with ⟨_, rfl, rfl, rfl⟩ | ⟨_, sh, rfl, rfl, rfl⟩
    · obtain ⟨hw, hq⟩ := hset { c with Jobs := jobs1 } job hjp
      refine ⟨rfl, by simp, hw, ?_, le_of_lt hq, by omega, Or.inr hq, fun h => Or.inl h, id⟩
      intro hv2 y hy
      simpa using hv2 y (hsub y hy)
    · obtain ⟨hw, hq⟩ := hset
        { c with Jobs := jobs1, Deserved := c.Deserved.Add (reqOf job), Share := sh } job hjp
      have hq2 : drf.queuedJobs
          { total := d.total, available := d.available.Sub (reqOf job),
            consumers := d.consumers.set ci
              { c with Jobs := jobs1, Deserved := c.Deserved.Add (reqOf job), Share := sh } }
          < drf.queuedJobs d := hq
      refine ⟨rfl, by simp, hw, ?_, le_of_lt hq2, ?_, Or.inr hq2, fun _ => Or.inr hq2,
        fun _ => rfl⟩
      · intro hv2 y hy
        rcases pq_push_mem _ _ _ _ hy with h1 | h1
        · simpa using hv2 y (hsub y h1)
        · rw [h1]
          simpa using hci
      · rw [pq_push_len]
        omega


/-! ## The loops of `Allocate` -/

theorem innerLoop_preserves (I : drf → Prop)
    (hI : ∀ d pq a d1 pq1 a1, I d → drf.innerStep d pq a = drf.Step.cont d1 pq1 a1 → I d1)
    (fuel : Nat) (d : drf) (pq : PriorityQueue Nat) (a : Bool) (d1 : drf) (a1 : Bool)
    (h0 : I d) (h : drf.innerLoop fuel d pq a = Run.ret (d1, a1)) : I d1 := by
  induction fuel generalizing d pq a with
  | zero => simp [drf.innerLoop] at h
  | succ n ih =>
    unfold drf.innerLoop at h
    split at h
    · simp only [Run.ret.injEq, Prod.mk.injEq] at h
      rw [← h.1]
      exact h0
    · cases h
    · rename_i d2 pq2 a2 hs
      exact ih d2 pq2 a2 (hI d pq a d2 pq2 a2 h0 hs) h

theorem outerLoop_preserves (I : drf → Prop)
    (hI : ∀ d pq a d1 pq1 a1, I d → drf.innerStep d pq a = drf.Step.cont d1 pq1 a1 → I d1)
    (fuel : Nat) (d : drf) (n : Nat) (d1 : drf) (p : Nat)
    (h0 : I d) (h : drf.outerLoop fuel d n = Run.ret (d1, p)) : I d1 := by
  induction fuel generalizing d n with
  | zero => simp [drf.outerLoop] at h
  | succ m ih =>
    unfold drf.outerLoop at h
    split at h
    · rename_i d2 hin
      exact ih d2 (n + 1) (innerLoop_preserves I hI _ _ _ _ _ _ h0 hin) h
    · rename_i d2 hin
      simp only [Run.ret.injEq, Prod.mk.injEq] at h
      rw [← h.1]
      exact innerLoop_preserves I hI _ _ _ _ _ _ h0 hin
    · cases h
    · cases h

/-- What a returning run of the inner loop does to the job counter. -/
theorem innerLoop_ret_effect (fuel : Nat) (d : drf) (pq : PriorityQueue Nat) (a : Bool)
    (d1 : drf) (a1 : Bool) (h : drf.innerLoop fuel d pq a = Run.ret (d1, a1)) :
    (consumersWF d → consumersWF d1) ∧
    drf.queuedJobs d1 ≤ drf.queuedJobs d ∧
    (a1 = true → a = true ∨ drf.queuedJobs d1 < drf.queuedJobs d) := by
  induction fuel generalizing d pq a with
  | zero => simp [drf.innerLoop] at h
  | succ n ih =>
    unfold drf.innerLoop at h
    split at h
    · simp only [Run.ret.injEq, Prod.mk.injEq] at h
      obtain ⟨rfl, rfl⟩ := h
      exact ⟨id, le_refl _, fun h => Or.inl h⟩
    · cases h
    · rename_i d2 pq2 a2 hs
      obtain ⟨_, _, hw, _, hq, _, _, ha, _⟩ := innerStep_effect d pq a d2 pq2 a2 hs
      obtain ⟨hw2, hq2, ha2⟩ := ih d2 pq2 a2 h
      refine ⟨fun x => hw2 (hw x), le_trans hq2 hq, ?_⟩
      intro h1
      rcases ha2 h1 with h2 | h2
      · rcases ha h2 with h3 | h3
        · exact Or.inl h3
        · exact Or.inr (lt_of_le_of_lt hq2 h3)
      · exact Or.inr (lt_of_lt_of_le h2 hq)

/-- With well-formed FIFOs, valid queue entries and enough fuel the inner loop
reaches its `break`. -/
theorem innerLoop_returns (fuel : Nat) (d : drf) (pq : PriorityQueue Nat) (a : Bool)
    (hwf : consumersWF d) (hpq : pqValid d pq)
    (hfuel : pq.Len + 2 * drf.queuedJobs d < fuel) :
    ∃ d1 a1, drf.innerLoop fuel d pq a = Run.ret (d1, a1) := by
  induction fuel generalizing d pq a with
  | zero => omega
  | succ n ih =>
    unfold drf.innerLoop
    cases hs : drf.innerStep d pq a with
    | brk => exact ⟨d, a, rfl⟩
    | fault => exact absurd hs (innerStep_no_fault d pq a hwf hpq)
    | cont d2 pq2 a2 =>
      obtain ⟨_, _, hw, hv, _, hm, _, _, _⟩ := innerStep_effect d pq a d2 pq2 a2 hs
      exact ih d2 pq2 a2 (hw hwf) (hv hpq) (by omega)

theorem pushConsumers_spec (rest : List consumer) (pq : PriorityQueue Nat) (i N : Nat)
    (hpq : ∀ it ∈ pq.queue, it.Value < N) (hN : i + rest.length ≤ N) :
    (∀ it ∈ (drf.pushConsumers pq i rest).queue, it.Value < N) ∧
    (drf.pushConsumers pq i rest).Len = pq.Len + rest.length := by
  induction rest generalizing pq i with
  | nil => exact ⟨hpq, by simp [drf.pushConsumers]⟩
  | cons c t ih =>
    unfold drf.pushConsumers
    simp only [List.length_cons] at hN
    have h1 : ∀ it ∈ (pq.Push i c.Priority).queue, it.Value < N := by
      intro it hit
      rcases pq_push_mem _ _ _ _ hit with h | h
      · exact hpq it h
      · rw [h]; omega
    obtain ⟨h2, h3⟩ := ih (pq.Push i c.Priority) (i + 1) h1 (by omega)
    refine ⟨h2, ?_⟩
    rw [h3, pq_push_len]
    simp only [List.length_cons]
    omega

theorem sortConsumer_spec (d : drf) :
    pqValid d (drf.sortConsumer d) ∧ (drf.sortConsumer d).Len = d.consumers.length := by
  have h := pushConsumers_spec d.consumers NewPriorityQueue 0 d.consumers.length
    (by simp [NewPriorityQueue]) (by omega)
  refine ⟨h.1, ?_⟩
  have h2 := h.2
  simpa [drf.sortConsumer, NewPriorityQueue, PriorityQueue.Len, priorityQueue.Len] using h2

/-- The outer loop returns after at most `queuedJobs d + 1` passes. -/
theorem outerLoop_returns (fuel : Nat) (d : drf) (n : Nat) (hwf : consumersWF d)
    (hfuel : drf.queuedJobs d < fuel) :
    ∃ d1 p, drf.outerLoop fuel d n = Run.ret (d1, p) ∧ n + 1 ≤ p ∧
      p ≤ n + drf.queuedJobs d + 1 := by
  induction fuel generalizing d n with
  | zero => omega
  | succ m ih =>
    obtain ⟨hv, hl⟩ := sortConsumer_spec d
    obtain ⟨d1, a1, hin⟩ := innerLoop_returns (drf.innerFuel d) d (drf.sortConsumer d) false
      hwf hv (by unfold drf.innerFuel; omega)
    obtain ⟨hw1, hq1, ha1⟩ := innerLoop_ret_effect _ _ _ _ _ _ hin
    unfold drf.outerLoop
    rw [hin]
    cases a1 with
    | false => exact ⟨d1, n + 1, rfl, le_refl _, by omega⟩
    | true =>
      simp only
      have hlt : drf.queuedJobs d1 < drf.queuedJobs d := by
        rcases ha1 rfl with h | h
        · cases h
        · exact h
      obtain ⟨d2, p, h2, h3, h4⟩ := ih d1 (n + 1) (hw1 hwf) (by omega)
      exact ⟨d2, p, h2, by omega, by omega⟩

/-! ## The consumers `Allocate` starts from -/

theorem buildConsumer_spec (P : JoQuotabInfo → Prop) (jobs : List JoQuotabInfo)
    (c : consumer) (hwf : fifoWF c.Jobs) (hP : ∀ p ∈ c.Jobs.items, P p.2)
    (hj : ∀ j ∈ jobs, P j) :
    let c1 := jobs.foldl (fun (c : consumer) job =>
      { c with
        Jobs := c.Jobs.Add (BatchJobInfoKeyFunc job) job,
        Request := c.Request.Add (job.RequestUnit.Clone.Multi job.Replicas) }) c
    fifoWF c1.Jobs ∧ (∀ p ∈ c1.Jobs.items, P p.2) ∧ c1.Deserved = c.Deserved ∧
      c1.Jobs.Len ≤ c.Jobs.Len + jobs.length := by
  induction jobs generalizing c with
  | nil => exact ⟨hwf, hP, rfl, by simp⟩
  | cons job rest ih =>
    simp only [List.foldl_cons]
    have h1 : fifoWF (c.Jobs.Add (BatchJobInfoKeyFunc job) job) := fifo_add_wf _ _ _ hwf
    have h2 : ∀ p ∈ (c.Jobs.Add (BatchJobInfoKeyFunc job) job).items, P p.2 := by
      intro p hp
      rcases fifo_add_items _ _ _ _ hp with h | h
      · exact hP p h
      · rw [h]; exact hj job (List.mem_cons_self _ _)
    have h3 := ih
      { c with
        Jobs := c.Jobs.Add (BatchJobInfoKeyFunc job) job,
        Request := c.Request.Add (job.RequestUnit.Clone.Multi job.Replicas) }
      h1 h2 (fun j hj2 => hj j (List.mem_cons_of_mem _ hj2))
    simp only at h3
    refine ⟨h3.1, h3.2.1, h3.2.2.1, ?_⟩
    have h4 := h3.2.2.2
    have h5 : (c.Jobs.Add (BatchJobInfoKeyFunc job) job).Len ≤ c.Jobs.Len + 1 := by
      unfold FIFO.Len FIFO.Add mapSet
      simp only
      split <;> simp
    simp only [List.length_cons]
    omega


theorem buildConsumers_spec (P : JoQuotabInfo → Prop)
    (jobs : List (String × List JoQuotabInfo)) (hj : ∀ p ∈ jobs, ∀ j ∈ p.2, P j) :
    (∀ c ∈ drf.buildConsumers jobs,
      fifoWF c.Jobs ∧ (∀ p ∈ c.Jobs.items, P p.2) ∧ c.Deserved = EmptyResource) ∧
    ((drf.buildConsumers jobs).map (fun c => c.Jobs.Len)).sum ≤ totalJobs jobs := by
  induction jobs with
  | nil => simp [drf.buildConsumers, totalJobs]
  | cons p rest ih =>
    have h0 := buildConsumer_spec P p.2
      { Name := p.1, Share := Float64.fin 0, Jobs := NewFIFO, Request := EmptyResource,
        Deserved := EmptyResource }
      (by intro q hq; simp [NewFIFO] at hq) (by intro q hq; simp [NewFIFO] at hq)
      (hj p (List.mem_cons_self _ _))
    simp only at h0
    obtain ⟨ih1, ih2⟩ := ih (fun q hq => hj q (List.mem_cons_of_mem _ hq))
    constructor
    · intro c hc
      unfold drf.buildConsumers at hc
      rcases List.mem_map.1 hc with ⟨q, hq, rfl⟩
      rcases List.mem_cons.1 hq with h1 | h1
      · subst h1
        exact ⟨h0.1, h0.2.1, h0.2.2.1⟩
      · exact ih1 _ (List.mem_map.2 ⟨q, h1, rfl⟩)
    · have h4 := h0.2.2.2
      simp only [FIFO.Len, NewFIFO, List.length_nil, Nat.zero_add] at h4
      unfold drf.buildConsumers at ih2 ⊢
      simp only [totalJobs, List.map_cons, List.sum_cons, FIFO.Len] at ih2 ⊢
      exact Nat.add_le_add h4 ih2

theorem initial_spec (P : JoQuotabInfo → Prop) (jobs : List (String × List JoQuotabInfo))
    (nodes : List NodeInfo) (hj : ∀ p ∈ jobs, ∀ j ∈ p.2, P j) :
    consumersWF (drf.initial jobs nodes) ∧ queuedAll P (drf.initial jobs nodes) ∧
    (∀ c ∈ (drf.initial jobs nodes).consumers, c.Deserved = EmptyResource) ∧
    drf.queuedJobs (drf.initial jobs nodes) ≤ totalJobs jobs ∧
    (drf.initial jobs nodes).total = clusterTotal nodes ∧
    (drf.initial jobs nodes).available = clusterTotal nodes := by
  obtain ⟨h1, h2⟩ := buildConsumers_spec P jobs hj
  exact ⟨fun c hc => (h1 c hc).1, fun c hc => (h1 c hc).2.1, fun c hc => (h1 c hc).2.2, h2,
    rfl, rfl⟩

theorem sum_eq_zero_of_all_zero (l : List consumer) (f : consumer → ℚ)
    (h : ∀ c ∈ l, f c = 0) : (l.map f).sum = 0 := by
  induction l with
  | nil => simp
  | cons a t ih =>
    simp only [List.map_cons, List.sum_cons]
    rw [h a (List.mem_cons_self _ _), ih (fun c hc => h c (List.mem_cons_of_mem _ hc))]
    simp

theorem clusterTotal_closed (P : Resource → Prop) (hadd : ∀ r rr, P r → P rr → P (r.Add rr))
    (nodes : List NodeInfo) (acc : Resource) (hacc : P acc)
    (hn : ∀ n ∈ nodes, P n.Allocatable) :
    P (nodes.foldl (fun r node => r.Add node.Allocatable) acc) := by
  induction nodes generalizing acc with
  | nil => exact hacc
  | cons n t ih =>
    simp only [List.foldl_cons]
    exact ih _ (hadd _ _ hacc (hn n (List.mem_cons_self _ _)))
      (fun m hm => hn m (List.mem_cons_of_mem _ hm))

/-! ## Resource algebra -/

theorem lessEqual_bound (r rr : Resource) (h : r.LessEqual rr = true) :
    r.MilliCPU - rr.MilliCPU < 1 / 100 ∧ r.Memory - rr.Memory < 1 := by
  simp only [Resource.LessEqual, Bool.and_eq_true, Bool.or_eq_true, decide_eq_true_eq] at h
  obtain ⟨h1, h2⟩ := h
  constructor
  · rcases h1 with h1 | h1
    · linarith
    · exact (abs_lt.1 h1).2
  · rcases h2 with h2 | h2
    · linarith
    · exact (abs_lt.1 h2).2

theorem lessEqual_of_le (r rr : Resource) (h1 : r.MilliCPU ≤ rr.MilliCPU)
    (h2 : r.Memory ≤ rr.Memory) : r.LessEqual rr = true := by
  simp only [Resource.LessEqual, Bool.and_eq_true, Bool.or_eq_true, decide_eq_true_eq]
  constructor
  · rcases lt_or_eq_of_le h1 with h | h
    · exact Or.inl h
    · right; rw [h]; norm_num
  · rcases lt_or_eq_of_le h2 with h | h
    · exact Or.inl h
    · right; rw [h]; norm_num

theorem isInt_add (a b : ℚ) (ha : isInt a) (hb : isInt b) : isInt (a + b) := by
  obtain ⟨x, rfl⟩ := ha
  obtain ⟨y, rfl⟩ := hb
  exact ⟨x + y, by push_cast; rfl⟩

theorem isInt_sub (a b : ℚ) (ha : isInt a) (hb : isInt b) : isInt (a - b) := by
  obtain ⟨x, rfl⟩ := ha
  obtain ⟨y, rfl⟩ := hb
  exact ⟨x - y, by push_cast; rfl⟩

theorem isInt_mul_int (a : ℚ) (z : Int) (ha : isInt a) : isInt (a * (z : ℚ)) := by
  obtain ⟨x, rfl⟩ := ha
  exact ⟨x * z, by push_cast; rfl⟩

/-- An integer above `-1` is not negative. -/
theorem isInt_nonneg (a t : ℚ) (ha : isInt a) (ht : t ≤ 1) (h : -t < a) : 0 ≤ a := by
  obtain ⟨x, rfl⟩ := ha
  have h1 : (-1 : ℚ) < (x : ℚ) := by linarith
  have h2 : (-1 : Int) < x := by exact_mod_cast h1
  have h3 : (0 : Int) ≤ x := by omega
  exact_mod_cast h3

theorem reqOf_nonneg (job : JoQuotabInfo) (h : job.RequestUnit.nonneg)
    (hr : 0 ≤ job.Replicas) : (reqOf job).nonneg := by
  have hq : (0 : ℚ) ≤ (job.Replicas : ℚ) := by exact_mod_cast hr
  exact ⟨mul_nonneg h.1 hq, mul_nonneg h.2 hq⟩

theorem reqOf_integral (job : JoQuotabInfo) (h : job.RequestUnit.integral) :
    (reqOf job).integral :=
  ⟨isInt_mul_int _ _ h.1, isInt_mul_int _ _ h.2⟩

/-! ## What a round does to the resources -/

/-- A round that continues hands out an amount `g` that is either nothing or
the total request of a queued job that passed `LessEqual`; `available` goes
down by `g`, the sum of `Deserved` goes up by `g`, one consumer receives `g`,
and no job is added to a FIFO. -/
theorem innerStep_resources (d : drf) (pq : PriorityQueue Nat) (a : Bool) (d1 : drf)
    (pq1 : PriorityQueue Nat) (a1 : Bool)
    (h : drf.innerStep d pq a = drf.Step.cont d1 pq1 a1) :
    ∃ g : Resource,
      d1.total = d.total ∧
      d1.available = d.available.Sub g ∧
      sumDeservedCPU d1 = sumDeservedCPU d + g.MilliCPU ∧
      sumDeservedMemory d1 = sumDeservedMemory d + g.Memory ∧
      (g = ⟨0, 0⟩ ∨
        ∃ c ∈ d.consumers, ∃ p ∈ c.Jobs.items,
          g = reqOf p.2 ∧ g.LessEqual d.available = true) ∧
      (∀ c1 ∈ d1.consumers, ∃ c0 ∈ d.consumers,
        (∀ p ∈ c1.Jobs.items, p ∈ c0.Jobs.items) ∧
        (c1.Deserved = c0.Deserved ∨ c1.Deserved = c0.Deserved.Add g)) := by
  obtain ⟨_, ci, pq0, c, hpop, hc, hcase⟩ := innerStep_cont d pq a d1 pq1 a1 h
  have hcm : c ∈ d.consumers := List.getElem?_mem hc
  have hsub0 : d.available = d.available.Sub ⟨0, 0⟩ := by
    simp [Resource.Sub]
  rcases hcase with ⟨_, rfl, rfl, rfl⟩ | ⟨job, jobs1, hjp, hcase2⟩
  · exact ⟨⟨0, 0⟩, rfl, hsub0, by simp, by simp, Or.inl rfl,
      fun c1 hc1 => ⟨c1, hc1, fun p hp => hp, Or.inl rfl⟩⟩
  · obtain ⟨⟨id, hid⟩, _, hitems, _⟩ := fifo_pop_spec c.Jobs jobs1 job hjp
    rcases hcase2 with ⟨_, rfl, rfl, rfl⟩ | ⟨hle, sh, rfl, rfl, rfl⟩
    · refine ⟨⟨0, 0⟩, rfl, hsub0, ?_, ?_, Or.inl rfl, ?_⟩
      · have := sum_map_set (fun c => c.Deserved.MilliCPU) d.consumers ci c
          { c with Jobs := jobs1 } hc
        simp only [sumDeservedCPU]
        linarith
      · have := sum_map_set (fun c => c.Deserved.Memory) d.consumers ci c
          { c with Jobs := jobs1 } hc
        simp only [sumDeservedMemory]
        linarith
      · intro c1 hc1
        rcases List.mem_or_eq_of_mem_set hc1 with h1 | h1
        · exact ⟨c1, h1, fun p hp => hp, Or.inl rfl⟩
        · subst h1
          exact ⟨c, hcm, hitems, Or.inl rfl⟩
    · refine ⟨reqOf job, rfl, rfl, ?_, ?_, Or.inr ⟨c, hcm, (id, job), hid, rfl, hle⟩, ?_⟩
      · have := sum_map_set (fun c => c.Deserved.MilliCPU) d.consumers ci c
          { c with Jobs := jobs1, Deserved := c.Deserved.Add (reqOf job), Share := sh } hc
        simp only [sumDeservedCPU, Resource.Add] at this ⊢
        linarith
      · have := sum_map_set (fun c => c.Deserved.Memory) d.consumers ci c
          { c with Jobs := jobs1, Deserved := c.Deserved.Add (reqOf job), Share := sh } hc
        simp only [sumDeservedMemory, Resource.Add] at this ⊢
        linarith
      · intro c1 hc1
        rcases List.mem_or_eq_of_mem_set hc1 with h1 | h1
        · exact ⟨c1, h1, fun p hp => hp, Or.inl rfl⟩
        · subst h1
          exact ⟨c, hcm, hitems, Or.inr rfl⟩


/-! ## Invariants of the allocating loop -/

theorem step_conserved (d : drf) (pq : PriorityQueue Nat) (a : Bool) (d1 : drf)
    (pq1 : PriorityQueue Nat) (a1 : Bool) (h0 : conserved d ∧ withinTolerance d)
    (h : drf.innerStep d pq a = drf.Step.cont d1 pq1 a1) :
    conserved d1 ∧ withinTolerance d1 := by
  obtain ⟨g, ht, ha, hc, hm, hg, _⟩ := innerStep_resources d pq a d1 pq1 a1 h
  obtain ⟨⟨c1, c2⟩, ⟨t1, t2⟩⟩ := h0
  unfold conserved withinTolerance
  rw [ht, ha, hc, hm]
  simp only [Resource.Sub]
  refine ⟨⟨by linarith, by linarith⟩, ?_⟩
  rcases hg with rfl | ⟨_, _, _, _, _, hle⟩
  · simp only [sub_zero]
    exact ⟨t1, t2⟩
  · obtain ⟨b1, b2⟩ := lessEqual_bound _ _ hle
    exact ⟨by linarith, by linarith⟩

theorem step_nonneg (d : drf) (pq : PriorityQueue Nat) (a : Bool) (d1 : drf)
    (pq1 : PriorityQueue Nat) (a1 : Bool)
    (h0 : queuedAll (fun j => (reqOf j).nonneg) d ∧ ∀ c ∈ d.consumers, c.Deserved.nonneg)
    (h : drf.innerStep d pq a = drf.Step.cont d1 pq1 a1) :
    queuedAll (fun j => (reqOf j).nonneg) d1 ∧ ∀ c ∈ d1.consumers, c.Deserved.nonneg := by
  obtain ⟨g, _, _, _, _, hg, hcons⟩ := innerStep_resources d pq a d1 pq1 a1 h
  obtain ⟨hq, hd⟩ := h0
  have hgn : g.nonneg := by
    rcases hg with rfl | ⟨c, hc, p, hp, rfl, _⟩
    · exact ⟨le_refl _, le_refl _⟩
    · exact hq c hc p hp
  constructor
  · intro c1 hc1 p hp
    obtain ⟨c0, hc0, hsub, _⟩ := hcons c1 hc1
    exact hq c0 hc0 p (hsub p hp)
  · intro c1 hc1
    obtain ⟨c0, hc0, _, hdes⟩ := hcons c1 hc1
    rcases hdes with h1 | h1
    · rw [h1]; exact hd c0 hc0
    · rw [h1]
      exact ⟨add_nonneg (hd c0 hc0).1 hgn.1, add_nonneg (hd c0 hc0).2 hgn.2⟩

theorem step_integral (d : drf) (pq : PriorityQueue Nat) (a : Bool) (d1 : drf)
    (pq1 : PriorityQueue Nat) (a1 : Bool)
    (h0 : queuedAll (fun j => (reqOf j).integral) d ∧ d.available.integral)
    (h : drf.innerStep d pq a = drf.Step.cont d1 pq1 a1) :
    queuedAll (fun j => (reqOf j).integral) d1 ∧ d1.available.integral := by
  obtain ⟨g, _, ha, _, _, hg, hcons⟩ := innerStep_resources d pq a d1 pq1 a1 h
  obtain ⟨hq, hd⟩ := h0
  have hgn : g.integral := by
    rcases hg with rfl | ⟨c, hc, p, hp, rfl, _⟩
    · exact ⟨⟨0, by simp⟩, ⟨0, by simp⟩⟩
    · exact hq c hc p hp
  constructor
  · intro c1 hc1 p hp
    obtain ⟨c0, hc0, hsub, _⟩ := hcons c1 hc1
    exact hq c0 hc0 p (hsub p hp)
  · rw [ha]
    exact ⟨isInt_sub _ _ hd.1 hgn.1, isInt_sub _ _ hd.2 hgn.2⟩

/-- The allocating loop returns, after at most one pass more than there are jobs. -/
theorem allocateRun_returns (jobs : List (String × List JoQuotabInfo))
    (nodes : List NodeInfo) :
    ∃ d passes, drf.allocateRun jobs nodes = Run.ret (d, passes) ∧ 1 ≤ passes ∧
      passes ≤ totalJobs jobs + 1 := by
  obtain ⟨hwf, _, _, hq, _, _⟩ := initial_spec (fun _ => True) jobs nodes (fun _ _ _ _ => trivial)
  obtain ⟨d, p, h1, h2, h3⟩ := outerLoop_returns (drf.queuedJobs (drf.initial jobs nodes) + 1)
    (drf.initial jobs nodes) 0 hwf (by omega)
  exact ⟨d, p, h1, by omega, by omega⟩

theorem initial_conserved (jobs : List (String × List JoQuotabInfo)) (nodes : List NodeInfo) :
    conserved (drf.initial jobs nodes) := by
  obtain ⟨_, _, hz, _, ht, ha⟩ := initial_spec (fun _ => True) jobs nodes
    (fun _ _ _ _ => trivial)
  unfold conserved sumDeservedCPU sumDeservedMemory
  rw [ht, ha]
  rw [sum_eq_zero_of_all_zero _ (fun c => c.Deserved.MilliCPU)
      (fun c hc => by show c.Deserved.MilliCPU = 0; rw [hz c hc]; rfl),
    sum_eq_zero_of_all_zero _ (fun c => c.Deserved.Memory)
      (fun c hc => by show c.Deserved.Memory = 0; rw [hz c hc]; rfl)]
  simp


theorem less_irrefl (r : Resource) : r.Less r = false := by
  simp [Resource.Less]

/-! ## A single consumer with a single job -/


theorem pq_single_pop (x : item Nat) :
    PriorityQueue.Pop ⟨[x]⟩ = some (x.Value, ⟨[]⟩) := rfl

theorem pq_empty_push (v : Nat) (p : Float64) :
    PriorityQueue.Push ⟨[]⟩ v p = ⟨[⟨v, p⟩]⟩ := by
  simp [PriorityQueue.Push, heapPush, heapUp, priorityQueue.Push, priorityQueue.Len]

theorem sortConsumer_single (T A : Resource) (c : consumer) :
    drf.sortConsumer { total := T, available := A, consumers := [c] } = ⟨[⟨0, c.Share⟩]⟩ := by
  simp [drf.sortConsumer, drf.pushConsumers, NewPriorityQueue, pq_empty_push, consumer.Priority]

theorem fifo_single_pop (k : String) (job : JoQuotabInfo) :
    FIFO.Pop ⟨[k], [(k, job)]⟩ = some (job, ⟨[], []⟩) := by
  simp [FIFO.Pop, FIFO.popQueue, mapGet, mapDelete, List.lookup]

/-- A pass over one consumer that has no job left changes nothing. -/
theorem single_pass_drain (d : drf) (c : consumer) (p : Float64) (a : Bool) (fuel : Nat)
    (hc : d.consumers = [c]) (hjobs : c.Jobs.items = []) :
    drf.innerLoop (fuel + 2) d ⟨[⟨0, p⟩]⟩ a = Run.ret (d, a) := by
  unfold drf.innerLoop
  by_cases he : d.available.IsEmpty = true
  · simp [drf.innerStep, he]
  · simp only [Bool.not_eq_true] at he
    simp only [drf.innerStep, he, PriorityQueue.Len, priorityQueue.Len, List.length_singleton,
      pq_single_pop, hc, List.getElem?_cons_zero, FIFO.Len, hjobs]
    simp only [List.length_nil, beq_self_eq_true, if_true, Bool.false_or]
    unfold drf.innerLoop
    simp [drf.innerStep, PriorityQueue.Len, priorityQueue.Len]

/-- The pass that grants the only job of the only consumer. -/
theorem single_pass_grant (T : Resource) (c : consumer) (k : String) (job : JoQuotabInfo)
    (fuel : Nat) (hne : T.IsEmpty = false) (hle : (reqOf job).LessEqual T = true)
    (hjobs : c.Jobs = ⟨[k], [(k, job)]⟩) :
    ∃ sh, drf.innerLoop (fuel + 3) { total := T, available := T, consumers := [c] }
      ⟨[⟨0, c.Share⟩]⟩ false
      = Run.ret ({ total := T, available := T.Sub (reqOf job),
                   consumers := [{ c with Jobs := ⟨[], []⟩,
                                          Deserved := c.Deserved.Add (reqOf job),
                                          Share := sh }] }, true) := by
  have hle2 : (job.RequestUnit.Clone.Multi job.Replicas).LessEqual T = true := hle
  refine ⟨drf.calculateShare
    { total := T, available := T.Sub (reqOf job),
      consumers := [{ c with Jobs := ⟨[], []⟩, Deserved := c.Deserved.Add (reqOf job) }] }
    { c with Jobs := ⟨[], []⟩, Deserved := c.Deserved.Add (reqOf job) }, ?_⟩
  unfold drf.innerLoop
  simp only [drf.innerStep, hne, PriorityQueue.Len, priorityQueue.Len, List.length_singleton,
    pq_single_pop, List.getElem?_cons_zero, hjobs, FIFO.Len, fifo_single_pop, hle2,
    drf.allocate, List.set_cons_zero, pq_empty_push, consumer.Priority]
  simp only [List.length_nil, List.length_cons, Bool.false_or, Nat.reduceAdd,
    Nat.reduceBEq, Bool.false_eq_true, if_false, Bool.not_true, beq_iff_eq,
    one_ne_zero, List.length_singleton, Nat.succ_ne_self]
  exact single_pass_drain _ _ _ _ fuel rfl rfl


/-! ## Lemmas on the loops written as folds -/

theorem foldl_append_filter {α β : Type} (P : α → Bool) (f : α → β) (l : List α)
    (acc : List β) :
    l.foldl (fun bjs p => if P p then bjs ++ [f p] else bjs) acc
      = acc ++ (l.filter P).map f := by
  induction l generalizing acc with
  | nil => simp
  | cons a t ih =>
    simp only [List.foldl_cons, ih, List.filter_cons]
    by_cases h : P a = true <;> simp [h]

theorem getOverused_eq (c : Cache) :
    c.GetOverused
      = (c.batchjobs.filter (fun p => p.2.Allocated.Less p.2.Used)).map (fun p => p.2.Clone) := by
  have h := foldl_append_filter (fun p : String × JoQuotabInfo => p.2.Allocated.Less p.2.Used)
    (fun p => p.2.Clone) c.batchjobs []
  simpa [Cache.GetOverused] using h

theorem less_iff (r rr : Resource) :
    r.Less rr = true ↔ r.MilliCPU < rr.MilliCPU ∧ r.Memory < rr.Memory := by
  simp [Resource.Less]

/-! ## `Assign` -/

theorem assignLoop_spec (jobs : List JoQuotabInfo) (alloc : Resource) :
    ∃ k, k ≤ jobs.length ∧
      (∀ i, i < k → ∀ j, jobs[i]? = some j →
        (restAfter alloc (jobs.take i)).Less (reqOf j) = false) ∧
      (∀ j, jobs[k]? = some j → (restAfter alloc (jobs.take k)).Less (reqOf j) = true) ∧
      drf.assignLoop alloc jobs
        = ((jobs.take k).map (fun j => { j with Allocated := reqOf j }) ++ jobs.drop k,
           restAfter alloc (jobs.take k)) := by
  induction jobs generalizing alloc with
  | nil => exact ⟨0, by simp, by simp, by simp, by simp [drf.assignLoop, restAfter]⟩
  | cons job rest ih =>
    by_cases h : alloc.Less (job.RequestUnit.Clone.Multi job.Replicas) = true
    · refine ⟨0, by simp, by simp, ?_, by simp [drf.assignLoop, h, restAfter]⟩
      intro j hj
      simp only [List.getElem?_cons_zero, Option.some.injEq] at hj
      subst hj
      simpa [restAfter, reqOf] using h
    · obtain ⟨k, hk, h1, h2, h3⟩ := ih (alloc.Sub (job.RequestUnit.Clone.Multi job.Replicas))
      refine ⟨k + 1, by simpa using hk, ?_, ?_, ?_⟩
      · intro i hi j hj
        cases i with
        | zero =>
          simp only [List.getElem?_cons_zero, Option.some.injEq] at hj
          subst hj
          simpa [restAfter, reqOf] using h
        | succ i0 =>
          rw [List.getElem?_cons_succ] at hj
          have := h1 i0 (by omega) j hj
          simpa [restAfter, reqOf] using this
      · intro j hj
        rw [List.getElem?_cons_succ] at hj
        have := h2 j hj
        simpa [restAfter, reqOf] using this
      · simp [drf.assignLoop, h, h3, reqOf, restAfter]

/-- C6: `Assign` stops only where the rest of the group allocation is below
the request on BOTH axes (`Resource.Less`), so a job that exceeds the rest on
one axis alone is charged.  On `mixedJob` (total request 2000m CPU, 5 bytes)
with a group allocation of 1000m CPU, 10 bytes, the job is charged its full
request although 1000m is less than 2000m, and the rest returned is
-1000m CPU, 5 bytes. -/
theorem C6_assign_charges_on_one_axis :
    reqOf mixedJob = ⟨2000, 5⟩ ∧
    ¬ ((reqOf mixedJob).MilliCPU ≤ (1000 : ℚ)) ∧
    drf.Assign [mixedJob] ⟨"A", ⟨1000, 10⟩, EmptyResource⟩
      = ([{ mixedJob with Allocated := ⟨2000, 5⟩ }], ⟨-1000, 5⟩) := by
  decide!

/-- C7 fails as stated: `staleJob` enters `Assign` with `Allocated` 7/7, does
not fit a group allocation of 1000m/10 bytes, and leaves with `Allocated` 7/7,
which is neither its request nor zero. -/
theorem C7_counterexample :
    ¬ (∀ j ∈ (drf.Assign [staleJob] ⟨"A", ⟨1000, 10⟩, EmptyResource⟩).1,
        j.Allocated = reqOf j ∨ j.Allocated = EmptyResource) := by
  decide!

/-- C7 as amended: `Assign` charges the jobs before the first job whose
request is above what is then left of the group allocation (`Less`, on both
axes), and no other.  With `k` the position of that job (the length of the
list when every job fits): each of the first `k` jobs fitted what was left
when its turn came and leaves with `Allocated` equal to its full request; the
job at position `k` did not fit; the jobs from position `k` on leave exactly
as they entered; and the rest returned is the group allocation minus the
requests of the first `k` jobs.  Hence if every job entered with zero
`Allocated`, every job leaves with its full request or with zero. -/
theorem C7_assign_all_or_unchanged (jobs : List JoQuotabInfo) (alloc_ : AllocationInfo) :
    (∃ k, k ≤ jobs.length ∧
      (∀ i, i < k → ∀ j, jobs[i]? = some j →
        (restAfter alloc_.Allocated (jobs.take i)).Less (reqOf j) = false) ∧
      (∀ j, jobs[k]? = some j →
        (restAfter alloc_.Allocated (jobs.take k)).Less (reqOf j) = true) ∧
      (drf.Assign jobs alloc_).1
        = (jobs.take k).map (fun j => { j with Allocated := reqOf j }) ++ jobs.drop k ∧
      (drf.Assign jobs alloc_).2 = restAfter alloc_.Allocated (jobs.take k)) ∧
    ((∀ j ∈ jobs, j.Allocated = EmptyResource) →
      ∀ j ∈ (drf.Assign jobs alloc_).1,
        j.Allocated = reqOf j ∨ j.Allocated = EmptyResource) := by
  obtain ⟨k, hk, h1, h2, h3⟩ := assignLoop_spec jobs alloc_.Allocated
  have ha : drf.Assign jobs alloc_ = drf.assignLoop alloc_.Allocated jobs := rfl
  refine ⟨⟨k, hk, h1, h2, by rw [ha, h3], by rw [ha, h3]⟩, ?_⟩
  intro hz j hj
  rw [ha, h3] at hj
  rcases List.mem_append.1 hj with h | h
  · obtain ⟨j0, _, rfl⟩ := List.mem_map.1 h
    left
    rfl
  · right
    exact hz j (List.mem_of_mem_drop h)

/-- C7 (amended) on three jobs that enter with zero `Allocated` and a group
allocation of 1500m/2Gi: the first (1000m/2Gi) is charged, the second
(1000m/1Gi) is above the 500m/0 that is left on both axes, and the third,
which would fit, is not tried. -/
theorem C7_assign_all_or_unchanged_witness :
    drf.Assign assignJobs ⟨"A", ⟨1500, 2 * Gi⟩, EmptyResource⟩
      = ([{ s1Job with Allocated := ⟨1000, 2 * Gi⟩ }, mkJob "rc-b" "A" 1 1000 Gi,
          mkJob "rc-c" "A" 1 100 0], ⟨500, 0⟩) ∧
    ∀ j ∈ (drf.Assign assignJobs ⟨"A", ⟨1500, 2 * Gi⟩, EmptyResource⟩).1,
      j.Allocated = reqOf j ∨ j.Allocated = EmptyResource :=
  ⟨by decide!,
   (C7_assign_all_or_unchanged assignJobs ⟨"A", ⟨1500, 2 * Gi⟩, EmptyResource⟩).2
    (by decide!)⟩

/-- C8: `GetOverused` returns exactly the clones of the cached quotas whose
`Used` is strictly greater than `Allocated` on both the CPU and the memory
axis: every returned value is the clone of such an entry, the clone of every
such entry is returned, and the result has as many elements as there are such
entries (so an entry that exceeds on one axis only contributes nothing). -/
theorem C8_getOverused_iff (c : Cache) :
    (∀ r, r ∈ c.GetOverused ↔
      ∃ p ∈ c.batchjobs, r = p.2.Clone ∧
        p.2.Allocated.MilliCPU < p.2.Used.MilliCPU ∧ p.2.Allocated.Memory < p.2.Used.Memory) ∧
    c.GetOverused.length
      = c.batchjobs.countP (fun p =>
          decide (p.2.Allocated.MilliCPU < p.2.Used.MilliCPU
            ∧ p.2.Allocated.Memory < p.2.Used.Memory)) := by
  rw [getOverused_eq]
  constructor
  · intro r
    simp only [List.mem_map, List.mem_filter, less_iff]
    constructor
    · rintro ⟨p, ⟨hp, h⟩, rfl⟩
      exact ⟨p, hp, rfl, h⟩
    · rintro ⟨p, hp, rfl, h⟩
      exact ⟨p, ⟨hp, h⟩, rfl⟩
  · rw [List.length_map, List.countP_eq_length_filter]
    congr 2
    funext p
    simp [Resource.Less]

/-- C9: `NewJobQuotaInfo` reads the two status fields crosswise: `Allocated`
is built from `Status.Used` and `Used` from `Status.Allocated`.  For the quota
of scenario S3 (status allocated 1000m/1Gi, used 2000m/2Gi) the cache entry has
`Allocated` 2000m/2Gi and `Used` 1000m/1Gi, and `GetOverused` after
`AddJobQuota` is empty. -/
theorem C9_newJobQuotaInfo_swaps_status :
    (∀ q : JobQuota,
      (NewJobQuotaInfo q).Allocated = NewResource q.Status.Used ∧
      (NewJobQuotaInfo q).Used = NewResource q.Status.Allocated) ∧
    NewResource s3Quota.Status.Allocated = ⟨1000, Gi⟩ ∧
    NewResource s3Quota.Status.Used = ⟨2000, 2 * Gi⟩ ∧
    (NewJobQuotaInfo s3Quota).Allocated = ⟨2000, 2 * Gi⟩ ∧
    (NewJobQuotaInfo s3Quota).Used = ⟨1000, Gi⟩ ∧
    (NewCache.AddJobQuota s3Quota).GetOverused = [] := by
  refine ⟨fun q => ⟨rfl, rfl⟩, ?_, ?_, ?_, ?_, ?_⟩ <;> decide!

/-- C10: for a pod that does not have exactly one owner reference `NewPodInfo`
returns nil, and `AddPod`, `UpdatePod` and `DeletePod` dereference that nil
(`pod.Owner`) before any check: on every cache state the three handlers fail
with a nil-pointer panic instead of returning. -/
theorem C10_orphan_pod_panics (c : Cache) (old pod : Pod)
    (h : pod.OwnerReferences.length ≠ 1) :
    NewPodInfo pod = none ∧
    c.AddPod pod = none ∧ c.UpdatePod old pod = none ∧ c.DeletePod pod = none := by
  have hn : NewPodInfo pod = none := by
    unfold NewPodInfo
    split
    · rename_i owner heq
      rw [heq] at h
      simp at h
    · rfl
  simp [Cache.AddPod, Cache.UpdatePod, Cache.DeletePod, hn]

/-- Witness for C10: the pod of scenario S4 on a cache that holds one quota. -/
theorem C10_orphan_pod_panics_witness :
    orphanPod.OwnerReferences.length ≠ 1 ∧
    NewPodInfo orphanPod = none ∧
    (NewCache.AddJobQuota s3Quota).AddPod orphanPod = none ∧
    (NewCache.AddJobQuota s3Quota).UpdatePod orphanPod orphanPod = none ∧
    (NewCache.AddJobQuota s3Quota).DeletePod orphanPod = none :=
  ⟨by decide, C10_orphan_pod_panics (NewCache.AddJobQuota s3Quota) orphanPod orphanPod (by decide)⟩


/-- C1 fails as stated: with one node of 1000m CPU and one job that requests
1000m + 1/128 m (all amounts non-negative), `LessEqual` lets the request pass
by its tolerance, and `Allocate` ends with a sum of `Deserved` of
1000m + 1/128 m on the CPU axis, above the cluster total of 1000m.  Above
`2^53` the arithmetic of `float64` breaks the bound as well: with
`2^53 + 8` bytes available, `available.Sub` of a request of 1 byte rounds
back to `2^53 + 8` bytes, and a second request of `2^53 + 8` bytes then
passes `LessEqual`, which brings the sum of `Deserved` to `2^53 + 9` bytes. -/
theorem C1_counterexample :
    (∀ p ∈ driftJobs, ∀ j ∈ p.2, j.RequestUnit.nonneg ∧ 0 ≤ j.Replicas) ∧
    (∀ n ∈ driftNodes, n.Allocatable.nonneg) ∧
    (finalState (drf.allocateRun driftJobs driftNodes)).map
      (fun d => (d.total.MilliCPU, sumDeservedCPU d)) = some (1000, 1000 + 1 / 128) ∧
    ¬ ((1000 : ℚ) + 1 / 128 ≤ 1000) ∧
    Float64.sub (Float64.fin (2 ^ 53 + 8)) (Float64.fin 1) = Float64.fin (2 ^ 53 + 8) ∧
    Resource64.LessEqual ⟨Float64.fin 0, Float64.fin (2 ^ 53 + 8)⟩
      ⟨Float64.fin 1000, Float64.fin (2 ^ 53 + 8)⟩ = true := by
  refine ⟨?_, ?_, by decide!, by norm_num, by decide!, by decide!⟩
  · intro p hp j hj
    simp only [driftJobs, List.mem_singleton] at hp
    subst hp
    simp only [List.mem_singleton] at hj
    subst hj
    simp only [mkJob, Resource.nonneg, Gi]
    norm_num
  · intro n hn
    simp only [driftNodes, List.mem_singleton] at hn
    subst hn
    simp only [mkNode, Resource.nonneg, Gi]
    norm_num

/-- C3: `Allocate` terminates on every jobs map and node list.  Every round of
the inner loop that continues either takes a consumer out of the priority
queue without putting it back or removes a job from a consumer's FIFO; every
pass of the outer loop that ends with `allocatedOnce` set (and so is followed
by another pass) removed at least one job; and the loop returns after at
least one and at most (number of jobs + 1) passes, so `Allocate` returns a
map. -/
theorem C3_allocate_terminates (jobs : List (String × List JoQuotabInfo))
    (nodes : List NodeInfo) :
    (∀ d pq a d1 pq1 a1, drf.innerStep d pq a = drf.Step.cont d1 pq1 a1 →
      (pq1.Len + 1 = pq.Len ∧ drf.queuedJobs d1 ≤ drf.queuedJobs d) ∨
        drf.queuedJobs d1 < drf.queuedJobs d) ∧
    (∀ fuel d d1, drf.innerLoop fuel d (drf.sortConsumer d) false = Run.ret (d1, true) →
      drf.queuedJobs d1 < drf.queuedJobs d) ∧
    (∃ d passes, drf.allocateRun jobs nodes = Run.ret (d, passes) ∧ 1 ≤ passes ∧
      passes ≤ totalJobs jobs + 1) ∧
    (∃ allocation, drf.Allocate jobs nodes = Run.ret allocation) := by
  refine ⟨?_, ?_, allocateRun_returns jobs nodes, ?_⟩
  · intro d pq a d1 pq1 a1 hs
    obtain ⟨_, _, _, _, hq, _, hor, _, _⟩ := innerStep_effect d pq a d1 pq1 a1 hs
    rcases hor with h | h
    · exact Or.inl ⟨h, hq⟩
    · exact Or.inr h
  · intro fuel d d1 hin
    obtain ⟨_, _, ha⟩ := innerLoop_ret_effect _ _ _ _ _ _ hin
    rcases ha rfl with h | h
    · cases h
    · exact h
  · obtain ⟨d, passes, hrun, _, _⟩ := allocateRun_returns jobs nodes
    unfold drf.Allocate
    split
    · exact ⟨_, rfl⟩
    · rw [hrun]
      exact ⟨_, rfl⟩

/-- Witness for C3: the run on `blockedJobs` returns within three passes. -/
theorem C3_allocate_terminates_witness :
    (∃ d passes, drf.allocateRun blockedJobs s1Nodes = Run.ret (d, passes) ∧ 1 ≤ passes ∧
      passes ≤ totalJobs blockedJobs + 1) ∧
    (∃ allocation, drf.Allocate blockedJobs s1Nodes = Run.ret allocation) :=
  (C3_allocate_terminates blockedJobs s1Nodes).2.2


/-- C2 fails on the code: with one node of 4000m/8Gi and namespace A holding
a job of 5000m/1Gi followed by a job of 1000m/1Gi, the only pass pops the
first job, finds it too large and drops the consumer; no job was granted, so
the outer loop stops.  `Allocate` ends with `available` = 4000m/8Gi (not
empty) while the second job, whose request passes `LessEqual` against
`available`, is still queued. -/
theorem C2_progressive_filling_violated :
    (finalState (drf.allocateRun blockedJobs s1Nodes)).map
      (fun d => (d.available, d.available.IsEmpty)) = some (⟨4000, 8 * Gi⟩, false) ∧
    (finalState (drf.allocateRun blockedJobs s1Nodes)).map
      (fun d => d.consumers.map (fun c => (c.Name, c.Deserved))) = some [("A", ⟨0, 0⟩)] ∧
    (finalState (drf.allocateRun blockedJobs s1Nodes)).map
      (fun d => d.consumers.map (fun c => c.Jobs.List.map (fun j =>
        (j.ConsumerId, reqOf j)))) = some [[("rc-small", ⟨1000, Gi⟩)]] ∧
    (finalState (drf.allocateRun blockedJobs s1Nodes)).map
      (fun d => d.consumers.map (fun c => c.Jobs.List.map (fun j =>
        (reqOf j).LessEqual d.available))) = some [[true]] := by
  decide!

/-- C4 fails as stated: a cluster of one node with 5m CPU and 5 MiB is below
both thresholds of `IsEmpty`, so the loop of `Allocate` breaks before its
first round; the single job, whose request of 5m/5MiB is within the total, is
allocated nothing. -/
theorem C4_counterexample :
    (reqOf tinyJob).MilliCPU ≤ (clusterTotal tinyNodes).MilliCPU ∧
    (reqOf tinyJob).Memory ≤ (clusterTotal tinyNodes).Memory ∧
    allocatedOf (drf.Allocate [("A", [tinyJob])] tinyNodes) "A" = some ⟨0, 0⟩ ∧
    allocatedOf (drf.Allocate [("A", [tinyJob])] tinyNodes) "A" ≠ some (reqOf tinyJob) := by
  decide!

/-- C5 fails as stated: in scenario S2 the entitlement of namespace B is not
1500m/6Gi. -/
theorem C5_counterexample :
    ¬ (allocatedOf (drf.Allocate [("A", [s2JobA]), ("B", [s2JobB])] s2Nodes) "A"
          = some ⟨3000, 3 * Gi⟩ ∧
       allocatedOf (drf.Allocate [("A", [s2JobA]), ("B", [s2JobB])] s2Nodes) "B"
          = some ⟨1500, 6 * Gi⟩) := by
  decide!

/-- C5 as amended: in scenario S2, for either order in which the two
namespaces are enumerated, `Allocate` grants each of the two jobs whole:
A deserves 3000m/3Gi and B deserves 3000m/12Gi. -/
theorem C5_scenario_S2 :
    drf.Allocate [("A", [s2JobA]), ("B", [s2JobB])] s2Nodes
      = Run.ret [("A", ⟨"", ⟨3000, 3 * Gi⟩, EmptyResource⟩),
                 ("B", ⟨"", ⟨3000, 12 * Gi⟩, EmptyResource⟩)] ∧
    drf.Allocate [("B", [s2JobB]), ("A", [s2JobA])] s2Nodes
      = Run.ret [("B", ⟨"", ⟨3000, 12 * Gi⟩, EmptyResource⟩),
                 ("A", ⟨"", ⟨3000, 3 * Gi⟩, EmptyResource⟩)] ∧
    clusterTotal s2Nodes = ⟨9000, 18 * Gi⟩ ∧
    reqOf s2JobA = ⟨3000, 3 * Gi⟩ ∧ reqOf s2JobB = ⟨3000, 12 * Gi⟩ := by
  decide!

/-- C4 as amended: for every node list whose total allocatable is not empty
in the sense of `IsEmpty` (at least 10m CPU or at least 10 MiB) and every jobs
map of one namespace with one job whose total request is at most the total on
both axes, `Allocate` returns for that namespace `Allocated` = request, and
`Assign` of that allocation sets the job's `Allocated` to the request. -/
theorem C4_single_job_fits (nodes : List NodeInfo) (ns : String) (job : JoQuotabInfo)
    (hne : (clusterTotal nodes).IsEmpty = false)
    (hcpu : (reqOf job).MilliCPU ≤ (clusterTotal nodes).MilliCPU)
    (hmem : (reqOf job).Memory ≤ (clusterTotal nodes).Memory) :
    drf.Allocate [(ns, [job])] nodes
      = Run.ret [(ns, { GroupId := "", Allocated := reqOf job, Used := EmptyResource })] ∧
    (drf.Assign [job] { GroupId := "", Allocated := reqOf job, Used := EmptyResource }).1
      = [{ job with Allocated := reqOf job }] := by
  constructor
  · have hnodes : nodes.length ≠ 0 := by
      intro h0
      have : nodes = [] := List.length_eq_zero.1 h0
      subst this
      simp [clusterTotal, EmptyResource, Resource.IsEmpty, Resource.minMilliCPU,
        Resource.minMemory] at hne
    have hle : (reqOf job).LessEqual (clusterTotal nodes) = true :=
      lessEqual_of_le _ _ hcpu hmem
    obtain ⟨sh, h1⟩ := single_pass_grant (clusterTotal nodes)
      { Name := ns, Share := Float64.fin 0, Deserved := EmptyResource,
        Request := EmptyResource.Add (job.RequestUnit.Clone.Multi job.Replicas),
        Jobs := ⟨[BatchJobInfoKeyFunc job], [(BatchJobInfoKeyFunc job, job)]⟩ }
      (BatchJobInfoKeyFunc job) job 1 hne hle rfl
    have h2 := single_pass_drain
      { total := clusterTotal nodes, available := (clusterTotal nodes).Sub (reqOf job),
        consumers := [{ Name := ns, Share := sh, Deserved := EmptyResource.Add (reqOf job),
                        Request := EmptyResource.Add (job.RequestUnit.Clone.Multi job.Replicas),
                        Jobs := ⟨[], []⟩ }] }
      _ sh false 0 rfl rfl
    have hrun : drf.allocateRun [(ns, [job])] nodes
        = Run.ret ({ total := clusterTotal nodes,
                     available := (clusterTotal nodes).Sub (reqOf job),
                     consumers := [{ Name := ns, Share := sh,
                                     Deserved := EmptyResource.Add (reqOf job),
                                     Request := EmptyResource.Add
                                       (job.RequestUnit.Clone.Multi job.Replicas),
                                     Jobs := ⟨[], []⟩ }] }, 2) := by
      show drf.outerLoop 2 _ 0 = _
      unfold drf.outerLoop
      show (match drf.innerLoop (1 + 3) _ (drf.sortConsumer _) false with
        | Run.ret (d1, true) => _ | Run.ret (d1, false) => _
        | Run.fault => _ | Run.outOfFuel => _) = _
      simp only [drf.initial, drf.buildConsumers, List.map, List.foldl, FIFO.Add, NewFIFO,
        mapGet, mapSet, List.lookup, List.any, Option.isSome, Bool.false_eq_true, if_false,
        List.nil_append, sortConsumer_single]
      simp only [clusterTotal] at h1 h2 ⊢
      rw [h1]
      simp only
      unfold drf.outerLoop
      show (match drf.innerLoop (0 + 2) _ (drf.sortConsumer _) false with
        | Run.ret (d1, true) => _ | Run.ret (d1, false) => _
        | Run.fault => _ | Run.outOfFuel => _) = _
      simp only [sortConsumer_single]
      rw [h2]
    unfold drf.Allocate
    simp only [hnodes, hrun]
    simp [mapSet, EmptyResource, Resource.Add]
  · simp [drf.Assign, drf.assignLoop, AllocationInfo.Clone, Resource.Clone, less_irrefl, reqOf]

/-- Witness for C4 (amended): scenario S1, request 1000m/2Gi on a node of
4000m/8Gi. -/
theorem C4_single_job_fits_witness :
    (clusterTotal s1Nodes).IsEmpty = false ∧
    (reqOf s1Job).MilliCPU ≤ (clusterTotal s1Nodes).MilliCPU ∧
    (reqOf s1Job).Memory ≤ (clusterTotal s1Nodes).Memory ∧
    reqOf s1Job = ⟨1000, 2 * Gi⟩ ∧
    drf.Allocate [("A", [s1Job])] s1Nodes
      = Run.ret [("A", { GroupId := "", Allocated := reqOf s1Job, Used := EmptyResource })] ∧
    (drf.Assign [s1Job] { GroupId := "", Allocated := reqOf s1Job, Used := EmptyResource }).1
      = [{ s1Job with Allocated := reqOf s1Job }] :=
  ⟨by decide!, by decide!, by decide!, by decide!,
    C4_single_job_fits s1Nodes "A" s1Job (by decide!) (by decide!) (by decide!)⟩


/-! ## More on association lists -/

theorem mapSet_any_iff {β : Type} (m : List (String × β)) (k : String) :
    (m.any (fun p => p.1 == k)) = true ↔ k ∈ m.map Prod.fst := by
  simp only [List.any_eq_true, beq_iff_eq, List.mem_map]

theorem mapGet_cons {β : Type} (m : List (String × β)) (k k0 : String) (v0 : β) :
    mapGet ((k0, v0) :: m) k = if k = k0 then some v0 else mapGet m k := by
  unfold mapGet
  rw [List.lookup_cons]
  by_cases h : k = k0
  · simp [h]
  · have : (k == k0) = false := by simpa using h
    simp [this, h]

theorem mapGet_eq_none_iff {β : Type} (m : List (String × β)) (k : String) :
    mapGet m k = none ↔ k ∉ m.map Prod.fst := by
  induction m with
  | nil => simp [mapGet]
  | cons p t ih =>
    obtain ⟨k0, v0⟩ := p
    rw [mapGet_cons]
    by_cases h : k = k0
    · simp [h]
    · simp only [h, if_false, ih, List.map_cons, List.mem_cons, false_or]

theorem mapGet_map_replace {β : Type} (m : List (String × β)) (k k1 : String) (v : β) :
    mapGet (m.map (fun p => if p.1 = k then (k, v) else p)) k1
      = if k1 = k then (if k ∈ m.map Prod.fst then some v else none) else mapGet m k1 := by
  induction m with
  | nil => simp [mapGet]
  | cons p t ih =>
    obtain ⟨k0, v0⟩ := p
    simp only [List.map_cons]
    by_cases h0 : k0 = k
    · subst h0
      simp only [if_true, mapGet_cons]
      by_cases h1 : k1 = k0
      · simp [h1]
      · simp only [h1, if_false]
        rw [ih]
        simp [h1]
    · simp only [h0, if_false, mapGet_cons]
      by_cases h1 : k1 = k0
      · have h2 : k1 ≠ k := by rw [h1]; exact h0
        simp [h1, h0]
      · simp only [h1, if_false]
        rw [ih]
        by_cases h2 : k1 = k
        · have h3 : ¬ k = k0 := fun h => h0 h.symm
          simp only [h2, if_true, List.map_cons, List.mem_cons, h3, false_or]
        · simp [h2]

theorem mapGet_append_single {β : Type} (m : List (String × β)) (k k1 : String) (v : β) :
    mapGet (m ++ [(k, v)]) k1
      = match mapGet m k1 with
        | some x => some x
        | none => if k1 = k then some v else none := by
  induction m with
  | nil =>
    show mapGet [(k, v)] k1 = _
    rw [mapGet_cons]
    simp [mapGet]
  | cons p t ih =>
    obtain ⟨k0, v0⟩ := p
    simp only [List.cons_append, mapGet_cons]
    by_cases h1 : k1 = k0
    · simp [h1]
    · simp only [h1, if_false]
      exact ih

theorem mapGet_mapSet_self {β : Type} (m : List (String × β)) (k : String) (v : β) :
    mapGet (mapSet m k v) k = some v := by
  unfold mapSet
  split
  · rename_i h
    rw [mapGet_map_replace]
    simp [(mapSet_any_iff m k).1 h]
  · rename_i h
    rw [mapGet_append_single]
    have : mapGet m k = none := (mapGet_eq_none_iff m k).2 (fun hk => h ((mapSet_any_iff m k).2 hk))
    rw [this]
    simp

theorem mapGet_mapSet_ne {β : Type} (m : List (String × β)) (k k1 : String) (v : β)
    (hne : k1 ≠ k) : mapGet (mapSet m k v) k1 = mapGet m k1 := by
  unfold mapSet
  split
  · rw [mapGet_map_replace]
    simp [hne]
  · rw [mapGet_append_single]
    cases mapGet m k1 with
    | none => simp [hne]
    | some x => rfl

theorem mapSet_keys {β : Type} (m : List (String × β)) (k : String) (v : β) :
    (mapSet m k v).map Prod.fst
      = if k ∈ m.map Prod.fst then m.map Prod.fst else m.map Prod.fst ++ [k] := by
  unfold mapSet
  by_cases h : k ∈ m.map Prod.fst
  · rw [if_pos ((mapSet_any_iff m k).2 h), if_pos h, List.map_map]
    apply List.map_congr_left
    intro p _
    by_cases hp : p.1 = k <;> simp [hp]
  · have h2 : ¬ (m.any (fun p => p.1 == k)) = true := fun hh => h ((mapSet_any_iff m k).1 hh)
    rw [if_neg h2, if_neg h]
    simp

theorem mapSet_idem {β : Type} (m : List (String × β)) (k : String) (v : β) :
    mapSet (mapSet m k v) k v = mapSet m k v := by
  have hk : k ∈ (mapSet m k v).map Prod.fst := by
    rw [mapSet_keys]
    split
    · assumption
    · simp
  have hstep : mapSet (mapSet m k v) k v
      = (mapSet m k v).map (fun p => if p.1 = k then (k, v) else p) := by
    generalize mapSet m k v = m1 at hk
    unfold mapSet
    rw [if_pos ((mapSet_any_iff _ k).2 hk)]
  rw [hstep]
  conv_rhs => rw [← List.map_id (mapSet m k v)]
  apply List.map_congr_left
  intro p hp
  by_cases h : p.1 = k
  · simp only [h, if_true, id]
    rcases mapSet_mem m k v p hp with h1 | h1
    · unfold mapSet at hp
      split at hp
      · obtain ⟨q, _, hq⟩ := List.mem_map.1 hp
        by_cases hq2 : q.1 = k
        · simp only [hq2, if_true] at hq
          exact hq
        · simp only [hq2, if_false] at hq
          rw [hq] at hq2
          exact absurd h hq2
      · rename_i hany
        rcases List.mem_append.1 hp with h2 | h2
        · exfalso
          apply hany
          simp only [List.any_eq_true, beq_iff_eq]
          exact ⟨p, h2, h⟩
        · simp at h2
          exact h2.symm
    · exact h1.symm
  · simp [h]

theorem foldl_append_map {α β : Type} (f : α → β) (l : List α) (acc : List β) :
    l.foldl (fun rs p => rs ++ [f p]) acc = acc ++ l.map f := by
  induction l generalizing acc with
  | nil => simp
  | cons a t ih => simp [ih]


theorem getSnapshot_eq (c : Cache) :
    c.GetSnapshot = (c.batchjobs.map (fun p => p.2.Clone), c.nodes.map (fun p => p.2.Clone)) := by
  unfold Cache.GetSnapshot
  rw [foldl_append_map (fun p : String × JoQuotabInfo => p.2.Clone),
    foldl_append_map (fun p : String × NodeInfo => p.2.Clone)]
  simp

/-- C11: `NodeInfo.Clone` fills the `Allocatable` field of the clone from
`Allocated`, so a node of a snapshot agrees with the cached node in name,
allocated and capacity but not in allocatable.  After `AddNode` of a node of
4 CPU / 8Gi the cache holds allocatable 4000m/8Gi and `GetSnapshot` returns
the node with allocatable 0/0. -/
theorem C11_snapshot_node_loses_allocatable :
    (∀ ni : NodeInfo,
      ni.Clone.Name = ni.Name ∧ ni.Clone.Allocatable = ni.Allocated ∧
      ni.Clone.Allocated = ni.Allocated ∧ ni.Clone.Capacity = ni.Capacity) ∧
    (∀ c : Cache, c.GetSnapshot.2 = c.nodes.map (fun p => p.2.Clone)) ∧
    (NewCache.AddNode s1NodeObject).nodes
      = [("n1", { Name := "n1", Allocatable := ⟨4000, 8 * Gi⟩, Allocated := ⟨0, 0⟩,
                  Capacity := ⟨4000, 8 * Gi⟩ })] ∧
    (NewCache.AddNode s1NodeObject).GetSnapshot.2
      = [{ Name := "n1", Allocatable := ⟨0, 0⟩, Allocated := ⟨0, 0⟩,
           Capacity := ⟨4000, 8 * Gi⟩ }] := by
  refine ⟨fun ni => ⟨rfl, rfl, rfl, rfl⟩, fun c => by rw [getSnapshot_eq], ?_, ?_⟩ <;> decide!

theorem reclaim_eq_list (job : JoQuotabInfo) (res : Resource) :
    drf.Reclaim job res = job.RunningPods.List := by
  unfold drf.Reclaim
  have h := foldl_append_map (fun p : PodInfo => p) job.RunningPods.List []
  simpa using h

/-- C15: for every job and every overshoot `res`, `drf.Reclaim` returns the
stored objects of the job's `runningPods` FIFO, one per stored entry and in
the order of `List()`: a pod is returned exactly when it is stored in the
FIFO, the result has `Len()` elements, and it is the same for every `res`. -/
theorem C15_reclaim_returns_all_running (job : JoQuotabInfo) (res res2 : Resource) :
    drf.Reclaim job res = job.RunningPods.List ∧
    drf.Reclaim job res = job.RunningPods.items.map Prod.snd ∧
    (drf.Reclaim job res).length = job.RunningPods.Len ∧
    (∀ pod, pod ∈ drf.Reclaim job res ↔ ∃ key, (key, pod) ∈ job.RunningPods.items) ∧
    drf.Reclaim job res = drf.Reclaim job res2 := by
  refine ⟨reclaim_eq_list job res, reclaim_eq_list job res, ?_, ?_, ?_⟩
  · rw [reclaim_eq_list]
    simp [FIFO.List, FIFO.Len]
  · intro pod
    rw [reclaim_eq_list]
    simp [FIFO.List]
  · rw [reclaim_eq_list, reclaim_eq_list]

/-- C18: for every cache state and every quota object with the single owner
UID `uid`, after `UpdateJobQuota` and after `AddJobQuota` the cache entry under
`uid` is the fresh `NewJobQuotaInfo` of the object, whose `runningPods` and
`reclaimingPods` are new, empty FIFOs, whatever the entry held before. -/
theorem C18_quota_update_resets_queues (c : Cache) (old obj : JobQuota) (uid : String)
    (h : obj.OwnerReferences = [⟨uid⟩]) :
    mapGet (c.UpdateJobQuota old obj).batchjobs uid = some (NewJobQuotaInfo obj) ∧
    mapGet (c.AddJobQuota obj).batchjobs uid = some (NewJobQuotaInfo obj) ∧
    (NewJobQuotaInfo obj).RunningPods = NewFIFO ∧
    (NewJobQuotaInfo obj).ReclaimingPods = NewFIFO ∧
    (NewJobQuotaInfo obj).RunningPods.Len = 0 ∧
    (NewJobQuotaInfo obj).ReclaimingPods.Len = 0 ∧
    (NewJobQuotaInfo obj).RunningPods.List = [] ∧
    (NewJobQuotaInfo obj).ReclaimingPods.List = [] := by
  have hid : (NewJobQuotaInfo obj).ConsumerId = uid := by
    simp [NewJobQuotaInfo, h]
  refine ⟨?_, ?_, rfl, rfl, rfl, rfl, rfl, rfl⟩
  · simp only [Cache.UpdateJobQuota, hid]
    exact mapGet_mapSet_self _ _ _
  · simp only [Cache.AddJobQuota, hid]
    exact mapGet_mapSet_self _ _ _

/-- Witness for C18: scenario S5, an update with the identical quota object on
a cache whose entry holds a running pod. -/
theorem C18_quota_update_resets_queues_witness :
    (mapGet s5Cache.batchjobs "rc-1").map (fun e => e.RunningPods.Len) = some 1 ∧
    s3Quota.OwnerReferences = [⟨"rc-1"⟩] ∧
    mapGet (s5Cache.UpdateJobQuota s3Quota s3Quota).batchjobs "rc-1"
      = some (NewJobQuotaInfo s3Quota) ∧
    mapGet (s5Cache.AddJobQuota s3Quota).batchjobs "rc-1" = some (NewJobQuotaInfo s3Quota) ∧
    (NewJobQuotaInfo s3Quota).RunningPods = NewFIFO ∧
    (NewJobQuotaInfo s3Quota).ReclaimingPods = NewFIFO ∧
    (NewJobQuotaInfo s3Quota).RunningPods.Len = 0 ∧
    (NewJobQuotaInfo s3Quota).ReclaimingPods.Len = 0 ∧
    (NewJobQuotaInfo s3Quota).RunningPods.List = [] ∧
    (NewJobQuotaInfo s3Quota).ReclaimingPods.List = [] :=
  ⟨by decide!, rfl, C18_quota_update_resets_queues s5Cache s3Quota s3Quota "rc-1" rfl⟩

/-- C19: for a quota object that does not have exactly one owner reference
`NewJobQuotaInfo` leaves `ConsumerId` empty, and `AddJobQuota` and
`UpdateJobQuota` store the quota under the empty UID instead of ignoring it;
`GetSnapshot` then returns its clone. -/
theorem C19_ownerless_quota_is_stored (c : Cache) (old obj : JobQuota)
    (h : obj.OwnerReferences.length ≠ 1) :
    (NewJobQuotaInfo obj).ConsumerId = "" ∧
    mapGet (c.AddJobQuota obj).batchjobs "" = some (NewJobQuotaInfo obj) ∧
    mapGet (c.UpdateJobQuota old obj).batchjobs "" = some (NewJobQuotaInfo obj) ∧
    (NewJobQuotaInfo obj).Clone ∈ (c.AddJobQuota obj).GetSnapshot.1 ∧
    (NewJobQuotaInfo obj).Clone ∈ (c.UpdateJobQuota old obj).GetSnapshot.1 := by
  have hid : (NewJobQuotaInfo obj).ConsumerId = "" := by
    unfold NewJobQuotaInfo
    simp only
    split
    · rename_i owner heq
      rw [heq] at h
      simp at h
    · rfl
  have h1 : mapGet (c.AddJobQuota obj).batchjobs "" = some (NewJobQuotaInfo obj) := by
    simp only [Cache.AddJobQuota, hid]
    exact mapGet_mapSet_self _ _ _
  have h2 : mapGet (c.UpdateJobQuota old obj).batchjobs "" = some (NewJobQuotaInfo obj) := by
    simp only [Cache.UpdateJobQuota, hid]
    exact mapGet_mapSet_self _ _ _
  refine ⟨hid, h1, h2, ?_, ?_⟩
  · rw [getSnapshot_eq]
    exact List.mem_map.2 ⟨("", NewJobQuotaInfo obj), mapGet_mem _ _ _ h1, rfl⟩
  · rw [getSnapshot_eq]
    exact List.mem_map.2 ⟨("", NewJobQuotaInfo obj), mapGet_mem _ _ _ h2, rfl⟩

/-- Witness for C19: a quota object with no owner reference on the empty
cache; the cache is no longer empty afterwards. -/
theorem C19_ownerless_quota_is_stored_witness :
    ownerlessQuota.OwnerReferences.length ≠ 1 ∧
    NewCache.GetSnapshot.1 = [] ∧
    NewCache.AddJobQuota ownerlessQuota ≠ NewCache ∧
    ((NewJobQuotaInfo ownerlessQuota).ConsumerId = "" ∧
      mapGet (NewCache.AddJobQuota ownerlessQuota).batchjobs ""
        = some (NewJobQuotaInfo ownerlessQuota) ∧
      mapGet (NewCache.UpdateJobQuota ownerlessQuota ownerlessQuota).batchjobs ""
        = some (NewJobQuotaInfo ownerlessQuota) ∧
      (NewJobQuotaInfo ownerlessQuota).Clone
        ∈ (NewCache.AddJobQuota ownerlessQuota).GetSnapshot.1 ∧
      (NewJobQuotaInfo ownerlessQuota).Clone
        ∈ (NewCache.UpdateJobQuota ownerlessQuota ownerlessQuota).GetSnapshot.1) :=
  ⟨by decide, by decide!, by decide!,
    C19_ownerless_quota_is_stored NewCache ownerlessQuota ownerlessQuota (by decide)⟩


/-! ## Adding to a FIFO -/

theorem fifo_add_get_self {α : Type} (f : FIFO α) (id : String) (obj : α) :
    mapGet (f.Add id obj).items id = some obj :=
  mapGet_mapSet_self _ _ _

theorem fifo_add_get_ne {α : Type} (f : FIFO α) (id id1 : String) (obj : α) (h : id1 ≠ id) :
    mapGet (f.Add id obj).items id1 = mapGet f.items id1 :=
  mapGet_mapSet_ne _ _ _ _ h

theorem fifo_add_idem {α : Type} (f : FIFO α) (id : String) (obj : α) :
    (f.Add id obj).Add id obj = f.Add id obj := by
  have h1 : (mapGet (f.Add id obj).items id).isSome = true := by
    rw [fifo_add_get_self]; rfl
  have h2 : ((f.Add id obj).Add id obj).items = (f.Add id obj).items := mapSet_idem _ _ _
  have h3 : ((f.Add id obj).Add id obj).queue = (f.Add id obj).queue := by
    show (if (mapGet (f.Add id obj).items id).isSome = true then (f.Add id obj).queue
      else (f.Add id obj).queue ++ [id]) = _
    rw [if_pos h1]
  cases hf : (f.Add id obj).Add id obj with
  | mk q i =>
    cases hg : f.Add id obj with
    | mk q2 i2 =>
      rw [hf, hg] at h2 h3
      simp only at h2 h3
      rw [h2, h3]

/-- The loop that adds a list of pods to a FIFO, as in `Cache.Reclaim` and in
`Clone`: a key of no pod of the list keeps its object. -/
theorem fold_add_get_other (pods : List PodInfo) (f : FIFO PodInfo) (k : String)
    (h : ∀ pod ∈ pods, PodInfoKeyFunc pod ≠ k) :
    mapGet (pods.foldl (fun f pod => f.Add (PodInfoKeyFunc pod) pod) f).items k
      = mapGet f.items k := by
  induction pods generalizing f with
  | nil => rfl
  | cons p rest ih =>
    simp only [List.foldl_cons]
    rw [ih _ (fun pod hp => h pod (List.mem_cons_of_mem _ hp))]
    exact fifo_add_get_ne _ _ _ _ (fun e => h p (List.mem_cons_self _ _) e.symm)

/-- After the loop every key of a pod of the list holds an object, namely the
last pod of the list with that key. -/
theorem fold_add_get_key (pods : List PodInfo) (f : FIFO PodInfo) (k : String)
    (h : ∃ q ∈ pods, PodInfoKeyFunc q = k) :
    ∃ pod2 ∈ pods, PodInfoKeyFunc pod2 = k ∧
      mapGet (pods.foldl (fun f pod => f.Add (PodInfoKeyFunc pod) pod) f).items k
        = some pod2 := by
  induction pods generalizing f with
  | nil => simp at h
  | cons p rest ih =>
    simp only [List.foldl_cons]
    by_cases hr : ∃ q ∈ rest, PodInfoKeyFunc q = k
    · obtain ⟨pod2, h2, h3, h4⟩ := ih (f.Add (PodInfoKeyFunc p) p) hr
      exact ⟨pod2, List.mem_cons_of_mem _ h2, h3, h4⟩
    · have hnone : ∀ q ∈ rest, PodInfoKeyFunc q ≠ k := fun q hq e => hr ⟨q, hq, e⟩
      obtain ⟨q, hq, hk⟩ := h
      have hp : PodInfoKeyFunc p = k := by
        rcases List.mem_cons.1 hq with h1 | h1
        · rw [← h1]; exact hk
        · exact absurd hk (hnone q h1)
      refine ⟨p, List.mem_cons_self _ _, hp, ?_⟩
      rw [fold_add_get_other rest _ _ hnone, ← hp]
      exact fifo_add_get_self _ _ _

theorem fold_add_get_mem (pods : List PodInfo) (f : FIFO PodInfo) (pod : PodInfo)
    (h : pod ∈ pods) :
    ∃ pod2 ∈ pods, PodInfoKeyFunc pod2 = PodInfoKeyFunc pod ∧
      mapGet (pods.foldl (fun f pod => f.Add (PodInfoKeyFunc pod) pod) f).items
        (PodInfoKeyFunc pod) = some pod2 :=
  fold_add_get_key pods f (PodInfoKeyFunc pod) ⟨pod, h, rfl⟩

theorem fold_add_get_nodup (pods : List PodInfo) (f : FIFO PodInfo) (pod : PodInfo)
    (h : pod ∈ pods) (hnd : (pods.map PodInfoKeyFunc).Nodup) :
    mapGet (pods.foldl (fun f pod => f.Add (PodInfoKeyFunc pod) pod) f).items
      (PodInfoKeyFunc pod) = some pod := by
  obtain ⟨pod2, h2, h3, h4⟩ := fold_add_get_mem pods f pod h
  have : pod2 = pod := List.inj_on_of_nodup_map hnd h2 h h3
  rw [this] at h4
  exact h4

/-- What `Cache.Reclaim` returns when the cache holds the entry `e` under the
UID of the job: the entry gets the pods added to `reclaimingPods`. -/
theorem cache_reclaim_eq (c : Cache) (job e : JoQuotabInfo) (pods : List PodInfo)
    (h : mapGet c.batchjobs job.ConsumerId = some e) :
    c.Reclaim job pods = some ⟨mapSet c.batchjobs job.ConsumerId
        ⟨e.JobQuota, e.ConsumerId, e.Namespace, e.Replicas, e.RequestUnit, e.Allocated, e.Used,
          e.RunningPods,
          pods.foldl (fun f pod => f.Add (PodInfoKeyFunc pod) pod) e.ReclaimingPods⟩,
      c.nodes⟩ := by
  simp only [Cache.Reclaim, h]

/-- C17: when the cache holds a quota `e` under `job.ConsumerId`,
`Cache.Reclaim` returns, and afterwards the entry under that UID has, for
every pod of the list, an object under the pod's key namespace/name in
`reclaimingPods` (the pod itself when the keys of the list are distinct,
otherwise the last pod of the list with that key); keys of none of the pods
keep their object; `runningPods` and all other fields of the entry are as
before; the entries under all other UIDs, the set of UIDs and the nodes are
unchanged. -/
theorem C17_cache_reclaim_frame (c : Cache) (job e : JoQuotabInfo) (pods : List PodInfo)
    (h : mapGet c.batchjobs job.ConsumerId = some e) :
    ∃ c1 e1, c.Reclaim job pods = some c1 ∧
      mapGet c1.batchjobs job.ConsumerId = some e1 ∧
      (∀ pod ∈ pods, ∃ pod2 ∈ pods, PodInfoKeyFunc pod2 = PodInfoKeyFunc pod ∧
        mapGet e1.ReclaimingPods.items (PodInfoKeyFunc pod) = some pod2) ∧
      ((pods.map PodInfoKeyFunc).Nodup →
        ∀ pod ∈ pods, mapGet e1.ReclaimingPods.items (PodInfoKeyFunc pod) = some pod) ∧
      (∀ k, (∀ pod ∈ pods, PodInfoKeyFunc pod ≠ k) →
        mapGet e1.ReclaimingPods.items k = mapGet e.ReclaimingPods.items k) ∧
      e1.RunningPods = e.RunningPods ∧
      e1 = { e with ReclaimingPods := e1.ReclaimingPods } ∧
      (∀ k, k ≠ job.ConsumerId → mapGet c1.batchjobs k = mapGet c.batchjobs k) ∧
      c1.batchjobs.map Prod.fst = c.batchjobs.map Prod.fst ∧
      c1.nodes = c.nodes := by
  refine ⟨⟨mapSet c.batchjobs job.ConsumerId
        ⟨e.JobQuota, e.ConsumerId, e.Namespace, e.Replicas, e.RequestUnit, e.Allocated, e.Used,
          e.RunningPods,
          pods.foldl (fun f pod => f.Add (PodInfoKeyFunc pod) pod) e.ReclaimingPods⟩,
      c.nodes⟩,
    ⟨e.JobQuota, e.ConsumerId, e.Namespace, e.Replicas, e.RequestUnit, e.Allocated, e.Used,
      e.RunningPods,
      pods.foldl (fun f pod => f.Add (PodInfoKeyFunc pod) pod) e.ReclaimingPods⟩,
    ?_, ?_, ?_, ?_, ?_, rfl, rfl, ?_, ?_, rfl⟩
  · exact cache_reclaim_eq c job e pods h
  · exact mapGet_mapSet_self _ _ _
  · intro pod hp
    exact fold_add_get_mem pods _ pod hp
  · intro hnd pod hp
    exact fold_add_get_nodup pods _ pod hp hnd
  · intro k hk
    exact fold_add_get_other pods _ k hk
  · intro k hk
    exact mapGet_mapSet_ne _ _ _ _ hk
  · show (mapSet c.batchjobs job.ConsumerId _).map Prod.fst = _
    rw [mapSet_keys]
    have : job.ConsumerId ∈ c.batchjobs.map Prod.fst :=
      List.mem_map.2 ⟨(job.ConsumerId, e), mapGet_mem _ _ _ h, rfl⟩
    rw [if_pos this]

/-- Witness for C17: `Cache.Reclaim` of the running pod on the cache of
scenario S5. -/
theorem C17_cache_reclaim_frame_witness :
    mapGet s5Cache.batchjobs s5Entry.ConsumerId = some s5Entry ∧
    ∃ c1 e1, s5Cache.Reclaim s5Entry [s3PodInfo] = some c1 ∧
      mapGet c1.batchjobs s5Entry.ConsumerId = some e1 ∧
      mapGet e1.ReclaimingPods.items (PodInfoKeyFunc s3PodInfo) = some s3PodInfo ∧
      e1.RunningPods = s5Entry.RunningPods ∧
      c1.nodes = s5Cache.nodes := by
  refine ⟨by decide!, ?_⟩
  obtain ⟨c1, e1, h1, h2, _, h5, _, h3, _, _, _, h4⟩ :=
    C17_cache_reclaim_frame s5Cache s5Entry s5Entry [s3PodInfo] (by decide!)
  exact ⟨c1, e1, h1, h2, h5 (by simp) s3PodInfo (by simp), h3, h4⟩


theorem newPodInfo_single (pod : Pod) (uid : String) (h : pod.OwnerReferences = [⟨uid⟩]) :
    NewPodInfo pod = some
      { Owner := uid, Name := pod.Name, Namespace := pod.Namespace, ConsumerName := "",
        Status := pod.Phase, Hostname := pod.NodeName,
        Resource := GetResourceRequest pod.Containers } := by
  simp [NewPodInfo, h]

theorem mapSet_keys_nodup {β : Type} (m : List (String × β)) (k : String) (v : β)
    (h : (m.map Prod.fst).Nodup) :
    ((mapSet m k v).map Prod.fst).Nodup ∧ ((mapSet m k v).map Prod.fst).count k = 1 := by
  rw [mapSet_keys]
  split
  · rename_i hk
    exact ⟨h, List.count_eq_one_of_mem h hk⟩
  · rename_i hk
    have hnd : (m.map Prod.fst ++ [k]).Nodup := by
      rw [List.nodup_append]
      refine ⟨h, List.nodup_singleton k, ?_⟩
      intro a ha hb
      simp only [List.mem_singleton] at hb
      subst hb
      exact hk ha
    exact ⟨hnd, List.count_eq_one_of_mem hnd (by simp)⟩

/-- C20: for a pod with exactly one owner reference `uid`.  If the cache holds
a quota under `uid` and the phase is Running, `AddPod` and `UpdatePod` return,
the quota's `runningPods` then stores the pod under the key namespace/name
(exactly one entry under that key when the stored keys were distinct, as in a
map), and the same event on the resulting cache leaves it unchanged.  If the
phase is none of Running, Failed, Succeeded, or the cache holds no quota under
`uid`, the handlers return the cache unchanged. -/
theorem C20_addPod_running (c : Cache) (old pod : Pod) (uid : String)
    (hown : pod.OwnerReferences = [⟨uid⟩]) :
    (∀ e, mapGet c.batchjobs uid = some e → pod.Phase = PodRunning →
      ∃ info c1 e1, NewPodInfo pod = some info ∧
        PodInfoKeyFunc info = pod.Namespace ++ "/" ++ pod.Name ∧
        c.AddPod pod = some c1 ∧ c.UpdatePod old pod = some c1 ∧
        mapGet c1.batchjobs uid = some e1 ∧
        mapGet e1.RunningPods.items (PodInfoKeyFunc info) = some info ∧
        info ∈ e1.RunningPods.List ∧
        ((e.RunningPods.items.map Prod.fst).Nodup →
          (e1.RunningPods.items.map Prod.fst).Nodup ∧
          (e1.RunningPods.items.map Prod.fst).count (PodInfoKeyFunc info) = 1) ∧
        e1.ReclaimingPods = e.ReclaimingPods ∧
        c1.AddPod pod = some c1 ∧ c1.UpdatePod old pod = some c1) ∧
    (pod.Phase ≠ PodRunning → pod.Phase ≠ PodFailed → pod.Phase ≠ PodSucceeded →
      c.AddPod pod = some c ∧ c.UpdatePod old pod = some c) ∧
    (mapGet c.batchjobs uid = none →
      c.AddPod pod = some c ∧ c.UpdatePod old pod = some c) := by
  have hinfo := newPodInfo_single pod uid hown
  refine ⟨?_, ?_, ?_⟩
  · intro e he hrun
    obtain ⟨info, hi⟩ : ∃ info : PodInfo, info =
        ⟨uid, pod.Name, pod.Namespace, "", pod.Phase, pod.NodeName,
          GetResourceRequest pod.Containers⟩ := ⟨_, rfl⟩
    have hkey : PodInfoKeyFunc info = pod.Namespace ++ "/" ++ pod.Name := by
      rw [hi]; rfl
    have hinfo2 : NewPodInfo pod = some info := by rw [hi]; exact hinfo
    have hadd : ∀ (c0 : Cache) (e0 : JoQuotabInfo), mapGet c0.batchjobs uid = some e0 →
        c0.AddPod pod = some ⟨mapSet c0.batchjobs uid
          ⟨e0.JobQuota, e0.ConsumerId, e0.Namespace, e0.Replicas, e0.RequestUnit, e0.Allocated,
            e0.Used, e0.RunningPods.Add (PodInfoKeyFunc info) info, e0.ReclaimingPods⟩,
          c0.nodes⟩ := by
      intro c0 e0 h0
      have hown2 : info.Owner = uid := by rw [hi]
      have hst : info.Status = PodRunning := by rw [hi]; exact hrun
      simp only [Cache.AddPod, hinfo2, hown2, h0, hst, if_true]
    obtain ⟨e1, he1⟩ : ∃ e1 : JoQuotabInfo, e1 =
        ⟨e.JobQuota, e.ConsumerId, e.Namespace, e.Replicas, e.RequestUnit, e.Allocated,
          e.Used, e.RunningPods.Add (PodInfoKeyFunc info) info, e.ReclaimingPods⟩ := ⟨_, rfl⟩
    have h1 : c.AddPod pod = some ⟨mapSet c.batchjobs uid e1, c.nodes⟩ := by
      rw [he1]; exact hadd c e he
    have hrp : e1.RunningPods = e.RunningPods.Add (PodInfoKeyFunc info) info := by rw [he1]
    have h2 : (⟨mapSet c.batchjobs uid e1, c.nodes⟩ : Cache).AddPod pod
        = some ⟨mapSet c.batchjobs uid e1, c.nodes⟩ := by
      rw [hadd ⟨mapSet c.batchjobs uid e1, c.nodes⟩ e1 (mapGet_mapSet_self _ _ _)]
      have : (⟨e1.JobQuota, e1.ConsumerId, e1.Namespace, e1.Replicas, e1.RequestUnit,
          e1.Allocated, e1.Used, e1.RunningPods.Add (PodInfoKeyFunc info) info,
          e1.ReclaimingPods⟩ : JoQuotabInfo) = e1 := by
        rw [hrp, fifo_add_idem, ← hrp]
      rw [this, mapSet_idem]
    refine ⟨info, ⟨mapSet c.batchjobs uid e1, c.nodes⟩, e1, hinfo2, hkey, h1, h1,
      mapGet_mapSet_self _ _ _, ?_, ?_, ?_, by rw [he1], h2, h2⟩
    · rw [hrp]; exact fifo_add_get_self _ _ _
    · rw [hrp]
      exact List.mem_map.2 ⟨_, mapGet_mem _ _ _ (fifo_add_get_self e.RunningPods _ info), rfl⟩
    · intro hnd
      rw [hrp]
      exact mapSet_keys_nodup _ _ _ hnd
  · intro h1 h2 h3
    have : c.AddPod pod = some c := by
      simp only [Cache.AddPod, hinfo]
      cases mapGet c.batchjobs uid with
      | none => rfl
      | some e => simp [h1, h2, h3]
    exact ⟨this, this⟩
  · intro hnone
    have : c.AddPod pod = some c := by
      simp only [Cache.AddPod, hinfo, hnone]
    exact ⟨this, this⟩

/-- Witness for C20: the pod of scenario S3 on the cache that holds its quota,
and the same pod in phase Pending. -/
theorem C20_addPod_running_witness :
    s3Pod.OwnerReferences = [⟨"rc-1"⟩] ∧
    (NewCache.AddJobQuota s3Quota).AddPod s3Pod = some s5Cache ∧
    s5Cache.AddPod s3Pod = some s5Cache ∧
    mapGet s5Cache.batchjobs "rc-1" = some s5Entry ∧
    s5Entry.RunningPods.List = [s3PodInfo] ∧
    ((pendingPod.Phase ≠ PodRunning → pendingPod.Phase ≠ PodFailed →
        pendingPod.Phase ≠ PodSucceeded →
        s5Cache.AddPod pendingPod = some s5Cache ∧
        s5Cache.UpdatePod s3Pod pendingPod = some s5Cache) ∧
     (mapGet NewCache.batchjobs "rc-1" = none →
        NewCache.AddPod pendingPod = some NewCache ∧
        NewCache.UpdatePod s3Pod pendingPod = some NewCache)) :=
  ⟨rfl, by decide!, by decide!, by decide!, by decide!,
    (C20_addPod_running s5Cache s3Pod pendingPod "rc-1" rfl).2.1,
    (C20_addPod_running NewCache s3Pod pendingPod "rc-1" rfl).2.2⟩


/-! ## The names of the consumers and the keys of the allocation map -/

theorem map_set_eq {α β : Type} (f : α → β) (l : List α) (i : Nat) (a b : α)
    (h : l[i]? = some a) (hf : f b = f a) : (l.set i b).map f = l.map f := by
  induction l generalizing i with
  | nil => simp
  | cons x t ih =>
    cases i with
    | zero =>
      simp only [List.getElem?_cons_zero, Option.some.injEq] at h
      subst h
      simp [hf]
    | succ n =>
      simp only [List.getElem?_cons_succ] at h
      simp [ih n h]

theorem innerStep_names (d : drf) (pq : PriorityQueue Nat) (a : Bool) (d1 : drf)
    (pq1 : PriorityQueue Nat) (a1 : Bool)
    (h : drf.innerStep d pq a = drf.Step.cont d1 pq1 a1) :
    d1.consumers.map (fun c => c.Name) = d.consumers.map (fun c => c.Name) := by
  obtain ⟨_, ci, pq0, c, _, hc, hcase⟩ := innerStep_cont d pq a d1 pq1 a1 h
  rcases hcase with ⟨_, rfl, _, _⟩ | ⟨job, jobs1, _, hcase2⟩
  · rfl
  · rcases hcase2 with ⟨_, rfl, _, _⟩ | ⟨_, sh, rfl, _, _⟩
    · exact map_set_eq _ _ _ c _ hc rfl
    · exact map_set_eq _ _ _ c _ hc rfl

theorem buildConsumer_name (jobs : List JoQuotabInfo) (c : consumer) :
    (jobs.foldl (fun (c : consumer) job =>
      { c with
        Jobs := c.Jobs.Add (BatchJobInfoKeyFunc job) job,
        Request := c.Request.Add (job.RequestUnit.Clone.Multi job.Replicas) }) c).Name
      = c.Name := by
  induction jobs generalizing c with
  | nil => rfl
  | cons job rest ih =>
    simp only [List.foldl_cons]
    rw [ih]

theorem buildConsumers_names (jobs : List (String × List JoQuotabInfo)) :
    (drf.buildConsumers jobs).map (fun c => c.Name) = jobs.map Prod.fst := by
  unfold drf.buildConsumers
  rw [List.map_map]
  apply List.map_congr_left
  intro p _
  exact buildConsumer_name p.2 _

/-- The final loop of `Allocate`: the keys of the map it builds. -/
theorem allocation_keys (cs : List consumer) (acc : List (String × AllocationInfo))
    (hacc : (acc.map Prod.fst).Nodup) :
    let m := cs.foldl (fun allocation c =>
      mapSet allocation c.Name
        { GroupId := "", Allocated := c.Deserved, Used := EmptyResource }) acc
    (m.map Prod.fst).Nodup ∧
    (∀ ns, ns ∈ m.map Prod.fst ↔ ns ∈ acc.map Prod.fst ∨ ns ∈ cs.map (fun c => c.Name)) ∧
    ((acc.map Prod.fst ++ cs.map (fun c => c.Name)).Nodup →
      m.map Prod.fst = acc.map Prod.fst ++ cs.map (fun c => c.Name)) := by
  induction cs generalizing acc with
  | nil => simp [hacc]
  | cons c rest ih =>
    simp only [List.foldl_cons, List.map_cons]
    have hk := mapSet_keys acc c.Name
      { GroupId := "", Allocated := c.Deserved, Used := EmptyResource }
    have hnd := (mapSet_keys_nodup acc c.Name
      { GroupId := "", Allocated := c.Deserved, Used := EmptyResource } hacc).1
    obtain ⟨h1, h2, h3⟩ := ih _ hnd
    refine ⟨h1, ?_, ?_⟩
    · intro ns
      rw [h2 ns, hk]
      split
      · rename_i hmem
        constructor
        · rintro (h | h)
          · exact Or.inl h
          · exact Or.inr (List.mem_cons_of_mem _ h)
        · rintro (h | h)
          · exact Or.inl h
          · rcases List.mem_cons.1 h with h4 | h4
            · rw [h4]; exact Or.inl hmem
            · exact Or.inr h4
      · simp only [List.mem_append, List.mem_singleton, List.mem_cons]
        tauto
    · intro hall
      have hnot : c.Name ∉ acc.map Prod.fst := by
        intro hmem
        rw [List.nodup_append] at hall
        exact hall.2.2 hmem (List.mem_cons_self _ _)
      rw [hk, if_neg hnot] at h3
      have : (acc.map Prod.fst ++ [c.Name] ++ rest.map (fun c => c.Name)).Nodup := by
        simpa [List.append_assoc] using hall
      rw [h3 this]
      simp [List.append_assoc]

/-- C13: when the node list or the jobs map is empty `Allocate` returns the
empty map; when both are non-empty it returns a map that has exactly the
namespaces of the jobs map as keys, each once (and in the order of the jobs
map when its keys are distinct, as the keys of a map are). -/
theorem C13_allocate_entries (jobs : List (String × List JoQuotabInfo))
    (nodes : List NodeInfo) :
    (nodes = [] ∨ jobs = [] → drf.Allocate jobs nodes = Run.ret []) ∧
    (nodes ≠ [] → jobs ≠ [] →
      ∃ m, drf.Allocate jobs nodes = Run.ret m ∧
        (m.map Prod.fst).Nodup ∧
        (∀ ns, ns ∈ m.map Prod.fst ↔ ns ∈ jobs.map Prod.fst) ∧
        ((jobs.map Prod.fst).Nodup → m.map Prod.fst = jobs.map Prod.fst)) := by
  constructor
  · intro h
    unfold drf.Allocate
    rcases h with h | h <;> simp [h]
  · intro hn hj
    obtain ⟨d, passes, hrun, _, _⟩ := allocateRun_returns jobs nodes
    have hnames : d.consumers.map (fun c => c.Name) = jobs.map Prod.fst := by
      have h0 : (drf.initial jobs nodes).consumers.map (fun c => c.Name) = jobs.map Prod.fst :=
        buildConsumers_names jobs
      exact outerLoop_preserves
        (fun x => x.consumers.map (fun c => c.Name) = jobs.map Prod.fst)
        (fun x pq a x1 pq1 a1 hx hs =>
          (innerStep_names x pq a x1 pq1 a1 hs).trans hx) _ _ _ _ _ h0 hrun
    have hlen : ¬ (nodes.length = 0 || jobs.length = 0) = true := by
      simp [hn, hj]
    obtain ⟨h1, h2, h3⟩ := allocation_keys d.consumers [] (by simp)
    refine ⟨_, ?_, h1, ?_, ?_⟩
    · unfold drf.Allocate
      rw [if_neg hlen, hrun]
    · intro ns
      rw [h2 ns, hnames]
      simp
    · intro hnd
      rw [h3 (by simpa [hnames] using hnd), hnames]
      simp

/-- Witness for C13: scenario S2 and the empty node list. -/
theorem C13_allocate_entries_witness :
    drf.Allocate [("A", [s2JobA]), ("B", [s2JobB])] [] = Run.ret [] ∧
    ∃ m, drf.Allocate [("A", [s2JobA]), ("B", [s2JobB])] s2Nodes = Run.ret m ∧
      (m.map Prod.fst).Nodup ∧
      (∀ ns, ns ∈ m.map Prod.fst ↔ ns ∈ [("A", [s2JobA]), ("B", [s2JobB])].map Prod.fst) ∧
      (([("A", [s2JobA]), ("B", [s2JobB])].map Prod.fst).Nodup →
        m.map Prod.fst = [("A", [s2JobA]), ("B", [s2JobB])].map Prod.fst) :=
  ⟨(C13_allocate_entries [("A", [s2JobA]), ("B", [s2JobB])] []).1 (Or.inl rfl),
   (C13_allocate_entries [("A", [s2JobA]), ("B", [s2JobB])] s2Nodes).2
     (by decide) (by simp)⟩


/-- The pass over one consumer whose only job does not pass `LessEqual`:
nothing is granted. -/
theorem single_pass_skip (T : Resource) (c : consumer) (k : String) (job : JoQuotabInfo)
    (fuel : Nat) (hle : (reqOf job).LessEqual T = false)
    (hjobs : c.Jobs = ⟨[k], [(k, job)]⟩) :
    ∃ c1, drf.innerLoop (fuel + 2) { total := T, available := T, consumers := [c] }
        ⟨[⟨0, c.Share⟩]⟩ false
        = Run.ret ({ total := T, available := T, consumers := [c1] }, false) ∧
      c1.Name = c.Name ∧ c1.Deserved = c.Deserved := by
  have hle2 : (job.RequestUnit.Clone.Multi job.Replicas).LessEqual T = false := hle
  by_cases he : T.IsEmpty = true
  · refine ⟨c, ?_, rfl, rfl⟩
    unfold drf.innerLoop
    simp [drf.innerStep, he]
  · simp only [Bool.not_eq_true] at he
    refine ⟨{ c with Jobs := ⟨[], []⟩ }, ?_, rfl, rfl⟩
    unfold drf.innerLoop
    simp only [drf.innerStep, he, PriorityQueue.Len, priorityQueue.Len, List.length_singleton,
      pq_single_pop, List.getElem?_cons_zero, hjobs, FIFO.Len, fifo_single_pop, hle2,
      List.set_cons_zero]
    simp only [List.length_nil, List.length_cons, Bool.false_or, Nat.reduceAdd,
      Nat.reduceBEq, Bool.false_eq_true, if_false, Bool.not_false, if_true,
      List.length_singleton]
    unfold drf.innerLoop
    simp [drf.innerStep, PriorityQueue.Len, priorityQueue.Len]

/-- C14: for every non-empty node list and every jobs map of one namespace
with one job whose total request is not `LessEqual` the sum of the node
allocatables, `Allocate` returns for that namespace the zero resource. -/
theorem C14_single_job_too_large (nodes : List NodeInfo) (ns : String) (job : JoQuotabInfo)
    (hnodes : nodes ≠ [])
    (hle : (reqOf job).LessEqual (clusterTotal nodes) = false) :
    drf.Allocate [(ns, [job])] nodes
      = Run.ret [(ns, { GroupId := "", Allocated := EmptyResource, Used := EmptyResource })] ∧
    allocatedOf (drf.Allocate [(ns, [job])] nodes) ns = some ⟨0, 0⟩ := by
  obtain ⟨c1, h1, hname, hdes⟩ := single_pass_skip (clusterTotal nodes)
    { Name := ns, Share := Float64.fin 0, Deserved := EmptyResource,
      Request := EmptyResource.Add (job.RequestUnit.Clone.Multi job.Replicas),
      Jobs := ⟨[BatchJobInfoKeyFunc job], [(BatchJobInfoKeyFunc job, job)]⟩ }
    (BatchJobInfoKeyFunc job) job 2 hle rfl
  have hrun : drf.allocateRun [(ns, [job])] nodes
      = Run.ret ({ total := clusterTotal nodes, available := clusterTotal nodes,
                   consumers := [c1] }, 1) := by
    show drf.outerLoop 2 _ 0 = _
    unfold drf.outerLoop
    show (match drf.innerLoop (2 + 2) _ (drf.sortConsumer _) false with
      | Run.ret (d1, true) => _ | Run.ret (d1, false) => _
      | Run.fault => _ | Run.outOfFuel => _) = _
    simp only [drf.initial, drf.buildConsumers, List.map, List.foldl, FIFO.Add, NewFIFO,
      mapGet, mapSet, List.lookup, List.any, Option.isSome, Bool.false_eq_true, if_false,
      List.nil_append, sortConsumer_single]
    simp only [clusterTotal] at h1 ⊢
    rw [h1]
  have hlen : nodes.length ≠ 0 := fun h0 => hnodes (List.length_eq_zero.1 h0)
  have hall : drf.Allocate [(ns, [job])] nodes
      = Run.ret [(ns, { GroupId := "", Allocated := EmptyResource, Used := EmptyResource })] := by
    unfold drf.Allocate
    simp only [hlen, hrun]
    simp only at hname hdes
    simp [mapSet, hname, hdes]
  refine ⟨hall, ?_⟩
  rw [hall]
  simp [allocatedOf, mapGet, EmptyResource]

/-- Witness for C14: one job of 5000m on a node of 4000m. -/
theorem C14_single_job_too_large_witness :
    s1Nodes ≠ [] ∧
    (reqOf (mkJob "rc-big" "A" 1 5000 Gi)).LessEqual (clusterTotal s1Nodes) = false ∧
    drf.Allocate [("A", [mkJob "rc-big" "A" 1 5000 Gi])] s1Nodes
      = Run.ret [("A", { GroupId := "", Allocated := EmptyResource, Used := EmptyResource })] ∧
    allocatedOf (drf.Allocate [("A", [mkJob "rc-big" "A" 1 5000 Gi])] s1Nodes) "A"
      = some ⟨0, 0⟩ :=
  ⟨by decide, by decide!,
    C14_single_job_too_large s1Nodes "A" (mkJob "rc-big" "A" 1 5000 Gi) (by decide)
      (by decide!)⟩


theorem mem_getOverused (c : Cache) (k : String) (e : JoQuotabInfo)
    (h : mapGet c.batchjobs k = some e) (hl : e.Allocated.Less e.Used = true) :
    e.Clone ∈ c.GetOverused := by
  rw [getOverused_eq]
  exact List.mem_map.2 ⟨(k, e), List.mem_filter.2 ⟨mapGet_mem _ _ _ h, hl⟩, rfl⟩

/-- C16 fails as stated: on the cache that holds the overused `overQuota` with
one running pod, the first reclaim tick evicts the pod and marks it
reclaiming; the next tick, with no event in between, evicts the same pod
again, although it is in the job's `reclaimingPods`. -/
theorem C16_counterexample :
    (JobQuotaController.reclaim ⟨overCache, freshAllocator⟩).map (fun r => r.2) = some [s3PodInfo] ∧
    (JobQuotaController.reclaim ⟨overCache, freshAllocator⟩).bind (fun r =>
      (mapGet r.1.Cache.batchjobs "rc-1").map (fun e => e.ReclaimingPods.List))
      = some [s3PodInfo] ∧
    (JobQuotaController.reclaim ⟨overCache, freshAllocator⟩).bind (fun r => (JobQuotaController.reclaim r.1).map (fun r2 => r2.2))
      = some [s3PodInfo] := by
  decide!

/-- C16 as amended: for every cache state and every entry `e` stored under its
own UID, the body of a reclaim tick for (the clone of) `e` returns, evicts all
running pods of `e`, and leaves the entry with the same `runningPods`,
`Allocated` and `Used` and with every evicted pod's key in `reclaimingPods`;
so an overused entry is still overused, and the body of the next tick for that
entry evicts exactly the same pods again, every one of which is already in
`reclaimingPods`. -/
theorem C16_next_tick_evicts_again (c : Cache) (e : JoQuotabInfo)
    (h : mapGet c.batchjobs e.ConsumerId = some e) :
    ∃ c1 e1 pods, JobQuotaController.reclaimJob c e.Clone = some (c1, pods) ∧
      pods = e.Clone.RunningPods.List ∧
      mapGet c1.batchjobs e.ConsumerId = some e1 ∧
      e1.ConsumerId = e.ConsumerId ∧
      e1.RunningPods = e.RunningPods ∧ e1.Allocated = e.Allocated ∧ e1.Used = e.Used ∧
      (e.Allocated.Less e.Used = true → e.Clone ∈ c.GetOverused ∧ e1.Clone ∈ c1.GetOverused) ∧
      (∀ pod ∈ pods, (mapGet e1.ReclaimingPods.items (PodInfoKeyFunc pod)).isSome = true) ∧
      ∃ c2, JobQuotaController.reclaimJob c1 e1.Clone = some (c2, pods) := by
  have hc : mapGet c.batchjobs e.Clone.ConsumerId = some e := h
  have h1 := cache_reclaim_eq c e.Clone e e.Clone.RunningPods.List hc
  obtain ⟨e1, he1⟩ : ∃ e1 : JoQuotabInfo, e1 =
      ⟨e.JobQuota, e.ConsumerId, e.Namespace, e.Replicas, e.RequestUnit, e.Allocated, e.Used,
        e.RunningPods,
        e.Clone.RunningPods.List.foldl (fun f pod => f.Add (PodInfoKeyFunc pod) pod)
          e.ReclaimingPods⟩ := ⟨_, rfl⟩
  rw [← he1] at h1
  have hid : e1.ConsumerId = e.ConsumerId := by rw [he1]
  have hrun : e1.RunningPods = e.RunningPods := by rw [he1]
  have hclone : e1.Clone.RunningPods = e.Clone.RunningPods := by
    show e1.RunningPods.List.foldl _ NewFIFO = e.RunningPods.List.foldl _ NewFIFO
    rw [hrun]
  have hget : mapGet (mapSet c.batchjobs e.Clone.ConsumerId e1) e.ConsumerId = some e1 :=
    mapGet_mapSet_self _ _ _
  have hget2 : mapGet (⟨mapSet c.batchjobs e.Clone.ConsumerId e1, c.nodes⟩ : Cache).batchjobs
      e1.Clone.ConsumerId = some e1 := by
    show mapGet (mapSet c.batchjobs e.Clone.ConsumerId e1) e1.ConsumerId = some e1
    rw [hid]
    exact hget
  have h2 := cache_reclaim_eq ⟨mapSet c.batchjobs e.Clone.ConsumerId e1, c.nodes⟩ e1.Clone e1
    e.Clone.RunningPods.List hget2
  refine ⟨⟨mapSet c.batchjobs e.Clone.ConsumerId e1, c.nodes⟩, e1, e.Clone.RunningPods.List,
    ?_, rfl, hget, hid, hrun, by rw [he1], by rw [he1], ?_, ?_, ?_⟩
  · unfold JobQuotaController.reclaimJob
    simp only [reclaim_eq_list, h1]
  · intro hl
    refine ⟨mem_getOverused c _ e h hl, mem_getOverused _ _ e1 hget ?_⟩
    rw [he1]
    exact hl
  · intro pod hp
    obtain ⟨pod2, _, _, h4⟩ := fold_add_get_mem e.Clone.RunningPods.List e.ReclaimingPods pod hp
    rw [he1]
    simp only
    rw [h4]
    rfl
  · have h3 : ∃ c2, (⟨mapSet c.batchjobs e.Clone.ConsumerId e1, c.nodes⟩ : Cache).Reclaim
        e1.Clone e.Clone.RunningPods.List = some c2 := ⟨_, h2⟩
    obtain ⟨c2, hc2⟩ := h3
    refine ⟨c2, ?_⟩
    unfold JobQuotaController.reclaimJob
    simp only [reclaim_eq_list, hclone, hc2]

/-- Witness for C16 (amended): the entry of `overCache`. -/
theorem C16_next_tick_evicts_again_witness :
    mapGet overCache.batchjobs overEntry.ConsumerId = some overEntry ∧
    ∃ (c1 : Cache) (e1 : JoQuotabInfo) (pods : List PodInfo),
      JobQuotaController.reclaimJob overCache overEntry.Clone = some (c1, pods) ∧
      pods = [s3PodInfo] ∧
      (∀ pod ∈ pods, (mapGet e1.ReclaimingPods.items (PodInfoKeyFunc pod)).isSome = true) ∧
      ∃ c2, JobQuotaController.reclaimJob c1 e1.Clone = some (c2, pods) := by
  refine ⟨by decide!, ?_⟩
  obtain ⟨c1, e1, pods, h1, h2, _, _, _, _, _, _, h3, h4⟩ :=
    C16_next_tick_evicts_again overCache overEntry (by decide!)
  exact ⟨c1, e1, pods, h1, by rw [h2]; decide!, h3, h4⟩


/-! ## The comparisons of `Resource` -/

theorem tol_iff (a b t : ℚ) (ht : 0 < t) : (a < b ∨ |a - b| < t) ↔ a - b < t := by
  constructor
  · rintro (h | h)
    · linarith
    · exact (abs_lt.1 h).2
  · intro h
    rcases lt_or_le a b with h1 | h1
    · exact Or.inl h1
    · right
      rw [abs_of_nonneg (by linarith)]
      exact h

/-! ## Comparisons of `float64` -/

theorem float_lt_asymm (x y : Float64) (h : x.lt y = true) : y.lt x = false := by
  cases x <;> cases y <;> simp_all [Float64.lt]
  exact le_of_lt h

theorem float_eq_not_lt (x y : Float64) (h : x.eq y = true) :
    x.lt y = false ∧ y.lt x = false := by
  cases x <;> cases y <;> simp_all [Float64.lt, Float64.eq]

/-! ## Integers up to `2^53` are `float64` values -/

theorem bitLength_zero (fuel : Nat) : Float64.bitLength fuel 0 = 0 := by
  cases fuel <;> simp [Float64.bitLength]

theorem bitLength_spec (fuel n : Nat) (h : n < 2 ^ fuel) (hn : 0 < n) :
    ∃ e, Float64.bitLength fuel n = e + 1 ∧ 2 ^ e ≤ n ∧ n < 2 ^ (e + 1) := by
  induction fuel generalizing n with
  | zero =>
    simp only [pow_zero, Nat.lt_one_iff] at h
    omega
  | succ k ih =>
    have hne : n ≠ 0 := by omega
    by_cases h2 : n / 2 = 0
    · have h1 : n = 1 := by omega
      refine ⟨0, ?_, by omega, by omega⟩
      simp only [Float64.bitLength, if_neg hne, h2, bitLength_zero]
    · have hlt : n / 2 < 2 ^ k := by
        rw [pow_succ] at h
        omega
      obtain ⟨e, he, h3, h4⟩ := ih (n / 2) hlt (by omega)
      refine ⟨e + 1, ?_, ?_, ?_⟩
      · simp only [Float64.bitLength, if_neg hne, he]
      · rw [pow_succ]
        omega
      · rw [pow_succ] at h4 ⊢
        omega

theorem roundHalfEven_exact (m d : Nat) (hd : 0 < d) :
    Float64.roundHalfEven (m * d) d = m := by
  unfold Float64.roundHalfEven
  have h1 : m * d % d = 0 := Nat.mul_mod_left m d
  have h2 : m * d / d = m := Nat.mul_div_cancel m hd
  rw [h1, h2]
  simp [hd]

theorem nearestPos_nat (n : Nat) (h1 : 0 < n) (h2 : n ≤ 2 ^ 53) :
    Float64.nearestPos n 1 = some (n : ℚ) := by
  obtain ⟨e, he, h3, h4⟩ := bitLength_spec n n (Nat.lt_two_pow n) h1
  have hb : Float64.bitLength 1 1 = 1 := by
    simp [Float64.bitLength]
  have he53 : e ≤ 53 := by
    by_contra hc
    have : 2 ^ 54 ≤ 2 ^ e := Nat.pow_le_pow_right (by norm_num) (by omega)
    have : (2 : Nat) ^ 53 < 2 ^ 54 := by norm_num
    omega
  have hfl : Float64.floorLog2 n 1 = (e : Int) := by
    unfold Float64.floorLog2
    simp only [he, hb]
    rw [if_pos (by omega)]
    have : e + 1 - 1 = e := by omega
    rw [this, if_pos (by simpa using h3)]
  unfold Float64.nearestPos
  simp only [hfl]
  have hmax : max (e : Int) (-1022) = (e : Int) := by
    apply max_eq_left
    omega
  rw [hmax]
  by_cases hlt : e < 52
  · have hn52 : ¬ (52 : Int) ≤ (e : Int) := by omega
    have ht : ((52 : Int) - (e : Int)).toNat = 52 - e := by omega
    have hr : Float64.roundHalfEven (n * 2 ^ (52 - e)) 1 = n * 2 ^ (52 - e) := by
      have := roundHalfEven_exact (n * 2 ^ (52 - e)) 1 (by norm_num)
      rwa [Nat.mul_one] at this
    have hno : ¬ ((1023 : Int) < (e : Int) ∨
        ((e : Int) = 1023 ∧ n * 2 ^ (52 - e) = 2 ^ 53)) := by omega
    simp only [hn52, if_false, ht, hr, hno]
    congr 1
    push_cast
    field_simp
  · have h52 : (52 : Int) ≤ (e : Int) := by omega
    have ht : ((e : Int) - 52).toNat = e - 52 := by omega
    simp only [h52, if_true, ht, Nat.one_mul]
    have hcases : e = 52 ∨ e = 53 := by omega
    rcases hcases with rfl | rfl
    · have hr : Float64.roundHalfEven n (2 ^ (52 - 52)) = n := by
        have := roundHalfEven_exact n 1 (by norm_num)
        rwa [Nat.mul_one] at this
      rw [hr]
      have hno : ¬ ((1023 : Int) < ((52 : Nat) : Int) ∨
          (((52 : Nat) : Int) = 1023 ∧ n = 2 ^ 53)) := by omega
      rw [if_neg hno]
      simp
    · have hn : n = 2 ^ 53 := by omega
      subst hn
      have hr : Float64.roundHalfEven (2 ^ 53) (2 ^ (53 - 52)) = 2 ^ 52 := by
        have := roundHalfEven_exact (2 ^ 52) 2 (by norm_num)
        simpa using this
      rw [hr]
      have hno : ¬ ((1023 : Int) < ((53 : Nat) : Int) ∨
          (((53 : Nat) : Int) = 1023 ∧ 2 ^ 52 = 2 ^ 53)) := by omega
      rw [if_neg hno]
      norm_num

/-- An integer of magnitude at most `2^53` is a `float64` value: rounding
leaves it as it is. -/
theorem nearest_int (z : Int) (h : |z| ≤ 2 ^ 53) :
    Float64.nearest (z : ℚ) = Float64.fin (z : ℚ) := by
  unfold Float64.nearest
  by_cases h0 : z = 0
  · subst h0
    simp
  · have hq : ((z : ℚ) = 0) = False := by simp [h0]
    have hna : 0 < z.natAbs := Int.natAbs_pos.2 h0
    have hle : z.natAbs ≤ 2 ^ 53 := by
      have : (z.natAbs : Int) ≤ 2 ^ 53 := by rw [Int.natCast_natAbs]; exact h
      exact_mod_cast this
    simp only [hq, if_false, Rat.num_intCast, Rat.den_intCast, nearestPos_nat z.natAbs hna hle]
    by_cases hpos : 0 < z
    · have : (0 : ℚ) < (z : ℚ) := by exact_mod_cast hpos
      rw [if_pos this]
      congr 1
      have e : ((z.natAbs : ℕ) : ℚ) = (((z.natAbs : ℕ) : ℤ) : ℚ) := (Int.cast_natCast _).symm
      rw [e, Int.natAbs_of_nonneg (le_of_lt hpos)]
    · have hneg : z < 0 := by omega
      have : ¬ (0 : ℚ) < (z : ℚ) := by
        have : (z : ℚ) < 0 := by exact_mod_cast hneg
        linarith
      rw [if_neg this]
      congr 1
      have e : ((z.natAbs : ℕ) : ℚ) = (((z.natAbs : ℕ) : ℤ) : ℚ) := (Int.cast_natCast _).symm
      rw [e, Int.ofNat_natAbs_of_nonpos (le_of_lt hneg)]
      push_cast
      ring

/-! ## The comparisons of `Resource` on `float64` -/

theorem nearestPos_nonneg (n d : Nat) (v : ℚ) (h : Float64.nearestPos n d = some v) :
    0 ≤ v := by
  unfold Float64.nearestPos at h
  dsimp only at h
  split_ifs at h with h1 h2
  · injection h with h
    rw [← h]
    exact Nat.cast_nonneg _
  · injection h with h
    rw [← h]
    positivity

theorem nearest_zero : Float64.nearest 0 = Float64.fin 0 := by
  simp [Float64.nearest]

theorem nearest_of_pos (q : ℚ) (h : 0 < q) :
    Float64.nearest q = Float64.posInf ∨ ∃ v, 0 ≤ v ∧ Float64.nearest q = Float64.fin v := by
  unfold Float64.nearest
  rw [if_neg (ne_of_gt h)]
  cases hp : Float64.nearestPos q.num.natAbs q.den with
  | none => left; simp [h]
  | some v => right; exact ⟨v, nearestPos_nonneg _ _ v hp, by simp [h]⟩

theorem nearest_of_neg (q : ℚ) (h : q < 0) :
    Float64.nearest q = Float64.negInf ∨
      ∃ v, 0 ≤ v ∧ Float64.nearest q = Float64.fin (-v) := by
  unfold Float64.nearest
  rw [if_neg (ne_of_lt h)]
  have hn : ¬ 0 < q := not_lt.2 (le_of_lt h)
  cases hp : Float64.nearestPos q.num.natAbs q.den with
  | none => left; simp [hn]
  | some v => right; exact ⟨v, nearestPos_nonneg _ _ v hp, by simp [hn]⟩

theorem tolerance64_eq : Float64.nearest (1 / 100) = Float64.fin tolerance64 := by
  decide!

/-- On one axis: `x < y || math.Abs(x - y) < t` is `x - y < t`, for every pair
of `float64` values and a positive finite tolerance. -/
theorem axis_iff (x y : Float64) (t : ℚ) (ht : 0 < t) :
    (x.lt y || (Float64.abs (Float64.sub x y)).lt (Float64.fin t))
      = (Float64.sub x y).lt (Float64.fin t) := by
  cases x with
  | nan => cases y <;> simp [Float64.lt, Float64.sub, Float64.add, Float64.neg, Float64.abs]
  | negInf => cases y <;> simp [Float64.lt, Float64.sub, Float64.add, Float64.neg, Float64.abs]
  | posInf => cases y <;> simp [Float64.lt, Float64.sub, Float64.add, Float64.neg, Float64.abs]
  | fin a =>
    cases y with
    | nan => simp [Float64.lt, Float64.sub, Float64.add, Float64.neg, Float64.abs]
    | negInf => simp [Float64.lt, Float64.sub, Float64.add, Float64.neg, Float64.abs]
    | posInf => simp [Float64.lt, Float64.sub, Float64.add, Float64.neg, Float64.abs]
    | fin b =>
      have hs : Float64.sub (Float64.fin a) (Float64.fin b) = Float64.nearest (a - b) := by
        simp [Float64.sub, Float64.add, Float64.neg, sub_eq_add_neg]
      rw [hs]
      rcases lt_trichotomy a b with h | h | h
      · have h1 : (Float64.fin a).lt (Float64.fin b) = true := by simp [Float64.lt, h]
        rw [h1, Bool.true_or]
        rcases nearest_of_neg (a - b) (by linarith) with e | ⟨v, hv, e⟩
        · rw [e]; rfl
        · rw [e]
          have : -v < t := by linarith
          simp [Float64.lt, this]
      · subst h
        simp [nearest_zero, Float64.lt, Float64.abs, ht]
      · have h1 : (Float64.fin a).lt (Float64.fin b) = false := by
          simp [Float64.lt, le_of_lt h]
        rw [h1, Bool.false_or]
        rcases nearest_of_pos (a - b) (by linarith) with e | ⟨v, hv, e⟩
        · rw [e]; rfl
        · rw [e]
          simp [Float64.abs, abs_of_nonneg hv]

theorem tolerance64_pos : 0 < tolerance64 := by
  unfold tolerance64
  norm_num

theorem lessEqual64_iff (r rr : Resource64) :
    r.LessEqual rr = true ↔
      (Float64.sub r.MilliCPU rr.MilliCPU).lt (Float64.nearest (1 / 100)) = true ∧
      (Float64.sub r.Memory rr.Memory).lt (Float64.fin 1) = true := by
  unfold Resource64.LessEqual
  rw [tolerance64_eq, axis_iff _ _ _ tolerance64_pos, axis_iff _ _ _ one_pos, Bool.and_eq_true]

theorem sub_self_finite (x : Float64) (t : ℚ) (ht : 0 < t) :
    (Float64.sub x x).lt (Float64.fin t) = x.isFinite := by
  cases x with
  | nan => rfl
  | negInf => rfl
  | posInf => rfl
  | fin a =>
    have hs : Float64.sub (Float64.fin a) (Float64.fin a) = Float64.fin 0 := by
      simp [Float64.sub, Float64.add, Float64.neg, nearest_zero]
    rw [hs]
    simp [Float64.lt, Float64.isFinite, ht]

theorem less64_imp (r rr : Resource64) (h : r.Less rr = true) : r.LessEqual rr = true := by
  unfold Resource64.Less at h
  unfold Resource64.LessEqual
  rw [Bool.and_eq_true] at h
  rw [h.1, h.2]
  rfl

theorem int_abs_lt (z : Int) (t : ℚ) (h0 : 0 < t) (h1 : t ≤ 1) :
    |(z : ℚ)| < t ↔ z = 0 := by
  constructor
  · intro h
    by_contra hz
    have h2 : (1 : Int) ≤ |z| := Int.one_le_abs hz
    have h3 : (1 : ℚ) ≤ |(z : ℚ)| := by exact_mod_cast h2
    linarith
  · intro h
    subst h
    simpa using h0

theorem nearest_exact (a : ℚ) (ha : exactAmount a) : Float64.nearest a = Float64.fin a := by
  obtain ⟨⟨z, rfl⟩, h0, h1⟩ := ha
  apply nearest_int
  have h2 : (0 : Int) ≤ z := by exact_mod_cast h0
  have h3 : z ≤ 2 ^ 53 := by exact_mod_cast h1
  rw [abs_of_nonneg h2]
  exact h3

/-- On one axis the comparison of two exact amounts gives the same result
with the rounding subtraction and the `float64` tolerance as with the exact
subtraction and the exact tolerance. -/
theorem axis_exact (a b t t64 : ℚ) (ha : exactAmount a) (hb : exactAmount b)
    (ht : 0 < t ∧ t ≤ 1) (ht64 : 0 < t64 ∧ t64 ≤ 1) :
    ((Float64.nearest a).lt (Float64.nearest b) ||
      (Float64.abs (Float64.sub (Float64.nearest a) (Float64.nearest b))).lt (Float64.fin t64))
      = (decide (a < b) || decide (|a - b| < t)) := by
  rw [nearest_exact a ha, nearest_exact b hb]
  obtain ⟨⟨za, rfl⟩, ha0, ha1⟩ := ha
  obtain ⟨⟨zb, rfl⟩, hb0, hb1⟩ := hb
  have hza0 : (0 : Int) ≤ za := by exact_mod_cast ha0
  have hza1 : za ≤ 2 ^ 53 := by exact_mod_cast ha1
  have hzb0 : (0 : Int) ≤ zb := by exact_mod_cast hb0
  have hzb1 : zb ≤ 2 ^ 53 := by exact_mod_cast hb1
  have hd : ((za : ℚ) - (zb : ℚ)) = ((za - zb : Int) : ℚ) := by push_cast; ring
  have hs : Float64.sub (Float64.fin (za : ℚ)) (Float64.fin (zb : ℚ))
      = Float64.fin ((za - zb : Int) : ℚ) := by
    have h1 : Float64.sub (Float64.fin (za : ℚ)) (Float64.fin (zb : ℚ))
        = Float64.nearest ((za : ℚ) - (zb : ℚ)) := by
      simp [Float64.sub, Float64.add, Float64.neg, sub_eq_add_neg]
    rw [h1, hd]
    apply nearest_int
    rw [abs_le]
    constructor <;> omega
  rw [hs, hd]
  simp only [Float64.abs, Float64.lt]
  have e1 : (|((za - zb : Int) : ℚ)| < t64) = (|((za - zb : Int) : ℚ)| < t) := by
    rw [eq_iff_iff, int_abs_lt _ _ ht64.1 ht64.2, int_abs_lt _ _ ht.1 ht.2]
  simp only [e1]

/-- On exact amounts the comparison of the allocator is the `float64`
comparison. -/
theorem lessEqual64_exact (r rr : Resource) (hr : r.exact) (hrr : rr.exact) :
    r.toFloat64.LessEqual rr.toFloat64 = r.LessEqual rr := by
  unfold Resource64.LessEqual Resource.LessEqual Resource.toFloat64
  simp only [tolerance64_eq]
  rw [axis_exact _ _ (1 / 100) tolerance64 hr.1 hrr.1 (by norm_num)
      ⟨tolerance64_pos, by unfold tolerance64; norm_num⟩,
    axis_exact _ _ 1 1 hr.2 hrr.2 (by norm_num) (by norm_num)]

/-- C25 fails as stated: `LessEqual` is not reflexive on a `Resource` with a
NaN or an infinite field; and with the exact difference in place of the
`float64` one the equivalence fails: 0.01 and `2^-62` are `float64` values
whose exact difference is below 1/100 (and below the `float64` 0.01), while
their `float64` difference is 0.01 again and `LessEqual` is false. -/
theorem C25_counterexample :
    Resource64.LessEqual ⟨Float64.nan, Float64.fin 0⟩ ⟨Float64.nan, Float64.fin 0⟩ = false ∧
    Resource64.LessEqual ⟨Float64.posInf, Float64.fin 0⟩ ⟨Float64.posInf, Float64.fin 0⟩
      = false ∧
    Float64.nearest tolerance64 = Float64.fin tolerance64 ∧
    Float64.nearest (1 / 2 ^ 62) = Float64.fin (1 / 2 ^ 62) ∧
    tolerance64 - 1 / 2 ^ 62 < 1 / 100 ∧
    Float64.sub (Float64.fin tolerance64) (Float64.fin (1 / 2 ^ 62))
      = Float64.fin tolerance64 ∧
    Resource64.LessEqual ⟨Float64.fin tolerance64, Float64.fin 0⟩
      ⟨Float64.fin (1 / 2 ^ 62), Float64.fin 0⟩ = false := by
  refine ⟨by decide!, by decide!, by decide!, by decide!, by decide!, by decide!, by decide!⟩

/-- C25 as amended: for all `float64` fields, NaN and the infinities
included, `r.LessEqual(rr)` holds exactly when on each axis the `float64`
difference `r - rr` is below the tolerance (the `float64` 0.01 on the CPU
axis, 1 on the memory axis); `LessEqual` is reflexive exactly on the resources
whose two fields are finite; `Less` implies `LessEqual`; and on exact amounts
(integers from 0 to `2^53`) the comparison with exact subtraction and exact
tolerance that the allocator model uses gives the same result. -/
theorem C25_lessEqual_iff (r rr : Resource64) :
    (r.LessEqual rr = true ↔
      (Float64.sub r.MilliCPU rr.MilliCPU).lt (Float64.nearest (1 / 100)) = true ∧
      (Float64.sub r.Memory rr.Memory).lt (Float64.fin 1) = true) ∧
    (r.LessEqual r = true ↔ r.MilliCPU.isFinite = true ∧ r.Memory.isFinite = true) ∧
    (r.Less rr = true → r.LessEqual rr = true) ∧
    (∀ a b : Resource, a.exact → b.exact →
      a.toFloat64.LessEqual b.toFloat64 = a.LessEqual b) := by
  refine ⟨lessEqual64_iff r rr, ?_, less64_imp r rr, lessEqual64_exact⟩
  rw [lessEqual64_iff, tolerance64_eq, sub_self_finite _ _ tolerance64_pos,
    sub_self_finite _ _ one_pos]

/-- C25 at a pair of `float64` resources that differ by less than the
tolerance on both axes, at a strictly smaller pair, and at the exact amounts
1001m against 1000m. -/
theorem C25_lessEqual_iff_witness :
    Resource64.LessEqual ⟨Float64.fin (1000 + 1 / 128), Float64.fin 5⟩
      ⟨Float64.fin 1000, Float64.fin (9 / 2)⟩ = true ∧
    Resource64.LessEqual ⟨Float64.fin 1, Float64.fin 1⟩ ⟨Float64.fin 2, Float64.fin 2⟩ = true ∧
    Resource64.LessEqual (Resource.toFloat64 ⟨1001, Gi⟩) (Resource.toFloat64 ⟨1000, Gi⟩)
      = Resource.LessEqual ⟨1001, Gi⟩ ⟨1000, Gi⟩ :=
  ⟨((C25_lessEqual_iff ⟨Float64.fin (1000 + 1 / 128), Float64.fin 5⟩
      ⟨Float64.fin 1000, Float64.fin (9 / 2)⟩).1).2 ⟨by decide!, by decide!⟩,
   (C25_lessEqual_iff ⟨Float64.fin 1, Float64.fin 1⟩ ⟨Float64.fin 2, Float64.fin 2⟩).2.2.1
     (by decide!),
   (C25_lessEqual_iff ⟨Float64.fin 1, Float64.fin 1⟩ ⟨Float64.fin 2, Float64.fin 2⟩).2.2.2
     ⟨1001, Gi⟩ ⟨1000, Gi⟩
     ⟨⟨⟨1001, by norm_num⟩, by norm_num, by norm_num⟩,
      ⟨⟨1024 * 1024 * 1024, by unfold Gi; norm_num⟩, by unfold Gi; norm_num,
        by unfold Gi; norm_num⟩⟩
     ⟨⟨⟨1000, by norm_num⟩, by norm_num, by norm_num⟩,
      ⟨⟨1024 * 1024 * 1024, by unfold Gi; norm_num⟩, by unfold Gi; norm_num,
        by unfold Gi; norm_num⟩⟩⟩

/-! ## The dominant share -/

theorem nearest_ne_nan (q : ℚ) : Float64.nearest q ≠ Float64.nan := by
  unfold Float64.nearest
  split
  · simp
  · split <;> split <;> simp

theorem div_ne_nan (a b : ℚ) (hb : b ≠ 0) : Float64.div a b ≠ Float64.nan := by
  unfold Float64.div
  rw [if_neg hb]
  exact nearest_ne_nan _

theorem float_trichotomy (x y : Float64) (hx : x ≠ Float64.nan) (hy : y ≠ Float64.nan) :
    y.lt x = true ∨ x.lt y = true ∨ x.eq y = true := by
  cases x <;> cases y <;> simp_all [Float64.lt, Float64.eq]
  rename_i a b
  rcases lt_trichotomy a b with h | h | h
  · right; left; exact h
  · right; right; exact h
  · left; exact h

/-- C29 fails when the demand ratios are read as exact quotients: on
`tieCluster` the CPU demand ratio of `tieConsumer` (163349/300007) is larger
than its memory demand ratio, but both round to the same `float64`, and
`calculateShare` returns the maximum of the two deserved ratios, which is the
memory one, not the deserved CPU ratio. -/
theorem C29_counterexample :
    tieConsumer.Request.Memory / tieCluster.total.Memory
      < tieConsumer.Request.MilliCPU / tieCluster.total.MilliCPU ∧
    Float64.div tieConsumer.Request.MilliCPU tieCluster.total.MilliCPU
      = Float64.div tieConsumer.Request.Memory tieCluster.total.Memory ∧
    tieCluster.calculateShare tieConsumer
      = Float64.div tieConsumer.Deserved.Memory tieCluster.total.Memory ∧
    tieCluster.calculateShare tieConsumer
      ≠ Float64.div tieConsumer.Deserved.MilliCPU tieCluster.total.MilliCPU := by
  refine ⟨by decide!, by decide!, by decide!, by decide!⟩

/-- C29 as amended: `calculateShare` compares the two demand ratios as
`float64` quotients, each the exact quotient rounded to nearest.  It returns
the deserved CPU ratio when the CPU demand ratio is the larger `float64`, the
deserved memory ratio when the memory demand ratio is the larger `float64`,
and `math.Max` of the two deserved ratios in every other case, which is when
the two `float64` ratios are equal or one of them is NaN.  On non-zero totals
no ratio is NaN and exactly these three cases occur. -/
theorem C29_calculateShare_cases (d : drf) (c : consumer) :
    (Float64.lt (Float64.div c.Request.Memory d.total.Memory)
        (Float64.div c.Request.MilliCPU d.total.MilliCPU) = true →
      d.calculateShare c = Float64.div c.Deserved.MilliCPU d.total.MilliCPU) ∧
    (Float64.lt (Float64.div c.Request.MilliCPU d.total.MilliCPU)
        (Float64.div c.Request.Memory d.total.Memory) = true →
      d.calculateShare c = Float64.div c.Deserved.Memory d.total.Memory) ∧
    (Float64.lt (Float64.div c.Request.Memory d.total.Memory)
        (Float64.div c.Request.MilliCPU d.total.MilliCPU) = false →
      Float64.lt (Float64.div c.Request.MilliCPU d.total.MilliCPU)
        (Float64.div c.Request.Memory d.total.Memory) = false →
      d.calculateShare c =
        Float64.max (Float64.div c.Deserved.MilliCPU d.total.MilliCPU)
          (Float64.div c.Deserved.Memory d.total.Memory)) ∧
    (Float64.eq (Float64.div c.Request.MilliCPU d.total.MilliCPU)
        (Float64.div c.Request.Memory d.total.Memory) = true →
      d.calculateShare c =
        Float64.max (Float64.div c.Deserved.MilliCPU d.total.MilliCPU)
          (Float64.div c.Deserved.Memory d.total.Memory)) ∧
    (d.total.MilliCPU ≠ 0 → d.total.Memory ≠ 0 →
      Float64.div c.Request.MilliCPU d.total.MilliCPU
        = Float64.nearest (c.Request.MilliCPU / d.total.MilliCPU) ∧
      Float64.div c.Request.Memory d.total.Memory
        = Float64.nearest (c.Request.Memory / d.total.Memory) ∧
      (Float64.lt (Float64.div c.Request.Memory d.total.Memory)
          (Float64.div c.Request.MilliCPU d.total.MilliCPU) = true ∨
        Float64.lt (Float64.div c.Request.MilliCPU d.total.MilliCPU)
          (Float64.div c.Request.Memory d.total.Memory) = true ∨
        Float64.eq (Float64.div c.Request.MilliCPU d.total.MilliCPU)
          (Float64.div c.Request.Memory d.total.Memory) = true)) := by
  have h1 : Float64.lt (Float64.div c.Request.Memory d.total.Memory)
        (Float64.div c.Request.MilliCPU d.total.MilliCPU) = true →
      d.calculateShare c = Float64.div c.Deserved.MilliCPU d.total.MilliCPU := by
    intro h
    simp only [drf.calculateShare, h, if_true]
  have h2 : Float64.lt (Float64.div c.Request.MilliCPU d.total.MilliCPU)
        (Float64.div c.Request.Memory d.total.Memory) = true →
      d.calculateShare c = Float64.div c.Deserved.Memory d.total.Memory := by
    intro h
    have h0 := float_lt_asymm _ _ h
    simp only [drf.calculateShare, h, h0, if_true]
    rfl
  have h3 : Float64.lt (Float64.div c.Request.Memory d.total.Memory)
        (Float64.div c.Request.MilliCPU d.total.MilliCPU) = false →
      Float64.lt (Float64.div c.Request.MilliCPU d.total.MilliCPU)
        (Float64.div c.Request.Memory d.total.Memory) = false →
      d.calculateShare c =
        Float64.max (Float64.div c.Deserved.MilliCPU d.total.MilliCPU)
          (Float64.div c.Deserved.Memory d.total.Memory) := by
    intro ha hb
    simp only [drf.calculateShare, ha, hb]
    rfl
  refine ⟨h1, h2, h3, ?_, ?_⟩
  · intro h
    obtain ⟨ha, hb⟩ := float_eq_not_lt _ _ h
    exact h3 hb ha
  · intro hc hm
    refine ⟨by simp [Float64.div, hc], by simp [Float64.div, hm], ?_⟩
    exact float_trichotomy _ _ (div_ne_nan _ _ hc) (div_ne_nan _ _ hm)

/-- C29 on the cluster of scenario S2 (tenant A is CPU-dominant, tenant B
memory-dominant) and on `tieCluster`, where the two `float64` demand ratios
are equal. -/
theorem C29_calculateShare_cases_witness :
    drf.calculateShare ⟨⟨9000, 18⟩, ⟨9000, 18⟩, []⟩
        ⟨"A", Float64.fin 0, ⟨3000, 3⟩, ⟨3000, 3⟩, NewFIFO⟩ = Float64.div 3000 9000 ∧
    drf.calculateShare ⟨⟨9000, 18⟩, ⟨9000, 18⟩, []⟩
        ⟨"B", Float64.fin 0, ⟨1000, 4⟩, ⟨3000, 12⟩, NewFIFO⟩ = Float64.div 4 18 ∧
    tieCluster.calculateShare tieConsumer
      = Float64.max (Float64.div 1000 300007)
          (Float64.div 1000000000000 (2 * 1024 * 1024 * 1024 * 1024)) :=
  ⟨(C29_calculateShare_cases ⟨⟨9000, 18⟩, ⟨9000, 18⟩, []⟩
      ⟨"A", Float64.fin 0, ⟨3000, 3⟩, ⟨3000, 3⟩, NewFIFO⟩).1 (by decide!),
   (C29_calculateShare_cases ⟨⟨9000, 18⟩, ⟨9000, 18⟩, []⟩
      ⟨"B", Float64.fin 0, ⟨1000, 4⟩, ⟨3000, 12⟩, NewFIFO⟩).2.1 (by decide!),
   (C29_calculateShare_cases tieCluster tieConsumer).2.2.2.1 (by decide!)⟩


/-! ## `NewPodInfo` and `GetResourceRequest` -/

theorem quantity_zero_readings :
    Quantity.MilliValue ⟨0⟩ = 0 ∧ Quantity.Value ⟨0⟩ = 0 := by
  constructor <;> simp [Quantity.MilliValue, Quantity.Value]

theorem cpu_cons (k : String) (q : Quantity) (rest : ResourceList) :
    ResourceList.Cpu ((k, q) :: rest) = if k = ResourceCPU then q else ResourceList.Cpu rest := by
  unfold ResourceList.Cpu
  rw [mapGet_cons]
  by_cases h : k = ResourceCPU
  · simp [h]
  · have h1 : ¬ ResourceCPU = k := fun e => h e.symm
    simp [h, h1]

theorem memory_cons (k : String) (q : Quantity) (rest : ResourceList) :
    ResourceList.Memory ((k, q) :: rest)
      = if k = ResourceMemory then q else ResourceList.Memory rest := by
  unfold ResourceList.Memory
  rw [mapGet_cons]
  by_cases h : k = ResourceMemory
  · simp [h]
  · have h1 : ¬ ResourceMemory = k := fun e => h e.symm
    simp [h, h1]

theorem cpu_absent (rl : ResourceList) (h : ResourceCPU ∉ rl.map Prod.fst) :
    ResourceList.Cpu rl = ⟨0⟩ := by
  unfold ResourceList.Cpu
  rw [(mapGet_eq_none_iff rl ResourceCPU).2 h]

theorem memory_absent (rl : ResourceList) (h : ResourceMemory ∉ rl.map Prod.fst) :
    ResourceList.Memory rl = ⟨0⟩ := by
  unfold ResourceList.Memory
  rw [(mapGet_eq_none_iff rl ResourceMemory).2 h]

/-- The inner loop of `GetResourceRequest` adds the CPU and the memory reading
of the request map, whose keys are distinct. -/
theorem addRequests_eq (requests : ResourceList) (result : Resource)
    (hnd : (requests.map Prod.fst).Nodup) :
    addRequests result requests
      = { MilliCPU := result.MilliCPU + ((requests.Cpu.MilliValue : Int) : ℚ),
          Memory := result.Memory + ((requests.Memory.Value : Int) : ℚ) } := by
  induction requests generalizing result with
  | nil =>
    simp [addRequests, ResourceList.Cpu, ResourceList.Memory, mapGet, Quantity.MilliValue,
      Quantity.Value]
  | cons p rest ih =>
    obtain ⟨k, q⟩ := p
    have hk : k ∉ rest.map Prod.fst := (List.nodup_cons.1 hnd).1
    have hrest : (rest.map Prod.fst).Nodup := (List.nodup_cons.1 hnd).2
    have hstep : addRequests result ((k, q) :: rest)
        = addRequests
            (if k = ResourceMemory then
              { result with Memory := result.Memory + ((q.Value : Int) : ℚ) }
             else if k = ResourceCPU then
              { result with MilliCPU := result.MilliCPU + ((q.MilliValue : Int) : ℚ) }
             else result) rest := by
      simp [addRequests]
    rw [hstep, ih _ hrest, cpu_cons, memory_cons]
    by_cases hm : k = ResourceMemory
    · have hc : ¬ k = ResourceCPU := by rw [hm]; decide
      rw [if_pos hm, if_neg hc, if_pos hm, memory_absent rest (hm ▸ hk)]
      simp [quantity_zero_readings.2]
    · by_cases hc : k = ResourceCPU
      · rw [if_neg hm, if_pos hc, if_pos hc, if_neg hm, cpu_absent rest (hc ▸ hk)]
        simp [quantity_zero_readings.1]
      · rw [if_neg hm, if_neg hc, if_neg hc, if_neg hm]

theorem getResourceRequest_fold (containers : List Container) (acc : Resource)
    (hnd : ∀ c ∈ containers, (c.Requests.map Prod.fst).Nodup) :
    containers.foldl (fun res c => addRequests res c.Requests) acc
      = { MilliCPU := acc.MilliCPU
            + (containers.map (fun c => ((c.Requests.Cpu.MilliValue : Int) : ℚ))).sum,
          Memory := acc.Memory
            + (containers.map (fun c => ((c.Requests.Memory.Value : Int) : ℚ))).sum } := by
  induction containers generalizing acc with
  | nil => simp
  | cons c rest ih =>
    rw [List.foldl_cons, ih _ (fun c1 h1 => hnd c1 (List.mem_cons_of_mem _ h1)),
      addRequests_eq _ _ (hnd c (List.mem_cons_self _ _))]
    simp [add_assoc]

/-- C22: `NewPodInfo` returns nothing exactly for a pod that does not carry
exactly one owner reference; otherwise the record has the UID of the single
reference, the pod's name, namespace, phase and node name, and as resource the
sum over the containers of the CPU request in milli-units and of the memory
request in bytes (every other resource name is ignored), whatever the init
containers are. -/
theorem C22_newPodInfo (pod : Pod) :
    (NewPodInfo pod = none ↔ pod.OwnerReferences.length ≠ 1) ∧
    (∀ info, NewPodInfo pod = some info →
      ∃ owner, pod.OwnerReferences = [owner] ∧
        info.Owner = owner.UID ∧ info.Name = pod.Name ∧ info.Namespace = pod.Namespace ∧
        info.Status = pod.Phase ∧ info.Hostname = pod.NodeName ∧
        ((∀ c ∈ pod.Containers, (c.Requests.map Prod.fst).Nodup) →
          info.Resource.MilliCPU
            = (pod.Containers.map (fun c => ((c.Requests.Cpu.MilliValue : Int) : ℚ))).sum ∧
          info.Resource.Memory
            = (pod.Containers.map (fun c => ((c.Requests.Memory.Value : Int) : ℚ))).sum)) ∧
    (∀ init, NewPodInfo { pod with InitContainers := init } = NewPodInfo pod) := by
  refine ⟨?_, ?_, ?_⟩
  · unfold NewPodInfo
    rcases h : pod.OwnerReferences with _ | ⟨o, _ | ⟨o2, t⟩⟩ <;> simp
  · intro info h
    unfold NewPodInfo at h
    rcases ho : pod.OwnerReferences with _ | ⟨o, _ | ⟨o2, t⟩⟩
    · rw [ho] at h; simp at h
    · rw [ho] at h
      simp only [Option.some.injEq] at h
      subst h
      refine ⟨o, rfl, rfl, rfl, rfl, rfl, rfl, ?_⟩
      intro hnd
      have := getResourceRequest_fold pod.Containers { MilliCPU := 0, Memory := 0 } hnd
      simp only [GetResourceRequest]
      rw [this]
      simp
    · rw [ho] at h; simp at h
  · intro init
    rfl

/-- C22 at a pod that requests 500m, 500Mi and a GPU, with an init container
of its own. -/
theorem C22_newPodInfo_witness :
    NewPodInfo gpuPod = some gpuPodInfo ∧
    (500 : ℚ) = (gpuPod.Containers.map
        (fun c => ((c.Requests.Cpu.MilliValue : Int) : ℚ))).sum ∧
    (500 * 1024 * 1024 : ℚ) = (gpuPod.Containers.map
        (fun c => ((c.Requests.Memory.Value : Int) : ℚ))).sum := by
  obtain ⟨_, _, _, _, _, _, _, h⟩ := (C22_newPodInfo gpuPod).2.1 gpuPodInfo (by decide!)
  exact ⟨by decide!, (h (by decide)).1, (h (by decide)).2⟩


/-! ## Round-trip through `ResourceList` -/

/-- The round-trip keeps the integer part of each axis: `ResourceList` converts
with `int64(·)` and `NewResource` reads the two integers back. -/
theorem roundtrip_eq (r : Resource) :
    NewResource r.ResourceList
      = { MilliCPU := ((Resource.truncate r.MilliCPU : Int) : ℚ),
          Memory := ((Resource.truncate r.Memory : Int) : ℚ) } := by
  have h1 : r.ResourceList
      = [(ResourceCPU, NewMilliQuantity (Resource.truncate r.MilliCPU)),
         (ResourceMemory, NewQuantity (Resource.truncate r.Memory))] := by
    simp [Resource.ResourceList, mapSet, ResourceCPU, ResourceMemory]
  rw [h1]
  have h2 : ResourceList.Cpu
      [(ResourceCPU, NewMilliQuantity (Resource.truncate r.MilliCPU)),
       (ResourceMemory, NewQuantity (Resource.truncate r.Memory))]
        = NewMilliQuantity (Resource.truncate r.MilliCPU) := by
    rw [cpu_cons, if_pos rfl]
  have h3 : ResourceList.Memory
      [(ResourceCPU, NewMilliQuantity (Resource.truncate r.MilliCPU)),
       (ResourceMemory, NewQuantity (Resource.truncate r.Memory))]
        = NewQuantity (Resource.truncate r.Memory) := by
    rw [memory_cons, if_neg (by decide), memory_cons, if_pos rfl]
  unfold NewResource
  rw [h2, h3]
  simp only [NewMilliQuantity, NewQuantity, Quantity.MilliValue, Quantity.Value]
  have h4 : ((Resource.truncate r.MilliCPU : Int) : ℚ) / 1000 * 1000
      = ((Resource.truncate r.MilliCPU : Int) : ℚ) := by
    field_simp
  rw [h4, Int.ceil_intCast, Int.ceil_intCast]

theorem truncate_nonneg (x : ℚ) (h : 0 ≤ x) : Resource.truncate x = ⌊x⌋ := by
  simp [Resource.truncate, h]

theorem truncate_int (z : Int) : Resource.truncate (z : ℚ) = z := by
  unfold Resource.truncate
  split <;> simp

/-- C24, counterexample: the resource of half a milli-CPU is non-negative and
is not `LessEqual` to its round-trip, which has 0 milli-CPU. -/
theorem C24_counterexample :
    Resource.nonneg ⟨1 / 2, 0⟩ ∧
    NewResource (Resource.ResourceList ⟨1 / 2, 0⟩) = ⟨0, 0⟩ ∧
    Resource.LessEqual ⟨1 / 2, 0⟩ (NewResource (Resource.ResourceList ⟨1 / 2, 0⟩)) = false := by
  refine ⟨⟨by norm_num, by norm_num⟩, ?_, ?_⟩
  · rw [roundtrip_eq, truncate_nonneg _ (by norm_num), truncate_nonneg _ (by norm_num)]
    norm_num
  · rw [roundtrip_eq, truncate_nonneg _ (by norm_num), truncate_nonneg _ (by norm_num)]
    norm_num [Resource.LessEqual]
    rw [abs_of_nonneg (by norm_num)]
    norm_num

/-- C24, amended: for a non-negative resource `r` within the range of `int64`
the round-trip `r1 = NewResource(r.ResourceList())` is the integer part of `r`
on each axis; `r1.LessEqual(r)` holds, `r.LessEqual(r1)` holds exactly when
the fractional part of `r.MilliCPU` is below the tolerance 0.01, and an
integer-valued `r` is reconstructed exactly. -/
theorem C24_roundtrip (r : Resource) (hn : r.nonneg)
    (hc : r.MilliCPU < 2 ^ 63) (hm : r.Memory < 2 ^ 63) :
    NewResource r.ResourceList = ⟨(⌊r.MilliCPU⌋ : ℚ), (⌊r.Memory⌋ : ℚ)⟩ ∧
    (NewResource r.ResourceList).LessEqual r = true ∧
    (r.LessEqual (NewResource r.ResourceList) = true ↔
      r.MilliCPU - (⌊r.MilliCPU⌋ : ℚ) < 1 / 100) ∧
    (r.integral → NewResource r.ResourceList = r ∧
      r.LessEqual (NewResource r.ResourceList) = true) := by
  have e : NewResource r.ResourceList = ⟨(⌊r.MilliCPU⌋ : ℚ), (⌊r.Memory⌋ : ℚ)⟩ := by
    rw [roundtrip_eq, truncate_nonneg _ hn.1, truncate_nonneg _ hn.2]
  have key : ∀ a b : Resource, a.LessEqual b = true ↔
      a.MilliCPU - b.MilliCPU < 1 / 100 ∧ a.Memory - b.Memory < 1 := by
    intro a b
    simp only [Resource.LessEqual, Bool.and_eq_true, Bool.or_eq_true, decide_eq_true_eq]
    rw [tol_iff _ _ _ (by norm_num), tol_iff _ _ _ (by norm_num)]
  have f1 := Int.floor_le r.MilliCPU
  have f2 := Int.floor_le r.Memory
  have f3 := Int.lt_floor_add_one r.Memory
  refine ⟨e, ?_, ?_, ?_⟩
  · rw [e, key]
    constructor <;> simp only <;> linarith
  · rw [e, key]
    constructor
    · intro h; exact h.1
    · intro h; exact ⟨h, by simp only; linarith⟩
  · rintro ⟨⟨z1, h1⟩, ⟨z2, h2⟩⟩
    have e2 : NewResource r.ResourceList = r := by
      rw [e]
      cases r
      simp only at h1 h2
      subst h1 h2
      simp
    refine ⟨e2, ?_⟩
    rw [e2, key]
    constructor <;> norm_num

/-- C24 at the resource of 1000 milli-CPU and 2Gi. -/
theorem C24_roundtrip_witness :
    NewResource (Resource.ResourceList ⟨1000, 2 * Gi⟩) = ⟨1000, 2 * Gi⟩ ∧
    Resource.LessEqual ⟨1000, 2 * Gi⟩
      (NewResource (Resource.ResourceList ⟨1000, 2 * Gi⟩)) = true :=
  (C24_roundtrip ⟨1000, 2 * Gi⟩ ⟨by norm_num, by norm_num [Gi]⟩ (by norm_num)
    (by norm_num [Gi])).2.2.2 ⟨⟨1000, by norm_num⟩, ⟨2 * 1024 * 1024 * 1024, by norm_num [Gi]⟩⟩


/-! ## `Group` -/

theorem mem_iff_mapGet {β : Type} (m : List (String × β)) (k : String) (v : β)
    (hnd : (m.map Prod.fst).Nodup) : (k, v) ∈ m ↔ mapGet m k = some v := by
  constructor
  · intro h
    induction m with
    | nil => simp at h
    | cons p t ih =>
      obtain ⟨k0, v0⟩ := p
      rw [mapGet_cons]
      have hk0 : k0 ∉ t.map Prod.fst := (List.nodup_cons.1 hnd).1
      rcases List.mem_cons.1 h with h1 | h1
      · simp only [Prod.mk.injEq] at h1
        rw [if_pos h1.1, h1.2]
      · have hne : k ≠ k0 := by
          intro e
          apply hk0
          rw [← e]
          exact List.mem_map_of_mem Prod.fst h1
        rw [if_neg hne]
        exact ih (List.nodup_cons.1 hnd).2 h1
  · exact mapGet_mem m k v

theorem map_replace_absent {β : Type} (m : List (String × β)) (k : String) (v : β)
    (h : k ∉ m.map Prod.fst) : m.map (fun p => if p.1 = k then (k, v) else p) = m := by
  induction m with
  | nil => rfl
  | cons p t ih =>
    have h1 : p.1 ≠ k := fun e => h (by simp [← e])
    have h2 : k ∉ t.map Prod.fst := fun e => h (by simp only [List.map_cons]; exact List.mem_cons_of_mem _ e)
    rw [List.map_cons, if_neg h1, ih h2]

/-- Replacing the group of `k` by itself with one more job adds that job to the
jobs of all groups. -/
theorem flatten_replace (m : List (String × List JoQuotabInfo)) (k : String)
    (old : List JoQuotabInfo) (x : JoQuotabInfo) (hnd : (m.map Prod.fst).Nodup)
    (hget : mapGet m k = some old) :
    ((m.map (fun p => if p.1 = k then (k, old ++ [x]) else p)).map Prod.snd).flatten.Perm
      ((m.map Prod.snd).flatten ++ [x]) := by
  induction m with
  | nil => simp [mapGet] at hget
  | cons p t ih =>
    obtain ⟨k0, v0⟩ := p
    have hk0 : k0 ∉ t.map Prod.fst := (List.nodup_cons.1 hnd).1
    rw [mapGet_cons] at hget
    by_cases h : k = k0
    · rw [if_pos h] at hget
      simp only [Option.some.injEq] at hget
      subst hget
      subst h
      rw [List.map_cons, if_pos rfl, map_replace_absent t k _ hk0]
      simp only [List.map_cons, List.flatten_cons]
      rw [List.append_assoc, List.append_assoc]
      exact List.Perm.append_left _ List.perm_append_comm
    · rw [if_neg h] at hget
      have h1 : ¬ k0 = k := fun e => h e.symm
      rw [List.map_cons, if_neg h1]
      simp only [List.map_cons, List.flatten_cons]
      rw [List.append_assoc]
      exact List.Perm.append_left _ (ih (List.nodup_cons.1 hnd).2 hget)

theorem jobsOf_append (ns : String) (seen : List JoQuotabInfo) (job : JoQuotabInfo) :
    jobsOf ns (seen ++ [job])
      = jobsOf ns seen ++ (if job.Namespace = ns then [job] else []) := by
  unfold jobsOf
  rw [List.filter_append]
  by_cases h : job.Namespace = ns <;> simp [List.filter, h]

/-- One round of the loop of `Group` keeps `groupInv`. -/
theorem group_step (res : List (String × List JoQuotabInfo)) (seen : List JoQuotabInfo)
    (job : JoQuotabInfo) (h : groupInv res seen) :
    groupInv (mapSet res job.Namespace ((mapGet res job.Namespace).getD [] ++ [job]))
      (seen ++ [job]) := by
  obtain ⟨hnd, hget, hperm⟩ := h
  have hold : (mapGet res job.Namespace).getD [] = jobsOf job.Namespace seen := by
    rw [hget]
    split
    · rename_i h0; rw [h0]; rfl
    · rfl
  refine ⟨(mapSet_keys_nodup _ _ _ hnd).1, ?_, ?_⟩
  · intro ns
    rw [jobsOf_append]
    by_cases hns : ns = job.Namespace
    · subst hns
      rw [mapGet_mapSet_self, hold, if_pos rfl, if_neg (by simp)]
    · have h1 : ¬ job.Namespace = ns := fun e => hns e.symm
      rw [mapGet_mapSet_ne _ _ _ _ hns, hget, if_neg h1, List.append_nil]
  · unfold mapSet
    by_cases hk : job.Namespace ∈ res.map Prod.fst
    · rw [if_pos ((mapSet_any_iff _ _).2 hk)]
      have hsome : mapGet res job.Namespace = some (jobsOf job.Namespace seen) := by
        have hne : mapGet res job.Namespace ≠ none :=
          fun e => ((mapGet_eq_none_iff _ _).1 e) hk
        rw [hget] at hne ⊢
        split
        · rename_i h0; rw [if_pos h0] at hne; exact absurd rfl hne
        · rfl
      rw [hold]
      exact (flatten_replace res _ _ job hnd hsome).trans (List.Perm.append_right _ hperm)
    · have hany : ¬ (res.any (fun p => p.1 == job.Namespace)) = true :=
        fun e => hk ((mapSet_any_iff _ _).1 e)
      rw [if_neg hany]
      have hnone : mapGet res job.Namespace = none := (mapGet_eq_none_iff _ _).2 hk
      rw [hnone]
      simp only [Option.getD_none, List.nil_append, List.map_append, List.map_cons,
        List.map_nil, List.flatten_append, List.flatten_cons, List.flatten_nil,
        List.append_nil]
      exact List.Perm.append_right _ hperm

theorem group_fold (rest seen : List JoQuotabInfo) (res : List (String × List JoQuotabInfo))
    (h : groupInv res seen) :
    groupInv (rest.foldl (fun res job =>
      let ns := job.Namespace
      mapSet res ns ((mapGet res ns).getD [] ++ [job])) res) (seen ++ rest) := by
  induction rest generalizing seen res with
  | nil => simpa using h
  | cons job t ih =>
    rw [List.foldl_cons]
    have := ih (seen ++ [job]) _ (group_step res seen job h)
    simpa using this

theorem group_inv (jobs : List JoQuotabInfo) : groupInv (drf.Group jobs) jobs := by
  have h0 : groupInv [] [] := ⟨by simp, fun ns => by simp [mapGet, jobsOf], by simp⟩
  simpa [drf.Group] using group_fold jobs [] [] h0

/-- C26: `Group` partitions the jobs by namespace: the keys are distinct, the
group of a namespace is the list of the input jobs of that namespace in input
order and is never empty, every job is in the group keyed by its own namespace
and in no other, and the groups together are a permutation of the input. -/
theorem C26_group_partition (jobs : List JoQuotabInfo) :
    ((drf.Group jobs).map Prod.fst).Nodup ∧
    (∀ ns group, (ns, group) ∈ drf.Group jobs ↔
      group = jobsOf ns jobs ∧ group ≠ []) ∧
    (∀ job ∈ jobs, ∀ ns group, (ns, group) ∈ drf.Group jobs →
      (job ∈ group ↔ ns = job.Namespace)) ∧
    (∀ ns group, (ns, group) ∈ drf.Group jobs → group.Sublist jobs) ∧
    ((drf.Group jobs).map Prod.snd).flatten.Perm jobs := by
  obtain ⟨hnd, hget, hperm⟩ := group_inv jobs
  have hmem : ∀ ns group, (ns, group) ∈ drf.Group jobs ↔
      group = jobsOf ns jobs ∧ group ≠ [] := by
    intro ns group
    rw [mem_iff_mapGet _ _ _ hnd, hget]
    by_cases h0 : jobsOf ns jobs = []
    · rw [if_pos h0]
      constructor
      · intro h; simp at h
      · rintro ⟨h1, h2⟩; rw [h1] at h2; exact absurd h0 h2
    · rw [if_neg h0]
      constructor
      · intro h
        simp only [Option.some.injEq] at h
        rw [← h]; exact ⟨rfl, h0⟩
      · rintro ⟨h1, _⟩; rw [h1]
  refine ⟨hnd, hmem, ?_, ?_, hperm⟩
  · intro job hjob ns group hg
    rw [((hmem ns group).1 hg).1]
    unfold jobsOf
    rw [List.mem_filter]
    constructor
    · intro h; exact (of_decide_eq_true h.2).symm
    · intro h; exact ⟨hjob, decide_eq_true h.symm⟩
  · intro ns group hg
    rw [((hmem ns group).1 hg).1]
    exact List.filter_sublist _

/-- C26 on three jobs in two namespaces. -/
theorem C26_group_partition_witness :
    drf.Group mixedNamespaces
      = [("A", [mkJob "rc-a1" "A" 1 1000 Gi, mkJob "rc-a2" "A" 2 500 Gi]),
         ("B", [mkJob "rc-b1" "B" 1 1000 Gi])] ∧
    [mkJob "rc-b1" "B" 1 1000 Gi] = jobsOf "B" mixedNamespaces :=
  ⟨by decide!,
   (((C26_group_partition mixedNamespaces).2.1 "B" [mkJob "rc-b1" "B" 1 1000 Gi]).1
      (by decide!)).1⟩


/-! ## `JoQuotabInfo.Clone` -/

/-- Adding, one after the other, pods that are stored under their own, distinct
and new keys appends them. -/
theorem fold_add_fresh (l : List (String × PodInfo)) (f : FIFO PodInfo)
    (hnd : (l.map Prod.fst).Nodup) (hkey : ∀ p ∈ l, p.1 = PodInfoKeyFunc p.2)
    (hnew : ∀ p ∈ l, p.1 ∉ f.items.map Prod.fst) :
    (l.map Prod.snd).foldl (fun f pod => f.Add (PodInfoKeyFunc pod) pod) f
      = ⟨f.queue ++ l.map Prod.fst, f.items ++ l⟩ := by
  induction l generalizing f with
  | nil => simp
  | cons p t ih =>
    have hp : p.1 ∉ f.items.map Prod.fst := hnew p (List.mem_cons_self _ _)
    have hpt : p.1 ∉ t.map Prod.fst := (List.nodup_cons.1 hnd).1
    have hk : PodInfoKeyFunc p.2 = p.1 := (hkey p (List.mem_cons_self _ _)).symm
    have hnone : mapGet f.items p.1 = none := (mapGet_eq_none_iff _ _).2 hp
    have hany : ¬ (f.items.any (fun q => q.1 == p.1)) = true :=
      fun e => hp ((mapSet_any_iff _ _).1 e)
    have hadd : f.Add (PodInfoKeyFunc p.2) p.2 = ⟨f.queue ++ [p.1], f.items ++ [p]⟩ := by
      rw [hk]
      simp only [FIFO.Add, hnone, mapSet, if_neg hany]
      simp
    rw [List.map_cons, List.foldl_cons, hadd, ih]
    · simp
    · exact (List.nodup_cons.1 hnd).2
    · intro q hq; exact hkey q (List.mem_cons_of_mem _ hq)
    · intro q hq
      simp only [List.map_append, List.map_cons, List.map_nil, List.mem_append,
        List.mem_singleton, not_or]
      refine ⟨hnew q (List.mem_cons_of_mem _ hq), ?_⟩
      intro e
      apply hpt
      rw [← e]
      exact List.mem_map_of_mem Prod.fst hq

theorem clone_queue (f : FIFO PodInfo) (h : fifoKeyed f) :
    f.List.foldl (fun f pod => f.Add (PodInfoKeyFunc pod) pod) NewFIFO
      = ⟨f.items.map Prod.fst, f.items⟩ := by
  have := fold_add_fresh f.items NewFIFO h.1 h.2 (fun p _ => by simp [NewFIFO])
  simpa [FIFO.List, NewFIFO] using this

/-- C27: the clone of a job has the same quota reference, consumer id,
namespace, replicas, request unit, allocated and used amounts, and its two
queues hold the same pods under the same keys as the queues of the job. -/
theorem C27_clone_job (j : JoQuotabInfo) (hrun : fifoKeyed j.RunningPods)
    (hrec : fifoKeyed j.ReclaimingPods) :
    j.Clone.JobQuota = j.JobQuota ∧ j.Clone.ConsumerId = j.ConsumerId ∧
    j.Clone.Namespace = j.Namespace ∧ j.Clone.Replicas = j.Replicas ∧
    j.Clone.RequestUnit = j.RequestUnit ∧ j.Clone.Allocated = j.Allocated ∧
    j.Clone.Used = j.Used ∧
    j.Clone.RunningPods.items = j.RunningPods.items ∧
    j.Clone.ReclaimingPods.items = j.ReclaimingPods.items ∧
    fifoKeyed j.Clone.RunningPods ∧ fifoKeyed j.Clone.ReclaimingPods ∧
    fifoWF j.Clone.RunningPods ∧ fifoWF j.Clone.ReclaimingPods := by
  have e1 : j.Clone.RunningPods = ⟨j.RunningPods.items.map Prod.fst, j.RunningPods.items⟩ :=
    clone_queue _ hrun
  have e2 : j.Clone.ReclaimingPods
      = ⟨j.ReclaimingPods.items.map Prod.fst, j.ReclaimingPods.items⟩ :=
    clone_queue _ hrec
  refine ⟨rfl, rfl, rfl, rfl, rfl, rfl, rfl, ?_, ?_, ?_, ?_, ?_, ?_⟩
  · rw [e1]
  · rw [e2]
  · rw [e1]; exact hrun
  · rw [e2]; exact hrec
  · rw [e1]; intro p hp; exact List.mem_map_of_mem Prod.fst hp
  · rw [e2]; intro p hp; exact List.mem_map_of_mem Prod.fst hp

/-- C27 at the cache entry of scenario S5, which has one running pod. -/
theorem C27_clone_job_witness :
    s5Entry.Clone.RunningPods.items = [("A/p1", s3PodInfo)] ∧
    s5Entry.Clone.JobQuota = s3Quota :=
  ⟨(C27_clone_job s5Entry ⟨by decide, by decide⟩ ⟨by decide, by decide⟩).2.2.2.2.2.2.2.1,
   (C27_clone_job s5Entry ⟨by decide, by decide⟩ ⟨by decide, by decide⟩).1⟩


/-! ## Removal of a pod from the queues -/

theorem mapGet_mapDelete_self {β : Type} (m : List (String × β)) (k : String) :
    mapGet (mapDelete m k) k = none := by
  rw [mapGet_eq_none_iff]
  intro h
  obtain ⟨p, hp, hk⟩ := List.mem_map.1 h
  exact (mapDelete_subset m k p hp).2 hk

theorem mapGet_mapDelete_ne {β : Type} (m : List (String × β)) (k k1 : String)
    (h : k1 ≠ k) : mapGet (mapDelete m k) k1 = mapGet m k1 := by
  induction m with
  | nil => rfl
  | cons p t ih =>
    obtain ⟨k0, v0⟩ := p
    by_cases h0 : k0 = k
    · have e : mapDelete ((k0, v0) :: t) k = mapDelete t k := by
        unfold mapDelete
        rw [List.filter_cons_of_neg (by simp [h0])]
      rw [e, ih, mapGet_cons, if_neg (by rw [h0]; exact h)]
    · have e : mapDelete ((k0, v0) :: t) k = (k0, v0) :: mapDelete t k := by
        unfold mapDelete
        rw [List.filter_cons_of_pos (by simp [h0])]
      rw [e, mapGet_cons, mapGet_cons, ih]

/-- The entry after `Delete` on both queues. -/
theorem podRemoved_delete (key : String) (e : JoQuotabInfo) :
    podRemoved key e
      ⟨e.JobQuota, e.ConsumerId, e.Namespace, e.Replicas, e.RequestUnit, e.Allocated, e.Used,
        e.RunningPods.Delete key, e.ReclaimingPods.Delete key⟩ :=
  ⟨mapGet_mapDelete_self _ _, mapGet_mapDelete_self _ _,
   fun _ hk => mapGet_mapDelete_ne _ _ _ hk, fun _ hk => mapGet_mapDelete_ne _ _ _ hk,
   List.filter_sublist _, List.filter_sublist _, rfl, rfl, rfl, rfl, rfl, rfl, rfl⟩

/-- C21: for a pod with exactly one owner reference whose owner has a quota in
the cache: `AddPod` and `UpdatePod` with phase Failed or Succeeded, and
`DeletePod` with any phase, return; afterwards neither queue of that quota
stores an object under the pod's key namespace/name, every other key of both
queues stores what it stored before, and every other quota, the keys of the
cache and the nodes are unchanged. -/
theorem C21_pod_removed (c : Cache) (old pod : Pod) (uid : String) (e : JoQuotabInfo)
    (hown : pod.OwnerReferences = [⟨uid⟩]) (hq : mapGet c.batchjobs uid = some e) :
    (pod.Phase = PodFailed ∨ pod.Phase = PodSucceeded →
      ∃ c1 e1, c.AddPod pod = some c1 ∧ c.UpdatePod old pod = some c1 ∧
        mapGet c1.batchjobs uid = some e1 ∧
        podRemoved (pod.Namespace ++ "/" ++ pod.Name) e e1 ∧
        (∀ u, u ≠ uid → mapGet c1.batchjobs u = mapGet c.batchjobs u) ∧
        c1.batchjobs.map Prod.fst = c.batchjobs.map Prod.fst ∧ c1.nodes = c.nodes) ∧
    (∃ c1 e1, c.DeletePod pod = some c1 ∧
        mapGet c1.batchjobs uid = some e1 ∧
        podRemoved (pod.Namespace ++ "/" ++ pod.Name) e e1 ∧
        (∀ u, u ≠ uid → mapGet c1.batchjobs u = mapGet c.batchjobs u) ∧
        c1.batchjobs.map Prod.fst = c.batchjobs.map Prod.fst ∧ c1.nodes = c.nodes) := by
  have hinfo := newPodInfo_single pod uid hown
  obtain ⟨e1, he1⟩ : ∃ e1 : JoQuotabInfo, e1 =
      ⟨e.JobQuota, e.ConsumerId, e.Namespace, e.Replicas, e.RequestUnit, e.Allocated, e.Used,
        e.RunningPods.Delete (pod.Namespace ++ "/" ++ pod.Name),
        e.ReclaimingPods.Delete (pod.Namespace ++ "/" ++ pod.Name)⟩ := ⟨_, rfl⟩
  have hrem : podRemoved (pod.Namespace ++ "/" ++ pod.Name) e e1 := by
    rw [he1]; exact podRemoved_delete _ e
  have hkeys : (mapSet c.batchjobs uid e1).map Prod.fst = c.batchjobs.map Prod.fst := by
    rw [mapSet_keys, if_pos]
    exact List.mem_map.2 ⟨(uid, e), mapGet_mem _ _ _ hq, rfl⟩
  have hframe : ∀ u, u ≠ uid → mapGet (mapSet c.batchjobs uid e1) u = mapGet c.batchjobs u :=
    fun u hu => mapGet_mapSet_ne _ _ _ _ hu
  constructor
  · intro hph
    have hnr : ¬ pod.Phase = PodRunning := by
      rcases hph with h | h <;> rw [h] <;> decide
    have h1 : c.AddPod pod = some ⟨mapSet c.batchjobs uid e1, c.nodes⟩ := by
      simp only [Cache.AddPod, hinfo, hq, hnr, if_false, hph, if_true, he1]
      rfl
    exact ⟨⟨mapSet c.batchjobs uid e1, c.nodes⟩, e1, h1, h1, mapGet_mapSet_self _ _ _, hrem,
      hframe, hkeys, rfl⟩
  · have h1 : c.DeletePod pod = some ⟨mapSet c.batchjobs uid e1, c.nodes⟩ := by
      simp only [Cache.DeletePod, hinfo, hq, he1]
      rfl
    exact ⟨⟨mapSet c.batchjobs uid e1, c.nodes⟩, e1, h1, mapGet_mapSet_self _ _ _, hrem,
      hframe, hkeys, rfl⟩

/-- C21 on the cache of scenario S5: the failure of the running pod and its
deletion both leave the quota without a stored pod. -/
theorem C21_pod_removed_witness :
    s5Cache.AddPod failedPod = some ⟨[("rc-1", drainedEntry)], []⟩ ∧
    s5Cache.DeletePod s3Pod = some ⟨[("rc-1", drainedEntry)], []⟩ ∧
    (∃ c1 e1, s5Cache.DeletePod s3Pod = some c1 ∧ mapGet c1.batchjobs "rc-1" = some e1 ∧
      podRemoved "A/p1" s5Entry e1 ∧
      (∀ u, u ≠ "rc-1" → mapGet c1.batchjobs u = mapGet s5Cache.batchjobs u) ∧
      c1.batchjobs.map Prod.fst = s5Cache.batchjobs.map Prod.fst ∧ c1.nodes = s5Cache.nodes) :=
  ⟨by decide!, by decide!,
   (C21_pod_removed s5Cache s3Pod s3Pod "rc-1" s5Entry rfl (by decide!)).2⟩


/-! ## The share and a cluster without capacity -/

/-- C30, counterexample: on a cluster of 0 milli-CPU and 1Gi a job that
requests 1Gi is granted, and the share computed for its namespace divides by
the CPU total 0: it is NaN. -/
theorem C30_counterexample :
    (clusterTotal zeroCpuNodes).MilliCPU = 0 ∧
    zeroCpuNodes.length ≠ 0 ∧
    sharesOf (drf.allocateRun memOnlyJobs zeroCpuNodes) = some [(Float64.nan, ⟨0, Gi⟩)] ∧
    drf.calculateShare ⟨⟨0, Gi⟩, ⟨0, 0⟩, []⟩
      ⟨"A", Float64.fin 0, ⟨0, Gi⟩, ⟨0, Gi⟩, ⟨[], []⟩⟩ = Float64.nan := by
  refine ⟨by decide!, by decide, by decide!, by decide!⟩

/-- A run on a cluster that `IsEmpty` breaks in the first round of its first
pass: the state stays as it was initialised. -/
theorem empty_total_run (jobs : List (String × List JoQuotabInfo)) (nodes : List NodeInfo)
    (h : (clusterTotal nodes).IsEmpty = true) :
    drf.allocateRun jobs nodes = Run.ret (drf.initial jobs nodes, 1) := by
  have hav : (drf.initial jobs nodes).available.IsEmpty = true := h
  have hstep : ∀ pq a, drf.innerStep (drf.initial jobs nodes) pq a = drf.Step.brk := by
    intro pq a
    simp [drf.innerStep, hav]
  have hin : drf.innerLoop (drf.innerFuel (drf.initial jobs nodes)) (drf.initial jobs nodes)
      (drf.sortConsumer (drf.initial jobs nodes)) false
      = Run.ret (drf.initial jobs nodes, false) := by
    unfold drf.innerFuel
    simp only [drf.innerLoop, hstep]
  simp only [drf.allocateRun, drf.outerLoop, hin]

/-- C30, amended: a share is computed only on a cluster whose total is not
`IsEmpty`, that is of at least 10 milli-CPU or at least 10Mi, hence non-zero on
at least one axis.  On a total that `IsEmpty` the run ends in its first round
with the state as initialised; a run that changes the state or takes a second
pass has a total of at least 10 milli-CPU or at least 10Mi, and this total is
the one every share of the run is divided by. -/
theorem C30_share_needs_capacity (jobs : List (String × List JoQuotabInfo))
    (nodes : List NodeInfo) :
    ((clusterTotal nodes).IsEmpty = true →
      drf.allocateRun jobs nodes = Run.ret (drf.initial jobs nodes, 1)) ∧
    (∀ d passes, drf.allocateRun jobs nodes = Run.ret (d, passes) →
      d.total = clusterTotal nodes ∧
      (d ≠ drf.initial jobs nodes ∨ 2 ≤ passes →
        10 ≤ (clusterTotal nodes).MilliCPU ∨
        10 * 1024 * 1024 ≤ (clusterTotal nodes).Memory)) := by
  refine ⟨empty_total_run jobs nodes, ?_⟩
  intro d passes hrun
  constructor
  · have := outerLoop_preserves (fun s => s.total = clusterTotal nodes)
      (fun s pq a s1 pq1 a1 hs hstep =>
        ((innerStep_effect s pq a s1 pq1 a1 hstep).1).trans hs)
      _ _ _ d passes rfl hrun
    exact this
  · intro hch
    by_contra hcon
    have hemp : (clusterTotal nodes).IsEmpty = true := by
      simp only [not_or, not_le] at hcon
      simp only [Resource.IsEmpty, Resource.minMilliCPU, Resource.minMemory,
        Bool.and_eq_true, decide_eq_true_eq]
      exact hcon
    rw [empty_total_run jobs nodes hemp] at hrun
    simp only [Run.ret.injEq, Prod.mk.injEq] at hrun
    rcases hch with h1 | h1
    · exact h1 hrun.1.symm
    · omega

/-- C30 at the cluster of scenario S1, where the job is granted. -/
theorem C30_share_needs_capacity_witness :
    drf.allocateRun s1Jobs s1Nodes ≠ Run.ret (drf.initial s1Jobs s1Nodes, 1) ∧
    (10 ≤ (clusterTotal s1Nodes).MilliCPU ∨
      10 * 1024 * 1024 ≤ (clusterTotal s1Nodes).Memory) := by
  obtain ⟨d, passes, hrun, h1, h2⟩ := allocateRun_returns s1Jobs s1Nodes
  have hne : drf.allocateRun s1Jobs s1Nodes ≠ Run.ret (drf.initial s1Jobs s1Nodes, 1) := by
    decide!
  refine ⟨hne, ?_⟩
  apply ((C30_share_needs_capacity s1Jobs s1Nodes).2 d passes hrun).2
  by_cases hd : d = drf.initial s1Jobs s1Nodes
  · right
    have hp : passes ≠ 1 := by
      intro e
      apply hne
      rw [hrun, hd, e]
    omega
  · exact Or.inl hd


/-! ## The order of `float64` priorities -/

theorem float_lt_irrefl (x : Float64) : x.lt x = false := by
  cases x <;> simp [Float64.lt]

/-- Below something that is not above a third. -/
theorem lt_notAbove (a b c : Float64) (h1 : a.lt b = true) (h2 : notAbove b c) :
    notAbove a c := by
  unfold notAbove at *
  cases a <;> cases b <;> cases c <;> simp_all [Float64.lt]
  linarith

theorem notAbove_lt (a b c : Float64) (h1 : notAbove a b) (h2 : b.lt c = true) :
    notAbove a c := by
  unfold notAbove at *
  cases a <;> cases b <;> cases c <;> simp_all [Float64.lt]
  linarith

theorem notAbove_trans (a b c : Float64) (hb : b ≠ Float64.nan) (h1 : notAbove a b)
    (h2 : notAbove b c) : notAbove a c := by
  unfold notAbove at *
  cases a <;> cases b <;> cases c <;> simp_all [Float64.lt]
  linarith

theorem notAbove_of_lt (a b : Float64) (h : a.lt b = true) : notAbove a b :=
  float_lt_asymm a b h

theorem lt_ne_nan (a b : Float64) (h : a.lt b = true) :
    a ≠ Float64.nan ∧ b ≠ Float64.nan := by
  cases a <;> cases b <;> simp_all [Float64.lt]

theorem le_iff_notAbove (a b : Float64) (ha : a ≠ Float64.nan) (hb : b ≠ Float64.nan) :
    a.le b = true ↔ notAbove a b := by
  unfold notAbove
  cases a <;> cases b <;> simp_all [Float64.lt, Float64.le]

/-! ## Readings of the heap -/

theorem less_eq_prioAt {α : Type} (h : priorityQueue α) (i j : Nat) :
    h.Less i j = (prioAt h i).lt (prioAt h j) := by
  unfold priorityQueue.Less prioAt
  cases h[i]? <;> cases h[j]? <;> simp [Float64.lt]

theorem swap_getElem {α : Type} (h : priorityQueue α) (i j k : Nat) (hi : i < h.length)
    (hj : j < h.length) :
    (h.Swap i j)[k]? = if k = j then h[i]? else if k = i then h[j]? else h[k]? := by
  unfold priorityQueue.Swap
  rw [List.getElem?_eq_getElem hi, List.getElem?_eq_getElem hj]
  simp only
  rw [List.getElem?_set, List.getElem?_set]
  by_cases h1 : k = j
  · subst h1
    simp [hj]
  · by_cases h2 : k = i
    · subst h2
      have : ¬ j = k := fun e => h1 e.symm
      simp [this, h1, hi]
    · have h3 : ¬ j = k := fun e => h1 e.symm
      have h4 : ¬ i = k := fun e => h2 e.symm
      simp [h1, h2, h3, h4]

theorem swap_prioAt {α : Type} (h : priorityQueue α) (i j k : Nat) (hi : i < h.length)
    (hj : j < h.length) :
    prioAt (h.Swap i j) k
      = if k = j then prioAt h i else if k = i then prioAt h j else prioAt h k := by
  unfold prioAt
  rw [swap_getElem h i j k hi hj]
  by_cases h1 : k = j
  · simp [h1]
  · by_cases h2 : k = i
    · subst h2
      simp [h1]
    · simp [h1, h2]

theorem prioAt_ne_nan {α : Type} (h : priorityQueue α) (k : Nat) (hk : k < h.length)
    (hn : noNaN h) : prioAt h k ≠ Float64.nan := by
  unfold prioAt
  rw [List.getElem?_eq_getElem hk]
  exact hn _ (List.getElem_mem _)

theorem swap_perm {α : Type} (h : priorityQueue α) (i j : Nat) :
    (h.Swap i j).Perm h := by
  classical
  unfold priorityQueue.Swap
  cases hi : h[i]? with
  | none => simp
  | some a =>
    cases hj : h[j]? with
    | none => simp
    | some b =>
      simp only
      obtain ⟨hil, hia⟩ := List.getElem?_eq_some_iff.1 hi
      obtain ⟨hjl, hjb⟩ := List.getElem?_eq_some_iff.1 hj
      rw [List.perm_iff_count]
      intro x
      have hjl2 : j < (h.set i b).length := by simpa using hjl
      rw [List.count_set _ _ _ _ hjl2, List.count_set _ _ _ _ hil]
      have e1 : (h.set i b)[j] = b := by
        rw [List.getElem_set]
        split
        · rfl
        · exact hjb
      rw [e1, hia]
      have hle : (if (a == x) = true then 1 else 0) ≤ h.count x := by
        split
        · rename_i hx
          have : a = x := by simpa using hx
          rw [← this, ← hia]
          exact List.count_pos_iff.2 (List.getElem_mem _)
        · omega
      omega


/-! ## `heap.up` restores the heap condition -/

theorem upInv_swap {α : Type} (h : priorityQueue α) (j : Nat) (hj : j < h.length)
    (h0 : 0 < j) (hlt : (prioAt h j).lt (prioAt h ((j - 1) / 2)) = true)
    (hinv : upInv h j) : upInv (h.Swap ((j - 1) / 2) j) ((j - 1) / 2) := by
  obtain ⟨h1, h2⟩ := hinv
  have hi : (j - 1) / 2 < h.length := by omega
  have hij : (j - 1) / 2 ≠ j := by omega
  have hpi := (lt_ne_nan _ _ hlt).2
  rw [upInv, swap_length]
  constructor
  · intro k hk0 hkn hki
    rw [swap_prioAt h _ _ _ hi hj, swap_prioAt h _ _ _ hi hj]
    by_cases hkj : k = j
    · subst hkj
      rw [if_pos rfl, if_neg hij, if_pos rfl]
      exact notAbove_of_lt _ _ hlt
    · rw [if_neg hkj, if_neg hki]
      by_cases hq : (k - 1) / 2 = j
      · rw [if_pos hq]
        exact h2 k hk0 hkn hq h0
      · rw [if_neg hq]
        by_cases hq2 : (k - 1) / 2 = (j - 1) / 2
        · rw [if_pos hq2]
          have := h1 k hk0 hkn hkj
          rw [hq2] at this
          exact lt_notAbove _ _ _ hlt this
        · rw [if_neg hq2]
          exact h1 k hk0 hkn hkj
  · intro k hk0 hkn hkp hi0
    rw [swap_prioAt h _ _ _ hi hj, swap_prioAt h _ _ _ hi hj]
    have hg1 : ((j - 1) / 2 - 1) / 2 ≠ j := by omega
    have hg2 : ((j - 1) / 2 - 1) / 2 ≠ (j - 1) / 2 := by omega
    have hki : k ≠ (j - 1) / 2 := by omega
    rw [if_neg hg1, if_neg hg2]
    have hgi := h1 ((j - 1) / 2) hi0 hi hij
    by_cases hkj : k = j
    · rw [if_pos hkj]
      exact hgi
    · rw [if_neg hkj, if_neg hki]
      have := h1 k hk0 hkn hkj
      rw [hkp] at this
      exact notAbove_trans _ _ _ hpi hgi this

theorem heapUp_isHeap {α : Type} (fuel : Nat) (h : priorityQueue α) (j : Nat)
    (hfuel : j < fuel) (hj : j < h.length) (hinv : upInv h j) :
    isHeap (heapUp fuel h j) h.length := by
  induction fuel generalizing h j with
  | zero => omega
  | succ fuel ih =>
    unfold heapUp
    simp only
    by_cases hc : ((j - 1) / 2 = j || !h.Less j ((j - 1) / 2)) = true
    · rw [if_pos (by simpa using hc)]
      intro k hk0 hkn
      by_cases hkj : k = j
      · subst hkj
        simp only [Bool.or_eq_true, decide_eq_true_eq, Bool.not_eq_true'] at hc
        rcases hc with hc | hc
        · omega
        · rw [less_eq_prioAt] at hc
          exact hc
      · exact hinv.1 k hk0 hkn hkj
    · rw [if_neg (by simpa using hc)]
      simp only [Bool.or_eq_true, decide_eq_true_eq, Bool.not_eq_true', not_or,
        Bool.not_eq_false] at hc
      obtain ⟨hc1, hc2⟩ := hc
      rw [less_eq_prioAt] at hc2
      have h0 : 0 < j := by omega
      have := ih (h.Swap ((j - 1) / 2) j) ((j - 1) / 2) (by omega)
        (by rw [swap_length]; omega) (upInv_swap h j hj h0 hc2 hinv)
      rw [swap_length] at this
      exact this

theorem prioAt_append_left {α : Type} (h : priorityQueue α) (x : item α) (k : Nat)
    (hk : k < h.length) : prioAt (h ++ [x]) k = prioAt h k := by
  unfold prioAt
  rw [List.getElem?_append_left hk]

theorem heapPush_isHeap {α : Type} (h : priorityQueue α) (x : item α)
    (hh : isHeap h h.length) : isHeap (heapPush h x) (h.length + 1) := by
  unfold heapPush priorityQueue.Push priorityQueue.Len
  simp only [List.length_append, List.length_singleton, Nat.add_sub_cancel]
  have := heapUp_isHeap (h.length + 1) (h ++ [x]) h.length (by omega) (by simp) ?_
  · simpa using this
  · constructor
    · intro k hk0 hkn hkj
      have hk : k < h.length := by
        simp only [List.length_append, List.length_singleton] at hkn
        omega
      rw [prioAt_append_left h x _ (by omega), prioAt_append_left h x _ hk]
      exact hh k hk0 hk
    · intro k hk0 hkn hkp _
      simp only [List.length_append, List.length_singleton] at hkn
      omega

theorem heapUp_perm {α : Type} (fuel : Nat) (h : priorityQueue α) (j : Nat) :
    (heapUp fuel h j).Perm h := by
  induction fuel generalizing h j with
  | zero => exact List.Perm.refl _
  | succ fuel ih =>
    unfold heapUp
    simp only
    split
    · exact List.Perm.refl _
    · exact (ih _ _).trans (swap_perm _ _ _)

theorem heapPush_perm {α : Type} (h : priorityQueue α) (x : item α) :
    (heapPush h x).Perm (x :: h) := by
  unfold heapPush priorityQueue.Push
  exact (heapUp_perm _ _ _).trans (List.perm_append_comm)


/-! ## `heap.down` restores the heap condition -/

theorem swap_noNaN {α : Type} (h : priorityQueue α) (i j : Nat) (hn : noNaN h) :
    noNaN (h.Swap i j) :=
  fun it hit => hn it (swap_mem h i j it hit)

theorem downInv_swap {α : Type} (h : priorityQueue α) (i j n : Nat) (hn : n ≤ h.length)
    (hjn : j < n) (hji : (j - 1) / 2 = i) (hj0 : 0 < j)
    (hlt : (prioAt h j).lt (prioAt h i) = true)
    (hmin : ∀ c, 0 < c → c < n → (c - 1) / 2 = i → notAbove (prioAt h j) (prioAt h c))
    (hinv : downInv h i n) : downInv (h.Swap i j) j n := by
  obtain ⟨h1, h2⟩ := hinv
  have hi : i < h.length := by omega
  have hj : j < h.length := by omega
  have hij : i ≠ j := by omega
  constructor
  · intro k hk0 hkn hkp
    rw [swap_prioAt h _ _ _ hi hj, swap_prioAt h _ _ _ hi hj, if_neg hkp]
    by_cases hkj : k = j
    · subst hkj
      rw [if_pos rfl, if_pos hji]
      exact notAbove_of_lt _ _ hlt
    · rw [if_neg hkj]
      by_cases hki : k = i
      · subst hki
        have hg : (k - 1) / 2 ≠ k := by omega
        rw [if_pos rfl, if_neg hg]
        exact h2 j hj0 hjn hji hk0
      · rw [if_neg hki]
        by_cases hq : (k - 1) / 2 = i
        · rw [if_pos hq]
          exact hmin k hk0 hkn hq
        · rw [if_neg hq]
          exact h1 k hk0 hkn hq
  · intro k hk0 hkn hkp _
    rw [swap_prioAt h _ _ _ hi hj, swap_prioAt h _ _ _ hi hj]
    have e1 : (j - 1) / 2 ≠ j := by omega
    have e2 : k ≠ j := by omega
    have e3 : k ≠ i := by omega
    rw [if_neg e1, if_pos hji, if_neg e2, if_neg e3]
    have := h1 k hk0 hkn (by omega)
    rw [hkp] at this
    exact this

theorem heapDown_isHeap {α : Type} (fuel : Nat) (h : priorityQueue α) (i n : Nat)
    (hfuel : n ≤ fuel + i) (hn : n ≤ h.length) (hnan : noNaN h) (hinv : downInv h i n) :
    isHeap (heapDown fuel h i n) n := by
  induction fuel generalizing h i with
  | zero =>
    intro k hk0 hkn
    exact hinv.1 k hk0 hkn (by omega)
  | succ fuel ih =>
    unfold heapDown
    simp only
    by_cases hc : 2 * i + 1 ≥ n
    · rw [if_pos hc]
      intro k hk0 hkn
      exact hinv.1 k hk0 hkn (by omega)
    · rw [if_neg hc]
      have hj1 : 2 * i + 1 < n := by omega
      obtain ⟨j, hjdef⟩ : ∃ j, j = (if (decide (2 * i + 1 + 1 < n) &&
          h.Less (2 * i + 1 + 1) (2 * i + 1)) = true then 2 * i + 1 + 1 else 2 * i + 1) :=
        ⟨_, rfl⟩
      rw [← hjdef]
      have hjn : j < n := by
        rw [hjdef]
        split
        · rename_i hb
          simp only [Bool.and_eq_true, decide_eq_true_eq] at hb
          exact hb.1
        · exact hj1
      have hji : (j - 1) / 2 = i := by
        rw [hjdef]
        split <;> omega
      have hj0 : 0 < j := by
        rw [hjdef]
        split <;> omega
      have hmin : ∀ c, 0 < c → c < n → (c - 1) / 2 = i →
          notAbove (prioAt h j) (prioAt h c) := by
        intro c hc0 hcn hcp
        have hcc : c = 2 * i + 1 ∨ c = 2 * i + 1 + 1 := by omega
        rw [hjdef]
        split
        · rename_i hb
          simp only [Bool.and_eq_true, decide_eq_true_eq] at hb
          rw [less_eq_prioAt] at hb
          rcases hcc with e | e
          · rw [e]; exact notAbove_of_lt _ _ hb.2
          · rw [e]; exact float_lt_irrefl _
        · rename_i hb
          rcases hcc with e | e
          · rw [e]; exact float_lt_irrefl _
          · rw [e]
            have hlt2 : 2 * i + 1 + 1 < n := by omega
            have : h.Less (2 * i + 1 + 1) (2 * i + 1) = false := by
              simp only [Bool.and_eq_true, decide_eq_true_eq, not_and, Bool.not_eq_true] at hb
              exact hb hlt2
            rw [less_eq_prioAt] at this
            exact this
      by_cases hless : h.Less j i = true
      · have hne : ¬ (!h.Less j i) = true := by simp [hless]
        rw [if_neg hne]
        rw [less_eq_prioAt] at hless
        exact ih (h.Swap i j) j (by omega) (by rw [swap_length]; exact hn)
          (swap_noNaN h i j hnan) (downInv_swap h i j n hn hjn hji hj0 hless hmin hinv)
      · have hpos : (!h.Less j i) = true := by simpa using hless
        rw [if_pos hpos]
        have hle : notAbove (prioAt h i) (prioAt h j) := by
          have : h.Less j i = false := by simpa using hless
          rw [less_eq_prioAt] at this
          exact this
        intro k hk0 hkn
        by_cases hq : (k - 1) / 2 = i
        · rw [hq]
          exact notAbove_trans _ _ _ (prioAt_ne_nan h j (by omega) hnan) hle
            (hmin k hk0 hkn hq)
        · exact hinv.1 k hk0 hkn hq

theorem heapDown_getElem {α : Type} (fuel : Nat) (h : priorityQueue α) (i n k : Nat)
    (hn : n ≤ h.length) (hk : n ≤ k) : (heapDown fuel h i n)[k]? = h[k]? := by
  induction fuel generalizing h i with
  | zero => rfl
  | succ fuel ih =>
    have key : ∀ j, i < n → j < n → (if (!h.Less j i) = true then h
        else heapDown fuel (h.Swap i j) j n)[k]? = h[k]? := by
      intro j hin hjn
      split
      · rfl
      · rw [ih _ _ (by rw [swap_length]; exact hn),
          swap_getElem h _ _ _ (by omega) (by omega), if_neg (by omega), if_neg (by omega)]
    unfold heapDown
    simp only
    split
    · rfl
    · split
      · rename_i hb
        simp only [Bool.and_eq_true, decide_eq_true_eq] at hb
        exact key _ (by omega) hb.1
      · exact key _ (by omega) (by omega)

theorem heapDown_perm {α : Type} (fuel : Nat) (h : priorityQueue α) (i n : Nat) :
    (heapDown fuel h i n).Perm h := by
  induction fuel generalizing h i with
  | zero => exact List.Perm.refl _
  | succ fuel ih =>
    have key : ∀ j, (if (!h.Less j i) = true then h
        else heapDown fuel (h.Swap i j) j n).Perm h := by
      intro j
      split
      · exact List.Perm.refl _
      · exact (ih _ _).trans (swap_perm _ _ _)
    unfold heapDown
    simp only
    split
    · exact List.Perm.refl _
    · split <;> exact key _


/-! ## `heap.Pop` hands out a least entry -/

theorem root_min {α : Type} (h : priorityQueue α) (hh : isHeap h h.length) (hn : noNaN h)
    (k : Nat) (hk : k < h.length) : notAbove (prioAt h 0) (prioAt h k) := by
  induction k using Nat.strong_induction_on with
  | _ k ih =>
    by_cases h0 : k = 0
    · subst h0
      exact float_lt_irrefl _
    · have hp : (k - 1) / 2 < k := by omega
      exact notAbove_trans _ _ _ (prioAt_ne_nan h _ (by omega) hn)
        (ih _ hp (by omega)) (hh k (by omega) hk)

theorem heapPop_heap {α : Type} (h : priorityQueue α) (hne : h.length ≠ 0)
    (hh : isHeap h h.length) (hn : noNaN h) :
    ∃ it q, heapPop h = some (it, q) ∧ h[0]? = some it ∧ isHeap q q.length ∧ noNaN q ∧
      (it :: q).Perm h ∧ q.length + 1 = h.length ∧
      ∀ y ∈ q, it.Priority.le y.Priority = true := by
  obtain ⟨n, hlen⟩ : ∃ n, h.length = n + 1 := ⟨h.length - 1, by omega⟩
  obtain ⟨h2, h2def⟩ : ∃ h2, h2 = heapDown n (h.Swap 0 n) 0 n := ⟨_, rfl⟩
  have hswaplen : (h.Swap 0 n).length = n + 1 := by rw [swap_length, hlen]
  have h2len : h2.length = n + 1 := by rw [h2def, heapDown_length, hswaplen]
  have hpop : heapPop h = h2.Pop := by
    unfold heapPop priorityQueue.Len
    rw [if_neg hne, h2def]
    simp only [hlen, Nat.add_sub_cancel]
  obtain ⟨it, hit⟩ : ∃ it, h[0]? = some it :=
    ⟨h[0], List.getElem?_eq_getElem (by omega)⟩
  have hlast : h2[n]? = some it := by
    rw [h2def, heapDown_getElem _ _ _ _ _ (by omega) (Nat.le_refl _),
      swap_getElem h 0 n n (by omega) (by omega), if_pos rfl, hit]
  have hgl : h2.getLast? = some it := by
    rw [List.getLast?_eq_getElem?, h2len]
    simpa using hlast
  have hpop2 : heapPop h = some (it, h2.dropLast) := by
    rw [hpop]
    unfold priorityQueue.Pop
    rw [hgl]
  have hsplit : h2 = h2.dropLast ++ [it] := (List.dropLast_append_getLast? it hgl).symm
  have hperm2 : h2.Perm h := by
    rw [h2def]
    exact (heapDown_perm _ _ _ _).trans (swap_perm _ _ _)
  have hqlen : h2.dropLast.length = n := by simp [h2len]
  have hperm : (it :: h2.dropLast).Perm h := by
    refine List.Perm.trans ?_ hperm2
    conv_rhs => rw [hsplit]
    exact (List.perm_append_comm : ([it] ++ h2.dropLast).Perm (h2.dropLast ++ [it]))
  have hsub : ∀ y ∈ h2.dropLast, y ∈ h := by
    intro y hy
    exact hperm.subset (List.mem_cons_of_mem _ hy)
  have hheap2 : isHeap h2 n := by
    rw [h2def]
    apply heapDown_isHeap n (h.Swap 0 n) 0 n (by omega) (by omega) (swap_noNaN h 0 n hn)
    constructor
    · intro k hk0 hkn hkp
      rw [swap_prioAt h 0 n _ (by omega) (by omega),
        swap_prioAt h 0 n _ (by omega) (by omega),
        if_neg (by omega), if_neg hkp, if_neg (by omega), if_neg (by omega)]
      exact hh k hk0 (by omega)
    · intro k _ _ _ h00
      omega
  have hprio : ∀ k, k < n → prioAt h2.dropLast k = prioAt h2 k := by
    intro k hk
    conv_rhs => rw [hsplit]
    unfold prioAt
    rw [List.getElem?_append_left (by omega)]
  refine ⟨it, h2.dropLast, hpop2, hit, ?_, ?_, hperm, by omega, ?_⟩
  · rw [hqlen]
    intro k hk0 hkn
    rw [hprio _ (by omega), hprio _ hkn]
    exact hheap2 k hk0 hkn
  · intro y hy
    exact hn y (hsub y hy)
  · intro y hy
    have hy2 := hsub y hy
    obtain ⟨k, hk, hky⟩ := List.getElem_of_mem hy2
    have e0 : prioAt h 0 = it.Priority := by
      unfold prioAt; rw [hit]
    have ek : prioAt h k = y.Priority := by
      unfold prioAt; rw [List.getElem?_eq_getElem hk, hky]
    have := root_min h hh hn k hk
    rw [e0, ek] at this
    have hitm : it ∈ h := List.getElem?_mem hit
    exact (le_iff_notAbove _ _ (hn it hitm) (hn y hy2)).2 this

theorem heapPush_noNaN {α : Type} (h : priorityQueue α) (x : item α) (hn : noNaN h)
    (hx : x.Priority ≠ Float64.nan) : noNaN (heapPush h x) := by
  intro y hy
  rcases heapPush_mem h x y hy with h1 | h1
  · exact hn y h1
  · rw [h1]; exact hx

/-- Every queue reached from an empty one by pushes without NaN and by pops is
a heap without NaN. -/
theorem runOps_heap {α : Type} (ops : List (QueueOp α)) (pq pq1 : PriorityQueue α)
    (hh : isHeap pq.queue pq.queue.length) (hn : noNaN pq.queue)
    (hnan : ∀ x p, QueueOp.push x p ∈ ops → p ≠ Float64.nan)
    (hrun : runOps pq ops = some pq1) :
    isHeap pq1.queue pq1.queue.length ∧ noNaN pq1.queue := by
  induction ops generalizing pq with
  | nil =>
    simp only [runOps, Option.some.injEq] at hrun
    rw [← hrun]
    exact ⟨hh, hn⟩
  | cons op rest ih =>
    have hrest : ∀ x p, QueueOp.push x p ∈ rest → p ≠ Float64.nan :=
      fun x p hm => hnan x p (List.mem_cons_of_mem _ hm)
    cases op with
    | push x prio =>
      simp only [runOps] at hrun
      refine ih (pq.Push x prio) ?_ ?_ hrest hrun
      · have := heapPush_isHeap pq.queue ⟨x, prio⟩ hh
        rw [← heapPush_length] at this
        exact this
      · exact heapPush_noNaN _ _ hn (hnan x prio (List.mem_cons_self _ _))
    | pop =>
      simp only [runOps] at hrun
      by_cases h0 : pq.queue.length = 0
      · have : pq.Pop = none := by
          unfold PriorityQueue.Pop
          rw [heapPop_none _ h0]
        rw [this] at hrun
        simp at hrun
      · obtain ⟨it, q, hpop, _, hq, hqn, _, _, _⟩ := heapPop_heap pq.queue h0 hh hn
        have : pq.Pop = some (it.Value, ⟨q⟩) := by
          unfold PriorityQueue.Pop
          rw [hpop]
        rw [this] at hrun
        exact ih ⟨q⟩ hq hqn hrest hrun

theorem popAll_sorted {α : Type} (n : Nat) (h : priorityQueue α) (hlen : h.length = n)
    (hh : isHeap h h.length) (hn : noNaN h) :
    (popAll n h).Perm h ∧
    (popAll n h).Pairwise (fun a b => a.Priority.le b.Priority = true) := by
  induction n generalizing h with
  | zero =>
    have : h = [] := List.length_eq_zero.1 hlen
    subst this
    exact ⟨List.Perm.refl _, List.Pairwise.nil⟩
  | succ n ih =>
    obtain ⟨it, q, hpop, _, hq, hqn, hperm, hql, hmin⟩ :=
      heapPop_heap h (by omega) hh hn
    obtain ⟨ih1, ih2⟩ := ih q (by omega) hq hqn
    simp only [popAll, hpop]
    refine ⟨(List.Perm.cons it ih1).trans hperm, List.Pairwise.cons ?_ ih2⟩
    intro y hy
    exact hmin y (ih1.subset hy)


/-! ## The order in which the priority queue hands out its values -/

/-- C23, counterexample: after the pushes of priorities 2, NaN, 3 and 1 the
value of priority 1 sits below the NaN entry; `Pop` returns the value of
priority 2 while the value of priority 1 remains in the queue. -/
theorem C23_counterexample :
    runOps NewPriorityQueue nanOps
      = some ⟨[⟨"a", Float64.fin 2⟩, ⟨"b", Float64.nan⟩, ⟨"c", Float64.fin 3⟩,
               ⟨"d", Float64.fin 1⟩]⟩ ∧
    heapPop [⟨"a", Float64.fin 2⟩, ⟨"b", Float64.nan⟩, ⟨"c", Float64.fin 3⟩,
             ⟨"d", Float64.fin 1⟩]
      = some (⟨"a", Float64.fin 2⟩,
          [⟨"d", Float64.fin 1⟩, ⟨"b", Float64.nan⟩, ⟨"c", Float64.fin 3⟩]) ∧
    PriorityQueue.Pop ⟨[⟨"a", Float64.fin 2⟩, ⟨"b", Float64.nan⟩, ⟨"c", Float64.fin 3⟩,
                        ⟨"d", Float64.fin 1⟩]⟩
      = some ("a", ⟨[⟨"d", Float64.fin 1⟩, ⟨"b", Float64.nan⟩, ⟨"c", Float64.fin 3⟩]⟩) ∧
    Float64.le (Float64.fin 2) (Float64.fin 1) = false := by
  refine ⟨by decide!, by decide!, by decide!, by decide!⟩

/-- C23, amended: for every sequence of `Push` and `Pop` on a queue created by
`NewPriorityQueue` in which no pushed priority is NaN and no `Pop` is applied
to an empty queue: `Push` adds the value with its push-time priority, a `Pop`
on the reached queue returns the value of an entry whose push-time priority is
less than or equal to that of every entry remaining, the remaining entries
being the others, and popping all entries yields them in non-decreasing order
of priority. -/
theorem C23_min_heap_order {α : Type} (ops : List (QueueOp α)) (pq : PriorityQueue α)
    (hnan : ∀ x p, QueueOp.push x p ∈ ops → p ≠ Float64.nan)
    (hrun : runOps NewPriorityQueue ops = some pq) :
    (pq.Len ≠ 0 → ∃ it q, heapPop pq.queue = some (it, q) ∧
      pq.Pop = some (it.Value, ⟨q⟩) ∧ (it :: q).Perm pq.queue ∧
      ∀ y ∈ q, it.Priority.le y.Priority = true) ∧
    (popAll pq.Len pq.queue).Perm pq.queue ∧
    (popAll pq.Len pq.queue).Pairwise (fun a b => a.Priority.le b.Priority = true) ∧
    (∀ x p, (pq.Push x p).queue.Perm (⟨x, p⟩ :: pq.queue)) := by
  have h0 : isHeap (NewPriorityQueue : PriorityQueue α).queue
      (NewPriorityQueue : PriorityQueue α).queue.length := by
    intro k hk0 hkn
    simp [NewPriorityQueue] at hkn
  have hn0 : noNaN (NewPriorityQueue : PriorityQueue α).queue := by
    intro it hit
    simp [NewPriorityQueue] at hit
  obtain ⟨hh, hn⟩ := runOps_heap ops NewPriorityQueue pq h0 hn0 hnan hrun
  refine ⟨?_, (popAll_sorted _ _ rfl hh hn).1, (popAll_sorted _ _ rfl hh hn).2, ?_⟩
  · intro hne
    obtain ⟨it, q, hpop, _, _, _, hperm, _, hmin⟩ := heapPop_heap pq.queue hne hh hn
    refine ⟨it, q, hpop, ?_, hperm, hmin⟩
    unfold PriorityQueue.Pop
    rw [hpop]
  · intro x p
    exact heapPush_perm _ _

/-- C23 on three pushes of shares 0.3, 0.1, 0.2 followed by a pop: the pop
hands out the value of share 0.1, the rest comes out as 0.2, 0.3. -/
theorem C23_min_heap_order_witness :
    runOps NewPriorityQueue shareOps
      = some ⟨[⟨"c", Float64.fin (2 / 10)⟩, ⟨"a", Float64.fin (3 / 10)⟩]⟩ ∧
    popAll 2 [⟨"c", Float64.fin (2 / 10)⟩, ⟨"a", Float64.fin (3 / 10)⟩]
      = [⟨"c", Float64.fin (2 / 10)⟩, ⟨"a", Float64.fin (3 / 10)⟩] ∧
    (popAll 2 [(⟨"c", Float64.fin (2 / 10)⟩ : item String), ⟨"a", Float64.fin (3 / 10)⟩]).Pairwise
      (fun a b => a.Priority.le b.Priority = true) :=
  ⟨by decide!, by decide!,
   (C23_min_heap_order shareOps ⟨[⟨"c", Float64.fin (2 / 10)⟩, ⟨"a", Float64.fin (3 / 10)⟩]⟩
      (by
        intro x p h
        simp only [shareOps, List.mem_cons, QueueOp.push.injEq, List.not_mem_nil,
          reduceCtorEq, or_false] at h
        rcases h with ⟨_, rfl⟩ | ⟨_, rfl⟩ | ⟨_, rfl⟩ <;> simp)
      (by decide!)).2.2.1⟩


/-! ## Stores that agree on what is allocated -/

theorem prefix_getElem {α : Type} (l l2 : List α) (p : Nat) (h : l <+: l2)
    (hp : p < l.length) : l2[p]? = l[p]? := by
  obtain ⟨t, rfl⟩ := h
  exact List.getElem?_append_left hp

theorem prefix_set {α : Type} (l l2 : List α) (p : Nat) (v : α) (h : l <+: l2)
    (hp : l.length ≤ p) : l <+: l2.set p v := by
  obtain ⟨t, rfl⟩ := h
  rw [List.set_append_right _ _ hp]
  exact List.prefix_append _ _

theorem agree_refl (h : Heap) : h.agree h :=
  ⟨rfl, rfl, List.prefix_refl _, List.prefix_refl _, List.prefix_refl _, List.prefix_refl _⟩

theorem agree_trans (h h1 h2 : Heap) (a : h.agree h1) (b : h1.agree h2) : h.agree h2 :=
  ⟨b.1.trans a.1, b.2.1.trans a.2.1, a.2.2.1.trans b.2.2.1, a.2.2.2.1.trans b.2.2.2.1,
   a.2.2.2.2.1.trans b.2.2.2.2.1, a.2.2.2.2.2.trans b.2.2.2.2.2⟩

/-- A write to an object allocated after `h` keeps the agreement with `h`. -/
theorem agree_write (h h1 : Heap) (w : Write) (a : h.agree h1) (hw : w.after h) :
    h.agree (h1.write w) := by
  obtain ⟨a1, a2, a3, a4, a5, a6⟩ := a
  cases w with
  | resource p r => exact ⟨a1, a2, prefix_set _ _ _ _ a3 hw, a4, a5, a6⟩
  | fifo p f => exact ⟨a1, a2, a3, prefix_set _ _ _ _ a4 hw, a5, a6⟩
  | job p c => exact ⟨a1, a2, a3, a4, prefix_set _ _ _ _ a5 hw, a6⟩
  | node p c => exact ⟨a1, a2, a3, a4, a5, prefix_set _ _ _ _ a6 hw⟩
  | quota p q => exact absurd hw (by simp [Write.after])
  | pod p x => exact absurd hw (by simp [Write.after])

theorem agree_writes (h h1 : Heap) (ws : List Write) (a : h.agree h1)
    (hw : ∀ w ∈ ws, w.after h) : h.agree (ws.foldl Heap.write h1) := by
  induction ws generalizing h1 with
  | nil => exact a
  | cons w t ih =>
    rw [List.foldl_cons]
    exact ih _ (agree_write h h1 w a (hw w (List.mem_cons_self _ _)))
      (fun w1 h1 => hw w1 (List.mem_cons_of_mem _ h1))

theorem agree_resource (h h2 : Heap) (p : Ptr) (a : h.agree h2) (hp : p < h.resources.length) :
    h2.resource p = h.resource p := by
  unfold Heap.resource
  rw [prefix_getElem _ _ _ a.2.2.1 hp]

theorem agree_fifo (h h2 : Heap) (p : Ptr) (a : h.agree h2) (hp : p < h.fifos.length) :
    h2.fifo p = h.fifo p := by
  unfold Heap.fifo
  rw [prefix_getElem _ _ _ a.2.2.2.1 hp]

theorem agree_job (h h2 : Heap) (p : Ptr) (a : h.agree h2) (hp : p < h.jobs.length) :
    h2.job p = h.job p := by
  unfold Heap.job
  rw [prefix_getElem _ _ _ a.2.2.2.2.1 hp]

theorem agree_node (h h2 : Heap) (p : Ptr) (a : h.agree h2) (hp : p < h.nodes.length) :
    h2.node p = h.node p := by
  unfold Heap.node
  rw [prefix_getElem _ _ _ a.2.2.2.2.2 hp]

theorem agree_quota (h h2 : Heap) (p : Ptr) (a : h.agree h2) : h2.quota p = h.quota p := by
  unfold Heap.quota
  rw [a.1]

theorem agree_pod (h h2 : Heap) (p : Ptr) (a : h.agree h2) : h2.pod p = h.pod p := by
  unfold Heap.pod
  rw [a.2.1]

theorem agree_viewFIFO (h h2 : Heap) (f : FIFO Ptr) (a : h.agree h2) :
    h2.viewFIFO f = h.viewFIFO f := by
  unfold Heap.viewFIFO
  congr 1
  apply List.map_congr_left
  intro p _
  rw [agree_pod h h2 _ a]

/-- The contents of an allocated job are the same in every store that agrees. -/
theorem agree_viewJob (h h2 : Heap) (p : Ptr) (a : h.agree h2) (hp : h.jobAllocated p) :
    h2.viewJob p = h.viewJob p ∧ h2.jobAllocated p := by
  obtain ⟨p1, p2, p3, p4, p5, p6⟩ := hp
  have ej := agree_job h h2 p a p1
  constructor
  · unfold Heap.viewJob
    rw [ej, agree_quota h h2 _ a, agree_resource h h2 _ a p2, agree_resource h h2 _ a p3,
      agree_resource h h2 _ a p4, agree_fifo h h2 _ a p5, agree_fifo h h2 _ a p6,
      agree_viewFIFO h h2 _ a, agree_viewFIFO h h2 _ a]
  · unfold Heap.jobAllocated
    rw [ej]
    have l1 := a.2.2.1.length_le
    have l2 := a.2.2.2.1.length_le
    have l3 := a.2.2.2.2.1.length_le
    exact ⟨Nat.lt_of_lt_of_le p1 l3, Nat.lt_of_lt_of_le p2 l1, Nat.lt_of_lt_of_le p3 l1,
      Nat.lt_of_lt_of_le p4 l1, Nat.lt_of_lt_of_le p5 l2, Nat.lt_of_lt_of_le p6 l2⟩

theorem agree_viewNode (h h2 : Heap) (p : Ptr) (a : h.agree h2) (hp : h.nodeAllocated p) :
    h2.viewNode p = h.viewNode p ∧ h2.nodeAllocated p := by
  obtain ⟨p1, p2, p3, p4⟩ := hp
  have ej := agree_node h h2 p a p1
  constructor
  · unfold Heap.viewNode
    rw [ej, agree_resource h h2 _ a p2, agree_resource h h2 _ a p3,
      agree_resource h h2 _ a p4]
  · unfold Heap.nodeAllocated
    rw [ej]
    have l1 := a.2.2.1.length_le
    have l3 := a.2.2.2.2.2.length_le
    exact ⟨Nat.lt_of_lt_of_le p1 l3, Nat.lt_of_lt_of_le p2 l1, Nat.lt_of_lt_of_le p3 l1,
      Nat.lt_of_lt_of_le p4 l1⟩

/-- The cache state is the same in every store that agrees. -/
theorem agree_viewCache (h h2 : Heap) (c : CacheRef) (a : h.agree h2) (hwf : h.wf c) :
    h2.viewCache c = h.viewCache c ∧ h2.wf c := by
  constructor
  · unfold Heap.viewCache
    congr 1
    · apply List.map_congr_left
      intro p hp
      rw [(agree_viewJob h h2 p.2 a (hwf.1 p hp)).1]
    · apply List.map_congr_left
      intro p hp
      rw [(agree_viewNode h h2 p.2 a (hwf.2 p hp)).1]
  · exact ⟨fun p hp => (agree_viewJob h h2 p.2 a (hwf.1 p hp)).2,
      fun p hp => (agree_viewNode h h2 p.2 a (hwf.2 p hp)).2⟩


/-! ## The clone of a FIFO object -/

theorem mapGet_map_val {β γ : Type} (g : β → γ) (m : List (String × β)) (k : String) :
    mapGet (m.map (fun p => (p.1, g p.2))) k = (mapGet m k).map g := by
  induction m with
  | nil => rfl
  | cons p t ih =>
    obtain ⟨k0, v0⟩ := p
    rw [List.map_cons, mapGet_cons, mapGet_cons]
    by_cases h : k = k0
    · rw [if_pos h, if_pos h]; rfl
    · rw [if_neg h, if_neg h, ih]

theorem mapSet_map_val {β γ : Type} (g : β → γ) (m : List (String × β)) (k : String) (v : β) :
    mapSet (m.map (fun p => (p.1, g p.2))) k (g v)
      = (mapSet m k v).map (fun p => (p.1, g p.2)) := by
  unfold mapSet
  have hany : (m.map (fun p => (p.1, g p.2))).any (fun p => p.1 == k)
      = m.any (fun p => p.1 == k) := by
    induction m with
    | nil => rfl
    | cons p t ih => simp only [List.map_cons, List.any_cons, ih]
  rw [hany]
  split
  · rw [List.map_map, List.map_map]
    apply List.map_congr_left
    intro p _
    simp only [Function.comp_apply]
    split <;> rfl
  · simp

theorem viewFIFO_add (h : Heap) (q : FIFO Ptr) (k : String) (pp : Ptr) :
    h.viewFIFO (q.Add k pp) = (h.viewFIFO q).Add k (h.pod pp) := by
  unfold Heap.viewFIFO FIFO.Add
  simp only
  rw [mapGet_map_val h.pod, mapSet_map_val h.pod]
  cases mapGet q.items k <;> rfl

theorem viewFIFO_fold (h : Heap) (l : List Ptr) (q : FIFO Ptr) :
    h.viewFIFO (l.foldl (fun q pp => q.Add (PodInfoKeyFunc (h.pod pp)) pp) q)
      = (l.map h.pod).foldl (fun f pod => f.Add (PodInfoKeyFunc pod) pod) (h.viewFIFO q) := by
  induction l generalizing q with
  | nil => rfl
  | cons pp t ih =>
    rw [List.foldl_cons, ih, viewFIFO_add, List.map_cons, List.foldl_cons]

theorem viewFIFO_list (h : Heap) (q : FIFO Ptr) :
    (h.viewFIFO q).List = q.List.map h.pod := by
  simp [Heap.viewFIFO, FIFO.List]

theorem set_self {α : Type} (l : List α) (f : Nat) (hf : f < l.length) :
    l.set f l[f] = l := by
  apply List.ext_getElem?
  intro n
  rw [List.getElem?_set]
  split
  · rename_i e
    subst e
    simp [hf]
  · rfl

/-- The loop `for _, pod := range ... { bj.RunningPods.Add(pod) }` on the FIFO
object at `f`. -/
theorem fifoAdd_fold (l : List Ptr) (s : Heap) (f : Ptr) (hf : f < s.fifos.length) :
    l.foldl (fun s pod => s.fifoAdd f pod) s
      = ⟨s.quotas, s.pods, s.resources,
          s.fifos.set f (l.foldl (fun q pp => q.Add (PodInfoKeyFunc (s.pod pp)) pp) (s.fifo f)),
          s.jobs, s.nodes⟩ := by
  induction l generalizing s with
  | nil =>
    simp only [List.foldl_nil]
    have : s.fifos.set f (s.fifo f) = s.fifos := by
      unfold Heap.fifo
      rw [List.getElem?_eq_getElem hf]
      exact set_self _ _ hf
    rw [this]
  | cons pp t ih =>
    rw [List.foldl_cons, ih _ (by simpa [Heap.fifoAdd] using hf), List.foldl_cons]
    have e1 : (s.fifoAdd f pp).fifo f = (s.fifo f).Add (PodInfoKeyFunc (s.pod pp)) pp := by
      simp [Heap.fifoAdd, Heap.fifo, List.getElem?_set_self hf]
    have e2 : (s.fifoAdd f pp).pod = s.pod := rfl
    rw [e1, e2]
    simp [Heap.fifoAdd, List.set_set]


/-! ## The clone of a job and of a node -/

theorem resource_append (h : Heap) (t : List Resource) (p : Ptr)
    (hp : p < h.resources.length) (q : List JobQuota) (pods : List PodInfo)
    (f : List (FIFO Ptr)) (j : List JobCell) (n : List NodeCell) :
    Heap.resource ⟨q, pods, h.resources ++ t, f, j, n⟩ p = h.resource p := by
  unfold Heap.resource
  simp only
  rw [List.getElem?_append_left hp]

theorem newJob_eq (h : Heap) (ri : Ptr) (hp : h.jobAllocated ri) :
    h.newJob ri =
      (⟨h.quotas, h.pods,
        h.resources ++ [(h.resource (h.job ri).RequestUnit).Clone,
          (h.resource (h.job ri).Allocated).Clone, (h.resource (h.job ri).Used).Clone],
        h.fifos ++ [NewFIFO, NewFIFO],
        h.jobs ++ [⟨(h.job ri).JobQuota, (h.job ri).ConsumerId, (h.job ri).Namespace,
          (h.job ri).Replicas, h.resources.length, h.resources.length + 1,
          h.resources.length + 2, h.fifos.length + 1, h.fifos.length⟩],
        h.nodes⟩, h.jobs.length) := by
  obtain ⟨p1, p2, p3, p4, p5, p6⟩ := hp
  unfold Heap.newJob
  simp only [Heap.cloneResource, Heap.newFIFO, List.append_assoc, List.singleton_append,
    List.length_append, List.length_singleton, List.length_cons, List.length_nil,
    resource_append h _ _ p3, resource_append h _ _ p4]
  rfl

theorem copyPods_eq (h : Heap) (src dst : Ptr) (hd : dst < h.fifos.length) :
    h.copyPods src dst
      = ⟨h.quotas, h.pods, h.resources,
          h.fifos.set dst ((h.fifo src).List.foldl
            (fun q pp => q.Add (PodInfoKeyFunc (h.pod pp)) pp) (h.fifo dst)),
          h.jobs, h.nodes⟩ :=
  fifoAdd_fold _ h dst hd

theorem getD_append_left {α : Type} (l t : List α) (p : Nat) (d : α) (hp : p < l.length) :
    (l ++ t)[p]?.getD d = l[p]?.getD d := by
  rw [List.getElem?_append_left hp]

theorem getD_two {α : Type} (l : List α) (a b d : α) :
    (l ++ [a, b])[l.length]?.getD d = a ∧ (l ++ [a, b])[l.length + 1]?.getD d = b := by
  constructor
  · rw [List.getElem?_append_right (Nat.le_refl _)]
    simp
  · rw [List.getElem?_append_right (by omega)]
    simp

theorem set_two_snd {α : Type} (l : List α) (a b x : α) :
    (l ++ [a, b]).set (l.length + 1) x = l ++ [a, x] := by
  rw [List.set_append_right _ _ (by omega)]
  simp

theorem set_two_fst {α : Type} (l : List α) (a b x : α) :
    (l ++ [a, b]).set l.length x = l ++ [x, b] := by
  rw [List.set_append_right _ _ (by omega)]
  simp

theorem cloneJob_eq (h : Heap) (ri : Ptr) (hp : h.jobAllocated ri) :
    h.cloneJob ri =
      (⟨h.quotas, h.pods,
        h.resources ++ [(h.resource (h.job ri).RequestUnit).Clone,
          (h.resource (h.job ri).Allocated).Clone, (h.resource (h.job ri).Used).Clone],
        h.fifos ++ [(h.fifo (h.job ri).ReclaimingPods).List.foldl
            (fun q pp => q.Add (PodInfoKeyFunc (h.pod pp)) pp) NewFIFO,
          (h.fifo (h.job ri).RunningPods).List.foldl
            (fun q pp => q.Add (PodInfoKeyFunc (h.pod pp)) pp) NewFIFO],
        h.jobs ++ [⟨(h.job ri).JobQuota, (h.job ri).ConsumerId, (h.job ri).Namespace,
          (h.job ri).Replicas, h.resources.length, h.resources.length + 1,
          h.resources.length + 2, h.fifos.length + 1, h.fifos.length⟩],
        h.nodes⟩, h.jobs.length) := by
  have hp0 := hp
  obtain ⟨p1, p2, p3, p4, p5, p6⟩ := hp
  unfold Heap.cloneJob
  rw [newJob_eq h ri hp0]
  simp only
  have j1 : ∀ (q : List JobQuota) (pods : List PodInfo) (r : List Resource)
      (f : List (FIFO Ptr)) (t : List JobCell) (n : List NodeCell),
      Heap.job ⟨q, pods, r, f, h.jobs ++ t, n⟩ ri = h.job ri := by
    intro q pods r f t n
    exact getD_append_left _ _ _ _ p1
  have j2 : ∀ (q : List JobQuota) (pods : List PodInfo) (r : List Resource)
      (f : List (FIFO Ptr)) (c : JobCell) (n : List NodeCell),
      Heap.job ⟨q, pods, r, f, h.jobs ++ [c], n⟩ h.jobs.length = c := by
    intro q pods r f c n
    simp [Heap.job]
  have f1 : ∀ (q : List JobQuota) (pods : List PodInfo) (r : List Resource)
      (t : List (FIFO Ptr)) (j : List JobCell) (n : List NodeCell) (p : Ptr),
      p < h.fifos.length → Heap.fifo ⟨q, pods, r, h.fifos ++ t, j, n⟩ p = h.fifo p := by
    intro q pods r t j n p hp
    exact getD_append_left _ _ _ _ hp
  have d1 : ∀ (q : List JobQuota) (r : List Resource) (f : List (FIFO Ptr))
      (j : List JobCell) (n : List NodeCell),
      Heap.pod ⟨q, h.pods, r, f, j, n⟩ = h.pod := by
    intro q r f j n
    rfl
  have g1 : ∀ (q : List JobQuota) (pods : List PodInfo) (r : List Resource)
      (a b : FIFO Ptr) (j : List JobCell) (n : List NodeCell),
      Heap.fifo ⟨q, pods, r, h.fifos ++ [a, b], j, n⟩ (h.fifos.length + 1) = b := by
    intro q pods r a b j n
    exact (getD_two _ _ _ _).2
  have g0 : ∀ (q : List JobQuota) (pods : List PodInfo) (r : List Resource)
      (a b : FIFO Ptr) (j : List JobCell) (n : List NodeCell),
      Heap.fifo ⟨q, pods, r, h.fifos ++ [a, b], j, n⟩ h.fifos.length = a := by
    intro q pods r a b j n
    exact (getD_two _ _ _ _).1
  simp only [j1, j2]
  rw [copyPods_eq _ (h.job ri).RunningPods (h.fifos.length + 1) (by simp)]
  simp only [j1, j2, d1, g1, f1 _ _ _ _ _ _ _ p5, set_two_snd]
  rw [copyPods_eq _ (h.job ri).ReclaimingPods h.fifos.length (by simp)]
  simp only [d1, g0, f1 _ _ _ _ _ _ _ p6, set_two_fst]


theorem getD_three {α : Type} (l : List α) (a b c d : α) :
    (l ++ [a, b, c])[l.length]?.getD d = a ∧ (l ++ [a, b, c])[l.length + 1]?.getD d = b ∧
    (l ++ [a, b, c])[l.length + 2]?.getD d = c := by
  refine ⟨?_, ?_, ?_⟩
  · rw [List.getElem?_append_right (Nat.le_refl _)]
    simp
  · rw [List.getElem?_append_right (by omega)]
    simp
  · rw [List.getElem?_append_right (by omega)]
    simp

theorem getD_one {α : Type} (l : List α) (a d : α) : (l ++ [a])[l.length]?.getD d = a := by
  rw [List.getElem?_append_right (Nat.le_refl _)]
  simp

theorem viewFIFO_new (h : Heap) : h.viewFIFO NewFIFO = NewFIFO := rfl

/-- The clone of an allocated job: the store grows by the clone, the contents
of the clone are the `Clone` of the contents, the resources, the queues and
the object itself are new, the quota pointer and the pod pointers are those of
the job. -/
theorem cloneJob_spec (h : Heap) (ri : Ptr) (hp : h.jobAllocated ri) :
    h.agree (h.cloneJob ri).1 ∧ (h.cloneJob ri).2 = h.jobs.length ∧
    (h.cloneJob ri).1.viewJob (h.cloneJob ri).2 = (h.viewJob ri).Clone ∧
    (h.cloneJob ri).1.jobAllocated (h.cloneJob ri).2 ∧
    (h.resources.length ≤ ((h.cloneJob ri).1.job (h.cloneJob ri).2).RequestUnit ∧
     h.resources.length ≤ ((h.cloneJob ri).1.job (h.cloneJob ri).2).Allocated ∧
     h.resources.length ≤ ((h.cloneJob ri).1.job (h.cloneJob ri).2).Used ∧
     h.fifos.length ≤ ((h.cloneJob ri).1.job (h.cloneJob ri).2).RunningPods ∧
     h.fifos.length ≤ ((h.cloneJob ri).1.job (h.cloneJob ri).2).ReclaimingPods) ∧
    ((h.cloneJob ri).1.job (h.cloneJob ri).2).JobQuota = (h.job ri).JobQuota := by
  rw [cloneJob_eq h ri hp]
  simp only
  have hj : ∀ (q : List JobQuota) (pods : List PodInfo) (r : List Resource)
      (f : List (FIFO Ptr)) (c : JobCell) (n : List NodeCell),
      Heap.job ⟨q, pods, r, f, h.jobs ++ [c], n⟩ h.jobs.length = c := by
    intro q pods r f c n
    exact getD_one _ _ _
  rw [hj]
  refine ⟨?_, trivial, ?_, ?_, ⟨Nat.le_refl _, Nat.le_add_right _ _, Nat.le_add_right _ _,
    Nat.le_add_right _ _, Nat.le_refl _⟩, rfl⟩
  · exact ⟨rfl, rfl, List.prefix_append _ _, List.prefix_append _ _,
      List.prefix_append _ _, List.prefix_refl _⟩
  · unfold Heap.viewJob JoQuotabInfo.Clone
    rw [hj]
    simp only [Heap.resource, Heap.fifo, Heap.quota, (getD_three _ _ _ _ _).1,
      (getD_three _ _ _ _ _).2.1, (getD_three _ _ _ _ _).2.2, (getD_two _ _ _ _).1,
      (getD_two _ _ _ _).2]
    have e : ∀ (f : FIFO Ptr) (q : List JobQuota) (r : List Resource)
        (fs : List (FIFO Ptr)) (j : List JobCell) (n : List NodeCell),
        Heap.viewFIFO ⟨q, h.pods, r, fs, j, n⟩ f = h.viewFIFO f := by
      intro f q r fs j n
      rfl
    simp only [e, viewFIFO_fold, viewFIFO_list, viewFIFO_new]
  · unfold Heap.jobAllocated
    rw [hj]
    simp only [List.length_append, List.length_cons, List.length_nil]
    refine ⟨?_, ?_, ?_, ?_, ?_, ?_⟩ <;> simp


theorem cloneNode_eq (h : Heap) (ni : Ptr) (hp : h.nodeAllocated ni) :
    h.cloneNode ni =
      (⟨h.quotas, h.pods,
        h.resources ++ [(h.resource (h.node ni).Allocated).Clone,
          (h.resource (h.node ni).Allocated).Clone, (h.resource (h.node ni).Capacity).Clone],
        h.fifos, h.jobs,
        h.nodes ++ [⟨(h.node ni).Name, h.resources.length, h.resources.length + 1,
          h.resources.length + 2⟩]⟩, h.nodes.length) := by
  obtain ⟨p1, p2, p3, p4⟩ := hp
  unfold Heap.cloneNode
  simp only [Heap.cloneResource, List.append_assoc, List.singleton_append,
    List.length_append, List.length_singleton, List.length_cons, List.length_nil,
    resource_append h _ _ p3, resource_append h _ _ p4]
  rfl

theorem cloneNode_spec (h : Heap) (ni : Ptr) (hp : h.nodeAllocated ni) :
    h.agree (h.cloneNode ni).1 ∧ (h.cloneNode ni).2 = h.nodes.length ∧
    (h.cloneNode ni).1.viewNode (h.cloneNode ni).2 = (h.viewNode ni).Clone ∧
    (h.cloneNode ni).1.nodeAllocated (h.cloneNode ni).2 ∧
    h.nodeAfter (h.cloneNode ni).1 (h.cloneNode ni).2 := by
  rw [cloneNode_eq h ni hp]
  simp only
  have hj : ∀ (q : List JobQuota) (pods : List PodInfo) (r : List Resource)
      (f : List (FIFO Ptr)) (j : List JobCell) (c : NodeCell),
      Heap.node ⟨q, pods, r, f, j, h.nodes ++ [c]⟩ h.nodes.length = c := by
    intro q pods r f j c
    exact getD_one _ _ _
  refine ⟨?_, trivial, ?_, ?_, ?_⟩
  · exact ⟨rfl, rfl, List.prefix_append _ _, List.prefix_refl _, List.prefix_refl _,
      List.prefix_append _ _⟩
  · unfold Heap.viewNode NodeInfo.Clone
    rw [hj]
    simp only [Heap.resource, (getD_three _ _ _ _ _).1, (getD_three _ _ _ _ _).2.1,
      (getD_three _ _ _ _ _).2.2]
  · unfold Heap.nodeAllocated
    rw [hj]
    simp only [List.length_append, List.length_cons, List.length_nil]
    refine ⟨?_, ?_, ?_, ?_⟩ <;> simp
  · unfold Heap.nodeAfter
    rw [hj]
    exact ⟨Nat.le_refl _, Nat.le_refl _, Nat.le_add_right _ _, Nat.le_add_right _ _⟩


/-! ## The snapshot -/

theorem snapJobs_cons (h : Heap) (p : String × Ptr) (t : List (String × Ptr))
    (acc : List Ptr) :
    h.snapJobs (p :: t) acc = (h.cloneJob p.2).1.snapJobs t (acc ++ [(h.cloneJob p.2).2]) :=
  rfl

theorem snapNodes_cons (h : Heap) (p : String × Ptr) (t : List (String × Ptr))
    (acc : List Ptr) :
    h.snapNodes (p :: t) acc
      = (h.cloneNode p.2).1.snapNodes t (acc ++ [(h.cloneNode p.2).2]) :=
  rfl

theorem jobAfter_of_agree (h0 h h1 : Heap) (r : Ptr) (a0 : h0.agree h) (a1 : h.agree h1)
    (hr : h.jobAllocated r) (hf : h.jobAfter h r ∨ h0.jobAfter h r) : h0.jobAfter h1 r := by
  have e := agree_job h h1 r a1 hr.1
  have l1 := a0.2.2.1.length_le
  have l2 := a0.2.2.2.1.length_le
  have l3 := a0.2.2.2.2.1.length_le
  unfold Heap.jobAfter at *
  rw [e]
  rcases hf with ⟨f1, f2, f3, f4, f5, f6⟩ | hf
  · exact ⟨Nat.le_trans l3 f1, Nat.le_trans l1 f2, Nat.le_trans l1 f3, Nat.le_trans l1 f4,
      Nat.le_trans l2 f5, Nat.le_trans l2 f6⟩
  · exact hf

theorem nodeAfter_of_agree (h0 h h1 : Heap) (r : Ptr) (a0 : h0.agree h) (a1 : h.agree h1)
    (hr : h.nodeAllocated r) (hf : h.nodeAfter h r ∨ h0.nodeAfter h r) : h0.nodeAfter h1 r := by
  have e := agree_node h h1 r a1 hr.1
  have l1 := a0.2.2.1.length_le
  have l3 := a0.2.2.2.2.2.length_le
  unfold Heap.nodeAfter at *
  rw [e]
  rcases hf with ⟨f1, f2, f3, f4⟩ | hf
  · exact ⟨Nat.le_trans l3 f1, Nat.le_trans l1 f2, Nat.le_trans l1 f3, Nat.le_trans l1 f4⟩
  · exact hf

/-- The first loop of `GetSnapshot`. -/
theorem snapJobs_spec (l : List (String × Ptr)) (h0 h : Heap) (acc : List Ptr)
    (a0 : h0.agree h) (hl : ∀ p ∈ l, h0.jobAllocated p.2)
    (hacc : ∀ r ∈ acc, h.jobAllocated r ∧ h0.jobAfter h r) :
    h0.agree (h.snapJobs l acc).1 ∧
    (h.snapJobs l acc).2.map
        (h.snapJobs l acc).1.viewJob
      = acc.map h.viewJob ++ l.map (fun p => (h0.viewJob p.2).Clone) ∧
    ∀ r ∈ (h.snapJobs l acc).2,
      (h.snapJobs l acc).1.jobAllocated r ∧
      h0.jobAfter (h.snapJobs l acc).1 r := by
  induction l generalizing h acc with
  | nil =>
    simp only [Heap.snapJobs, List.foldl_nil, List.map_nil, List.append_nil]
    exact ⟨a0, trivial, hacc⟩
  | cons p t ih =>
    rw [snapJobs_cons]
    have hp0 := hl p (List.mem_cons_self _ _)
    obtain ⟨hv, hp⟩ := agree_viewJob h0 h p.2 a0 hp0
    obtain ⟨c1, c2, c3, c4, c5, c6⟩ := cloneJob_spec h p.2 hp
    have a1 : h0.agree (h.cloneJob p.2).1 := agree_trans _ _ _ a0 c1
    have hacc1 : ∀ r ∈ acc ++ [(h.cloneJob p.2).2],
        (h.cloneJob p.2).1.jobAllocated r ∧ h0.jobAfter (h.cloneJob p.2).1 r := by
      intro r hr
      rcases List.mem_append.1 hr with hr | hr
      · obtain ⟨r1, r2⟩ := hacc r hr
        exact ⟨(agree_viewJob h _ r c1 r1).2,
          jobAfter_of_agree h0 h _ r a0 c1 r1 (Or.inr r2)⟩
      · rw [List.mem_singleton] at hr
        rw [hr]
        refine ⟨c4, ?_⟩
        have l1 := a0.2.2.1.length_le
        have l2 := a0.2.2.2.1.length_le
        have l3 := a0.2.2.2.2.1.length_le
        obtain ⟨f2, f3, f4, f5, f6⟩ := c5
        refine ⟨?_, Nat.le_trans l1 f2, Nat.le_trans l1 f3, Nat.le_trans l1 f4,
          Nat.le_trans l2 f5, Nat.le_trans l2 f6⟩
        rw [c2]
        exact l3
    obtain ⟨i1, i2, i3⟩ := ih (h.cloneJob p.2).1 (acc ++ [(h.cloneJob p.2).2]) a1
      (fun q hq => hl q (List.mem_cons_of_mem _ hq)) hacc1
    have e : acc.map (h.cloneJob p.2).1.viewJob = acc.map h.viewJob :=
      List.map_congr_left (fun r hr => (agree_viewJob h _ r c1 (hacc r hr).1).1)
    refine ⟨i1, ?_, i3⟩
    rw [i2, List.map_append, List.map_cons, List.map_nil, List.map_cons, c3, hv, e,
      List.append_assoc, List.singleton_append]

/-- The second loop of `GetSnapshot`. -/
theorem snapNodes_spec (l : List (String × Ptr)) (h0 h : Heap) (acc : List Ptr)
    (a0 : h0.agree h) (hl : ∀ p ∈ l, h0.nodeAllocated p.2)
    (hacc : ∀ r ∈ acc, h.nodeAllocated r ∧ h0.nodeAfter h r) :
    h.agree (h.snapNodes l acc).1 ∧
    (h.snapNodes l acc).2.map
        (h.snapNodes l acc).1.viewNode
      = acc.map h.viewNode ++ l.map (fun p => (h0.viewNode p.2).Clone) ∧
    ∀ r ∈ (h.snapNodes l acc).2,
      (h.snapNodes l acc).1.nodeAllocated r ∧
      h0.nodeAfter (h.snapNodes l acc).1 r := by
  induction l generalizing h acc with
  | nil =>
    simp only [Heap.snapNodes, List.foldl_nil, List.map_nil, List.append_nil]
    exact ⟨agree_refl h, trivial, hacc⟩
  | cons p t ih =>
    rw [snapNodes_cons]
    have hp0 := hl p (List.mem_cons_self _ _)
    obtain ⟨hv, hp⟩ := agree_viewNode h0 h p.2 a0 hp0
    obtain ⟨c1, c2, c3, c4, c5⟩ := cloneNode_spec h p.2 hp
    have a1 : h0.agree (h.cloneNode p.2).1 := agree_trans _ _ _ a0 c1
    have hacc1 : ∀ r ∈ acc ++ [(h.cloneNode p.2).2],
        (h.cloneNode p.2).1.nodeAllocated r ∧ h0.nodeAfter (h.cloneNode p.2).1 r := by
      intro r hr
      rcases List.mem_append.1 hr with hr | hr
      · obtain ⟨r1, r2⟩ := hacc r hr
        exact ⟨(agree_viewNode h _ r c1 r1).2,
          nodeAfter_of_agree h0 h _ r a0 c1 r1 (Or.inr r2)⟩
      · rw [List.mem_singleton] at hr
        rw [hr]
        refine ⟨c4, ?_⟩
        have l1 := a0.2.2.1.length_le
        have l3 := a0.2.2.2.2.2.length_le
        obtain ⟨f1, f2, f3, f4⟩ := c5
        exact ⟨Nat.le_trans l3 f1, Nat.le_trans l1 f2, Nat.le_trans l1 f3,
          Nat.le_trans l1 f4⟩
    obtain ⟨i1, i2, i3⟩ := ih (h.cloneNode p.2).1 (acc ++ [(h.cloneNode p.2).2]) a1
      (fun q hq => hl q (List.mem_cons_of_mem _ hq)) hacc1
    have e : acc.map (h.cloneNode p.2).1.viewNode = acc.map h.viewNode :=
      List.map_congr_left (fun r hr => (agree_viewNode h _ r c1 (hacc r hr).1).1)
    refine ⟨agree_trans _ _ _ c1 i1, ?_, i3⟩
    rw [i2, List.map_append, List.map_cons, List.map_nil, List.map_cons, c3, hv, e,
      List.append_assoc, List.singleton_append]


theorem getSnapshot_spec (h : Heap) (c : CacheRef) (hwf : h.wf c) :
    h.agree (h.getSnapshot c).1 ∧
    Heap.viewSnapshot (h.getSnapshot c) = (h.viewCache c).GetSnapshot ∧
    (∀ r ∈ (h.getSnapshot c).2.1, h.jobAfter (h.getSnapshot c).1 r) ∧
    (∀ n ∈ (h.getSnapshot c).2.2, h.nodeAfter (h.getSnapshot c).1 n) := by
  obtain ⟨j1, j2, j3⟩ := snapJobs_spec c.batchjobs h h [] (agree_refl h) hwf.1
    (fun r hr => absurd hr (List.not_mem_nil r))
  obtain ⟨n1, n2, n3⟩ := snapNodes_spec c.nodes h (h.snapJobs c.batchjobs []).1 [] j1 hwf.2
    (fun r hr => absurd hr (List.not_mem_nil r))
  have e1 : (h.getSnapshot c).1 = ((h.snapJobs c.batchjobs []).1.snapNodes c.nodes []).1 := rfl
  have e2 : (h.getSnapshot c).2.1 = (h.snapJobs c.batchjobs []).2 := rfl
  have e3 : (h.getSnapshot c).2.2
      = ((h.snapJobs c.batchjobs []).1.snapNodes c.nodes []).2 := rfl
  refine ⟨?_, ?_, ?_, ?_⟩
  · rw [e1]; exact agree_trans _ _ _ j1 n1
  · unfold Heap.viewSnapshot
    rw [e1, e2, e3, n2, getSnapshot_eq]
    have e : (h.snapJobs c.batchjobs []).2.map
        ((h.snapJobs c.batchjobs []).1.snapNodes c.nodes []).1.viewJob
        = (h.snapJobs c.batchjobs []).2.map (h.snapJobs c.batchjobs []).1.viewJob :=
      List.map_congr_left (fun r hr => (agree_viewJob _ _ r n1 (j3 r hr).1).1)
    rw [e, j2]
    simp [Heap.viewCache, List.map_map, Function.comp_def]
  · intro r hr
    rw [e2] at hr
    rw [e1]
    exact jobAfter_of_agree h _ _ r j1 n1 (j3 r hr).1 (Or.inr (j3 r hr).2)
  · intro n hn
    rw [e3] at hn
    rw [e1]
    exact (n3 n hn).2

/-- C28, counterexample: on the cache of scenario S5 the job of the snapshot
points to the quota object of the cache entry; the status write of `update`
through the snapshot changes that object, so the cache state and the values
of a later snapshot differ from those before the write. -/
theorem C28_counterexample :
    s5Heap.viewCache s5CacheRef = s5Cache ∧
    (s5Heap.getSnapshot s5CacheRef).2.1 = [1] ∧
    ((s5Heap.getSnapshot s5CacheRef).1.job 1).JobQuota = (s5Heap.job 0).JobQuota ∧
    ((s5Heap.getSnapshot s5CacheRef).1.updateStatus 1).viewCache s5CacheRef
      ≠ s5Heap.viewCache s5CacheRef ∧
    Heap.viewSnapshot (((s5Heap.getSnapshot s5CacheRef).1.updateStatus 1).getSnapshot s5CacheRef)
      ≠ Heap.viewSnapshot (s5Heap.getSnapshot s5CacheRef) := by
  refine ⟨by decide!, by decide!, by decide!, by decide!, by decide!⟩

/-- C28, amended: for every cache whose objects are allocated, the values of a
snapshot are the clones of the cache state, and every `JoQuotabInfo` and
`NodeInfo` object of the snapshot, its resources and its queues are new
objects; whatever is written to objects allocated by the snapshot, the cache
state stays the same and a later snapshot has the same values.  The quota
object and the pod records are shared with the cache and are not covered. -/
theorem C28_snapshot_frame (h : Heap) (c : CacheRef) (ws : List Write) (hwf : h.wf c)
    (hws : ∀ w ∈ ws, w.after h) :
    Heap.viewSnapshot (h.getSnapshot c) = (h.viewCache c).GetSnapshot ∧
    (∀ r ∈ (h.getSnapshot c).2.1, h.jobAfter (h.getSnapshot c).1 r) ∧
    (∀ n ∈ (h.getSnapshot c).2.2, h.nodeAfter (h.getSnapshot c).1 n) ∧
    (ws.foldl Heap.write (h.getSnapshot c).1).viewCache c = h.viewCache c ∧
    Heap.viewSnapshot ((ws.foldl Heap.write (h.getSnapshot c).1).getSnapshot c)
      = Heap.viewSnapshot (h.getSnapshot c) := by
  obtain ⟨s1, s2, s3, s4⟩ := getSnapshot_spec h c hwf
  have a2 : h.agree (ws.foldl Heap.write (h.getSnapshot c).1) := agree_writes h _ ws s1 hws
  obtain ⟨v1, v2⟩ := agree_viewCache h _ c a2 hwf
  refine ⟨s2, s3, s4, v1, ?_⟩
  rw [(getSnapshot_spec _ c v2).2.1, v1, s2]

/-- C28 on the cache of scenario S5, with writes to the `Allocated` resource
and to the `RunningPods` queue of the job of the snapshot. -/
theorem C28_snapshot_frame_witness :
    s5Heap.jobAfter (s5Heap.getSnapshot s5CacheRef).1 1 ∧
    ((s5Heap.getSnapshot s5CacheRef).1.job 1).Allocated = 4 ∧
    ((s5Heap.getSnapshot s5CacheRef).1.job 1).RunningPods = 3 ∧
    (snapshotWrites.foldl Heap.write (s5Heap.getSnapshot s5CacheRef).1).viewCache s5CacheRef
      = s5Heap.viewCache s5CacheRef := by
  have hwf : s5Heap.wf s5CacheRef := by
    constructor
    · intro p hp
      simp only [s5CacheRef, List.mem_singleton] at hp
      subst hp
      unfold Heap.jobAllocated
      decide
    · intro p hp
      simp [s5CacheRef] at hp
  have hws : ∀ w ∈ snapshotWrites, w.after s5Heap := by
    intro w hw
    simp only [snapshotWrites, List.mem_cons, List.mem_singleton, List.not_mem_nil,
      or_false] at hw
    rcases hw with rfl | rfl
    · show 3 ≤ 4
      decide
    · show 2 ≤ 3
      decide
  have key := C28_snapshot_frame s5Heap s5CacheRef snapshotWrites hwf hws
  exact ⟨key.2.1 1 (by decide!), by decide!, by decide!, key.2.2.2.1⟩


/-! ## `LessEqual` on integer amounts -/

theorem int_tol_iff (a b t : ℚ) (ha : isInt a) (hb : isInt b) (ht0 : 0 < t) (ht1 : t ≤ 1) :
    a - b < t ↔ a ≤ b := by
  obtain ⟨x, rfl⟩ := ha
  obtain ⟨y, rfl⟩ := hb
  constructor
  · intro h
    have h1 : ((x - y : Int) : ℚ) < 1 := by push_cast; linarith
    have h2 : x - y < 1 := by exact_mod_cast h1
    have h3 : x ≤ y := by omega
    exact_mod_cast h3
  · intro h
    linarith

theorem newResource_integral (rl : ResourceList) : (NewResource rl).integral :=
  ⟨⟨_, rfl⟩, ⟨_, rfl⟩⟩

/-- C35: for resources with integer amounts `r.LessEqual(rr)` holds exactly
when `r` is at most `rr` on both axes; the resources built by `NewResource`
have integer amounts, and sums, differences and integer multiples of such
resources have them too. -/
theorem C35_lessEqual_integral (r rr : Resource) (hr : r.integral) (hrr : rr.integral) :
    (r.LessEqual rr = true ↔ r.MilliCPU ≤ rr.MilliCPU ∧ r.Memory ≤ rr.Memory) ∧
    (∀ rl, (NewResource rl).integral) ∧
    (r.Add rr).integral ∧ (r.Sub rr).integral ∧ (∀ rep : Int, (r.Multi rep).integral) := by
  refine ⟨?_, newResource_integral, ⟨isInt_add _ _ hr.1 hrr.1, isInt_add _ _ hr.2 hrr.2⟩,
    ⟨isInt_sub _ _ hr.1 hrr.1, isInt_sub _ _ hr.2 hrr.2⟩,
    fun rep => ⟨isInt_mul_int _ rep hr.1, isInt_mul_int _ rep hr.2⟩⟩
  simp only [Resource.LessEqual, Bool.and_eq_true, Bool.or_eq_true, decide_eq_true_eq]
  rw [tol_iff _ _ _ (by norm_num), tol_iff _ _ _ (by norm_num),
    int_tol_iff _ _ _ hr.1 hrr.1 (by norm_num) (by norm_num),
    int_tol_iff _ _ _ hr.2 hrr.2 (by norm_num) (by norm_num)]

/-- C35 at a request of 1001 milli-CPU against 1000 available: refused, although
the request of `driftJobs`, which exceeds 1000 by 1/128, is within the
tolerance. -/
theorem C35_lessEqual_integral_witness :
    Resource.LessEqual ⟨1001, Gi⟩ ⟨1000, 8 * Gi⟩ = false ∧
    Resource.LessEqual ⟨1000 + 1 / 128, Gi⟩ ⟨1000, 8 * Gi⟩ = true := by
  have h := (C35_lessEqual_integral ⟨1001, Gi⟩ ⟨1000, 8 * Gi⟩
    ⟨⟨1001, by norm_num⟩, ⟨1024 * 1024 * 1024, by norm_num [Gi]⟩⟩
    ⟨⟨1000, by norm_num⟩, ⟨8 * 1024 * 1024 * 1024, by norm_num [Gi]⟩⟩).1
  constructor
  · cases hle : Resource.LessEqual ⟨1001, Gi⟩ ⟨1000, 8 * Gi⟩ with
    | false => rfl
    | true =>
      have := (h.1 hle).1
      norm_num at this
  · decide!

/-! ## `Cache.Reclaim` without an entry -/

/-- C36: `Cache.Reclaim` fails exactly when the cache holds no quota under
`job.ConsumerId` and the pod list is not empty; without a quota and with an
empty pod list it returns the cache unchanged; and a quota that was deleted
after `GetOverused` handed out its clone makes it fail for every non-empty pod
list. -/
theorem C36_reclaim_fails_iff (c : Cache) (job : JoQuotabInfo) (pods : List PodInfo) :
    (c.Reclaim job pods = none ↔
      mapGet c.batchjobs job.ConsumerId = none ∧ pods ≠ []) ∧
    (mapGet c.batchjobs job.ConsumerId = none → pods = [] → c.Reclaim job pods = some c) ∧
    (∀ q, pods ≠ [] → (c.DeleteJobQuota q).Reclaim (NewJobQuotaInfo q).Clone pods = none) := by
  have key : ∀ (c0 : Cache) (j : JoQuotabInfo), mapGet c0.batchjobs j.ConsumerId = none →
      pods ≠ [] → c0.Reclaim j pods = none := by
    intro c0 j h0 hp
    unfold Cache.Reclaim
    rw [h0]
    cases pods with
    | nil => exact absurd rfl hp
    | cons p t => rfl
  refine ⟨⟨?_, fun h => key c job h.1 h.2⟩, ?_, ?_⟩
  · intro h
    cases hg : mapGet c.batchjobs job.ConsumerId with
    | some e =>
      rw [cache_reclaim_eq c job e pods hg] at h
      simp at h
    | none =>
      refine ⟨rfl, ?_⟩
      intro hp
      subst hp
      simp [Cache.Reclaim, hg] at h
  · intro h0 hp
    subst hp
    simp [Cache.Reclaim, h0]
  · intro q hp
    apply key _ _ _ hp
    exact mapGet_mapDelete_self _ _

/-- C36 on the cache of scenario S5 after its quota was deleted, with the pod
of the scenario to reclaim. -/
theorem C36_reclaim_fails_iff_witness :
    (s5Cache.DeleteJobQuota s3Quota).Reclaim s5Entry.Clone [s3PodInfo] = none ∧
    (s5Cache.DeleteJobQuota s3Quota).Reclaim s5Entry.Clone []
      = some (s5Cache.DeleteJobQuota s3Quota) ∧
    (s5Cache.Reclaim s5Entry.Clone [s3PodInfo]).isSome = true :=
  ⟨((C36_reclaim_fails_iff (s5Cache.DeleteJobQuota s3Quota) s5Entry.Clone [s3PodInfo]).1).2
      ⟨by decide!, by simp⟩,
   (C36_reclaim_fails_iff (s5Cache.DeleteJobQuota s3Quota) s5Entry.Clone []).2.1
      (by decide!) rfl,
   by decide!⟩


/-! ## Scenario S6 -/

/-- C31: scenario S6.  Two namespaces with two jobs of 1000 milli-CPU each on a
cluster of 2000 milli-CPU: in either order of the two consumers, on one node or
two, with or without memory in play, `Allocate` returns after two passes, each
namespace deserves 1000 milli-CPU (the split is (x, 2 - x) CPUs with x = 1), and
the deserved CPU sums to the cluster total 2000. -/
theorem C31_scenario_S6 :
    cpuSplit (drf.allocateRun (s6JobsAB 0) (s6Nodes 0))
      = some ([("A", 1000), ("B", 1000)], 2000, 2000, 2) ∧
    cpuSplit (drf.allocateRun (s6JobsBA 0) (s6Nodes 0))
      = some ([("B", 1000), ("A", 1000)], 2000, 2000, 2) ∧
    cpuSplit (drf.allocateRun (s6JobsAB 0) (s6Nodes (8 * Gi)))
      = some ([("A", 1000), ("B", 1000)], 2000, 2000, 2) ∧
    cpuSplit (drf.allocateRun (s6JobsBA 0) (s6Nodes (8 * Gi)))
      = some ([("B", 1000), ("A", 1000)], 2000, 2000, 2) ∧
    cpuSplit (drf.allocateRun (s6JobsAB Gi) (s6TwoNodes (4 * Gi)))
      = some ([("A", 1000), ("B", 1000)], 2000, 2000, 2) ∧
    cpuSplit (drf.allocateRun (s6JobsBA Gi) (s6TwoNodes (4 * Gi)))
      = some ([("B", 1000), ("A", 1000)], 2000, 2000, 2) ∧
    drf.Allocate (s6JobsAB 0) (s6Nodes 0)
      = Run.ret [("A", ⟨"", ⟨1000, 0⟩, EmptyResource⟩), ("B", ⟨"", ⟨1000, 0⟩, EmptyResource⟩)] ∧
    drf.Allocate (s6JobsBA 0) (s6Nodes 0)
      = Run.ret [("B", ⟨"", ⟨1000, 0⟩, EmptyResource⟩), ("A", ⟨"", ⟨1000, 0⟩, EmptyResource⟩)] := by
  refine ⟨by decide!, by decide!, by decide!, by decide!, by decide!, by decide!,
    by decide!, by decide!⟩


/-! ## What a snapshot offers the allocator -/

theorem addPod_nodes (c c1 : Cache) (obj : Pod) (h : c.AddPod obj = some c1) :
    c1.nodes = c.nodes := by
  unfold Cache.AddPod at h
  split at h
  · simp at h
  · split at h
    · simp only [Option.some.injEq] at h; rw [← h]
    · split at h
      · simp only [Option.some.injEq] at h; rw [← h]
      · split at h
        · simp only [Option.some.injEq] at h; rw [← h]
        · simp only [Option.some.injEq] at h; rw [← h]

theorem deletePod_nodes (c c1 : Cache) (obj : Pod) (h : c.DeletePod obj = some c1) :
    c1.nodes = c.nodes := by
  unfold Cache.DeletePod at h
  split at h
  · simp at h
  · split at h
    · simp only [Option.some.injEq] at h; rw [← h]
    · simp only [Option.some.injEq] at h; rw [← h]

/-- No handler gives a cached node an `Allocated` other than zero. -/
theorem handle_allocated (c c1 : Cache) (e : Event) (h : c.handle e = some c1)
    (h0 : ∀ p ∈ c.nodes, p.2.Allocated = EmptyResource) :
    ∀ p ∈ c1.nodes, p.2.Allocated = EmptyResource := by
  cases e with
  | addPod obj => rw [addPod_nodes c c1 obj h]; exact h0
  | updatePod old obj => rw [addPod_nodes c c1 obj h]; exact h0
  | deletePod obj => rw [deletePod_nodes c c1 obj h]; exact h0
  | addNode obj =>
    simp only [Cache.handle, Option.some.injEq] at h
    rw [← h]
    intro p hp
    rcases mapSet_mem _ _ _ p hp with h1 | h1
    · exact h0 p h1
    · rw [h1]; rfl
  | updateNode old obj =>
    simp only [Cache.handle, Option.some.injEq] at h
    rw [← h]
    intro p hp
    rcases mapSet_mem _ _ _ p hp with h1 | h1
    · exact h0 p h1
    · rw [h1]; rfl
  | deleteNode obj =>
    simp only [Cache.handle, Option.some.injEq] at h
    rw [← h]
    intro p hp
    exact h0 p (mapDelete_subset _ _ p hp).1
  | addJobQuota obj =>
    simp only [Cache.handle, Option.some.injEq] at h
    rw [← h]; exact h0
  | updateJobQuota old obj =>
    simp only [Cache.handle, Option.some.injEq] at h
    rw [← h]; exact h0
  | deleteJobQuota obj =>
    simp only [Cache.handle, Option.some.injEq] at h
    rw [← h]; exact h0

theorem handleAll_allocated (events : List Event) (c c1 : Cache)
    (h : c.handleAll events = some c1)
    (h0 : ∀ p ∈ c.nodes, p.2.Allocated = EmptyResource) :
    ∀ p ∈ c1.nodes, p.2.Allocated = EmptyResource := by
  induction events generalizing c with
  | nil =>
    simp only [Cache.handleAll, Option.some.injEq] at h
    rw [← h]; exact h0
  | cons e rest ih =>
    unfold Cache.handleAll at h
    cases he : c.handle e with
    | none => rw [he] at h; simp at h
    | some c2 =>
      rw [he] at h
      exact ih c2 h (handle_allocated c c2 e he h0)

/-- The values of the map `Allocate` builds are the entitlements of the
consumers. -/
theorem allocation_values (cs : List consumer) (acc : List (String × AllocationInfo))
    (P : Resource → Prop) (hacc : ∀ p ∈ acc, P p.2.Allocated)
    (hcs : ∀ c ∈ cs, P c.Deserved) :
    ∀ p ∈ cs.foldl (fun allocation c =>
      mapSet allocation c.Name
        { GroupId := "", Allocated := c.Deserved, Used := EmptyResource }) acc,
      P p.2.Allocated := by
  induction cs generalizing acc with
  | nil => exact hacc
  | cons c rest ih =>
    rw [List.foldl_cons]
    apply ih
    · intro p hp
      rcases mapSet_mem _ _ _ p hp with h1 | h1
      · exact hacc p h1
      · rw [h1]; exact hcs c (List.mem_cons_self _ _)
    · intro c1 hc1
      exact hcs c1 (List.mem_cons_of_mem _ hc1)

theorem mapGet_of_key {β : Type} (m : List (String × β)) (k : String)
    (h : k ∈ m.map Prod.fst) : ∃ v, mapGet m k = some v := by
  cases hm : mapGet m k with
  | none => exact absurd h ((mapGet_eq_none_iff m k).1 hm)
  | some v => exact ⟨v, rfl⟩

theorem zero_total (nodes : List NodeInfo) (h : ∀ n ∈ nodes, n.Allocatable = EmptyResource) :
    clusterTotal nodes = EmptyResource := by
  unfold clusterTotal
  apply clusterTotal_closed (fun r => r = EmptyResource)
  · intro r rr hr hrr
    rw [hr, hrr]
    simp [Resource.Add, EmptyResource]
  · rfl
  · exact h

/-- C32: in every cache reached from `NewCache` by pod, node and quota events
(none of whose handlers panics) every node of `GetSnapshot` has allocatable
(0, 0).  On the grouped jobs and the nodes of the snapshot the allocating loop
therefore stops in its first pass with the state it started from, in which
every namespace is a consumer with `Deserved` (0, 0), and `Allocate` returns a
map all of whose entries are (0, 0); when the snapshot has a node, every
namespace of a job of the snapshot has such an entry. -/
theorem C32_snapshot_starves (events : List Event) (c : Cache)
    (h : NewCache.handleAll events = some c) :
    (∀ n ∈ c.GetSnapshot.2, n.Allocatable = ⟨0, 0⟩) ∧
    (∃ d, drf.allocateRun (drf.Group c.GetSnapshot.1) c.GetSnapshot.2 = Run.ret (d, 1) ∧
      d.consumers.map (fun k => k.Name) = (drf.Group c.GetSnapshot.1).map Prod.fst ∧
      (∀ job ∈ c.GetSnapshot.1, job.Namespace ∈ d.consumers.map (fun k => k.Name)) ∧
      ∀ k ∈ d.consumers, k.Deserved = ⟨0, 0⟩) ∧
    ∃ m, drf.Allocate (drf.Group c.GetSnapshot.1) c.GetSnapshot.2 = Run.ret m ∧
      (∀ p ∈ m, p.2.Allocated = ⟨0, 0⟩) ∧
      (c.GetSnapshot.2 ≠ [] → ∀ job ∈ c.GetSnapshot.1,
        ∃ a, mapGet m job.Namespace = some a ∧ a.Allocated = ⟨0, 0⟩) := by
  have hinv : ∀ p ∈ c.nodes, p.2.Allocated = EmptyResource :=
    handleAll_allocated events NewCache c h (by simp [NewCache])
  have hnodes : ∀ n ∈ c.GetSnapshot.2, n.Allocatable = EmptyResource := by
    intro n hn
    rw [getSnapshot_eq] at hn
    obtain ⟨p, hp, rfl⟩ := List.mem_map.1 hn
    show p.2.Allocated.Clone = EmptyResource
    rw [hinv p hp]; rfl
  have htotal : (clusterTotal c.GetSnapshot.2).IsEmpty = true := by
    rw [zero_total _ hnodes]; decide!
  have hrun := empty_total_run (drf.Group c.GetSnapshot.1) c.GetSnapshot.2 htotal
  have hdes : ∀ k ∈ (drf.initial (drf.Group c.GetSnapshot.1) c.GetSnapshot.2).consumers,
      k.Deserved = EmptyResource :=
    (initial_spec (fun _ => True) _ _ (fun _ _ _ _ => trivial)).2.2.1
  have hnames : (drf.initial (drf.Group c.GetSnapshot.1) c.GetSnapshot.2).consumers.map
      (fun k => k.Name) = (drf.Group c.GetSnapshot.1).map Prod.fst :=
    buildConsumers_names _
  obtain ⟨hnd, hget, _⟩ := group_inv c.GetSnapshot.1
  have hkey : ∀ job ∈ c.GetSnapshot.1,
      job.Namespace ∈ (drf.Group c.GetSnapshot.1).map Prod.fst := by
    intro job hjob
    by_contra hno
    have h1 := (mapGet_eq_none_iff _ _).2 hno
    rw [hget] at h1
    have h2 : job ∈ jobsOf job.Namespace c.GetSnapshot.1 := by
      simp [jobsOf, hjob]
    split at h1
    · rename_i h3
      rw [h3] at h2
      simp at h2
    · simp at h1
  refine ⟨hnodes, ⟨_, hrun, hnames, ?_, hdes⟩, ?_⟩
  · intro job hjob
    rw [hnames]
    exact hkey job hjob
  · by_cases hlen : (c.GetSnapshot.2.length = 0 || (drf.Group c.GetSnapshot.1).length = 0) = true
    · refine ⟨[], ?_, by simp, ?_⟩
      · unfold drf.Allocate
        rw [if_pos hlen]
      · intro hne job hjob
        exfalso
        have h1 := hkey job hjob
        simp only [Bool.or_eq_true, beq_iff_eq, decide_eq_true_eq, List.length_eq_zero] at hlen
        rcases hlen with h2 | h2
        · exact hne h2
        · rw [h2] at h1
          simp at h1
    · obtain ⟨h1, h2, _⟩ := allocation_keys
        (drf.initial (drf.Group c.GetSnapshot.1) c.GetSnapshot.2).consumers [] (by simp)
      have hval := allocation_values
        (drf.initial (drf.Group c.GetSnapshot.1) c.GetSnapshot.2).consumers []
        (fun r => r = EmptyResource) (by simp) hdes
      refine ⟨_, ?_, hval, ?_⟩
      · unfold drf.Allocate
        rw [if_neg hlen, hrun]
      · intro _ job hjob
        have h3 := (h2 job.Namespace).2 (Or.inr (by rw [hnames]; exact hkey job hjob))
        obtain ⟨a, ha⟩ := mapGet_of_key _ _ h3
        exact ⟨a, ha, hval _ (mapGet_mem _ _ _ ha)⟩

/-- C32 on a cache that saw a node of 4 CPU and 8Gi, a quota and a pod of the
quota: the cache holds the node with allocatable 4000m/8Gi, the snapshot
offers it with allocatable (0, 0), and the namespace of the quota is entitled
to (0, 0). -/
theorem C32_snapshot_starves_witness :
    NewCache.handleAll s1Events = some s1EventsCache ∧
    s1EventsCache.nodes.map (fun p => p.2.Allocatable) = [⟨4000, 8 * Gi⟩] ∧
    s1EventsCache.GetSnapshot.2.map (fun n => n.Allocatable) = [⟨0, 0⟩] ∧
    drf.Allocate (drf.Group s1EventsCache.GetSnapshot.1) s1EventsCache.GetSnapshot.2
      = Run.ret [("A", ⟨"", ⟨0, 0⟩, ⟨0, 0⟩⟩)] ∧
    ∀ n ∈ s1EventsCache.GetSnapshot.2, n.Allocatable = ⟨0, 0⟩ :=
  ⟨by decide!, by decide!, by decide!, by decide!,
   (C32_snapshot_starves s1Events s1EventsCache (by decide!)).1⟩


/-! ## What a namespace is granted -/

theorem mapDelete_absent {β : Type} (m : List (String × β)) (k : String)
    (h : k ∉ m.map Prod.fst) : mapDelete m k = m := by
  unfold mapDelete
  rw [List.filter_eq_self]
  intro p hp
  simp only [bne_iff_ne, ne_eq]
  intro hk
  exact h (List.mem_map.2 ⟨p, hp, hk⟩)

theorem mapDelete_perm {β : Type} (m : List (String × β)) (k : String) (v : β)
    (hnd : (m.map Prod.fst).Nodup) (h : mapGet m k = some v) :
    m.Perm ((k, v) :: mapDelete m k) := by
  induction m with
  | nil => simp [mapGet] at h
  | cons p t ih =>
    obtain ⟨k0, v0⟩ := p
    rw [mapGet_cons] at h
    have hk0 : k0 ∉ t.map Prod.fst := (List.nodup_cons.1 hnd).1
    by_cases hk : k = k0
    · subst hk
      rw [if_pos rfl] at h
      simp only [Option.some.injEq] at h
      subst h
      have h1 : mapDelete ((k, v0) :: t) k = mapDelete t k := by
        unfold mapDelete
        rw [List.filter_cons_of_neg (by simp)]
      rw [h1, mapDelete_absent t k hk0]
    · rw [if_neg hk] at h
      have h1 : mapDelete ((k0, v0) :: t) k = (k0, v0) :: mapDelete t k := by
        unfold mapDelete
        rw [List.filter_cons_of_pos (by simpa using fun e => hk e.symm)]
      rw [h1]
      exact ((ih (List.nodup_cons.1 hnd).2 h).cons (k0, v0)).trans (List.Perm.swap _ _ _)

theorem filter_replace {β : Type} (m : List (String × β)) (k : String) (v : β) :
    (m.map (fun p => if p.1 = k then (k, v) else p)).filter (fun p => p.1 != k)
      = m.filter (fun p => p.1 != k) := by
  induction m with
  | nil => rfl
  | cons p t ih =>
    by_cases hp : p.1 = k
    · rw [List.map_cons, if_pos hp, List.filter_cons_of_neg (by simp),
        List.filter_cons_of_neg (by simp [hp]), ih]
    · rw [List.map_cons, if_neg hp, List.filter_cons_of_pos (by simpa using hp),
        List.filter_cons_of_pos (by simpa using hp), ih]

theorem mapDelete_mapSet {β : Type} (m : List (String × β)) (k : String) (v : β) :
    mapDelete (mapSet m k v) k = mapDelete m k := by
  unfold mapSet mapDelete
  split
  · exact filter_replace m k v
  · simp [List.filter_append]

theorem mapSet_perm {β : Type} (m : List (String × β)) (k : String) (v : β)
    (hnd : (m.map Prod.fst).Nodup) :
    (mapSet m k v).Perm ((k, v) :: mapDelete m k) := by
  have h := mapDelete_perm (mapSet m k v) k v (mapSet_keys_nodup m k v hnd).1
    (mapGet_mapSet_self m k v)
  rwa [mapDelete_mapSet] at h

theorem mapDelete_sublist {β : Type} (m : List (String × β)) (k : String) :
    (mapDelete m k).Sublist m := by
  unfold mapDelete
  exact List.filter_sublist m

theorem mapSet_values {β : Type} (m : List (String × β)) (k : String) (v : β)
    (hnd : (m.map Prod.fst).Nodup) :
    ((mapSet m k v).map Prod.snd).Subperm (m.map Prod.snd ++ [v]) := by
  have h1 : ((mapSet m k v).map Prod.snd).Perm (v :: (mapDelete m k).map Prod.snd) :=
    (mapSet_perm m k v hnd).map Prod.snd
  have h2 : (v :: (mapDelete m k).map Prod.snd).Subperm (v :: m.map Prod.snd) :=
    (((mapDelete_sublist m k).map Prod.snd).cons₂ v).subperm
  have h3 : (v :: m.map Prod.snd).Perm (m.map Prod.snd ++ [v]) :=
    (List.perm_append_singleton v (m.map Prod.snd)).symm
  exact (h1.subperm.trans h2).trans h3.subperm

theorem requestSum_append (l : List JoQuotabInfo) (job : JoQuotabInfo) :
    requestSum (l ++ [job]) = (requestSum l).Add (reqOf job) := by
  simp [requestSum, Resource.Add, List.map_append, List.sum_append]

theorem buildConsumer_granted (rest seen : List JoQuotabInfo) (c : consumer)
    (h1 : c.Request = requestSum seen) (h2 : (c.Jobs.items.map Prod.fst).Nodup)
    (h3 : (c.Jobs.items.map Prod.snd).Subperm seen) (h4 : c.Deserved = EmptyResource) :
    grantedFrom (rest.foldl (fun (c : consumer) job =>
      { c with
        Jobs := c.Jobs.Add (BatchJobInfoKeyFunc job) job,
        Request := c.Request.Add (job.RequestUnit.Clone.Multi job.Replicas) }) c)
      (seen ++ rest) := by
  induction rest generalizing seen c with
  | nil =>
    rw [List.append_nil]
    exact ⟨h1, h2, [], by simpa using h3, h4⟩
  | cons job rest ih =>
    rw [List.foldl_cons]
    have e : seen ++ job :: rest = (seen ++ [job]) ++ rest := by simp
    rw [e]
    apply ih
    · show c.Request.Add (reqOf job) = requestSum (seen ++ [job])
      rw [requestSum_append, h1]
    · exact (mapSet_keys_nodup _ _ _ h2).1
    · exact (mapSet_values _ _ _ h2).trans ((List.subperm_append_right [job]).2 h3)
    · exact h4

theorem buildConsumers_granted (jobs : List (String × List JoQuotabInfo))
    (nodes : List NodeInfo) : grantedAll jobs (drf.initial jobs nodes) := by
  intro i c hc
  have h : (drf.buildConsumers jobs)[i]? = some c := hc
  unfold drf.buildConsumers at h
  rw [List.getElem?_map] at h
  cases hp : jobs[i]? with
  | none => rw [hp] at h; simp at h
  | some p =>
    rw [hp] at h
    simp only [Option.map_some', Option.some.injEq] at h
    refine ⟨p, rfl, ?_⟩
    rw [← h]
    have := buildConsumer_granted p.2 []
      { Name := p.1, Share := Float64.fin 0, Jobs := NewFIFO, Request := EmptyResource,
        Deserved := EmptyResource } rfl (by simp [NewFIFO]) (by simp [NewFIFO]) rfl
    simpa using this

theorem granted_pop (c : consumer) (js : List JoQuotabInfo) (job : JoQuotabInfo)
    (jobs1 : FIFO JoQuotabInfo) (sh : Float64) (h : grantedFrom c js)
    (hpop : c.Jobs.Pop = some (job, jobs1)) :
    grantedFrom { c with Jobs := jobs1 } js ∧
    grantedFrom { c with Jobs := jobs1, Deserved := c.Deserved.Add (reqOf job), Share := sh }
      js := by
  obtain ⟨h1, h2, granted, h3, h4⟩ := h
  obtain ⟨id, hget, hitems, _⟩ := popQueue_spec c.Jobs.items c.Jobs.queue job jobs1 hpop
  have hnd : (jobs1.items.map Prod.fst).Nodup := by
    rw [hitems]
    exact ((mapDelete_sublist _ _).map Prod.fst).nodup h2
  have hperm : (c.Jobs.items.map Prod.snd).Perm (job :: jobs1.items.map Prod.snd) := by
    rw [hitems]
    exact (mapDelete_perm _ _ _ h2 hget).map Prod.snd
  constructor
  · refine ⟨h1, hnd, granted, ?_, h4⟩
    have hsub : (granted ++ jobs1.items.map Prod.snd).Subperm
        (granted ++ c.Jobs.items.map Prod.snd) := by
      exact (List.subperm_append_left granted).2
        ((List.sublist_cons_self job _).subperm.trans hperm.symm.subperm)
    exact hsub.trans h3
  · refine ⟨h1, hnd, granted ++ [job], ?_, ?_⟩
    · have hp2 : ((granted ++ [job]) ++ jobs1.items.map Prod.snd).Perm
          (granted ++ c.Jobs.items.map Prod.snd) := by
        rw [List.append_assoc]
        exact List.Perm.append_left granted hperm.symm
      exact hp2.subperm.trans h3
    · show c.Deserved.Add (reqOf job) = requestSum (granted ++ [job])
      rw [requestSum_append, h4]

theorem granted_set (jobs : List (String × List JoQuotabInfo)) (l : List consumer)
    (ci : Nat) (c c1 : consumer)
    (h : ∀ (i : Nat) (x : consumer), l[i]? = some x →
      ∃ p : String × List JoQuotabInfo, jobs[i]? = some p ∧ grantedFrom x p.2)
    (hc : l[ci]? = some c) (h1 : ∀ js, grantedFrom c js → grantedFrom c1 js) :
    ∀ (i : Nat) (x : consumer), (l.set ci c1)[i]? = some x →
      ∃ p : String × List JoQuotabInfo, jobs[i]? = some p ∧ grantedFrom x p.2 := by
  intro i x hx
  by_cases hi : ci = i
  · subst hi
    obtain ⟨p, hp, hg⟩ := h ci c hc
    have hlt : ci < l.length := (List.getElem?_eq_some_iff.1 hc).1
    rw [List.getElem?_set_self hlt] at hx
    simp only [Option.some.injEq] at hx
    rw [← hx]
    exact ⟨p, hp, h1 _ hg⟩
  · rw [List.getElem?_set_ne hi] at hx
    exact h i x hx

theorem innerStep_granted (jobs : List (String × List JoQuotabInfo)) (d : drf)
    (pq : PriorityQueue Nat) (a : Bool) (d1 : drf) (pq1 : PriorityQueue Nat) (a1 : Bool)
    (h0 : grantedAll jobs d) (h : drf.innerStep d pq a = drf.Step.cont d1 pq1 a1) :
    grantedAll jobs d1 := by
  obtain ⟨_, ci, pq0, c, _, hc, hcase⟩ := innerStep_cont d pq a d1 pq1 a1 h
  rcases hcase with ⟨_, rfl, _, _⟩ | ⟨job, jobs1, hpop, hcase2⟩
  · exact h0
  · rcases hcase2 with ⟨_, rfl, _, _⟩ | ⟨_, sh, rfl, _, _⟩
    · exact granted_set jobs d.consumers ci c _ h0 hc
        (fun js hg => (granted_pop c js job jobs1 (Float64.fin 0) hg hpop).1)
    · exact granted_set jobs d.consumers ci c _ h0 hc
        (fun js hg => (granted_pop c js job jobs1 sh hg hpop).2)

theorem requestSum_le (granted js : List JoQuotabInfo) (h : granted.Subperm js)
    (hnn : ∀ j ∈ js, (reqOf j).nonneg) :
    (requestSum granted).MilliCPU ≤ (requestSum js).MilliCPU ∧
    (requestSum granted).Memory ≤ (requestSum js).Memory := by
  obtain ⟨l, hperm, hsub⟩ := h
  constructor
  · show (granted.map (fun j => (reqOf j).MilliCPU)).sum ≤ (js.map (fun j => (reqOf j).MilliCPU)).sum
    rw [← (hperm.map (fun j => (reqOf j).MilliCPU)).sum_eq]
    apply (hsub.map (fun j => (reqOf j).MilliCPU)).sum_le_sum
    intro x hx
    obtain ⟨j, hj, rfl⟩ := List.mem_map.1 hx
    exact (hnn j hj).1
  · show (granted.map (fun j => (reqOf j).Memory)).sum ≤ (js.map (fun j => (reqOf j).Memory)).sum
    rw [← (hperm.map (fun j => (reqOf j).Memory)).sum_eq]
    apply (hsub.map (fun j => (reqOf j).Memory)).sum_le_sum
    intro x hx
    obtain ⟨j, hj, rfl⟩ := List.mem_map.1 hx
    exact (hnn j hj).2

theorem allocation_entries (cs : List consumer) (acc : List (String × AllocationInfo)) :
    ∀ e ∈ cs.foldl (fun allocation c =>
      mapSet allocation c.Name
        { GroupId := "", Allocated := c.Deserved, Used := EmptyResource }) acc,
      e ∈ acc ∨ ∃ c ∈ cs, e.1 = c.Name ∧ e.2.Allocated = c.Deserved := by
  induction cs generalizing acc with
  | nil => exact fun e he => Or.inl he
  | cons c rest ih =>
    intro e he
    rw [List.foldl_cons] at he
    rcases ih _ e he with h1 | ⟨c1, hc1, h1⟩
    · rcases mapSet_mem _ _ _ e h1 with h2 | h2
      · exact Or.inl h2
      · exact Or.inr ⟨c, List.mem_cons_self _ _, by rw [h2], by rw [h2]⟩
    · exact Or.inr ⟨c1, List.mem_cons_of_mem _ hc1, h1⟩

/-- C34: for a jobs map whose request units and replica counts are not
negative, the allocating loop returns, and in the state it returns with the
consumer at index `i` is the one of the `i`-th namespace, its `Request` is the
sum of the total requests of all jobs of the namespace, and its `Deserved` is
the sum of the total requests of some of these jobs, each taken whole and at
most once; so `Deserved ≤ Request` on both axes.  The entries of the map
`Allocate` returns are such sums as well. -/
theorem C34_deserved_within_request (jobs : List (String × List JoQuotabInfo))
    (nodes : List NodeInfo)
    (hnn : ∀ p ∈ jobs, ∀ j ∈ p.2, j.RequestUnit.nonneg ∧ 0 ≤ j.Replicas) :
    (∃ d passes, drf.allocateRun jobs nodes = Run.ret (d, passes) ∧
      d.consumers.length = jobs.length ∧
      ∀ (i : Nat) (c : consumer), d.consumers[i]? = some c →
        ∃ p : String × List JoQuotabInfo, jobs[i]? = some p ∧ c.Name = p.1 ∧
          c.Request = requestSum p.2 ∧
          (∃ granted : List JoQuotabInfo,
            granted.Subperm p.2 ∧ c.Deserved = requestSum granted) ∧
          c.Deserved.MilliCPU ≤ c.Request.MilliCPU ∧
          c.Deserved.Memory ≤ c.Request.Memory) ∧
    ∃ m, drf.Allocate jobs nodes = Run.ret m ∧
      ∀ e ∈ m, ∃ p ∈ jobs, p.1 = e.1 ∧
        (∃ granted : List JoQuotabInfo,
          granted.Subperm p.2 ∧ e.2.Allocated = requestSum granted) ∧
        e.2.Allocated.MilliCPU ≤ (requestSum p.2).MilliCPU ∧
        e.2.Allocated.Memory ≤ (requestSum p.2).Memory := by
  obtain ⟨d, passes, hrun, _, _⟩ := allocateRun_returns jobs nodes
  have hnames : d.consumers.map (fun c => c.Name) = jobs.map Prod.fst :=
    outerLoop_preserves
      (fun x => x.consumers.map (fun c => c.Name) = jobs.map Prod.fst)
      (fun x pq a x1 pq1 a1 hx hs => (innerStep_names x pq a x1 pq1 a1 hs).trans hx)
      _ _ _ _ _ (buildConsumers_names jobs) hrun
  have hall : grantedAll jobs d :=
    outerLoop_preserves (grantedAll jobs)
      (fun x pq a x1 pq1 a1 hx hs => innerStep_granted jobs x pq a x1 pq1 a1 hx hs)
      _ _ _ _ _ (buildConsumers_granted jobs nodes) hrun
  have hcons : ∀ (i : Nat) (c : consumer), d.consumers[i]? = some c →
      ∃ p : String × List JoQuotabInfo, jobs[i]? = some p ∧ c.Name = p.1 ∧
        c.Request = requestSum p.2 ∧
        (∃ granted : List JoQuotabInfo,
          granted.Subperm p.2 ∧ c.Deserved = requestSum granted) ∧
        c.Deserved.MilliCPU ≤ c.Request.MilliCPU ∧
        c.Deserved.Memory ≤ c.Request.Memory := by
    intro i c hc
    obtain ⟨p, hp, hreq, _, granted, hsub, hdes⟩ := hall i c hc
    have hname : c.Name = p.1 := by
      have h1 : (d.consumers.map (fun c => c.Name))[i]? = (jobs.map Prod.fst)[i]? := by
        rw [hnames]
      rw [List.getElem?_map, List.getElem?_map, hc, hp] at h1
      simpa using h1
    have hsub1 : granted.Subperm p.2 :=
      (List.sublist_append_left granted _).subperm.trans hsub
    have hle := requestSum_le granted p.2 hsub1 (fun j hj =>
      reqOf_nonneg j (hnn p (List.getElem?_mem hp) j hj).1 (hnn p (List.getElem?_mem hp) j hj).2)
    refine ⟨p, hp, hname, hreq, ⟨granted, hsub1, hdes⟩, ?_, ?_⟩
    · rw [hdes, hreq]; exact hle.1
    · rw [hdes, hreq]; exact hle.2
  refine ⟨⟨d, passes, hrun, ?_, hcons⟩, ?_⟩
  · have h1 := congrArg List.length hnames
    simpa using h1
  · by_cases hlen : (nodes.length = 0 || jobs.length = 0) = true
    · refine ⟨[], ?_, by simp⟩
      unfold drf.Allocate
      rw [if_pos hlen]
    · refine ⟨d.consumers.foldl (fun allocation c =>
        mapSet allocation c.Name
          { GroupId := "", Allocated := c.Deserved, Used := EmptyResource }) [], ?_, ?_⟩
      · unfold drf.Allocate
        rw [if_neg hlen, hrun]
      · intro e he
        rcases allocation_entries d.consumers [] e he with h1 | ⟨c, hc, h1, h2⟩
        · simp at h1
        · obtain ⟨i, hi⟩ := List.getElem?_of_mem hc
          obtain ⟨p, hp, hname, hreq, hgr, hle1, hle2⟩ := hcons i c hi
          refine ⟨p, List.getElem?_mem hp, ?_, ?_, ?_, ?_⟩
          · rw [h1, hname]
          · rw [h2]; exact hgr
          · rw [h2, ← hreq]; exact hle1
          · rw [h2, ← hreq]; exact hle2

/-- C34 on a namespace whose two jobs have the same owner: the request counts
both jobs (3000m, 3Gi), the queue holds the second only, and the namespace is
granted the second job alone (2000m, 2Gi). -/
theorem C34_deserved_within_request_witness :
    (finalState (drf.allocateRun sameOwnerJobs s1Nodes)).map
        (fun d => d.consumers.map (fun c => (c.Request, c.Deserved)))
      = some [(⟨3000, 3 * Gi⟩, ⟨2000, 2 * Gi⟩)] ∧
    requestSum [mkJob "rc-a" "A" 2 1000 Gi] = ⟨2000, 2 * Gi⟩ ∧
    ∃ m, drf.Allocate sameOwnerJobs s1Nodes = Run.ret m ∧
      ∀ e ∈ m, ∃ p ∈ sameOwnerJobs, p.1 = e.1 ∧
        (∃ granted : List JoQuotabInfo,
          granted.Subperm p.2 ∧ e.2.Allocated = requestSum granted) ∧
        e.2.Allocated.MilliCPU ≤ (requestSum p.2).MilliCPU ∧
        e.2.Allocated.Memory ≤ (requestSum p.2).Memory :=
  ⟨by decide!, by decide!,
   (C34_deserved_within_request sameOwnerJobs s1Nodes (by
      intro p hp j hj
      simp only [sameOwnerJobs, List.mem_singleton] at hp
      subst hp
      simp only [List.mem_cons, List.mem_singleton, List.not_mem_nil, or_false] at hj
      rcases hj with rfl | rfl <;>
        exact ⟨⟨by decide!, by decide!⟩, by decide⟩)).2⟩


/-! ## The ledger at every point of `Allocate` -/

theorem roundPoints_cases (d : drf) (pq : PriorityQueue Nat) :
    drf.roundPoints d pq = [] ∨
    ∃ ci c job jobs1, d.consumers[ci]? = some c ∧ c.Jobs.Pop = some (job, jobs1) ∧
      (drf.roundPoints d pq
          = [(⟨d.total, d.available, d.consumers.set ci { c with Jobs := jobs1 }⟩,
              EmptyResource)] ∨
        ((reqOf job).LessEqual d.available = true ∧
          drf.roundPoints d pq
            = [(⟨d.total, d.available, d.consumers.set ci { c with Jobs := jobs1 }⟩,
                EmptyResource),
               (⟨d.total, d.available, d.consumers.set ci
                  { c with Jobs := jobs1, Deserved := c.Deserved.Add (reqOf job) }⟩,
                reqOf job),
               (⟨d.total, d.available.Sub (reqOf job), d.consumers.set ci
                  { c with Jobs := jobs1, Deserved := c.Deserved.Add (reqOf job) }⟩,
                EmptyResource)])) := by
  unfold drf.roundPoints
  split
  · exact Or.inl rfl
  · split
    · exact Or.inl rfl
    · rename_i ci pq0 hpop
      split
      · exact Or.inl rfl
      · rename_i c hc
        split
        · exact Or.inl rfl
        · split
          · exact Or.inl rfl
          · rename_i job jobs1 hjp
            right
            refine ⟨ci, c, job, jobs1, hc, hjp, ?_⟩
            simp only
            split
            · left
              rfl
            · rename_i hle
              right
              refine ⟨by simpa [reqOf] using hle, ?_⟩
              simp only [drf.allocate, List.set_set, reqOf]

theorem sum_nonneg_of (l : List consumer) (f : consumer → ℚ) (h : ∀ c ∈ l, 0 ≤ f c) :
    0 ≤ (l.map f).sum := by
  apply List.sum_nonneg
  intro x hx
  obtain ⟨c, hc, rfl⟩ := List.mem_map.1 hx
  exact h c hc

theorem single_le_sum_of (l : List consumer) (f : consumer → ℚ) (h : ∀ c ∈ l, 0 ≤ f c)
    (c : consumer) (hc : c ∈ l) : f c ≤ (l.map f).sum := by
  apply List.single_le_sum
  · intro x hx
    obtain ⟨c2, hc2, rfl⟩ := List.mem_map.1 hx
    exact h c2 hc2
  · exact List.mem_map.2 ⟨c, hc, rfl⟩

/-- At the start of a round the ledger balances and holds exact amounts. -/
theorem head_ledger (T : Resource) (d : drf) (hT : T.exact) (h0 : headInv T d) :
    exactLedger T (d, EmptyResource) := by
  obtain ⟨ht, ⟨hc1, hc2⟩, hai, han, hcons, _⟩ := h0
  rw [ht] at hc1 hc2
  have hs1 : 0 ≤ sumDeservedCPU d :=
    sum_nonneg_of _ _ (fun c hc => (hcons c hc).2.1.1)
  have hs2 : 0 ≤ sumDeservedMemory d :=
    sum_nonneg_of _ _ (fun c hc => (hcons c hc).2.1.2)
  refine ⟨ht, by simpa [EmptyResource] using hc1, by simpa [EmptyResource] using hc2, ?_, ?_⟩
  · exact ⟨⟨hai.1, han.1, by linarith [hT.1.2.2]⟩, ⟨hai.2, han.2, by linarith [hT.2.2.2]⟩⟩
  · intro c hc
    obtain ⟨hi, hn, hr⟩ := hcons c hc
    have h1 : c.Deserved.MilliCPU ≤ sumDeservedCPU d :=
      single_le_sum_of _ (fun c => c.Deserved.MilliCPU) (fun c hc => (hcons c hc).2.1.1) c hc
    have h2 : c.Deserved.Memory ≤ sumDeservedMemory d :=
      single_le_sum_of _ (fun c => c.Deserved.Memory) (fun c hc => (hcons c hc).2.1.2) c hc
    exact ⟨⟨⟨hi.1, hn.1, by linarith [hT.1.2.2, han.1]⟩,
      ⟨hi.2, hn.2, by linarith [hT.2.2.2, han.2]⟩⟩, hr⟩

/-- The invariant after the consumer at `ci` dropped queued jobs and was
granted `g`, an exact amount that `available` covers. -/
theorem headInv_set (T : Resource) (d : drf) (ci : Nat) (c c1 : consumer) (g : Resource)
    (h0 : headInv T d) (hc : d.consumers[ci]? = some c)
    (hg : g.integral ∧ g.nonneg)
    (hle : g.MilliCPU ≤ d.available.MilliCPU ∧ g.Memory ≤ d.available.Memory)
    (hd : c1.Deserved = c.Deserved.Add g) (hr : c1.Request = c.Request)
    (hq : ∀ p ∈ c1.Jobs.items, p ∈ c.Jobs.items) :
    headInv T ⟨d.total, d.available.Sub g, d.consumers.set ci c1⟩ := by
  obtain ⟨ht, ⟨hc1, hc2⟩, hai, han, hcons, hqa⟩ := h0
  have hcm : c ∈ d.consumers := List.getElem?_mem hc
  have e1 := sum_map_set (fun c => c.Deserved.MilliCPU) d.consumers ci c c1 hc
  have e2 := sum_map_set (fun c => c.Deserved.Memory) d.consumers ci c c1 hc
  simp only [hd, Resource.Add] at e1 e2
  refine ⟨ht, ⟨?_, ?_⟩, ⟨isInt_sub _ _ hai.1 hg.1.1, isInt_sub _ _ hai.2 hg.1.2⟩,
    ⟨?_, ?_⟩, ?_, ?_⟩
  · simp only [sumDeservedCPU, Resource.Sub] at hc1 ⊢
    linarith
  · simp only [sumDeservedMemory, Resource.Sub] at hc2 ⊢
    linarith
  · simp only [Resource.Sub]
    linarith [hle.1]
  · simp only [Resource.Sub]
    linarith [hle.2]
  · intro x hx
    rcases List.mem_or_eq_of_mem_set hx with h1 | h1
    · exact hcons x h1
    · subst h1
      obtain ⟨hi, hn, hre⟩ := hcons c hcm
      rw [hd, hr]
      exact ⟨⟨isInt_add _ _ hi.1 hg.1.1, isInt_add _ _ hi.2 hg.1.2⟩,
        ⟨add_nonneg hn.1 hg.2.1, add_nonneg hn.2 hg.2.2⟩, hre⟩
  · intro x hx p hp
    rcases List.mem_or_eq_of_mem_set hx with h1 | h1
    · exact hqa x h1 p hp
    · subst h1
      exact hqa c hcm p (hq p hp)

theorem sub_zero_resource (r : Resource) : r.Sub ⟨0, 0⟩ = r := by
  simp [Resource.Sub]

theorem add_zero_resource (r : Resource) : r = r.Add ⟨0, 0⟩ := by
  simp [Resource.Add]

/-- A request of integers that passes `LessEqual` is covered exactly. -/
theorem le_of_lessEqual_int (r rr : Resource) (hr : r.integral) (hrr : rr.integral)
    (h : r.LessEqual rr = true) : r.MilliCPU ≤ rr.MilliCPU ∧ r.Memory ≤ rr.Memory := by
  obtain ⟨b1, b2⟩ := lessEqual_bound r rr h
  have h1 := isInt_nonneg (rr.MilliCPU - r.MilliCPU) (1 / 100) (isInt_sub _ _ hrr.1 hr.1)
    (by norm_num) (by linarith)
  have h2 := isInt_nonneg (rr.Memory - r.Memory) 1 (isInt_sub _ _ hrr.2 hr.2)
    (le_refl _) (by linarith)
  exact ⟨by linarith, by linarith⟩

theorem step_headInv (T : Resource) (d : drf) (pq : PriorityQueue Nat) (a : Bool) (d1 : drf)
    (pq1 : PriorityQueue Nat) (a1 : Bool) (h0 : headInv T d)
    (h : drf.innerStep d pq a = drf.Step.cont d1 pq1 a1) : headInv T d1 := by
  obtain ⟨_, ci, pq0, c, _, hc, hcase⟩ := innerStep_cont d pq a d1 pq1 a1 h
  rcases hcase with ⟨_, rfl, _, _⟩ | ⟨job, jobs1, hjp, hcase2⟩
  · exact h0
  · obtain ⟨⟨id, hid⟩, _, hitems, _⟩ := fifo_pop_spec c.Jobs jobs1 job hjp
    have hcm : c ∈ d.consumers := List.getElem?_mem hc
    have hjob := h0.2.2.2.2.2 c hcm (id, job) hid
    rcases hcase2 with ⟨_, rfl, _, _⟩ | ⟨hle, sh, rfl, _, _⟩
    · have := headInv_set T d ci c { c with Jobs := jobs1 } ⟨0, 0⟩ h0 hc
        ⟨⟨⟨0, by simp⟩, ⟨0, by simp⟩⟩, ⟨le_refl _, le_refl _⟩⟩
        ⟨h0.2.2.2.1.1, h0.2.2.2.1.2⟩ (add_zero_resource _) rfl hitems
      rw [sub_zero_resource] at this
      exact this
    · exact headInv_set T d ci c _ (reqOf job) h0 hc hjob
        (le_of_lessEqual_int _ _ hjob.1 h0.2.2.1 hle) rfl rfl hitems

/-- The ledger at the points inside a round. -/
theorem roundPoints_ledger (T : Resource) (d : drf) (pq : PriorityQueue Nat) (hT : T.exact)
    (h0 : headInv T d) : ∀ x ∈ drf.roundPoints d pq, exactLedger T x := by
  intro x hx
  rcases roundPoints_cases d pq with e | ⟨ci, c, job, jobs1, hc, hjp, e | ⟨hle, e⟩⟩
  · rw [e] at hx
    simp at hx
  · obtain ⟨⟨id, hid⟩, _, hitems, _⟩ := fifo_pop_spec c.Jobs jobs1 job hjp
    have h1 := headInv_set T d ci c { c with Jobs := jobs1 } ⟨0, 0⟩ h0 hc
      ⟨⟨⟨0, by simp⟩, ⟨0, by simp⟩⟩, ⟨le_refl _, le_refl _⟩⟩
      ⟨h0.2.2.2.1.1, h0.2.2.2.1.2⟩ (add_zero_resource _) rfl hitems
    rw [sub_zero_resource] at h1
    rw [e] at hx
    simp only [List.mem_singleton] at hx
    rw [hx]
    exact head_ledger T _ hT h1
  · obtain ⟨⟨id, hid⟩, _, hitems, _⟩ := fifo_pop_spec c.Jobs jobs1 job hjp
    have hcm : c ∈ d.consumers := List.getElem?_mem hc
    have hjob := h0.2.2.2.2.2 c hcm (id, job) hid
    have h1 := headInv_set T d ci c { c with Jobs := jobs1 } ⟨0, 0⟩ h0 hc
      ⟨⟨⟨0, by simp⟩, ⟨0, by simp⟩⟩, ⟨le_refl _, le_refl _⟩⟩
      ⟨h0.2.2.2.1.1, h0.2.2.2.1.2⟩ (add_zero_resource _) rfl hitems
    rw [sub_zero_resource] at h1
    have h2 := headInv_set T d ci c
      { c with Jobs := jobs1, Deserved := c.Deserved.Add (reqOf job) } (reqOf job) h0 hc hjob
      (le_of_lessEqual_int _ _ hjob.1 h0.2.2.1 hle) rfl rfl hitems
    have l0 := head_ledger T d hT h0
    have l2 := head_ledger T _ hT h2
    rw [e] at hx
    simp only [List.mem_cons, List.mem_singleton, List.not_mem_nil, or_false] at hx
    rcases hx with hx | hx | hx
    · rw [hx]
      exact head_ledger T _ hT h1
    · rw [hx]
      obtain ⟨t2, c2, m2, _, k2⟩ := l2
      refine ⟨t2, ?_, ?_, l0.2.2.2.1, k2⟩
      · simp only [sumDeservedCPU, Resource.Sub, EmptyResource] at c2 ⊢
        linarith
      · simp only [sumDeservedMemory, Resource.Sub, EmptyResource] at m2 ⊢
        linarith
    · rw [hx]
      exact l2

/-- A property of the start of every round that the rounds preserve gives a
property of every point. -/
theorem innerPoints_inv (J : drf → Prop) (K : drf × Resource → Prop)
    (hJ : ∀ d pq a d1 pq1 a1, J d → drf.innerStep d pq a = drf.Step.cont d1 pq1 a1 → J d1)
    (hK : ∀ d, J d → K (d, EmptyResource))
    (hR : ∀ d pq, J d → ∀ x ∈ drf.roundPoints d pq, K x)
    (fuel : Nat) (d : drf) (pq : PriorityQueue Nat) (a : Bool) (h0 : J d) :
    ∀ x ∈ drf.innerPoints fuel d pq a, K x := by
  induction fuel generalizing d pq a with
  | zero =>
    intro x hx
    simp only [drf.innerPoints, List.mem_singleton] at hx
    rw [hx]; exact hK d h0
  | succ fuel ih =>
    intro x hx
    unfold drf.innerPoints at hx
    rcases List.mem_cons.1 hx with hx | hx
    · rw [hx]; exact hK d h0
    · rcases List.mem_append.1 hx with hx | hx
      · exact hR d pq h0 x hx
      · cases hs : drf.innerStep d pq a with
        | brk => rw [hs] at hx; simp at hx
        | fault => rw [hs] at hx; simp at hx
        | cont d1 pq1 a1 =>
          rw [hs] at hx
          exact ih d1 pq1 a1 (hJ d pq a d1 pq1 a1 h0 hs) x hx

/-- The state at the `break` of the inner `for` is one of its points. -/
theorem innerLoop_mem_points (fuel : Nat) (d : drf) (pq : PriorityQueue Nat) (a : Bool)
    (d1 : drf) (a1 : Bool) (h : drf.innerLoop fuel d pq a = Run.ret (d1, a1)) :
    (d1, EmptyResource) ∈ drf.innerPoints fuel d pq a := by
  induction fuel generalizing d pq a with
  | zero => simp [drf.innerLoop] at h
  | succ fuel ih =>
    unfold drf.innerLoop at h
    unfold drf.innerPoints
    cases hs : drf.innerStep d pq a with
    | brk =>
      rw [hs] at h
      simp only [Run.ret.injEq, Prod.mk.injEq] at h
      simp [h.1]
    | fault =>
      rw [hs] at h
      simp at h
    | cont d2 pq2 a2 =>
      rw [hs] at h
      simp only
      exact List.mem_cons_of_mem _ (List.mem_append_right _ (ih d2 pq2 a2 h))

theorem outerPoints_inv (J : drf → Prop) (K : drf × Resource → Prop)
    (hJ : ∀ d pq a d1 pq1 a1, J d → drf.innerStep d pq a = drf.Step.cont d1 pq1 a1 → J d1)
    (hK : ∀ d, J d → K (d, EmptyResource))
    (hR : ∀ d pq, J d → ∀ x ∈ drf.roundPoints d pq, K x)
    (fuel : Nat) (d : drf) (h0 : J d) : ∀ x ∈ drf.outerPoints fuel d, K x := by
  induction fuel generalizing d with
  | zero =>
    intro x hx
    simp only [drf.outerPoints, List.mem_singleton] at hx
    rw [hx]; exact hK d h0
  | succ fuel ih =>
    intro x hx
    unfold drf.outerPoints at hx
    rcases List.mem_append.1 hx with hx | hx
    · exact innerPoints_inv J K hJ hK hR _ d _ _ h0 x hx
    · cases hr : drf.innerLoop (drf.innerFuel d) d (drf.sortConsumer d) false with
      | ret p =>
        obtain ⟨d1, b⟩ := p
        rw [hr] at hx
        cases b with
        | true =>
          simp only at hx
          exact ih d1 (innerLoop_preserves J hJ _ d _ _ d1 true h0 hr) x hx
        | false => simp at hx
      | fault => rw [hr] at hx; simp at hx
      | outOfFuel => rw [hr] at hx; simp at hx

theorem outerLoop_mem_points (fuel : Nat) (d : drf) (n : Nat) (d1 : drf) (p : Nat)
    (h : drf.outerLoop fuel d n = Run.ret (d1, p)) :
    (d1, EmptyResource) ∈ drf.outerPoints fuel d := by
  induction fuel generalizing d n with
  | zero => simp [drf.outerLoop] at h
  | succ fuel ih =>
    unfold drf.outerLoop at h
    unfold drf.outerPoints
    cases hr : drf.innerLoop (drf.innerFuel d) d (drf.sortConsumer d) false with
    | ret q =>
      obtain ⟨d2, b⟩ := q
      rw [hr] at h
      cases b with
      | true =>
        simp only at h
        exact List.mem_append_right _ (ih d2 _ h)
      | false =>
        simp only [Run.ret.injEq, Prod.mk.injEq] at h
        rw [← h.1]
        exact List.mem_append_left _ (innerLoop_mem_points _ _ _ _ _ _ hr)
    | fault => rw [hr] at h; simp at h
    | outOfFuel => rw [hr] at h; simp at h

theorem initial_mem_points (jobs : List (String × List JoQuotabInfo)) (nodes : List NodeInfo) :
    (drf.initial jobs nodes, EmptyResource) ∈ drf.allocatePoints jobs nodes := by
  unfold drf.allocatePoints drf.outerPoints
  apply List.mem_append_left
  unfold drf.innerFuel drf.innerPoints
  exact List.mem_cons_self _ _

/-- On exact inputs the state `Allocate` starts its loop from satisfies the
invariant of the rounds. -/
theorem initial_headInv (jobs : List (String × List JoQuotabInfo)) (nodes : List NodeInfo)
    (hj : ∀ p ∈ jobs, (requestSum p.2).exact ∧
      ∀ j ∈ p.2, j.RequestUnit.exact ∧ 0 ≤ j.Replicas)
    (hn : (clusterTotal nodes).exact ∧ ∀ n ∈ nodes, n.Allocatable.exact) :
    headInv (clusterTotal nodes) (drf.initial jobs nodes) := by
  obtain ⟨_, hq0, hz0, _, ht0, ha0⟩ :=
    initial_spec (fun j => (reqOf j).integral ∧ (reqOf j).nonneg) jobs nodes
      (fun p hp j hj2 =>
        ⟨reqOf_integral j ⟨((hj p hp).2 j hj2).1.1.1, ((hj p hp).2 j hj2).1.2.1⟩,
         reqOf_nonneg j ⟨((hj p hp).2 j hj2).1.1.2.1, ((hj p hp).2 j hj2).1.2.2.1⟩
           ((hj p hp).2 j hj2).2⟩)
  have hg := buildConsumers_granted jobs nodes
  refine ⟨ht0, initial_conserved jobs nodes, ?_, ?_, ?_, hq0⟩
  · rw [ha0]
    exact ⟨hn.1.1.1, hn.1.2.1⟩
  · rw [ha0]
    exact ⟨hn.1.1.2.1, hn.1.2.2.1⟩
  · intro c hc
    rw [hz0 c hc]
    obtain ⟨i, hi⟩ := List.getElem?_of_mem hc
    obtain ⟨p, hp, hreq, _⟩ := hg i c hi
    rw [hreq]
    exact ⟨⟨⟨0, by simp [EmptyResource]⟩, ⟨0, by simp [EmptyResource]⟩⟩,
      ⟨le_refl _, le_refl _⟩, (hj p (List.getElem?_mem hp)).1⟩

/-- On exact inputs the ledger balances and holds exact amounts at every
point of `Allocate`. -/
theorem points_ledger (jobs : List (String × List JoQuotabInfo)) (nodes : List NodeInfo)
    (hj : ∀ p ∈ jobs, (requestSum p.2).exact ∧
      ∀ j ∈ p.2, j.RequestUnit.exact ∧ 0 ≤ j.Replicas)
    (hn : (clusterTotal nodes).exact ∧ ∀ n ∈ nodes, n.Allocatable.exact) :
    ∀ x ∈ drf.allocatePoints jobs nodes, exactLedger (clusterTotal nodes) x :=
  outerPoints_inv (headInv (clusterTotal nodes)) (exactLedger (clusterTotal nodes))
    (fun d pq a d1 pq1 a1 h0 hs => step_headInv _ d pq a d1 pq1 a1 h0 hs)
    (fun d h0 => head_ledger _ d hn.1 h0)
    (fun d pq h0 => roundPoints_ledger _ d pq hn.1 h0)
    _ _ (initial_headInv jobs nodes hj hn)

/-- C33 fails as stated: in scenario S1 the point between the two updates of
`d.allocate` (the request 1000m/2Gi is added to `Deserved` and not yet taken
from `available`) has available plus deserved equal to 5000m/10Gi, not to the
total 4000m/8Gi.  Above `2^53` the balance is lost for good: with `2^53 + 8`
bytes available, `d.allocate` of a request of 1 byte adds 1 byte to `Deserved`
and leaves `available` at `2^53 + 8` bytes, because the difference is rounded. -/
theorem C33_counterexample :
    clusterTotal s1Nodes = ⟨4000, 8 * Gi⟩ ∧
    (drf.allocatePoints s1Jobs s1Nodes).map ledger
      = [(⟨4000, 8 * Gi⟩, ⟨0, 0⟩, ⟨0, 0⟩), (⟨4000, 8 * Gi⟩, ⟨0, 0⟩, ⟨0, 0⟩),
         (⟨4000, 8 * Gi⟩, ⟨1000, 2 * Gi⟩, ⟨1000, 2 * Gi⟩),
         (⟨3000, 6 * Gi⟩, ⟨1000, 2 * Gi⟩, ⟨0, 0⟩), (⟨3000, 6 * Gi⟩, ⟨1000, 2 * Gi⟩, ⟨0, 0⟩),
         (⟨3000, 6 * Gi⟩, ⟨1000, 2 * Gi⟩, ⟨0, 0⟩), (⟨3000, 6 * Gi⟩, ⟨1000, 2 * Gi⟩, ⟨0, 0⟩),
         (⟨3000, 6 * Gi⟩, ⟨1000, 2 * Gi⟩, ⟨0, 0⟩)] ∧
    ¬ ((4000 : ℚ) + 1000 = 4000) ∧
    Float64.add (Float64.fin 0) (Float64.fin 1) = Float64.fin 1 ∧
    Float64.sub (Float64.fin (2 ^ 53 + 8)) (Float64.fin 1) = Float64.fin (2 ^ 53 + 8) := by
  refine ⟨by decide!, by decide!, by norm_num, by decide!, by decide!⟩

/-- C33 as amended: conservation on exact inputs.  When the request units and
the node allocatables are integers between 0 and `2^53`, the replica counts
are not negative, and the total and the request of every namespace are at
most `2^53`, then at every point of `Allocate` after its initialisation (the
start of every round of the inner loop, every `break`, the points inside a
round, the return) the total is the sum of the node allocatables and
available plus the sum of what the consumers deserve is the total plus what
is in flight, on both axes; what is in flight is zero except between the two
updates of `d.allocate`, where it is the request being granted; and
`available`, every `Deserved` and every `Request` are integers between 0 and
`2^53`, so that no sum or difference the program forms is rounded. -/
theorem C33_conservation (jobs : List (String × List JoQuotabInfo)) (nodes : List NodeInfo)
    (hj : ∀ p ∈ jobs, (requestSum p.2).exact ∧
      ∀ j ∈ p.2, j.RequestUnit.exact ∧ 0 ≤ j.Replicas)
    (hn : (clusterTotal nodes).exact ∧ ∀ n ∈ nodes, n.Allocatable.exact) :
    (∀ x ∈ drf.allocatePoints jobs nodes,
      x.1.total = clusterTotal nodes ∧
      x.1.available.MilliCPU + sumDeservedCPU x.1
        = (clusterTotal nodes).MilliCPU + x.2.MilliCPU ∧
      x.1.available.Memory + sumDeservedMemory x.1
        = (clusterTotal nodes).Memory + x.2.Memory ∧
      x.1.available.exact ∧
      ∀ c ∈ x.1.consumers, c.Deserved.exact ∧ c.Request.exact) ∧
    (∀ d pq, ∀ x ∈ drf.roundPoints d pq, x.2 = EmptyResource ∨
      ∃ ci c job jobs1, d.consumers[ci]? = some c ∧ c.Jobs.Pop = some (job, jobs1) ∧
        (reqOf job).LessEqual d.available = true ∧ x.2 = reqOf job ∧
        x.1 = ⟨d.total, d.available, d.consumers.set ci
          { c with Jobs := jobs1, Deserved := c.Deserved.Add (reqOf job) }⟩) ∧
    (drf.initial jobs nodes, EmptyResource) ∈ drf.allocatePoints jobs nodes ∧
    ∃ d passes, drf.allocateRun jobs nodes = Run.ret (d, passes) ∧
      (d, EmptyResource) ∈ drf.allocatePoints jobs nodes := by
  refine ⟨points_ledger jobs nodes hj hn, ?_, initial_mem_points jobs nodes, ?_⟩
  · intro d pq x hx
    rcases roundPoints_cases d pq with e | ⟨ci, c, job, jobs1, hc, hjp, e | ⟨hle, e⟩⟩
    · rw [e] at hx
      simp at hx
    · rw [e] at hx
      simp only [List.mem_singleton] at hx
      left
      rw [hx]
    · rw [e] at hx
      simp only [List.mem_cons, List.mem_singleton, List.not_mem_nil, or_false] at hx
      rcases hx with hx | hx | hx
      · left; rw [hx]
      · right
        exact ⟨ci, c, job, jobs1, hc, hjp, hle, by rw [hx], by rw [hx]⟩
      · left; rw [hx]
  · obtain ⟨d, passes, hrun, _, _⟩ := allocateRun_returns jobs nodes
    exact ⟨d, passes, hrun, outerLoop_mem_points _ _ _ _ _ hrun⟩

/-- C33 (amended) on scenario S2, whose amounts are exact: the ledger of the
fourteen points of the run. -/
theorem C33_conservation_witness :
    (drf.allocatePoints s2Jobs s2Nodes).map ledger
      = [(⟨9000, 18 * Gi⟩, ⟨0, 0⟩, ⟨0, 0⟩), (⟨9000, 18 * Gi⟩, ⟨0, 0⟩, ⟨0, 0⟩),
         (⟨9000, 18 * Gi⟩, ⟨3000, 3 * Gi⟩, ⟨3000, 3 * Gi⟩),
         (⟨6000, 15 * Gi⟩, ⟨3000, 3 * Gi⟩, ⟨0, 0⟩), (⟨6000, 15 * Gi⟩, ⟨3000, 3 * Gi⟩, ⟨0, 0⟩),
         (⟨6000, 15 * Gi⟩, ⟨3000, 3 * Gi⟩, ⟨0, 0⟩),
         (⟨6000, 15 * Gi⟩, ⟨6000, 15 * Gi⟩, ⟨3000, 12 * Gi⟩),
         (⟨3000, 3 * Gi⟩, ⟨6000, 15 * Gi⟩, ⟨0, 0⟩), (⟨3000, 3 * Gi⟩, ⟨6000, 15 * Gi⟩, ⟨0, 0⟩),
         (⟨3000, 3 * Gi⟩, ⟨6000, 15 * Gi⟩, ⟨0, 0⟩), (⟨3000, 3 * Gi⟩, ⟨6000, 15 * Gi⟩, ⟨0, 0⟩),
         (⟨3000, 3 * Gi⟩, ⟨6000, 15 * Gi⟩, ⟨0, 0⟩), (⟨3000, 3 * Gi⟩, ⟨6000, 15 * Gi⟩, ⟨0, 0⟩),
         (⟨3000, 3 * Gi⟩, ⟨6000, 15 * Gi⟩, ⟨0, 0⟩)] ∧
    (∀ x ∈ drf.allocatePoints s2Jobs s2Nodes,
      x.1.total = clusterTotal s2Nodes ∧
      x.1.available.MilliCPU + sumDeservedCPU x.1
        = (clusterTotal s2Nodes).MilliCPU + x.2.MilliCPU ∧
      x.1.available.Memory + sumDeservedMemory x.1
        = (clusterTotal s2Nodes).Memory + x.2.Memory ∧
      x.1.available.exact ∧
      ∀ c ∈ x.1.consumers, c.Deserved.exact ∧ c.Request.exact) :=
  ⟨by decide!, (C33_conservation s2Jobs s2Nodes (by decide!) (by decide!)).1⟩

/-- C1 as amended: when the request units and the node allocatables are
integers between 0 and `2^53`, the replica counts are not negative, and the
total and the request of every namespace are at most `2^53`, then `Allocate`
returns, the sum of `Deserved` over the consumers is at most the cluster
total on both axes, and every single `Deserved` is an integer between 0 and
that sum, hence at most the total. -/
theorem C1_deserved_within_total (jobs : List (String × List JoQuotabInfo))
    (nodes : List NodeInfo)
    (hj : ∀ p ∈ jobs, (requestSum p.2).exact ∧
      ∀ j ∈ p.2, j.RequestUnit.exact ∧ 0 ≤ j.Replicas)
    (hn : (clusterTotal nodes).exact ∧ ∀ n ∈ nodes, n.Allocatable.exact) :
    ∃ d passes, drf.allocateRun jobs nodes = Run.ret (d, passes) ∧
      d.total = clusterTotal nodes ∧
      sumDeservedCPU d ≤ d.total.MilliCPU ∧
      sumDeservedMemory d ≤ d.total.Memory ∧
      d.available.exact ∧
      ∀ c ∈ d.consumers, c.Deserved.exact ∧
        c.Deserved.MilliCPU ≤ sumDeservedCPU d ∧ c.Deserved.Memory ≤ sumDeservedMemory d ∧
        c.Deserved.MilliCPU ≤ d.total.MilliCPU ∧ c.Deserved.Memory ≤ d.total.Memory := by
  obtain ⟨d, passes, hrun, _, _⟩ := allocateRun_returns jobs nodes
  obtain ⟨ht, hc1, hc2, hav, hcons⟩ :=
    points_ledger jobs nodes hj hn (d, EmptyResource) (outerLoop_mem_points _ _ _ _ _ hrun)
  simp only [EmptyResource, add_zero] at hc1 hc2
  have ht1 : d.total = clusterTotal nodes := ht
  have s1 : sumDeservedCPU d ≤ (clusterTotal nodes).MilliCPU := by linarith [hav.1.2.1]
  have s2 : sumDeservedMemory d ≤ (clusterTotal nodes).Memory := by linarith [hav.2.2.1]
  refine ⟨d, passes, hrun, ht1, by rw [ht1]; exact s1, by rw [ht1]; exact s2, hav, ?_⟩
  intro c hc
  have h1 : c.Deserved.MilliCPU ≤ sumDeservedCPU d :=
    single_le_sum_of _ (fun c => c.Deserved.MilliCPU) (fun c hc => (hcons c hc).1.1.2.1) c hc
  have h2 : c.Deserved.Memory ≤ sumDeservedMemory d :=
    single_le_sum_of _ (fun c => c.Deserved.Memory) (fun c hc => (hcons c hc).1.2.2.1) c hc
  rw [ht1]
  exact ⟨(hcons c hc).1, h1, h2, by linarith, by linarith⟩

/-- C1 (amended) on scenario S2, whose amounts are exact: of the total
9000m/18Gi the two namespaces deserve 6000m/15Gi together. -/
theorem C1_deserved_within_total_witness :
    (finalState (drf.allocateRun s2Jobs s2Nodes)).map
        (fun d => (d.total, sumDeservedCPU d, sumDeservedMemory d))
      = some (⟨9000, 18 * Gi⟩, 6000, 15 * Gi) ∧
    ∃ d passes, drf.allocateRun s2Jobs s2Nodes = Run.ret (d, passes) ∧
      d.total = clusterTotal s2Nodes ∧
      sumDeservedCPU d ≤ d.total.MilliCPU ∧
      sumDeservedMemory d ≤ d.total.Memory ∧
      d.available.exact ∧
      ∀ c ∈ d.consumers, c.Deserved.exact ∧
        c.Deserved.MilliCPU ≤ sumDeservedCPU d ∧ c.Deserved.Memory ≤ sumDeservedMemory d ∧
        c.Deserved.MilliCPU ≤ d.total.MilliCPU ∧ c.Deserved.Memory ≤ d.total.Memory :=
  ⟨by decide!, C1_deserved_within_total s2Jobs s2Nodes (by decide!) (by decide!)⟩


/-! ## `allocate`: what its writes depend on -/

/-- The allocation `AllocateOn` returns does not depend on the allocator
object it starts from: it is the allocation of `Allocate`. -/
theorem allocateOn_result (d : drf) (jobs : List (String × List JoQuotabInfo))
    (nodes : List NodeInfo) :
    (match drf.AllocateOn d jobs nodes with
      | Run.ret (_, m) => Run.ret m
      | Run.fault => Run.fault
      | Run.outOfFuel => Run.outOfFuel) = drf.Allocate jobs nodes := by
  unfold drf.AllocateOn drf.Allocate drf.allocateRun drf.initial
  by_cases hc : (nodes.length = 0 || jobs.length = 0) = true
  · simp only [hc, if_true]
  · simp only [hc, if_false]
    cases drf.outerLoop _ _ 0 with
    | ret r => rfl
    | fault => rfl
    | outOfFuel => rfl

theorem mem_rangeOver {β : Type} (m : List (String × β)) (order : List String)
    (p : String × β) : p ∈ rangeOver m order ↔ p.1 ∈ order ∧ mapGet m p.1 = some p.2 := by
  unfold rangeOver
  rw [List.mem_filterMap]
  constructor
  · rintro ⟨k, hk, h⟩
    cases hm : mapGet m k with
    | none => rw [hm] at h; simp at h
    | some v =>
      rw [hm] at h
      simp only [Option.map_some', Option.some.injEq] at h
      rw [← h]
      exact ⟨hk, hm⟩
  · rintro ⟨hk, h⟩
    exact ⟨p.1, hk, by rw [h]; rfl⟩

theorem rangeOver_nodup {β : Type} (m : List (String × β)) (order : List String)
    (ho : order.Nodup) : ((rangeOver m order).map Prod.fst).Nodup := by
  unfold rangeOver
  induction order with
  | nil => simp
  | cons k t ih =>
    have hk : k ∉ t := (List.nodup_cons.1 ho).1
    have ht := ih (List.nodup_cons.1 ho).2
    cases hm : mapGet m k with
    | none => simpa [List.filterMap_cons, hm] using ht
    | some v =>
      simp only [List.filterMap_cons, hm, Option.map_some', List.map_cons, List.nodup_cons]
      refine ⟨?_, ht⟩
      intro hmem
      obtain ⟨p, hp, hpk⟩ := List.mem_map.1 hmem
      have := (mem_rangeOver m t p).1 hp
      rw [hpk] at this
      exact hk this.1

/-- A `range` over a map enumerates each of its entries once. -/
theorem rangeOver_perm {β : Type} (m : List (String × β)) (order : List String)
    (hm : (m.map Prod.fst).Nodup) (ho : order.Nodup)
    (hsub : ∀ k ∈ m.map Prod.fst, k ∈ order) : (rangeOver m order).Perm m := by
  rw [List.perm_ext_iff_of_nodup (List.Nodup.of_map _ (rangeOver_nodup m order ho))
    (List.Nodup.of_map _ hm)]
  intro p
  rw [mem_rangeOver, mem_iff_mapGet m p.1 p.2 hm]
  constructor
  · exact fun h => h.2
  · intro h
    exact ⟨hsub p.1 (List.mem_map.2 ⟨p, mapGet_mem m p.1 p.2 h, rfl⟩), h⟩

/-- Two enumerations of a map look up the same. -/
theorem mapGet_perm {β : Type} (l1 l2 : List (String × β)) (h : l1.Perm l2)
    (h1 : (l1.map Prod.fst).Nodup) (k : String) : mapGet l1 k = mapGet l2 k := by
  have h2 : (l2.map Prod.fst).Nodup := (h.map Prod.fst).nodup_iff.1 h1
  cases hv : mapGet l2 k with
  | none =>
    rw [mapGet_eq_none_iff] at hv ⊢
    intro hk
    exact hv ((h.map Prod.fst).mem_iff.1 hk)
  | some v =>
    exact (mem_iff_mapGet l1 k v h1).1 (h.mem_iff.2 ((mem_iff_mapGet l2 k v h2).2 hv))

theorem mapSet_present {β : Type} (m : List (String × β)) (k : String) (v : β)
    (h : k ∈ m.map Prod.fst) :
    mapSet m k v = m.map (fun p => if p.1 = k then (k, v) else p) := by
  unfold mapSet
  rw [if_pos ((mapSet_any_iff m k).2 h)]

/-- The loop over `allocs` puts each group with an allocation through `Assign`
once, whatever the order of the loop. -/
theorem assignAll_eq (allocs : List (String × AllocationInfo))
    (jobs : List (String × List JoQuotabInfo)) (hj : (jobs.map Prod.fst).Nodup)
    (ha : (allocs.map Prod.fst).Nodup) :
    JobQuotaController.assignAll jobs allocs = assignedGroups jobs allocs := by
  induction allocs generalizing jobs with
  | nil =>
    simp [JobQuotaController.assignAll, assignedGroups, mapGet]
  | cons q rest ih =>
    obtain ⟨ns, a⟩ := q
    have hns : ns ∉ rest.map Prod.fst := (List.nodup_cons.1 ha).1
    have hrest : (rest.map Prod.fst).Nodup := (List.nodup_cons.1 ha).2
    have hnone : mapGet rest ns = none := (mapGet_eq_none_iff rest ns).2 hns
    unfold JobQuotaController.assignAll
    rw [List.foldl_cons]
    cases hg : mapGet jobs ns with
    | none =>
      have hnk : ns ∉ jobs.map Prod.fst := (mapGet_eq_none_iff jobs ns).1 hg
      have e := ih jobs hj hrest
      unfold JobQuotaController.assignAll at e
      simp only [hg]
      rw [e]
      unfold assignedGroups
      apply List.map_congr_left
      intro p hp
      have hne : p.1 ≠ ns := by
        intro h
        exact hnk (List.mem_map.2 ⟨p, hp, h⟩)
      rw [mapGet_cons, if_neg hne]
    | some group =>
      have hk : ns ∈ jobs.map Prod.fst := by
        by_contra hc
        rw [(mapGet_eq_none_iff jobs ns).2 hc] at hg
        cases hg
      have e := ih (mapSet jobs ns (drf.Assign group a).1)
        (mapSet_keys_nodup jobs ns _ hj).1 hrest
      unfold JobQuotaController.assignAll at e
      simp only [hg]
      rw [e]
      unfold assignedGroups
      rw [mapSet_present jobs ns _ hk, List.map_map]
      apply List.map_congr_left
      intro p hp
      by_cases hpn : p.1 = ns
      · have hp2 : mapGet jobs p.1 = some p.2 := (mem_iff_mapGet jobs p.1 p.2 hj).1 hp
        rw [hpn, hg] at hp2
        simp only [Option.some.injEq] at hp2
        simp only [Function.comp, hpn, if_true, hnone, mapGet_cons]
        rw [hp2]
      · simp only [Function.comp, hpn, if_false, mapGet_cons]

theorem assignedGroups_keys (jobs : List (String × List JoQuotabInfo))
    (allocs : List (String × AllocationInfo)) :
    (assignedGroups jobs allocs).map Prod.fst = jobs.map Prod.fst := by
  unfold assignedGroups
  rw [List.map_map]
  apply List.map_congr_left
  intro p _
  simp only [Function.comp]
  cases mapGet allocs p.1 <;> rfl

theorem assignedGroups_congr (jobs : List (String × List JoQuotabInfo))
    (a1 a2 : List (String × AllocationInfo)) (h : ∀ k, mapGet a1 k = mapGet a2 k) :
    assignedGroups jobs a1 = assignedGroups jobs a2 := by
  unfold assignedGroups
  apply List.map_congr_left
  intro p _
  rw [h p.1]

theorem update_fold (groups : List (String × List JoQuotabInfo)) (acc : List JobQuota) :
    groups.foldl (fun ws g => g.2.foldl (fun ws job => ws ++ [statusWrite job]) ws) acc
      = acc ++ (groups.map (fun g => g.2.map statusWrite)).flatten := by
  induction groups generalizing acc with
  | nil => simp
  | cons g t ih =>
    rw [List.foldl_cons, ih, foldl_append_map statusWrite]
    simp [List.append_assoc]

/-- `update` writes the jobs group by group. -/
theorem update_eq (groups : List (String × List JoQuotabInfo)) :
    JobQuotaController.update groups
      = (groups.map (fun g => g.2.map statusWrite)).flatten := by
  have h := update_fold groups []
  simpa [JobQuotaController.update, statusWrite] using h

theorem update_perm (g1 g2 : List (String × List JoQuotabInfo)) (h : g1.Perm g2) :
    (JobQuotaController.update g1).Perm (JobQuotaController.update g2) := by
  rw [update_eq, update_eq]
  exact (h.map _).flatten

/-- `AllocateOn` returns with the allocation of `Allocate`; its keys are
distinct and are keys of the jobs map. -/
theorem allocateOn_returns (d : drf) (jobs : List (String × List JoQuotabInfo))
    (nodes : List NodeInfo) :
    ∃ d1 allocs, drf.AllocateOn d jobs nodes = Run.ret (d1, allocs) ∧
      drf.Allocate jobs nodes = Run.ret allocs ∧
      (allocs.map Prod.fst).Nodup ∧ ∀ k ∈ allocs.map Prod.fst, k ∈ jobs.map Prod.fst := by
  have h := allocateOn_result d jobs nodes
  have hret : ∃ allocs, drf.Allocate jobs nodes = Run.ret allocs ∧
      (allocs.map Prod.fst).Nodup ∧ ∀ k ∈ allocs.map Prod.fst, k ∈ jobs.map Prod.fst := by
    by_cases hlen : (nodes.length = 0 || jobs.length = 0) = true
    · refine ⟨[], ?_, by simp, by simp⟩
      unfold drf.Allocate
      rw [if_pos hlen]
    · obtain ⟨d0, passes, hrun, _, _⟩ := allocateRun_returns jobs nodes
      have hnames : d0.consumers.map (fun c => c.Name) = jobs.map Prod.fst :=
        outerLoop_preserves
          (fun x => x.consumers.map (fun c => c.Name) = jobs.map Prod.fst)
          (fun x pq a x1 pq1 a1 hx hs => (innerStep_names x pq a x1 pq1 a1 hs).trans hx)
          _ _ _ _ _ (buildConsumers_names jobs) hrun
      obtain ⟨h1, h2, _⟩ := allocation_keys d0.consumers [] (by simp)
      refine ⟨_, ?_, h1, ?_⟩
      · unfold drf.Allocate
        rw [if_neg hlen, hrun]
      · intro k hk
        have := (h2 k).1 hk
        rw [hnames] at this
        simpa using this
  obtain ⟨allocs, hm, hnd, hsub⟩ := hret
  rw [hm] at h
  cases hr : drf.AllocateOn d jobs nodes with
  | ret r =>
    obtain ⟨d1, m⟩ := r
    rw [hr] at h
    simp only [Run.ret.injEq] at h
    subst h
    exact ⟨d1, m, rfl, hm, hnd, hsub⟩
  | fault => rw [hr] at h; cases h
  | outOfFuel => rw [hr] at h; cases h

/-- With orders that are enumerations, the part of a tick after the snapshot
returns, and its writes are those of `update` on the groups as `Assign` left
them, enumerated in the order `o.groups`; the groups depend on the orders only
through `o.consumers`. -/
theorem allocateSnapshot_writes (d : drf) (jobs_ : List JoQuotabInfo) (nodes : List NodeInfo)
    (o : RangeOrders) (hv : snapshotOrders jobs_ o) :
    ∃ d1 allocs,
      drf.Allocate (rangeOver (drf.Group jobs_) o.consumers) nodes = Run.ret allocs ∧
      JobQuotaController.allocateSnapshot d jobs_ nodes o
        = Run.ret (d1, JobQuotaController.update
            (rangeOver (assignedGroups (drf.Group jobs_) allocs) o.groups)) ∧
      (rangeOver (assignedGroups (drf.Group jobs_) allocs) o.groups).Perm
        (assignedGroups (drf.Group jobs_) allocs) := by
  obtain ⟨hnd, _, _⟩ := group_inv jobs_
  obtain ⟨hc, ha, hg⟩ := hv
  obtain ⟨d1, allocs, hon, hal, hknd, hksub⟩ :=
    allocateOn_returns d (rangeOver (drf.Group jobs_) o.consumers) nodes
  have hand : o.allocs.Nodup := ha.nodup_iff.2 hnd
  have hgnd : o.groups.Nodup := hg.nodup_iff.2 hnd
  have hasub : ∀ k ∈ allocs.map Prod.fst, k ∈ o.allocs := by
    intro k hk
    obtain ⟨p, hp, hpk⟩ := List.mem_map.1 (hksub k hk)
    have h1 := ((mem_rangeOver _ _ p).1 hp).1
    rw [hpk] at h1
    exact ha.mem_iff.2 (hc.mem_iff.1 h1)
  have hperm : (rangeOver allocs o.allocs).Perm allocs :=
    rangeOver_perm allocs o.allocs hknd hand hasub
  have hG : JobQuotaController.assignAll (drf.Group jobs_) (rangeOver allocs o.allocs)
      = assignedGroups (drf.Group jobs_) allocs := by
    rw [assignAll_eq _ _ hnd (rangeOver_nodup allocs o.allocs hand)]
    exact assignedGroups_congr _ _ _
      (mapGet_perm _ _ hperm (rangeOver_nodup allocs o.allocs hand))
  refine ⟨d1, allocs, hal, ?_, ?_⟩
  · unfold JobQuotaController.allocateSnapshot
    simp only [hon, hG]
  · apply rangeOver_perm _ _ _ hgnd
    · intro k hk
      rw [assignedGroups_keys] at hk
      exact hg.mem_iff.2 hk
    · rw [assignedGroups_keys]
      exact hnd

/-- Two ticks on one snapshot whose `buildConsumers` enumerate the namespaces
in the same order write the same quota objects, up to the order of the
writes, and in the same order when `update` enumerates alike. -/
theorem allocateSnapshot_same (d d2 : drf) (jobs_ : List JoQuotabInfo)
    (nodes : List NodeInfo) (o o2 : RangeOrders) (hv : snapshotOrders jobs_ o)
    (hv2 : snapshotOrders jobs_ o2) (hc : o2.consumers = o.consumers) :
    ∃ d1 ws d3 ws2,
      JobQuotaController.allocateSnapshot d jobs_ nodes o = Run.ret (d1, ws) ∧
      JobQuotaController.allocateSnapshot d2 jobs_ nodes o2 = Run.ret (d3, ws2) ∧
      ws2.Perm ws ∧ (o2.groups = o.groups → ws2 = ws) := by
  obtain ⟨d1, allocs, hal, hrun, hp⟩ := allocateSnapshot_writes d jobs_ nodes o hv
  obtain ⟨d3, allocs2, hal2, hrun2, hp2⟩ := allocateSnapshot_writes d2 jobs_ nodes o2 hv2
  rw [hc, hal] at hal2
  simp only [Run.ret.injEq] at hal2
  subst hal2
  refine ⟨d1, _, d3, _, hrun, hrun2, ?_, ?_⟩
  · exact (update_perm _ _ hp2).trans (update_perm _ _ hp).symm
  · intro hg
    rw [hg]

/-- C12 fails as stated.  On `twoQuotaCache`, two ticks whose `GetSnapshot`
enumerate the two quotas in different orders write `Allocated` 1000m/0 and
0/0 for the quota `q-cpu`.  On one snapshot with a node of 1000m/1Gi and two
namespaces that each ask for all of it, two ticks whose `buildConsumers`
enumerate the namespaces in different orders write 1000m/1Gi and 0/0 for the
job of namespace A. -/
theorem C12_counterexample :
    cpuFirstOrders.valid twoQuotaCache ∧ fullFirstOrders.valid twoQuotaCache ∧
    writtenAllocated (JobQuotaController.allocate ⟨twoQuotaCache, freshAllocator⟩
      cpuFirstOrders) "q-cpu" = some ⟨1000, 0⟩ ∧
    writtenAllocated (JobQuotaController.allocate ⟨twoQuotaCache, freshAllocator⟩
      fullFirstOrders) "q-cpu" = some ⟨0, 0⟩ ∧
    snapshotOrders [rivalA, rivalB] rivalOrdersAB ∧
    snapshotOrders [rivalA, rivalB] rivalOrdersBA ∧
    writtenAllocated (JobQuotaController.allocateSnapshot freshAllocator [rivalA, rivalB]
      rivalNodes rivalOrdersAB) "rc-a" = some ⟨1000, Gi⟩ ∧
    writtenAllocated (JobQuotaController.allocateSnapshot freshAllocator [rivalA, rivalB]
      rivalNodes rivalOrdersBA) "rc-a" = some ⟨0, 0⟩ := by
  refine ⟨?_, ?_, by decide!, by decide!, ?_, ?_, by decide!, by decide!⟩
  · unfold RangeOrders.valid snapshotOrders
    decide!
  · unfold RangeOrders.valid snapshotOrders
    decide!
  · unfold snapshotOrders
    decide!
  · unfold snapshotOrders
    decide!

/-- C12 as amended: two ticks of `allocate` on the same cache return, and when
their `range`s enumerate the quotas, the nodes and (in `buildConsumers`) the
grouped namespaces in the same order, they write the same quota objects: the
two lists of writes are permutations of each other, and equal when the loops
of `update` enumerate alike.  The orders of the loop over `allocs` and of the
loop of `update`, and the state an earlier run left in the allocator object,
do not change what is written.  The same holds for the part of a tick after
`GetSnapshot`, on every snapshot. -/
theorem C12_allocate_same_enumeration (ac : JobQuotaController) (d2 : drf)
    (o o2 : RangeOrders) (hv : o.valid ac.Cache) (hv2 : o2.valid ac.Cache)
    (hq : o2.quotas = o.quotas) (hn : o2.nodes = o.nodes)
    (hc : o2.consumers = o.consumers) :
    (∃ ac1 ws ac2 ws2,
      JobQuotaController.allocate ac o = Run.ret (ac1, ws) ∧
      JobQuotaController.allocate ⟨ac.Cache, d2⟩ o2 = Run.ret (ac2, ws2) ∧
      ws2.Perm ws ∧ (o2.groups = o.groups → ws2 = ws)) ∧
    (∀ (d d3 : drf) (jobs_ : List JoQuotabInfo) (nodes : List NodeInfo),
      snapshotOrders jobs_ o → snapshotOrders jobs_ o2 →
      ∃ d1 ws d4 ws2,
        JobQuotaController.allocateSnapshot d jobs_ nodes o = Run.ret (d1, ws) ∧
        JobQuotaController.allocateSnapshot d3 jobs_ nodes o2 = Run.ret (d4, ws2) ∧
        ws2.Perm ws ∧ (o2.groups = o.groups → ws2 = ws)) := by
  constructor
  · obtain ⟨_, _, hs⟩ := hv
    obtain ⟨_, _, hs2⟩ := hv2
    rw [hq, hn] at hs2
    obtain ⟨d1, ws, d3, ws2, h1, h2, hp, he⟩ :=
      allocateSnapshot_same ac.Allocator d2 _
        (Cache.GetSnapshot
          ⟨rangeOver ac.Cache.batchjobs o.quotas, rangeOver ac.Cache.nodes o.nodes⟩).2
        o o2 hs hs2 hc
    refine ⟨{ ac with Allocator := d1 }, ws, ⟨ac.Cache, d3⟩, ws2, ?_, ?_, hp, he⟩
    · unfold JobQuotaController.allocate
      simp only [h1]
    · unfold JobQuotaController.allocate
      simp only [hq, hn, h2]
  · intro d d3 jobs_ nodes hs hs2
    exact allocateSnapshot_same d d3 jobs_ nodes o o2 hs hs2 hc

/-- C12 (amended) on `twoTenantCache`: two ticks that differ in the order of
the loop over `allocs` and of the loop of `update` (and in the allocator
object they start from) write the same two quota objects, in opposite
order. -/
theorem C12_allocate_same_enumeration_witness :
    (writesOf (JobQuotaController.allocate ⟨twoTenantCache, freshAllocator⟩
      tenantOrdersAB)).map (fun ws => ws.map (fun q => q.Name)) = some ["q-cpu", "q-b"] ∧
    (writesOf (JobQuotaController.allocate ⟨twoTenantCache, drf.initial s1Jobs s1Nodes⟩
      tenantOrdersBA)).map (fun ws => ws.map (fun q => q.Name)) = some ["q-b", "q-cpu"] ∧
    ∃ ac1 ws ac2 ws2,
      JobQuotaController.allocate ⟨twoTenantCache, freshAllocator⟩ tenantOrdersAB
        = Run.ret (ac1, ws) ∧
      JobQuotaController.allocate ⟨twoTenantCache, drf.initial s1Jobs s1Nodes⟩ tenantOrdersBA
        = Run.ret (ac2, ws2) ∧
      ws2.Perm ws ∧ (tenantOrdersBA.groups = tenantOrdersAB.groups → ws2 = ws) :=
  ⟨by decide!, by decide!,
   (C12_allocate_same_enumeration ⟨twoTenantCache, freshAllocator⟩
      (drf.initial s1Jobs s1Nodes) tenantOrdersAB tenantOrdersBA
      (by unfold RangeOrders.valid snapshotOrders; decide!)
      (by unfold RangeOrders.valid snapshotOrders; decide!) rfl rfl rfl).1⟩


/-! ## The operations of `Resource` on exact amounts -/

/-- The sum of two exact amounts, when it is at most `2^53`, is not rounded. -/
theorem add_exact (a b : ℚ) (ha : exactAmount a) (hb : exactAmount b)
    (h : a + b ≤ 2 ^ 53) : Float64.add (Float64.fin a) (Float64.fin b) = Float64.fin (a + b) := by
  have hs : exactAmount (a + b) :=
    ⟨isInt_add _ _ ha.1 hb.1, add_nonneg ha.2.1 hb.2.1, h⟩
  simp only [Float64.add]
  exact nearest_exact _ hs

/-- The difference of two exact amounts is not rounded. -/
theorem sub_exact (a b : ℚ) (ha : exactAmount a) (hb : exactAmount b) :
    Float64.sub (Float64.fin a) (Float64.fin b) = Float64.fin (a - b) := by
  obtain ⟨⟨za, rfl⟩, ha0, ha1⟩ := ha
  obtain ⟨⟨zb, rfl⟩, hb0, hb1⟩ := hb
  have hza0 : (0 : Int) ≤ za := by exact_mod_cast ha0
  have hza1 : za ≤ 2 ^ 53 := by exact_mod_cast ha1
  have hzb0 : (0 : Int) ≤ zb := by exact_mod_cast hb0
  have hzb1 : zb ≤ 2 ^ 53 := by exact_mod_cast hb1
  have hd : ((za : ℚ) - (zb : ℚ)) = ((za - zb : Int) : ℚ) := by push_cast; ring
  have h1 : Float64.sub (Float64.fin (za : ℚ)) (Float64.fin (zb : ℚ))
      = Float64.nearest ((za : ℚ) - (zb : ℚ)) := by
    simp [Float64.sub, Float64.add, Float64.neg, sub_eq_add_neg]
  rw [h1, hd]
  apply nearest_int
  rw [abs_le]
  constructor <;> omega

/-- The product of an exact amount and a replica count, when it is at most
`2^53`, is not rounded. -/
theorem mul_exact (a : ℚ) (z : Int) (ha : exactAmount a) (hz : 0 ≤ z)
    (h : a * (z : ℚ) ≤ 2 ^ 53) :
    Float64.mul (Float64.fin a) (Float64.fin (z : ℚ)) = Float64.fin (a * (z : ℚ)) := by
  have hzq : (0 : ℚ) ≤ (z : ℚ) := by exact_mod_cast hz
  have hs : exactAmount (a * (z : ℚ)) :=
    ⟨isInt_mul_int _ _ ha.1, mul_nonneg ha.2.1 hzq, h⟩
  simp only [Float64.mul]
  exact nearest_exact _ hs

end jobquota
